import Mathlib

/-! # FlashMatrix block matrices: a shallow embedding

The definitions below follow `matrix/block_matrix.cpp` and
`matrix/dense_matrix.cpp`.  A matrix store is a shape, a layout, an element
type tag and an element function; element values live in an arbitrary carrier
`α` (exact arithmetic), and the byte size of an element is carried by the type
tag.  A null pointer, a failed assertion and an out-of-range access are all
`none`.
-/

namespace fm

/-! ## Element types, layouts and kernels -/

/-- The data layout of a matrix store (`matrix_layout_t`). -/
inductive matrix_layout_t where
  | L_ROW
  | L_COL
  | L_NONE
  deriving DecidableEq, Repr

/-- The element types of the observable surface (`get_scalar_type<T>()`). -/
inductive scalar_type where
  | T_INT
  | T_FLOAT
  | T_DOUBLE
  | T_LONG
  deriving DecidableEq, Repr

/-- Bytes per element of a type (`scalar_type::get_size`). -/
def scalar_type.get_size : scalar_type → Nat
  | .T_INT => 4
  | .T_FLOAT => 4
  | .T_DOUBLE => 8
  | .T_LONG => 8

/-- The test `get_type() == get_scalar_type<double>() || get_type() ==
get_scalar_type<float>()` of `block_matrix::multiply` and
`block_matrix::inner_prod_tall`. -/
def scalar_type.is_floating_point (t : scalar_type) : Bool :=
  t == .T_DOUBLE || t == .T_FLOAT

/-- A binary kernel (`bulk_operate`): its three self-describing element sizes,
the type of its output and the scalar function it applies. -/
structure bulk_operate (α : Type) where
  left_entry_size : Nat
  right_entry_size : Nat
  output_entry_size : Nat
  output_type : scalar_type
  run : α → α → α

/-- The `ADD` entry of a type's `basic_ops` table
(`get_type().get_basic_ops().get_add()`). -/
def basic_ops_get_add {α : Type} [Add α] (t : scalar_type) : bulk_operate α :=
  { left_entry_size := t.get_size, right_entry_size := t.get_size,
    output_entry_size := t.get_size, output_type := t, run := fun a b => a + b }

/-- The `MUL` entry of a type's `basic_ops` table
(`get_type().get_basic_ops().get_multiply()`). -/
def basic_ops_get_multiply {α : Type} [Mul α] (t : scalar_type) : bulk_operate α :=
  { left_entry_size := t.get_size, right_entry_size := t.get_size,
    output_entry_size := t.get_size, output_type := t, run := fun a b => a * b }

/-! ## Matrix stores -/

/-- A materialised matrix store: shape, layout, element type and elements. -/
structure matrix_store (α : Type) where
  num_rows : Nat
  num_cols : Nat
  layout : matrix_layout_t
  type : scalar_type
  get : Nat → Nat → α

/-- Modelled from the spec: `matrix_store::is_wide` is declared in a header that
is not among the sources; "a matrix is wide iff ncol ≥ nrow, otherwise tall". -/
def matrix_store.is_wide {α : Type} (m : matrix_store α) : Bool :=
  decide (m.num_rows ≤ m.num_cols)

/-- Modelled from the spec: `matrix_store::transpose` "returns a store of swapped
shape and swapped logical layout". -/
def matrix_store.transpose {α : Type} (m : matrix_store α) : matrix_store α :=
  { num_rows := m.num_cols, num_cols := m.num_rows,
    layout := match m.layout with
      | .L_ROW => .L_COL
      | .L_COL => .L_ROW
      | .L_NONE => .L_NONE,
    type := m.type,
    get := fun r c => m.get c r }

/-- A combined store (`detail::combined_matrix_store`): an ordered group of
member stores and a layout tag. -/
structure combined_matrix_store (α : Type) where
  mats : List (matrix_store α)
  layout : matrix_layout_t

/-- The member access `get_mat(i)` / `get_mat_ref(i)`; an index past the end
has no member. -/
def combined_matrix_store.get_mat {α : Type} (s : combined_matrix_store α) (i : Nat) :
    Option (matrix_store α) :=
  s.mats[i]?

/-- The number of members, `get_num_mats()`. -/
def combined_matrix_store.get_num_mats {α : Type} (s : combined_matrix_store α) : Nat :=
  s.mats.length

/-- Element `(r, c)` of the members laid side by side (a tall group): the
column index walks through the members' column ranges. -/
def col_concat_get {α : Type} [Inhabited α] : List (matrix_store α) → Nat → Nat → α
  | [], _, _ => default
  | m :: ms, r, c => if c < m.num_cols then m.get r c else col_concat_get ms r (c - m.num_cols)

/-- Element `(r, c)` of the members stacked on top of each other (a wide
group): the row index walks through the members' row ranges. -/
def row_concat_get {α : Type} [Inhabited α] : List (matrix_store α) → Nat → Nat → α
  | [], _, _ => default
  | m :: ms, r, c => if r < m.num_rows then m.get r c else row_concat_get ms (r - m.num_rows) c

/-- Whether the group is a wide group; as in `block_matrix::create(store)`, the
orientation is read off member 0. -/
def combined_matrix_store.is_wide_group {α : Type} (s : combined_matrix_store α) : Bool :=
  match s.mats with
  | [] => false
  | m :: _ => m.is_wide

/-- Modelled from the spec: the shape of a combined store, whose class is not
among the sources: the members have "one matching dimension" and "the other
dimension sums"; the members of a wide group are row blocks. -/
def combined_matrix_store.get_num_rows {α : Type} (s : combined_matrix_store α) : Nat :=
  if s.is_wide_group then (s.mats.map (fun m => m.num_rows)).sum
  else match s.mats with
    | [] => 0
    | m :: _ => m.num_rows

/-- Modelled from the spec: see `combined_matrix_store.get_num_rows`; the members
of a tall group are column blocks. -/
def combined_matrix_store.get_num_cols {α : Type} (s : combined_matrix_store α) : Nat :=
  if s.is_wide_group then
    match s.mats with
    | [] => 0
    | m :: _ => m.num_cols
  else (s.mats.map (fun m => m.num_cols)).sum

/-- Modelled from the spec: a combined store "presents the group as one matrix". -/
def combined_matrix_store.get {α : Type} [Inhabited α] (s : combined_matrix_store α)
    (r c : Nat) : α :=
  if s.is_wide_group then row_concat_get s.mats r c else col_concat_get s.mats r c

/-- Modelled from the spec: the element type of a combined store is the one all
its members share. -/
def combined_matrix_store.get_type {α : Type} (s : combined_matrix_store α) : scalar_type :=
  match s.mats with
  | [] => .T_INT
  | m :: _ => m.type

/-- Modelled from the spec: `combined_matrix_store::transpose` "transposes each
member and flips the orientation tag". -/
def combined_matrix_store.transpose {α : Type} (s : combined_matrix_store α) :
    combined_matrix_store α :=
  { mats := s.mats.map matrix_store.transpose,
    layout := match s.layout with
      | .L_ROW => .L_COL
      | .L_COL => .L_ROW
      | .L_NONE => .L_NONE }

/-- Modelled from the spec: `combined_matrix_store::create` is not among the
sources; a group needs at least one member. -/
def combined_matrix_store.create {α : Type} (mats : List (matrix_store α))
    (layout : matrix_layout_t) : Option (combined_matrix_store α) :=
  if mats.isEmpty then none else some { mats := mats, layout := layout }

/-! ## The dense matrix façade -/

/-- A block matrix: a combined store and the block size fixed at creation. -/
structure block_matrix (α : Type) where
  block_size : Nat
  store : combined_matrix_store α

/-- A dense matrix is either an ordinary matrix over one store or a
`block_matrix` (the subclass that `dynamic_cast<const block_matrix *>` detects). -/
inductive dense_matrix (α : Type) where
  | plain (store : matrix_store α)
  | block (m : block_matrix α)

/-- The row count, `dense_matrix::get_num_rows`. -/
def dense_matrix.get_num_rows {α : Type} : dense_matrix α → Nat
  | .plain s => s.num_rows
  | .block m => m.store.get_num_rows

/-- The column count, `dense_matrix::get_num_cols`. -/
def dense_matrix.get_num_cols {α : Type} : dense_matrix α → Nat
  | .plain s => s.num_cols
  | .block m => m.store.get_num_cols

/-- The element type, `dense_matrix::get_type`. -/
def dense_matrix.get_type {α : Type} : dense_matrix α → scalar_type
  | .plain s => s.type
  | .block m => m.store.get_type

/-- The element size in bytes, `dense_matrix::get_entry_size`. -/
def dense_matrix.get_entry_size {α : Type} (m : dense_matrix α) : Nat :=
  m.get_type.get_size

/-- The layout, `dense_matrix::store_layout`; for a block matrix
`block_matrix::store_layout` returns the layout of member 0. -/
def dense_matrix.store_layout {α : Type} : dense_matrix α → matrix_layout_t
  | .plain s => s.layout
  | .block m => match m.store.mats with
    | [] => .L_NONE
    | s :: _ => s.layout

/-- Element `(r, c)` of a dense matrix. -/
def dense_matrix.get {α : Type} [Inhabited α] : dense_matrix α → Nat → Nat → α
  | .plain s => s.get
  | .block m => m.store.get

/-- The shape test `dense_matrix::is_wide`. -/
def dense_matrix.is_wide {α : Type} (m : dense_matrix α) : Bool :=
  decide (m.get_num_rows ≤ m.get_num_cols)

/-- The check `dense_matrix::verify_inner_prod` of `dense_matrix.cpp`. -/
def dense_matrix.verify_inner_prod {α : Type} (self m : dense_matrix α)
    (left_op right_op : bulk_operate α) : Bool :=
  if self.get_entry_size ≠ left_op.left_entry_size
      ∨ m.get_entry_size ≠ left_op.right_entry_size then false
  else if left_op.output_entry_size ≠ right_op.left_entry_size then false
  else if right_op.left_entry_size ≠ right_op.right_entry_size
      ∨ right_op.left_entry_size ≠ right_op.output_entry_size then false
  else if self.get_num_cols ≠ m.get_num_rows then false
  else true

/-- The check `dense_matrix::verify_mapply2` of `dense_matrix.cpp`. -/
def dense_matrix.verify_mapply2 {α : Type} (self m : dense_matrix α)
    (op : bulk_operate α) : Bool :=
  if self.get_num_rows ≠ m.get_num_rows ∨ self.get_num_cols ≠ m.get_num_cols then false
  else if self.store_layout ≠ m.store_layout then false
  else if self.get_entry_size ≠ op.left_entry_size
      ∨ m.get_entry_size ≠ op.right_entry_size then false
  else true

/-! ## Generalised sum (`gsum_op`) -/

/-- Modelled from the spec: the local kernel `mapply2(m1, m2, op, res)` of
`local_matrix_store.h`, a "binary kernel applied per element over two inputs":
`res[r][c] = op(m1[r][c], m2[r][c])`. -/
def detail.mapply2 {α : Type} (m1 m2 : matrix_store α) (op : bulk_operate α)
    (res : matrix_store α) : matrix_store α :=
  { res with get := fun r c => op.run (m1.get r c) (m2.get r c) }

/-- The copy `out.copy_from(src)` of a local store: the elements of `src` land
in `out`. -/
def matrix_store.copy_from {α : Type} (out src : matrix_store α) : matrix_store α :=
  { out with get := src.get }

/-- The class `gsum_op`: "a summation with generalized operator". -/
structure gsum_op (α : Type) where
  op : bulk_operate α
  out_num_rows : Nat
  out_num_cols : Nat

/-- The method `gsum_op::run(ins, out)`: one input is copied, two are combined
by `mapply2(ins[0], ins[1], op, out)`, and every further input `ins[i]` is
combined by `mapply2(ins[i], out, op, out)`.  The result is the final content of
`out`; an empty `ins` fails the assertion. -/
def gsum_op.run {α : Type} (g : gsum_op α) (ins : List (matrix_store α))
    (out : matrix_store α) : Option (matrix_store α) :=
  match ins with
  | [] => none
  | [a] => some (out.copy_from a)
  | a :: b :: rest =>
    some (rest.foldl (fun o x => detail.mapply2 x o g.op o) (detail.mapply2 a b g.op out))

/-- The in-order fold `x0 op x1 op ... op x(k-1)` of the spec's words ("reduces
a list of same-shaped inputs by folding them with a binary kernel"), bracketed
to the left. -/
def fold_in_order {α : Type} (f : α → α → α) : List α → Option α
  | [] => none
  | x :: xs => some (xs.foldl f x)

/-- What `gsum_op::run` computes on scalars: the first two operands in order,
every later operand on the left of the running value. -/
def fold_later_on_left {α : Type} (f : α → α → α) : List α → Option α
  | [] => none
  | [x] => some x
  | x :: y :: xs => some (xs.foldl (fun acc z => f z acc) (f x y))

/-! ## Creation of block matrices -/

/-- The helper `div_ceil<size_t>(v1, v2)` of the common header (not among the
sources): the quotient rounded up. -/
def div_ceil (v1 v2 : Nat) : Nat :=
  (v1 + v2 - 1) / v2

/-- An initialiser (`set_operate`): the value it gives to the element at a row
and column of the store it is run on. -/
structure set_operate (α : Type) where
  set : Nat → Nat → α

/-- The call `detail::matrix_store::create(num_rows, num_cols, layout, type, ...)`
followed by `set_data(op)`. -/
def matrix_store.create {α : Type} (num_rows num_cols : Nat) (layout : matrix_layout_t)
    (type : scalar_type) (op : set_operate α) : matrix_store α :=
  { num_rows := num_rows, num_cols := num_cols, layout := layout, type := type,
    get := op.set }

/-- The loop of `block_matrix::create(store)`: for `1 ≤ i < num_mats - 1` member
`i` has the same size as member `i - 1` along the blocked dimension. -/
def blocks_same_size {α : Type} (dim : matrix_store α → Nat) (mats : List (matrix_store α)) :
    Bool :=
  (List.range (mats.length - 1)).all fun i =>
    decide (i < 1) || decide ((mats[i]?).map dim = (mats[i - 1]?).map dim)

/-- Modelled from the spec: the constructor of `block_matrix` is in a header that
is not among the sources; "for a tall group, block_size is the column width of
each non-tail block; for a wide group, the row height". -/
def block_matrix.mk_of_store {α : Type} (store : combined_matrix_store α) : block_matrix α :=
  { block_size := match store.mats with
      | [] => 0
      | m :: _ => if m.is_wide then m.num_rows else m.num_cols,
    store := store }

/-- The overload `block_matrix::create(store)`: null when the non-tail members
disagree on the block size. -/
def block_matrix.create_of_store {α : Type} (store : combined_matrix_store α) :
    Option (dense_matrix α) :=
  match store.get_mat 0 with
  | none => none
  | some m0 =>
    if m0.is_wide then
      if blocks_same_size (fun m => m.num_rows) store.mats then
        some (.block (block_matrix.mk_of_store store))
      else none
    else
      if blocks_same_size (fun m => m.num_cols) store.mats then
        some (.block (block_matrix.mk_of_store store))
      else none

/-- The overload `block_matrix::create(num_rows, num_cols, block_size, type, op,
...)`: column blocks for a tall shape, row blocks otherwise, and an ordinary
matrix when a single block would do.  Each member is initialised on its own. -/
def block_matrix.create {α : Type} (num_rows num_cols block_size : Nat)
    (type : scalar_type) (op : set_operate α) : Option (dense_matrix α) :=
  if num_rows > num_cols then
    if num_cols < block_size then
      some (.plain (matrix_store.create num_rows num_cols .L_COL type op))
    else
      let stores := (List.range (div_ceil num_cols block_size)).map fun i =>
        let local_num_cols := min (num_cols - i * block_size) block_size
        matrix_store.create num_rows local_num_cols .L_COL type op
      (combined_matrix_store.create stores .L_COL).bind block_matrix.create_of_store
  else
    if num_rows < block_size then
      some (.plain (matrix_store.create num_rows num_cols .L_ROW type op))
    else
      let stores := (List.range (div_ceil num_rows block_size)).map fun i =>
        let local_num_rows := min (num_rows - i * block_size) block_size
        matrix_store.create local_num_rows num_cols .L_ROW type op
      (combined_matrix_store.create stores .L_ROW).bind block_matrix.create_of_store

/-! ## Slicing a block matrix -/

/-- The conversion of an `off_t` to `size_t` (64-bit two's complement). -/
def to_size_t (x : Int) : Nat :=
  (x % 2 ^ 64).toNat

/-- The conversion of a `size_t` to `off_t` (64-bit two's complement). -/
def to_off_t (n : Nat) : Int :=
  if n % 2 ^ 64 < 2 ^ 63 then ((n % 2 ^ 64 : Nat) : Int) else ((n % 2 ^ 64 : Nat) : Int) - 2 ^ 64

/-- The statement `local_idxs.back().push_back(local_idx)`. -/
def push_back_last (local_idxs : List (List Int)) (local_idx : Int) : List (List Int) :=
  match local_idxs.getLast? with
  | none => local_idxs
  | some l => local_idxs.dropLast ++ [l ++ [local_idx]]

/-- One iteration of the loop of `get_local_idxs`, on the pair
`(mat_idxs, local_idxs)`. -/
def get_local_idxs_step (block_size : Nat) (st : List Int × List (List Int)) (idx : Int) :
    List Int × List (List Int) :=
  let mat_idx := to_off_t (to_size_t idx / block_size)
  let local_idx := to_off_t (to_size_t idx % block_size)
  if some mat_idx ≠ st.1.getLast? then (st.1 ++ [mat_idx], st.2 ++ [[local_idx]])
  else (st.1, push_back_last st.2 local_idx)

/-- The function `get_local_idxs(idxs, block_size, mat_idxs, local_idxs)`: the
pair of output vectors.  Reading `idxs[0]` of an empty vector and dividing by a
zero block size have no result, and the final assertion must hold. -/
def get_local_idxs (idxs : List Int) (block_size : Nat) :
    Option (List Int × List (List Int)) :=
  match idxs with
  | [] => none
  | i0 :: rest =>
    if block_size = 0 then none
    else
      let st := rest.foldl (get_local_idxs_step block_size)
        ([to_off_t (to_size_t i0 / block_size)], [[to_off_t (to_size_t i0 % block_size)]])
      if st.1.length = st.2.length then some st else none

/-- The library function `std::is_sorted`: no element is less than its
predecessor. -/
def is_sorted : List Int → Bool
  | [] => true
  | [_] => true
  | a :: b :: rest => !decide (b < a) && is_sorted (b :: rest)

/-- The bound test `(size_t) idx >= n || idx < 0` of the slicing methods. -/
def idx_out_of_bound (idx : Int) (n : Nat) : Bool :=
  decide (to_size_t idx ≥ n) || decide (idx < 0)

/-- Modelled from the spec: `matrix_store::get_cols(idxs)` of a member store is
not among the sources; the member returns the sub-matrix of the selected
columns, and an index outside the member is an `IndexOutOfRange` failure. -/
def matrix_store.get_cols {α : Type} (m : matrix_store α) (idxs : List Int) :
    Option (matrix_store α) :=
  if idxs.all fun i => decide (0 ≤ i) && decide (i.toNat < m.num_cols) then
    some { m with num_cols := idxs.length, get := fun r c => m.get r (idxs.getD c 0).toNat }
  else none

/-- A vector of store pointers is usable only when none of them is null. -/
def all_non_null {β : Type} : List (Option β) → Option (List β)
  | [] => some []
  | none :: _ => none
  | some x :: rest => (all_non_null rest).map (fun xs => x :: xs)

/-- The value computed from `xs[i]` and `ys[i]` in a loop over the indices of two
vectors; an index past the end of either has no element. -/
def at_both {γ δ β : Type} (xs : List γ) (ys : List δ) (f : γ → δ → Option β) (i : Nat) :
    Option β :=
  match xs[i]?, ys[i]? with
  | some x, some y => f x y
  | _, _ => none

/-- A combined store seen as a matrix store (the upcast to `matrix_store`). -/
def combined_matrix_store.to_store {α : Type} [Inhabited α] (s : combined_matrix_store α) :
    matrix_store α :=
  { num_rows := s.get_num_rows, num_cols := s.get_num_cols, layout := s.layout,
    type := s.get_type, get := s.get }

/-- The method `block_matrix::get_cols(idxs)`. -/
def block_matrix.get_cols {α : Type} [Inhabited α] (self : block_matrix α) (idxs : List Int) :
    Option (dense_matrix α) :=
  if (dense_matrix.block self).is_wide then none
  else if idxs.any fun idx => idx_out_of_bound idx (dense_matrix.block self).get_num_cols then none
  else if !is_sorted idxs then none
  else
    match get_local_idxs idxs self.block_size with
    | none => none
    | some (mat_idxs, local_idxs) =>
      let stores := (List.range mat_idxs.length).map
        (at_both mat_idxs local_idxs fun mat_idx l =>
          (self.store.get_mat (to_size_t mat_idx)).bind fun m => m.get_cols l)
      match all_non_null stores with
      | none => none
      | some ss =>
        (combined_matrix_store.create ss .L_COL).map fun c => dense_matrix.plain c.to_store

/-- Modelled from the spec: the cell of a generalized inner product, "where
scalar multiply is left_op and scalar add is right_op": the products of a row
and a column of length `len`, folded in order with `right_op`. -/
def inner_prod_cell {α : Type} (left_op right_op : bulk_operate α) (len : Nat)
    (row col : Nat → α) : α :=
  (List.range (len - 1)).foldl
    (fun acc k => right_op.run acc (left_op.run (row (k + 1)) (col (k + 1))))
    (left_op.run (row 0) (col 0))

/-- Modelled from the spec: `dense_matrix::inner_prod` of an ordinary matrix is not
among the sources.  It fails when `verify_inner_prod` refuses the operands and
otherwise is the generalized matrix product; an output layout `NONE` is
"implementation-chosen" (here the layout of the left operand). -/
def matrix_store.inner_prod {α : Type} [Inhabited α] (self : matrix_store α)
    (m : dense_matrix α) (left_op right_op : bulk_operate α) (out_layout : matrix_layout_t) :
    Option (matrix_store α) :=
  if (dense_matrix.plain self).verify_inner_prod m left_op right_op then
    some { num_rows := self.num_rows, num_cols := m.get_num_cols,
           layout := if out_layout = .L_NONE then self.layout else out_layout,
           type := right_op.output_type,
           get := fun r c => inner_prod_cell left_op right_op self.num_cols
             (fun k => self.get r k) (fun k => m.get k c) }
  else none

/-- Modelled from the spec: `dense_matrix::multiply` of an ordinary matrix is not
among the sources; it is "equivalent to inner_prod with MUL and ADD" of the
element type. -/
def matrix_store.multiply {α : Type} [Inhabited α] [Add α] [Mul α] (self : matrix_store α)
    (m : dense_matrix α) (out_layout : matrix_layout_t) : Option (matrix_store α) :=
  self.inner_prod m (basic_ops_get_multiply self.type) (basic_ops_get_add self.type) out_layout

/-- Modelled from the spec: `dense_matrix::conv_store(true, -1)` is not among the
sources; it yields the same matrix over an in-memory store. -/
def dense_matrix.conv_store {α : Type} [Inhabited α] (m : dense_matrix α) : matrix_store α :=
  { num_rows := m.get_num_rows, num_cols := m.get_num_cols, layout := m.store_layout,
    type := m.get_type, get := m.get }

/-- The static function `get_sub_mat`: a copy of the portion that starts at
`(start_row, start_col)`; `get_portion` "returns null only if out of bounds",
which fails the assertion. -/
def get_sub_mat {α : Type} (mat : matrix_store α) (start_row start_col num_rows num_cols : Nat) :
    Option (matrix_store α) :=
  if start_row + num_rows ≤ mat.num_rows ∧ start_col + num_cols ≤ mat.num_cols then
    some { num_rows := num_rows, num_cols := num_cols, layout := mat.layout, type := mat.type,
           get := fun r c => mat.get (start_row + r) (start_col + c) }
  else none

/-- The values taken by `x` in `for (x = start; x < stop; x += step)`, computed
with a bound on the number of iterations; a loop that is still running when
the bound is reached has no result. -/
def for_range (fuel start stop step : Nat) : Option (List Nat) :=
  match fuel with
  | 0 => if start < stop then none else some []
  | fuel + 1 =>
    if start < stop then (for_range fuel (start + step) stop step).map fun xs => start :: xs
    else some []

/-- A loop over `xs` that, at each `x`, computes one entry and stores it in a
vector of pointers: `arr[slot x] = body x`.  A null entry is dereferenced right
after its assignment and a slot past the end of the vector does not exist. -/
def fill_loop {β : Type} (slot : Nat → Nat) (body : Nat → Option β) :
    List Nat → List (Option β) → Option (List (Option β))
  | [], arr => some arr
  | x :: xs, arr =>
    match body x with
    | none => none
    | some v =>
      if slot x < arr.length then fill_loop slot body xs (arr.set (slot x) (some v))
      else none

/-- Modelled from the spec: `mapply_portion(mats, op, out_layout, ...)` followed by
`materialize_self()` is the work of the scheduler, which is not among the
sources: it "allocates an output local store, invokes the op".  The inputs are
non-null and of the shape the operator declares. -/
def mapply_portion {α : Type} [Inhabited α] (mats : List (Option (matrix_store α)))
    (op : gsum_op α) (out_layout : matrix_layout_t) : Option (matrix_store α) :=
  match all_non_null mats with
  | none => none
  | some ins =>
    if ins.all fun m => decide (m.num_rows = op.out_num_rows ∧ m.num_cols = op.out_num_cols) then
      op.run ins { num_rows := op.out_num_rows, num_cols := op.out_num_cols,
                   layout := out_layout, type := op.op.output_type, get := fun _ _ => default }
    else none

/-- The body of the loop over `m2_row` in `block_matrix::inner_prod_tall`: the
temporary matrix stored in `tmp_mats[m2_row / block_size]`. -/
def block_matrix.tall_tmp_mat {α : Type} [Inhabited α] [Add α] [Mul α] (self : block_matrix α)
    (mem_m2 : matrix_store α) (left_op : Option (bulk_operate α)) (right_op : bulk_operate α)
    (out_layout : matrix_layout_t) (m2_col m2_row : Nat) : Option (matrix_store α) :=
  let i := m2_row / self.block_size
  match self.store.get_mat i with
  | none => none
  | some left =>
    let part_num_rows := min self.block_size (mem_m2.num_rows - m2_row)
    let part_num_cols := min self.block_size (mem_m2.num_cols - m2_col)
    match get_sub_mat mem_m2 m2_row m2_col part_num_rows part_num_cols with
    | none => none
    | some part =>
      match left_op with
      | none => left.multiply (.plain part) out_layout
      | some lop => left.inner_prod (.plain part) lop right_op out_layout

/-- The body of the loop over `m2_col` in `block_matrix::inner_prod_tall`: the
result block stored in `res_blocks[m2_col / block_size]`. -/
def block_matrix.tall_res_block {α : Type} [Inhabited α] [Add α] [Mul α] (self : block_matrix α)
    (mem_m2 : matrix_store α) (left_op : Option (bulk_operate α)) (right_op : bulk_operate α)
    (out_layout : matrix_layout_t) (m2_col : Nat) : Option (matrix_store α) :=
  match for_range mem_m2.num_rows 0 mem_m2.num_rows self.block_size with
  | none => none
  | some m2_rows =>
    match fill_loop (fun m2_row => m2_row / self.block_size)
        (self.tall_tmp_mat mem_m2 left_op right_op out_layout m2_col) m2_rows
        (List.replicate self.store.get_num_mats none) with
    | none => none
    | some tmp_mats =>
      match tmp_mats.head? with
      | some (some t0) =>
        mapply_portion tmp_mats
          { op := right_op, out_num_rows := t0.num_rows, out_num_cols := t0.num_cols } .L_COL
      | _ => none

/-- The end of `block_matrix::inner_prod_tall`: a single result block is returned
as an ordinary matrix, several are combined into a block matrix with the layout
of the left operand. -/
def block_matrix.tall_result {α : Type} (self : block_matrix α)
    (res_blocks : List (Option (matrix_store α))) : Option (dense_matrix α) :=
  match res_blocks with
  | [some blk] => some (.plain blk)
  | _ =>
    match all_non_null res_blocks with
    | none => none
    | some blocks =>
      (combined_matrix_store.create blocks (dense_matrix.block self).store_layout).bind
        block_matrix.create_of_store

/-- The method `block_matrix::inner_prod_tall(m, left_op, right_op, out_layout)`.
A null `left_op` selects the BLAS path, which asserts floating-point operands
and takes `ADD` of the element type as `right_op`. -/
def block_matrix.inner_prod_tall {α : Type} [Inhabited α] [Add α] [Mul α]
    (self : block_matrix α) (m : dense_matrix α)
    (left_op right_op : Option (bulk_operate α)) (out_layout : matrix_layout_t) :
    Option (dense_matrix α) :=
  let mem_m2 := m.conv_store
  let use_blas := left_op.isNone
  if use_blas && !((dense_matrix.block self).get_type.is_floating_point
      && m.get_type.is_floating_point) then none
  else
    let right_op := if use_blas then some (basic_ops_get_add (dense_matrix.block self).get_type)
      else right_op
    match right_op with
    | none => none
    | some rop =>
      match for_range mem_m2.num_cols 0 mem_m2.num_cols self.block_size with
      | none => none
      | some m2_cols =>
        match fill_loop (fun m2_col => m2_col / self.block_size)
            (self.tall_res_block mem_m2 left_op rop out_layout) m2_cols
            (List.replicate (div_ceil mem_m2.num_cols self.block_size) none) with
        | none => none
        | some res_blocks => self.tall_result res_blocks

/-- A rectangle of the output matrix: the portion that starts at
`(row_idx, col_idx)` and has `num_rows` rows and `num_cols` columns. -/
structure portion where
  row_idx : Nat
  col_idx : Nat
  num_rows : Nat
  num_cols : Nat
  deriving DecidableEq, Repr

/-- Whether the cell `(r, c)` lies in the rectangle. -/
def portion.contains (p : portion) (r c : Nat) : Bool :=
  decide (p.row_idx ≤ r) && decide (r < p.row_idx + p.num_rows)
    && decide (p.col_idx ≤ c) && decide (c < p.col_idx + p.num_cols)

/-- The copy `res->get_portion(row_idx, col_idx, num_rows, num_cols)->copy_from(src)`:
the cells of the rectangle take the elements of `src`, every other cell is
kept.  A rectangle that leaves the store has no portion. -/
def matrix_store.write_portion {α : Type} (res : matrix_store α) (p : portion)
    (src : matrix_store α) : Option (matrix_store α) :=
  if p.row_idx + p.num_rows ≤ res.num_rows ∧ p.col_idx + p.num_cols ≤ res.num_cols then
    some { res with
           get := fun r c =>
             if p.contains r c then src.get (r - p.row_idx) (c - p.col_idx) else res.get r c }
  else none

/-- The vector `right_mats` of `block_matrix::inner_prod_wide`: the members of the
right operand when it is a block matrix, else its one store. -/
def right_mats_of {α : Type} (m : dense_matrix α) : List (matrix_store α) :=
  match m with
  | .plain s => [s]
  | .block block_m => block_m.store.mats

/-- The second inner loop of `block_matrix::inner_prod_wide`, from left block `j`
on: each temporary matrix is copied to its rectangle of `res`, after the two
assertions on its shape.  The state is `res` together with the list of the
rectangles written so far. -/
def block_matrix.wide_copy_loop {α : Type} (self : block_matrix α)
    (m_num_cols right_block_size col_idx : Nat) :
    Nat → List (matrix_store α) → matrix_store α × List portion →
      Option (matrix_store α × List portion)
  | _, [], st => some st
  | j, tmp :: tmp_mats, st =>
    let row_idx := j * self.block_size
    let num_rows := min self.block_size ((dense_matrix.block self).get_num_rows - row_idx)
    let num_cols := min right_block_size (m_num_cols - col_idx)
    if num_rows = tmp.num_rows ∧ num_cols = tmp.num_cols then
      let p : portion :=
        { row_idx := row_idx, col_idx := col_idx, num_rows := num_rows, num_cols := num_cols }
      match st.1.write_portion p tmp with
      | none => none
      | some res =>
        self.wide_copy_loop m_num_cols right_block_size col_idx (j + 1) tmp_mats (res, st.2 ++ [p])
    else none

/-- The outer loop of `block_matrix::inner_prod_wide`, from right block `i` on:
the inner products of all left members with the right block, then the copies. -/
def block_matrix.wide_loop {α : Type} [Inhabited α] (self : block_matrix α)
    (m_num_cols right_block_size : Nat) (left_op right_op : bulk_operate α)
    (out_layout : matrix_layout_t) :
    Nat → List (matrix_store α) → matrix_store α × List portion →
      Option (matrix_store α × List portion)
  | _, [], st => some st
  | i, right :: right_mats, st =>
    match all_non_null (self.store.mats.map fun left =>
        left.inner_prod (.plain right) left_op right_op out_layout) with
    | none => none
    | some tmp_mats =>
      match self.wide_copy_loop m_num_cols right_block_size (i * right_block_size) 0 tmp_mats st with
      | none => none
      | some st' =>
        self.wide_loop m_num_cols right_block_size left_op right_op out_layout (i + 1)
          right_mats st'

/-- The method `block_matrix::inner_prod_wide(m, left_op, right_op, out_layout)`,
returning the result together with the list of the rectangles of `res` that
were written, in order.  Both kernels are dereferenced. -/
def block_matrix.inner_prod_wide_trace {α : Type} [Inhabited α] (self : block_matrix α)
    (m : dense_matrix α) (left_op right_op : Option (bulk_operate α))
    (out_layout : matrix_layout_t) : Option (dense_matrix α × List portion) :=
  let right_mats := right_mats_of m
  let out_layout :=
    if out_layout = .L_NONE then
      if (dense_matrix.block self).store_layout = .L_COL then matrix_layout_t.L_COL
      else matrix_layout_t.L_ROW
    else out_layout
  match left_op, right_op, right_mats with
  | some lop, some rop, right0 :: _ =>
    let res : matrix_store α :=
      { num_rows := (dense_matrix.block self).get_num_rows, num_cols := m.get_num_cols,
        layout := out_layout, type := rop.output_type, get := fun _ _ => default }
    (self.wide_loop m.get_num_cols right0.num_cols lop rop out_layout 0 right_mats (res, [])).map
      fun st => (dense_matrix.plain st.1, st.2)
  | _, _, _ => none

/-- The method `block_matrix::inner_prod_wide`: the matrix it returns. -/
def block_matrix.inner_prod_wide {α : Type} [Inhabited α] (self : block_matrix α)
    (m : dense_matrix α) (left_op right_op : Option (bulk_operate α))
    (out_layout : matrix_layout_t) : Option (dense_matrix α) :=
  (self.inner_prod_wide_trace m left_op right_op out_layout).map fun st => st.1

/-! ## Transposition and multiplication -/

/-- The method `block_matrix::transpose`. -/
def block_matrix.transpose {α : Type} (self : block_matrix α) : Option (dense_matrix α) :=
  block_matrix.create_of_store self.store.transpose

/-- The virtual method `dense_matrix::transpose`.  Modelled from the spec for an
ordinary matrix, whose method is not among the sources: the façade over the
transposed store. -/
def dense_matrix.transpose {α : Type} : dense_matrix α → Option (dense_matrix α)
  | .plain s => some (.plain s.transpose)
  | .block b => b.transpose

/-- The method `block_matrix::multiply_tall`. -/
def block_matrix.multiply_tall {α : Type} [Inhabited α] [Add α] [Mul α]
    (self : block_matrix α) (m : dense_matrix α) (out_layout : matrix_layout_t) :
    Option (dense_matrix α) :=
  self.inner_prod_tall m none none out_layout

/-- The method `block_matrix::multiply_wide`: it returns the null pointer. -/
def block_matrix.multiply_wide {α : Type} (_self : block_matrix α) (_m : dense_matrix α)
    (_out_layout : matrix_layout_t) : Option (dense_matrix α) :=
  none

/-- Modelled from the spec: `block_matrix::inner_prod` is not among the sources;
it checks the preconditions of the inner product and runs the wide or the tall
algorithm by shape. -/
def block_matrix.inner_prod {α : Type} [Inhabited α] [Add α] [Mul α] (self : block_matrix α)
    (m : dense_matrix α) (left_op right_op : bulk_operate α) (out_layout : matrix_layout_t) :
    Option (dense_matrix α) :=
  if (dense_matrix.block self).verify_inner_prod m left_op right_op then
    if (dense_matrix.block self).is_wide then
      self.inner_prod_wide m (some left_op) (some right_op) out_layout
    else self.inner_prod_tall m (some left_op) (some right_op) out_layout
  else none

/-- The layout asked of the transposed product in `block_matrix::multiply`: `ROW`
and `COL` are exchanged, `NONE` is kept. -/
def t_layout_of (out_layout : matrix_layout_t) : matrix_layout_t :=
  if out_layout = .L_ROW then .L_COL
  else if out_layout = .L_COL then .L_ROW
  else out_layout

/-- The virtual method `multiply(mat, out_layout)`, with a bound on the depth of
the calls: `matrix_store.multiply` for an ordinary matrix and
`block_matrix::multiply` for a block matrix.  The latter, for floating-point
elements, asserts equal element types, transposes the whole computation when
the right operand has the longer dimension, and otherwise dispatches on
`is_wide()`; for other element types it is the multiplication of the base
class, "relying on inner product". -/
def dense_matrix.multiply_fuel {α : Type} [Inhabited α] [Add α] [Mul α] :
    Nat → dense_matrix α → dense_matrix α → matrix_layout_t → Option (dense_matrix α)
  | 0, _, _, _ => none
  | _ + 1, .plain s, mat, out_layout => (s.multiply mat out_layout).map dense_matrix.plain
  | fuel + 1, .block self, mat, out_layout =>
    if (dense_matrix.block self).get_type.is_floating_point then
      if (dense_matrix.block self).get_type ≠ mat.get_type then none
      else
        let long_dim1 := max (dense_matrix.block self).get_num_rows
          (dense_matrix.block self).get_num_cols
        let long_dim2 := max mat.get_num_rows mat.get_num_cols
        if long_dim2 > long_dim1 then
          match self.transpose, mat.transpose with
          | some t_mat1, some t_mat2 =>
            match dense_matrix.multiply_fuel fuel t_mat2 t_mat1 (t_layout_of out_layout) with
            | none => none
            | some t_res => t_res.transpose
          | _, _ => none
        else if (dense_matrix.block self).is_wide then self.multiply_wide mat out_layout
        else self.multiply_tall mat out_layout
    else
      self.inner_prod mat (basic_ops_get_multiply (dense_matrix.block self).get_type)
        (basic_ops_get_add (dense_matrix.block self).get_type) out_layout

/-- The method `block_matrix::multiply(mat, out_layout)`.  Two nested calls are
enough: the transposed call has the longer operand on the left. -/
def block_matrix.multiply {α : Type} [Inhabited α] [Add α] [Mul α] (self : block_matrix α)
    (mat : dense_matrix α) (out_layout : matrix_layout_t) : Option (dense_matrix α) :=
  dense_matrix.multiply_fuel 2 (.block self) mat out_layout

/-- The index list that the groups stand for: `mat_idxs[k] * block_size + l` over
the groups `k` in order and, within a group, over its local indices `l` in
order. -/
def concat_groups (block_size : Nat) (mat_idxs : List Int) (local_idxs : List (List Int)) :
    List Int :=
  (List.zip mat_idxs local_idxs).flatMap fun p => p.2.map fun l => p.1 * (block_size : Int) + l

/-! ## The block invariant -/

/-- The members are column blocks of one matrix with `num_rows` rows and `total`
columns: every member has `num_rows` rows, every member but the last has
`block_size` columns, and the last (tail) member has the remaining
`total - (n - 1) * block_size` columns, at least one and at most `block_size`. -/
structure col_blocks {α : Type} (mats : List (matrix_store α))
    (num_rows total block_size : Nat) : Prop where
  block_pos : 0 < block_size
  rows : ∀ m ∈ mats, m.num_rows = num_rows
  full : ∀ i, i + 1 < mats.length → (mats[i]?).map (fun m => m.num_cols) = some block_size
  tail : (mats[mats.length - 1]?).map (fun m => m.num_cols)
    = some (total - (mats.length - 1) * block_size)
  tail_pos : (mats.length - 1) * block_size < total
  tail_le : total ≤ mats.length * block_size

/-- The members are row blocks of one matrix with `total` rows and `num_cols`
columns; the mirror image of `col_blocks`. -/
structure row_blocks {α : Type} (mats : List (matrix_store α))
    (total num_cols block_size : Nat) : Prop where
  block_pos : 0 < block_size
  cols : ∀ m ∈ mats, m.num_cols = num_cols
  full : ∀ i, i + 1 < mats.length → (mats[i]?).map (fun m => m.num_rows) = some block_size
  tail : (mats[mats.length - 1]?).map (fun m => m.num_rows)
    = some (total - (mats.length - 1) * block_size)
  tail_pos : (mats.length - 1) * block_size < total
  tail_le : total ≤ mats.length * block_size

/-- The block invariant of a tall block matrix with `num_rows` rows and
`num_cols` columns: column blocks of width `block_size`, more rows than
columns, and a block no wider than the matrix. -/
structure block_matrix.tall_invariant {α : Type} (bm : block_matrix α)
    (num_rows num_cols : Nat) : Prop where
  blocks : col_blocks bm.store.mats num_rows num_cols bm.block_size
  tall : num_cols < num_rows
  block_le : bm.block_size ≤ num_cols

/-- The block invariant of a wide block matrix with `num_rows` rows and
`num_cols` columns: row blocks of height `block_size`, at least as many columns
as rows, and a block no higher than the matrix. -/
structure block_matrix.wide_invariant {α : Type} (bm : block_matrix α)
    (num_rows num_cols : Nat) : Prop where
  blocks : row_blocks bm.store.mats num_rows num_cols bm.block_size
  wide : num_rows ≤ num_cols
  block_le : bm.block_size ≤ num_rows

/-- Element `(r, c)` of the partial product of member `i` of a tall block matrix:
the generalized inner product of row `r` of the member with the rows
`i * block_size, i * block_size + 1, ...` of column `c` of the right operand. -/
def block_matrix.tall_cell {α : Type} [Inhabited α] (self : block_matrix α)
    (m : dense_matrix α) (left_op right_op : bulk_operate α) (i r c : Nat) : α :=
  match self.store.mats[i]? with
  | none => default
  | some left => inner_prod_cell left_op right_op left.num_cols (fun k => left.get r k)
      (fun k => m.get (i * self.block_size + k) c)

/-- The operands of `inner_prod_tall` fit the kernels `lop` and `rop` that are in
effect: either both kernels are passed in, or `left_op` is null, the operands
are floating-point and the kernels are `MUL` and `ADD` of the element type.
The members share the element type and the entry sizes are those that
`verify_inner_prod` asks for. -/
structure tall_operands {α : Type} [Add α] [Mul α] (bm : block_matrix α)
    (m : dense_matrix α) (left_op right_op : Option (bulk_operate α))
    (lop rop : bulk_operate α) : Prop where
  member_type : ∀ x ∈ bm.store.mats, x.type = (dense_matrix.block bm).get_type
  mode : (left_op = some lop ∧ right_op = some rop)
    ∨ (left_op = none
        ∧ (dense_matrix.block bm).get_type.is_floating_point = true
        ∧ m.get_type.is_floating_point = true
        ∧ lop = basic_ops_get_multiply (dense_matrix.block bm).get_type
        ∧ rop = basic_ops_get_add (dense_matrix.block bm).get_type)
  left_size : (dense_matrix.block bm).get_entry_size = lop.left_entry_size
  right_size : m.get_entry_size = lop.right_entry_size
  out_left : lop.output_entry_size = rop.left_entry_size
  rop_lr : rop.left_entry_size = rop.right_entry_size
  rop_ro : rop.right_entry_size = rop.output_entry_size

/-- An operand of shape `R` by `C` and element type `t` that is well formed: an
ordinary matrix of that shape and type, or a block matrix that satisfies the
tall or the wide block invariant and whose members have that type. -/
def dense_matrix.well_formed {α : Type} (m : dense_matrix α) (R C : Nat) (t : scalar_type) :
    Prop :=
  match m with
  | .plain s => s.num_rows = R ∧ s.num_cols = C ∧ s.type = t
  | .block bm => (bm.tall_invariant R C ∨ bm.wide_invariant R C)
      ∧ ∀ x ∈ bm.store.mats, x.type = t

/-! ## Vectors, slices and row fan-out of a block matrix -/

/-- A vector as the slicing and fan-out methods of `block_matrix.cpp` use it:
its length, element type, whether it is in memory, and its elements. -/
structure vector (α : Type) where
  length : Nat
  type : scalar_type
  in_mem : Bool
  get : Nat → α

/-- Modelled from the spec: `matrix_store::get_col_vec(idx)` of a member store is
not among the sources; "column slicing requires COL or compatible layout", and
an index outside the member is an `IndexOutOfRange` failure. -/
def matrix_store.get_col_vec {α : Type} (m : matrix_store α) (idx : Int) : Option (vector α) :=
  if m.layout ≠ .L_ROW ∧ 0 ≤ idx ∧ idx.toNat < m.num_cols then
    some { length := m.num_rows, type := m.type, in_mem := true,
           get := fun r => m.get r idx.toNat }
  else none

/-- Modelled from the spec: `matrix_store::get_row_vec(idx)` of a member store, the
mirror image of `matrix_store.get_col_vec` ("row slicing the converse"). -/
def matrix_store.get_row_vec {α : Type} (m : matrix_store α) (idx : Int) : Option (vector α) :=
  if m.layout ≠ .L_COL ∧ 0 ≤ idx ∧ idx.toNat < m.num_rows then
    some { length := m.num_cols, type := m.type, in_mem := true,
           get := fun c => m.get idx.toNat c }
  else none

/-- The method `block_matrix::get_col(idx)`.  The division by the block size is
the unsigned one of `off_t` by `size_t`. -/
def block_matrix.get_col {α : Type} (self : block_matrix α) (idx : Int) : Option (vector α) :=
  if idx_out_of_bound idx (dense_matrix.block self).get_num_cols then none
  else if (dense_matrix.block self).is_wide then none
  else if self.block_size = 0 then none
  else
    let mat_idx := to_off_t (to_size_t idx / self.block_size)
    let local_idx := to_off_t (to_size_t idx % self.block_size)
    (self.store.get_mat (to_size_t mat_idx)).bind fun m => m.get_col_vec local_idx

/-- The method `block_matrix::get_row(idx)`. -/
def block_matrix.get_row {α : Type} (self : block_matrix α) (idx : Int) : Option (vector α) :=
  if idx_out_of_bound idx (dense_matrix.block self).get_num_rows then none
  else if !(dense_matrix.block self).is_wide then none
  else if self.block_size = 0 then none
  else
    let mat_idx := to_off_t (to_size_t idx / self.block_size)
    let local_idx := to_off_t (to_size_t idx % self.block_size)
    (self.store.get_mat (to_size_t mat_idx)).bind fun m => m.get_row_vec local_idx

/-- Modelled from the spec: `dense_matrix::mapply_rows(vals, op)` of an ordinary
matrix is not among the sources: "broadcast a vector over rows ... with a
binary kernel", so element `(r, c)` becomes `op(m[r][c], vals[c])`.  The vector
must be in memory and as long as a row, and the entry sizes must be those of
the kernel. -/
def matrix_store.mapply_rows {α : Type} (m : matrix_store α) (vals : vector α)
    (op : bulk_operate α) : Option (matrix_store α) :=
  if !vals.in_mem then none
  else if m.num_cols ≠ vals.length then none
  else if m.type.get_size ≠ op.left_entry_size ∨ vals.type.get_size ≠ op.right_entry_size then
    none
  else some { m with type := op.output_type,
                     get := fun r c => op.run (m.get r c) (vals.get c) }

/-- The part of the vector that `block_matrix::mapply_rows` copies for one member:
a new vector of `llen` elements filled from `get_sub_arr(val_start, val_start +
llen)`.  A range that leaves the vector has no elements to copy. -/
def vector.get_part {α : Type} (vals : vector α) (val_start llen : Nat) : Option (vector α) :=
  if val_start + llen ≤ vals.length then
    some { length := llen, type := vals.type, in_mem := true,
           get := fun j => vals.get (val_start + j) }
  else none

/-- The loop of the tall branch of `block_matrix::mapply_rows`, over the members
that are left.  The state is `val_start`, the result stores so far, and the
list of the segments `(val_start, llen)` handed to the members so far. -/
def block_matrix.mapply_rows_tall_loop {α : Type} (vals : vector α) (op : bulk_operate α) :
    List (matrix_store α) → Nat × List (matrix_store α) × List (Nat × Nat) →
      Option (Nat × List (matrix_store α) × List (Nat × Nat))
  | [], st => some st
  | m :: ms, st =>
    let llen := m.num_cols
    match vals.get_part st.1 llen with
    | none => none
    | some vals_part =>
      match m.mapply_rows vals_part op with
      | none => none
      | some res =>
        block_matrix.mapply_rows_tall_loop vals op ms
          (st.1 + llen, st.2.1 ++ [res], st.2.2 ++ [(st.1, llen)])

/-- The method `block_matrix::mapply_rows(vals, op)`, returning the result
together with the segment `(start, length)` of `vals` that each member
received, in member order. -/
def block_matrix.mapply_rows_trace {α : Type} (self : block_matrix α) (vals : vector α)
    (op : bulk_operate α) : Option (dense_matrix α × List (Nat × Nat)) :=
  if !vals.in_mem then none
  else if (dense_matrix.block self).get_num_cols ≠ vals.length then none
  else if (dense_matrix.block self).is_wide then
    match all_non_null (self.store.mats.map fun m => m.mapply_rows vals op) with
    | none => none
    | some res_stores =>
      ((combined_matrix_store.create res_stores self.store.layout).bind
        block_matrix.create_of_store).map
          fun res => (res, self.store.mats.map fun _ => (0, vals.length))
  else
    match block_matrix.mapply_rows_tall_loop vals op self.store.mats (0, [], []) with
    | none => none
    | some st =>
      if st.1 = vals.length then
        ((combined_matrix_store.create st.2.1 self.store.layout).bind
          block_matrix.create_of_store).map fun res => (res, st.2.2)
      else none

/-- The method `block_matrix::mapply_rows`: the matrix it returns. -/
def block_matrix.mapply_rows {α : Type} (self : block_matrix α) (vals : vector α)
    (op : bulk_operate α) : Option (dense_matrix α) :=
  (self.mapply_rows_trace vals op).map fun st => st.1

/-- The virtual method `mapply_rows(vals, op)`: `matrix_store.mapply_rows` for an
ordinary matrix and `block_matrix::mapply_rows` for a block matrix. -/
def dense_matrix.mapply_rows {α : Type} : dense_matrix α → vector α → bulk_operate α →
    Option (dense_matrix α)
  | .plain s, vals, op => (s.mapply_rows vals op).map dense_matrix.plain
  | .block b, vals, op => b.mapply_rows vals op

/-- How a call ends: it returns a pointer, which may be null, or it calls a
method through a null pointer and so fails without returning. -/
inductive call_result (β : Type) where
  | returned (p : Option β)
  | null_deref

/-- The method `block_matrix::mapply_cols(vals, op)`:
`tmat->mapply_rows(vals, op)->transpose()` with `tmat = transpose()`.  Neither
`tmat` nor the result of `mapply_rows` is tested before a method is called
through it. -/
def block_matrix.mapply_cols {α : Type} (self : block_matrix α) (vals : vector α)
    (op : bulk_operate α) : call_result (dense_matrix α) :=
  match self.transpose with
  | none => .null_deref
  | some tmat =>
    match tmat.mapply_rows vals op with
    | none => .null_deref
    | some res => .returned res.transpose

/-- The virtual method `get_col(idx)`: `block_matrix::get_col` for a block matrix.
Modelled from the spec for an ordinary matrix, whose method is not among the
sources: the column of the store, for an index in range. -/
def dense_matrix.get_col {α : Type} : dense_matrix α → Int → Option (vector α)
  | .plain s, idx => if idx_out_of_bound idx s.num_cols then none else s.get_col_vec idx
  | .block b, idx => b.get_col idx

/-! ## Materialisation of a block matrix -/

/-- A member store together with its variant tag, as `materialize_self` sees it:
a `virtual` store is a lazy node, and `mat` is the matrix that the store holds
or evaluates to. -/
structure lazy_store (α : Type) where
  is_virtual : Bool
  mat : matrix_store α

/-- Modelled from the spec: `dense_matrix::materialize_self()` followed by
`get_raw_store()` on the façade of one member is not among the sources: "to
compute a virtual matrix's elements and replace its store with a concrete one";
"after the call `is_virtual() == false`". -/
def lazy_store.materialize {α : Type} (s : lazy_store α) : lazy_store α :=
  if s.is_virtual then { is_virtual := false, mat := s.mat } else s

/-- The state of a `block_matrix` that `materialize_self` works on: the block
size and the combined store, whose members may be lazy nodes. -/
structure lazy_block_matrix (α : Type) where
  block_size : Nat
  mats : List (lazy_store α)
  layout : matrix_layout_t

/-- The method `block_matrix::is_virtual`: the tag of member 0, which must exist. -/
def lazy_block_matrix.is_virtual {α : Type} (self : lazy_block_matrix α) : Option Bool :=
  (self.mats[0]?).map fun m => m.is_virtual

/-- The method `block_matrix::materialize_self`: the state of the block matrix
after the call.  Nothing happens when the matrix is not virtual; otherwise
every member is materialised and the store is replaced by the combined store of
the results, with the layout of `res_stores[0]`. -/
def lazy_block_matrix.materialize_self {α : Type} (self : lazy_block_matrix α) :
    Option (lazy_block_matrix α) :=
  match self.is_virtual with
  | none => none
  | some false => some self
  | some true =>
    let res_stores := self.mats.map lazy_store.materialize
    match res_stores[0]? with
    | none => none
    | some r0 => some { self with mats := res_stores, layout := r0.mat.layout }

/-! ## In-memory vectors (`mem_vector.cpp`) -/

/-- The backing store of a vector (`mem_dense_matrix`): a degenerate matrix whose
elements are contiguous.  `id` tells one allocation from another, so that two
vectors share a store exactly when they hold the same `id`; `raw` is the
content, in storage order. -/
structure mem_dense_matrix (α : Type) where
  id : Nat
  num_rows : Nat
  num_cols : Nat
  layout : matrix_layout_t
  type : scalar_type
  raw : List α

/-- The allocator of backing stores: the identifier that the next allocation
receives, and the largest number of elements that one allocation can get. -/
structure allocator where
  next_id : Nat
  limit : Nat

/-- Modelled from the spec: `mem_col_dense_matrix::create(nrow, ncol, type)` is not
among the sources: a new column-major store with uninitialised (here default)
content, or null when the memory cannot be had. -/
def mem_col_dense_matrix.create {α : Type} [Inhabited α] (a : allocator) (nrow ncol : Nat)
    (type : scalar_type) : Option (mem_dense_matrix α × allocator) :=
  if nrow * ncol ≤ a.limit then
    some ({ id := a.next_id, num_rows := nrow, num_cols := ncol, layout := .L_COL, type := type,
            raw := List.replicate (nrow * ncol) default },
          { a with next_id := a.next_id + 1 })
  else none

/-- The `n` elements of a store that start at element offset `pos`; a range that
leaves the store cannot be read. -/
def mem_dense_matrix.read {α : Type} (d : mem_dense_matrix α) (pos : Int) (n : Nat) :
    Option (List α) :=
  if 0 ≤ pos ∧ pos.toNat + n ≤ d.raw.length then some ((d.raw.drop pos.toNat).take n) else none

/-- The store after `src` was copied to element offset `pos`; a range that leaves
the store cannot be written. -/
def mem_dense_matrix.write {α : Type} (d : mem_dense_matrix α) (pos : Int) (src : List α) :
    Option (mem_dense_matrix α) :=
  if 0 ≤ pos ∧ pos.toNat + src.length ≤ d.raw.length then
    some { d with raw := d.raw.take pos.toNat ++ src ++ d.raw.drop (pos.toNat + src.length) }
  else none

/-- The function `get_matrix_raw_data`: the address of row 0 or column 0, which is
the start of the content (offset 0), and null for any other layout. -/
def get_matrix_raw_data {α : Type} (data : mem_dense_matrix α) : Option Int :=
  if data.layout = .L_ROW then some 0
  else if data.layout = .L_COL then some 0
  else none

/-- An in-memory vector (`mem_vector`): the length and the in-memory flag of the
base class `vector`, the `sorted` flag, the shared pointer `data` to the backing
store, and the pointer `arr` into it.  Pointers into a store are kept as element
offsets from the start of its content: the byte offsets of the source are these
times the entry size, and pointer arithmetic modulo `2 ^ 64` moves a pointer
by a signed number of elements. -/
structure mem_vector (α : Type) where
  length : Nat
  in_mem : Bool
  sorted : Bool
  data : mem_dense_matrix α
  arr : Int

/-- Modelled from the spec: `get_type()` of a vector is declared in a header that
is not among the sources; a vector has the element type of its backing store. -/
def mem_vector.get_type {α : Type} (v : mem_vector α) : scalar_type :=
  v.data.type

/-- Element `i` of a vector, read through `arr`. -/
def mem_vector.get {α : Type} (v : mem_vector α) (i : Nat) : Option α :=
  (v.data.read (v.arr + (i : Int)) 1).bind List.head?

/-- All the elements of a vector, in order. -/
def mem_vector.elems {α : Type} (v : mem_vector α) : Option (List α) :=
  v.data.read v.arr v.length

/-- The constructor `mem_vector(length, type)`: a vector over a new column store.
The store is used without a test for null. -/
def mem_vector.create {α : Type} [Inhabited α] (a : allocator) (length : Nat)
    (type : scalar_type) : Option (mem_vector α × allocator) :=
  match mem_col_dense_matrix.create a length 1 type with
  | none => none
  | some (tmp, a') =>
    some ({ length := length, in_mem := true, sorted := false, data := tmp, arr := 0 }, a')

/-- The method `mem_vector::resize(new_length)`: its return value, the vector and
the allocator after the call.  `vector::resize` of the base class sets the
length. -/
def mem_vector.resize {α : Type} [Inhabited α] (v : mem_vector α) (a : allocator)
    (new_length : Nat) : Option (Bool × mem_vector α × allocator) :=
  if new_length = v.length then some (true, v, a)
  else
    let tot_len := v.data.num_rows * v.data.num_cols
    if new_length < tot_len then some (true, { v with length := new_length }, a)
    else
      match mem_col_dense_matrix.create a new_length 1 v.get_type with
      | none => some (false, v, a)
      | some (tmp, a') =>
        match v.data.read v.arr (min v.length new_length) with
        | none => none
        | some old =>
          match tmp.write 0 old with
          | none => none
          | some data' =>
            some (true, { v with length := new_length, data := data', arr := 0 }, a')

/-- The method `mem_vector::set_sub_vec(start, vec)`: its return value and the
vector after the call.  The bound test adds the signed `start` to the unsigned
length. -/
def mem_vector.set_sub_vec {α : Type} (v : mem_vector α) (start : Int) (vec : mem_vector α) :
    Option (Bool × mem_vector α) :=
  if !vec.in_mem then some (false, v)
  else if v.get_type ≠ vec.get_type then some (false, v)
  else if (to_size_t start + vec.length) % 2 ^ 64 > v.length then some (false, v)
  else
    match vec.data.read vec.arr vec.length with
    | none => none
    | some src =>
      match v.data.write (v.arr + start) src with
      | none => none
      | some data' => some (true, { v with data := data' })

/-- The method `mem_vector::append(const vector &vec)`: its return value, the
vector and the allocator after the call.  The results of `resize` and of
`set_sub_vec` are not looked at. -/
def mem_vector.append {α : Type} [Inhabited α] (v : mem_vector α) (a : allocator)
    (vec : mem_vector α) : Option (Bool × mem_vector α × allocator) :=
  let loc : Int := to_off_t v.length
  match v.resize a ((vec.length + v.length) % 2 ^ 64) with
  | none => none
  | some (_, v1, a1) =>
    if (to_size_t loc + vec.length) % 2 ^ 64 ≤ v1.length then
      match v1.set_sub_vec loc vec with
      | none => none
      | some (_, v2) => some (true, v2, a1)
    else none

/-- The method `mem_vector::get_sub_vec(start, length)` (both overloads have this
body): the vector it returns, null when the bound test fails, and the allocator
after the call.  The shallow copy is resized and then pointed into the store of
the receiver, which is not modified. -/
def mem_vector.get_sub_vec {α : Type} [Inhabited α] (v : mem_vector α) (a : allocator)
    (start : Int) (length : Nat) : Option (Option (mem_vector α) × allocator) :=
  if (to_size_t start + length) % 2 ^ 64 > v.length then some (none, a)
  else
    match v.resize a length with
    | none => none
    | some (_, mem_vec, a') => some (some { mem_vec with arr := v.arr + start, data := v.data }, a')

/-- A vector in a consistent state: it is in memory, its backing store has as many
elements as its shape says, fewer than `2 ^ 63`, and the vector lies inside the
store. -/
structure mem_vector.well_formed {α : Type} (v : mem_vector α) : Prop where
  in_mem : v.in_mem = true
  store_len : v.data.raw.length = v.data.num_rows * v.data.num_cols
  arr_nonneg : 0 ≤ v.arr
  in_store : v.arr.toNat + v.length ≤ v.data.raw.length
  fits : v.data.raw.length < 2 ^ 63

/-! ## Group-by on in-memory vectors -/

/-- Modelled from the spec: the `find_next` aggregation of a type is not among the
sources: "given a sorted run, returns the length of the leading constant
prefix".  It reads the first element, which an empty run does not have. -/
def find_next {α : Type} [DecidableEq α] : List α → Option Nat
  | [] => none
  | x :: xs => some (1 + (xs.takeWhile fun y => decide (y = x)).length)

/-- A group operator (`gr_apply_operate<mem_vector>`) with one output element per
group (`get_num_out_eles() == 1`): the type of the keys, the type of the output,
and the output element computed from the key and the elements of the group. -/
structure gr_apply_operate (α : Type) where
  key_type : scalar_type
  output_type : scalar_type
  run : α → List α → α

/-- A data frame (`mem_data_frame`): named vectors, in the order they were added. -/
structure data_frame (α : Type) where
  vecs : List (String × mem_vector α)

/-- Modelled from the spec: `data_frame::add_vec(name, vec)` is not among the
sources; the vector becomes the last column. -/
def data_frame.add_vec {α : Type} (df : data_frame α) (name : String) (vec : mem_vector α) :
    data_frame α :=
  { vecs := df.vecs ++ [(name, vec)] }

/-- The column of a data frame with the given name. -/
def data_frame.get_vec {α : Type} (df : data_frame α) (name : String) :
    Option (mem_vector α) :=
  (df.vecs.find? fun c => c.1 == name).map fun c => c.2

/-- The method `mem_vector::verify_groupby`. -/
def mem_vector.verify_groupby {α : Type} (v : mem_vector α) (op : gr_apply_operate α) : Bool :=
  if op.key_type ≠ v.get_type then false else true

/-- The method `mem_vector::get_sub_start`: how many elements `arr` lies after the
start of the backing store. -/
def mem_vector.get_sub_start {α : Type} (v : mem_vector α) : Option Nat :=
  (get_matrix_raw_data v.data).map fun base => to_size_t (v.arr - base)

/-- The method `mem_vector::expose_sub_vec(start, length)`: its return value, the
vector and the allocator after the call.  A range that leaves the backing store
ends the process. -/
def mem_vector.expose_sub_vec {α : Type} [Inhabited α] (v : mem_vector α) (a : allocator)
    (start : Int) (length : Nat) : Option (Bool × mem_vector α × allocator) :=
  let tot_len := v.data.num_rows * v.data.num_cols
  if (to_size_t start + length) % 2 ^ 64 > tot_len then none
  else
    match v.resize a length with
    | none => none
    | some (_, v1, a1) =>
      match get_matrix_raw_data v1.data with
      | none => none
      | some base => some (true, { v1 with arr := base + start }, a1)

/-- Modelled from the spec: `mem_dense_matrix::deep_copy` is not among the sources:
a new store of the same shape and content. -/
def mem_dense_matrix.deep_copy {α : Type} (d : mem_dense_matrix α) (a : allocator) :
    Option (mem_dense_matrix α × allocator) :=
  if d.raw.length ≤ a.limit then
    some ({ d with id := a.next_id }, { a with next_id := a.next_id + 1 })
  else none

/-- The method `mem_vector::deep_copy`: the copy and the allocator after the call.
The vector must start at the beginning of its backing store (the assertion),
and the copy starts at the beginning of the new store. -/
def mem_vector.deep_copy {α : Type} (v : mem_vector α) (a : allocator) :
    Option (mem_vector α × allocator) :=
  if get_matrix_raw_data v.data ≠ some v.arr then none
  else
    match v.data.deep_copy a with
    | none => none
    | some (d, a') => some ({ v with data := d, arr := 0 }, a')

/-- Modelled from the spec: `vector::sort()` is declared in a header that is not
among the sources: the elements of the vector are put in non-decreasing order,
in place, and the vector is flagged as sorted. -/
def mem_vector.sort {α : Type} [LinearOrder α] (v : mem_vector α) : Option (mem_vector α) :=
  match v.elems with
  | none => none
  | some l =>
    (v.data.write v.arr (l.insertionSort fun x y => x ≤ y)).map fun d =>
      { v with data := d, sorted := true }

/-- The loop of `mem_vector::append(vec_it, vec_end)` that copies the vectors, on
the pair of `loc` and the receiver; the assertion must hold at each vector. -/
def mem_vector.append_range_loop {α : Type} :
    List (mem_vector α) → Int × mem_vector α → Option (Int × mem_vector α)
  | [], st => some st
  | it :: rest, st =>
    if (to_size_t st.1 + it.length) % 2 ^ 64 ≤ st.2.length then
      match st.2.set_sub_vec st.1 it with
      | none => none
      | some (_, v') =>
        mem_vector.append_range_loop rest (to_off_t ((to_size_t st.1 + it.length) % 2 ^ 64), v')
    else none

/-- The method `mem_vector::append(vec_it, vec_end)`: its return value, the vector
and the allocator after the call. -/
def mem_vector.append_range {α : Type} [Inhabited α] (v : mem_vector α) (a : allocator)
    (vecs : List (mem_vector α)) : Option (Bool × mem_vector α × allocator) :=
  if vecs.any fun it => !it.in_mem then some (false, v, a)
  else
    let tot_res_size := vecs.foldl (fun t it => (t + it.length) % 2 ^ 64) v.length
    let loc : Int := to_off_t v.length
    match v.resize a tot_res_size with
    | none => none
    | some (_, v1, a1) =>
      (mem_vector.append_range_loop vecs (loc, v1)).map fun st => (true, st.2, a1)

/-- Modelled from the spec: `data_frame::append(begin, end)` is not among the
sources: "results are concatenated", column by column, with
`mem_vector::append(vec_it, vec_end)`.  The loop over the columns that are
left; `done` are the columns already extended. -/
def data_frame.append_cols {α : Type} [Inhabited α] (others : List (data_frame α)) :
    List (String × mem_vector α) → List (String × mem_vector α) × allocator →
      Option (List (String × mem_vector α) × allocator)
  | [], st => some st
  | c :: cols, st =>
    match all_non_null (others.map fun df => df.get_vec c.1) with
    | none => none
    | some vecs =>
      match c.2.append_range st.2 vecs with
      | none => none
      | some (_, v', a') => data_frame.append_cols others cols (st.1 ++ [(c.1, v')], a')

/-- Modelled from the spec: `data_frame::append(begin, end)`; every frame in the
range is dereferenced. -/
def data_frame.append {α : Type} [Inhabited α] (df : data_frame α)
    (others : List (Option (data_frame α))) (a : allocator) :
    Option (data_frame α × allocator) :=
  match all_non_null others with
  | none => none
  | some dfs => (data_frame.append_cols dfs df.vecs ([], a)).map fun st => ({ vecs := st.1 }, st.2)

/-- The variables of the loop of `mem_vector::serial_groupby`; `val` is absent when
`with_val` is false. -/
structure groupby_state (α : Type) where
  loc : Nat
  idx : Nat
  copy : mem_vector α
  agg : mem_vector α
  val : Option (mem_vector α)
  alloc : allocator

/-- The statement `if (with_val && idx >= val->get_length())
val->resize(val->get_length() * 2);`. -/
def groupby_reserve_val {α : Type} [Inhabited α] (val : Option (mem_vector α)) (idx : Nat)
    (a : allocator) : Option (Option (mem_vector α) × allocator) :=
  match val with
  | none => some (none, a)
  | some v =>
    if idx ≥ v.length then
      (v.resize a (v.length * 2 % 2 ^ 64)).map fun r => (some r.2.1, r.2.2)
    else some (some v, a)

/-- The statement `if (with_val) memcpy(val->get(idx), curr_ptr,
get_entry_size());`. -/
def groupby_store_val {α : Type} (val : Option (mem_vector α)) (idx : Nat) (key : α) :
    Option (Option (mem_vector α)) :=
  match val with
  | none => some none
  | some v => (v.data.write (v.arr + (idx : Int)) [key]).map fun d => some { v with data := d }

/-- One iteration of the loop of `mem_vector::serial_groupby`. -/
def mem_vector.serial_groupby_step {α : Type} [Inhabited α] [DecidableEq α]
    (sorted_vec : mem_vector α) (op : gr_apply_operate α) (copy_sub_start : Int)
    (one_agg : mem_vector α) (st : groupby_state α) : Option (groupby_state α) :=
  let curr_length := sorted_vec.length - st.loc
  let curr_ptr := sorted_vec.arr + (st.loc : Int)
  match (sorted_vec.data.read curr_ptr curr_length).bind find_next with
  | none => none
  | some rel_end =>
    match groupby_reserve_val st.val st.idx st.alloc with
    | none => none
    | some (val1, a1) =>
      match st.copy.expose_sub_vec a1
          (to_off_t ((st.loc + to_size_t copy_sub_start) % 2 ^ 64)) rel_end with
      | none => none
      | some (_, copy1, a2) =>
        if copy1.data.id = sorted_vec.data.id ∧ copy1.arr = curr_ptr then
          match (sorted_vec.data.read curr_ptr 1).bind List.head?, copy1.elems with
          | some key, some grp =>
            match one_agg.data.write one_agg.arr [op.run key grp] with
            | none => none
            | some d =>
              match st.agg.append a2 { one_agg with data := d } with
              | none => none
              | some (_, agg1, a3) =>
                match groupby_store_val val1 st.idx key with
                | none => none
                | some val2 =>
                  some { loc := st.loc + rel_end, idx := st.idx + 1, copy := copy1,
                         agg := agg1, val := val2, alloc := a3 }
          | _, _ => none
        else none

/-- The loop `while (loc < sorted_vec->get_length())` of
`mem_vector::serial_groupby`, with a bound on the number of iterations. -/
def mem_vector.serial_groupby_loop {α : Type} [Inhabited α] [DecidableEq α]
    (sorted_vec : mem_vector α) (op : gr_apply_operate α) (copy_sub_start : Int)
    (one_agg : mem_vector α) : Nat → groupby_state α → Option (groupby_state α)
  | 0, st => if st.loc < sorted_vec.length then none else some st
  | fuel + 1, st =>
    if st.loc < sorted_vec.length then
      match sorted_vec.serial_groupby_step op copy_sub_start one_agg st with
      | none => none
      | some st' => mem_vector.serial_groupby_loop sorted_vec op copy_sub_start one_agg fuel st'
    else some st

/-- The start of `serial_groupby` and of `groupby`: the vector itself when it is
flagged as sorted, else a sorted deep copy. -/
def mem_vector.sorted_copy {α : Type} [LinearOrder α] (v : mem_vector α) (a : allocator) :
    Option (mem_vector α × allocator) :=
  if !v.sorted then
    match v.deep_copy a with
    | none => none
    | some (vec, a') => vec.sort.map fun s => (s, a')
  else some (v, a)

/-- The end of `serial_groupby`: `val` is cut to `idx` elements and the frame is
made of `val`, when asked for, and `agg`. -/
def groupby_frame {α : Type} [Inhabited α] (st : groupby_state α) :
    Option (data_frame α × allocator) :=
  match st.val with
  | none => some ((({ vecs := [] } : data_frame α).add_vec "agg" st.agg), st.alloc)
  | some val =>
    match val.resize st.alloc st.idx with
    | none => none
    | some (_, val', a') =>
      some (((({ vecs := [] } : data_frame α).add_vec "val" val').add_vec "agg" st.agg), a')

/-- The method `mem_vector::serial_groupby(op, with_val)`: the frame it returns,
null when the operator does not fit, and the allocator after the call.  The
loop advances by at least one element, so `get_length()` iterations are
enough. -/
def mem_vector.serial_groupby {α : Type} [Inhabited α] [LinearOrder α] (v : mem_vector α)
    (a : allocator) (op : gr_apply_operate α) (with_val : Bool) :
    Option (Option (data_frame α) × allocator) :=
  if !v.verify_groupby op then some (none, a)
  else
    match v.sorted_copy a with
    | none => none
    | some (sorted_vec, a1) =>
      match mem_vector.create a1 0 op.output_type with
      | none => none
      | some (agg, a2) =>
        match (if with_val then
                (mem_vector.create a2 16 v.get_type).map fun r => (some r.1, r.2)
               else some (none, a2)) with
        | none => none
        | some (val, a3) =>
          if !sorted_vec.in_mem then none
          else
            match sorted_vec.get_sub_start with
            | none => none
            | some sub_start =>
              match mem_vector.create a3 1 op.output_type with
              | none => none
              | some (one_agg, a4) =>
                match sorted_vec.serial_groupby_loop op (to_off_t sub_start) one_agg
                    sorted_vec.length
                    { loc := 0, idx := 0, copy := sorted_vec, agg := agg, val := val,
                      alloc := a4 } with
                | none => none
                | some st => (groupby_frame st).map fun r => (some r.1, r.2)

/-- The library function `std::unique` on a whole array: of each run of equal
neighbours the first is kept. -/
def unique : List Int → List Int
  | [] => []
  | [x] => [x]
  | x :: y :: rest => if x = y then unique (y :: rest) else x :: unique (y :: rest)

/-- The body of the first loop of `mem_vector::groupby`: the entry `par_starts[i]`,
the position after the run of equal elements that contains position
`get_length() / num_omp * i`. -/
def mem_vector.par_start_at {α : Type} [DecidableEq α] (sorted_vec : mem_vector α)
    (num_omp i : Nat) : Option Int :=
  let start := sorted_vec.length / num_omp * i
  ((sorted_vec.data.read (sorted_vec.arr + (start : Int)) (sorted_vec.length - start)).bind
    find_next).map fun (rel : Nat) => (rel : Int) + (start : Int)

/-- The array `par_starts` of `mem_vector::groupby` after the first loop and the
two assignments `par_starts[0] = 0` and `par_starts[num_omp] = get_length()`. -/
def mem_vector.par_starts {α : Type} [DecidableEq α] (sorted_vec : mem_vector α)
    (num_omp : Nat) : Option (List Int) :=
  (all_non_null ((List.range num_omp).map (sorted_vec.par_start_at num_omp))).map fun ps =>
    ((ps ++ [0]).set 0 0).set num_omp (sorted_vec.length : Int)

/-- The second loop of `mem_vector::groupby`, over the partitions `(start, end)`
that are left: the sub-vector is taken and grouped serially.  A null sub-vector
is dereferenced. -/
def mem_vector.groupby_parts {α : Type} [Inhabited α] [LinearOrder α]
    (sorted_vec : mem_vector α) (op : gr_apply_operate α) (with_val : Bool) :
    List (Int × Int) → allocator → Option (List (Option (data_frame α)) × allocator)
  | [], a => some ([], a)
  | p :: rest, a =>
    match sorted_vec.get_sub_vec a p.1 (to_size_t (p.2 - p.1)) with
    | some (some sub_vec, a1) =>
      if !sub_vec.in_mem then none
      else
        match sub_vec.serial_groupby a1 op with_val with
        | none => none
        | some (res, a2) =>
          (mem_vector.groupby_parts sorted_vec op with_val rest a2).map fun r =>
            (res :: r.1, r.2)
    | _ => none

/-- The method `mem_vector::groupby(op, with_val)` with `num_omp` worker threads:
the frame it returns and the allocator after the call.  The partitions are
independent of each other and are handled here one after the other. -/
def mem_vector.groupby {α : Type} [Inhabited α] [LinearOrder α] (v : mem_vector α)
    (a : allocator) (op : gr_apply_operate α) (with_val : Bool) (num_omp : Nat) :
    Option (Option (data_frame α) × allocator) :=
  if !v.verify_groupby op then some (none, a)
  else
    match v.sorted_copy a with
    | none => none
    | some (sorted_vec, a1) =>
      match sorted_vec.par_starts num_omp with
      | none => none
      | some par_starts =>
        if !is_sorted par_starts then none
        else
          let parts := unique par_starts
          let num_parts := parts.length - 1
          match sorted_vec.groupby_parts op with_val (parts.zip parts.tail) a1 with
          | none => none
          | some (sub_results, a2) =>
            match sub_results with
            | [] => none
            | ret :: rest =>
              if num_parts > 1 then
                match ret with
                | none => none
                | some df => (df.append rest a2).map fun r => (some r.1, r.2)
              else some (ret, a2)

/-- A list of runs with one more element in front: the element joins the first run
when it equals the elements of that run, and is a run of its own otherwise. -/
def runs_push {α : Type} [DecidableEq α] (x : α) : List (List α) → List (List α)
  | [] => [[x]]
  | g :: gs => if g.head? = some x then (x :: g) :: gs else [x] :: g :: gs

/-- The runs of equal neighbours of a list, in order: `[1, 1, 2, 2, 2, 3]` has the
runs `[1, 1]`, `[2, 2, 2]` and `[3]`. -/
def runs {α : Type} [DecidableEq α] : List α → List (List α)
  | [] => []
  | x :: xs => runs_push x (runs xs)

/-- The vector starts at the beginning of its backing store, has the element type
`t`, and its elements are those of `l`. -/
structure mem_vector.stores {α : Type} (v : mem_vector α) (l : List α) (t : scalar_type) :
    Prop where
  in_mem : v.in_mem = true
  type : v.data.type = t
  arr : v.arr = 0
  length : v.length = l.length
  store_len : v.data.raw.length = v.data.num_rows * v.data.num_cols
  room : l.length ≤ v.data.raw.length
  content : v.data.raw.take l.length = l

/-- The vector `val` of `serial_groupby` while it is filled: it spans its whole
store, which starts with the keys written so far, and has at most doubled past
them. -/
structure mem_vector.buffers {α : Type} (v : mem_vector α) (keys : List α) (t : scalar_type) :
    Prop where
  in_mem : v.in_mem = true
  type : v.data.type = t
  arr : v.arr = 0
  store_len : v.data.raw.length = v.data.num_rows * v.data.num_cols
  full : v.length = v.data.raw.length
  pos : 1 ≤ v.length
  room : keys.length ≤ v.length
  content : v.data.raw.take keys.length = keys
  bound : v.length ≤ max 16 (2 * keys.length)

/-- The vector is a view of the elements `l` of a backing store in `ROW` or `COL`
layout: it is in memory, lies inside the store, which has as many elements as
its shape says and fewer than `2 ^ 63`, and `l` are its elements. -/
structure mem_vector.views {α : Type} (v : mem_vector α) (l : List α) : Prop where
  in_mem : v.in_mem = true
  layout : v.data.layout = .L_ROW ∨ v.data.layout = .L_COL
  store_len : v.data.raw.length = v.data.num_rows * v.data.num_cols
  arr_nonneg : 0 ≤ v.arr
  in_store : v.arr.toNat + v.length ≤ v.data.raw.length
  fits : v.data.raw.length < 2 ^ 63
  content : (v.data.raw.drop v.arr.toNat).take v.length = l

/-- The state of the loop of `serial_groupby` (with `val`) after the runs `rs` of
the sorted vector `sv` have been handled: `agg` holds their outputs, `val` their
keys, and `copy` still points into the store of `sv`. -/
structure groupby_inv {α : Type} [Inhabited α] (sv : mem_vector α) (op : gr_apply_operate α)
    (limit : Nat) (st : groupby_state α) (rs : List (List α)) : Prop where
  idx : st.idx = rs.length
  idx_le : rs.length ≤ st.loc
  copy_data : st.copy.data = sv.data
  copy_len : st.loc = 0 → st.copy.length = sv.length
  agg : st.agg.stores (rs.map fun g => op.run (g.headD default) g) op.output_type
  val : ∃ val, st.val = some val ∧ val.buffers (rs.map fun g => g.headD default) sv.data.type
  limit : st.alloc.limit = limit

/-- Position `p` of the list ends a run that contains position `s`: the elements
from `s` up to `p` are equal, and the element at `p`, if there is one, is
another. -/
def ends_run_of {α : Type} (l : List α) (s p : Nat) : Prop :=
  s < p ∧ p ≤ l.length ∧ (∀ k, s ≤ k → k < p → l[k]? = l[s]?) ∧ (p < l.length → l[p]? ≠ l[s]?)

/-- Position `p` of the list is a place where the list can be cut between two
runs: an end of the list, or a place whose two neighbours differ. -/
def is_cut {α : Type} (l : List α) (p : Nat) : Prop :=
  p ≤ l.length ∧ (0 < p → p < l.length → l[p - 1]? ≠ l[p]?)


/-- The specification of the `val` column of a group-by: each distinct key of the
list once, in ascending order. -/
def distinct_keys {α : Type} [LinearOrder α] (l : List α) : List α :=
  (l.insertionSort fun x y => x ≤ y).dedup

/-! ## Sequences (`create_vector<double>` and `R_FM_create_seq`) -/

/-- The conversion of a `double` to `long` in `long n = ...`: the fractional part
is discarded, so the value is rounded toward zero.  The `double` is an exact
rational here. -/
def double_to_long (x : ℚ) : Int :=
  if 0 ≤ x then ⌊x⌋ else ⌈x⌉

/-- The small number `1e-9` that both sequence constructors add before the
conversion. -/
def seq_epsilon : ℚ := 1 / 1000000000

/-- The kernel `seq_set_operate<T>::set(raw_arr, num_eles, row_idx, col_idx)`: the
array receives `start + row_idx * stride` and then each time `stride` more. -/
def seq_set_operate_set (start stride : ℚ) (row_idx : Int) : Nat → List ℚ
  | 0 => []
  | num_eles + 1 =>
    (start + (row_idx : ℚ) * stride)
      :: (seq_set_operate_set (start + stride) stride row_idx num_eles)

/-- Modelled from the spec: `mem_dense_matrix::set_data(op)` is not among the
sources: the kernel initialises the whole of the single column, from row 0. -/
def mem_dense_matrix.set_data_seq (d : mem_dense_matrix ℚ) (start stride : ℚ) :
    Option (mem_dense_matrix ℚ) :=
  d.write 0 (seq_set_operate_set start stride 0 (d.num_rows * d.num_cols))

/-- The function `create_vector<double>(start, end, stride)`: the vector it returns,
null when the count is negative, and the allocator after the call. -/
def create_vector_double (a : allocator) (start end_ stride : ℚ) :
    Option (Option (mem_vector ℚ) × allocator) :=
  let n : Int := double_to_long ((end_ - start) / stride + seq_epsilon)
  if n < 0 then some (none, a)
  else
    let n := n + 1
    match mem_vector.create a (to_size_t n) .T_DOUBLE with
    | none => none
    | some (v, a') =>
      (v.data.set_data_seq start stride).map fun d => (some { v with data := d }, a')

/-- The function `R_FM_create_seq(pfrom, pto, pby)`: the store of the vector handed
to R, null (`R_NilValue`) when an argument is not a number or the count is
negative, and the allocator after the call. -/
def R_FM_create_seq (a : allocator) (pfrom pto pby : Option ℚ) :
    Option (Option (mem_dense_matrix ℚ) × allocator) :=
  match pfrom, pto, pby with
  | some start, some stop, some stride =>
    let n : Int := double_to_long ((stop - start) / stride + seq_epsilon)
    if n < 0 then some (none, a)
    else
      let n := n + 1
      match mem_vector.create a (to_size_t n) .T_DOUBLE with
      | none => none
      | some (v, a') => (v.data.set_data_seq start stride).map fun m => (some m, a')
  | _, _, _ => some (none, a)

/-- Both sequence constructors return a vector of the `n` elements
`start + i * stride`. -/
def seq_returned (a : allocator) (start end_ stride : ℚ) (n : Nat) : Prop :=
  (∃ v a' l, create_vector_double a start end_ stride = some (some v, a')
      ∧ v.length = n ∧ v.elems = some l ∧ l.length = n
      ∧ ∀ i, i < n → l[i]? = some (start + (i : ℚ) * stride))
  ∧ ∃ m a', R_FM_create_seq a (some start) (some end_) (some stride) = some (some m, a')
      ∧ m.num_rows = n ∧ m.num_cols = 1 ∧ m.raw.length = n
      ∧ ∀ i, i < n → m.raw[i]? = some (start + (i : ℚ) * stride)

/-- Both sequence constructors fail: they return null. -/
def seq_failed (a : allocator) (start end_ stride : ℚ) : Prop :=
  create_vector_double a start end_ stride = some (none, a)
  ∧ R_FM_create_seq a (some start) (some end_) (some stride) = some (none, a)

/-! ## The kernels of the R interface (`matrix_interface.cpp`) -/

/-- A table of kernels (`basic_ops`): the two entries that the R interface asks
for. -/
structure basic_ops (α : Type) where
  multiply : bulk_operate α
  add : bulk_operate α

/-- Modelled from the spec: the class template
`basic_ops_impl<LeftType, RightType, ResType>` is declared in a header that is
not among the sources: every kernel of the table takes a `LeftType` and a
`RightType` element and gives a `ResType` element. -/
def basic_ops_impl {α : Type} [Add α] [Mul α] (left right res : scalar_type) : basic_ops α :=
  { multiply := { left_entry_size := left.get_size, right_entry_size := right.get_size,
                  output_entry_size := res.get_size, output_type := res,
                  run := fun a b => a * b },
    add := { left_entry_size := left.get_size, right_entry_size := right.get_size,
             output_entry_size := res.get_size, output_type := res,
             run := fun a b => a + b } }

/-- The table `basic_ops_impl<int, int, int> R_basic_ops_II`. -/
def R_basic_ops_II {α : Type} [Add α] [Mul α] : basic_ops α :=
  basic_ops_impl .T_INT .T_INT .T_INT

/-- The table `basic_ops_impl<double, int, double> R_basic_ops_DI`. -/
def R_basic_ops_DI {α : Type} [Add α] [Mul α] : basic_ops α :=
  basic_ops_impl .T_DOUBLE .T_INT .T_DOUBLE

/-- The table `basic_ops_impl<int, double, double> R_basic_ops_ID`. -/
def R_basic_ops_ID {α : Type} [Add α] [Mul α] : basic_ops α :=
  basic_ops_impl .T_INT .T_DOUBLE .T_DOUBLE

/-- The table `basic_ops_impl<double, double, double> R_basic_ops_DD`. -/
def R_basic_ops_DD {α : Type} [Add α] [Mul α] : basic_ops α :=
  basic_ops_impl .T_DOUBLE .T_DOUBLE .T_DOUBLE

/-- The function `get_inner_prod_left_ops(left, right)`, with `sizeof(int) = 4` and
`sizeof(double) = 8`; any other pair of sizes aborts. -/
def get_inner_prod_left_ops {α : Type} [Add α] [Mul α] (left right : dense_matrix α) :
    Option (basic_ops α) :=
  if left.get_entry_size = 4 ∧ right.get_entry_size = 4 then some R_basic_ops_II
  else if left.get_entry_size = 8 ∧ right.get_entry_size = 4 then some R_basic_ops_DI
  else if left.get_entry_size = 4 ∧ right.get_entry_size = 8 then some R_basic_ops_ID
  else if left.get_entry_size = 8 ∧ right.get_entry_size = 8 then some R_basic_ops_DD
  else none

/-- The function `get_inner_prod_right_ops(left_ops)`; an output size other than 4
and 8 aborts. -/
def get_inner_prod_right_ops {α : Type} [Add α] [Mul α] (left_ops : bulk_operate α) :
    Option (basic_ops α) :=
  if left_ops.output_entry_size = 4 then some R_basic_ops_II
  else if left_ops.output_entry_size = 8 then some R_basic_ops_DD
  else none

/-- The two kernels `left_op` and `right_op` that `R_FM_multiply_dense` builds for
its operands. -/
def R_FM_multiply_dense_ops {α : Type} [Add α] [Mul α] (matrix right_mat : dense_matrix α) :
    Option (bulk_operate α × bulk_operate α) :=
  match get_inner_prod_left_ops matrix right_mat with
  | none => none
  | some left_ops =>
    let left_op := left_ops.multiply
    match get_inner_prod_right_ops left_op with
    | none => none
    | some right_ops => some (left_op, right_ops.add)

/-- Modelled from the spec: the virtual call `matrix->inner_prod(right, left_op,
right_op)` with the default output layout; the method of an ordinary matrix
and `block_matrix::inner_prod` are not among the sources. -/
def dense_matrix.inner_prod {α : Type} [Inhabited α] [Add α] [Mul α] (self m : dense_matrix α)
    (left_op right_op : bulk_operate α) : Option (dense_matrix α) :=
  match self with
  | .plain s => (s.inner_prod m left_op right_op .L_NONE).map fun r => .plain r
  | .block b => b.inner_prod m left_op right_op .L_NONE

/-- The function `R_FM_multiply_dense(pmatrix, pmat)` on the two matrices behind
its arguments: the product handed to R, or null (`R_NilValue`). -/
def R_FM_multiply_dense {α : Type} [Inhabited α] [Add α] [Mul α]
    (matrix right_mat : dense_matrix α) : Option (Option (dense_matrix α)) :=
  match R_FM_multiply_dense_ops matrix right_mat with
  | none => none
  | some (left_op, right_op) => some (matrix.inner_prod right_mat left_op right_op)

/-! ## Gathering elements by index (`mem_vector::get(idxs)`) -/

/-- The range test of `mem_vector::get(idxs)`, written
`idx < 0 && idx >= this->get_length()`: in the second comparison the signed
`idx` is converted to the unsigned type of the length. -/
def mem_vector.idx_out_of_range {α : Type} (v : mem_vector α) (idx : Int) : Bool :=
  decide (idx < 0) && decide (to_size_t idx ≥ v.length)

/-- One iteration of the loop of `mem_vector::get(idxs)`: the vector `ret` after
it.  An index that the range test catches is skipped and leaves its element as
it was; any other index is read through `arr`. -/
def mem_vector.get_idxs_step {α : Type} (v : mem_vector α) (idxs : mem_vector Int)
    (ret : mem_vector α) (i : Nat) : Option (mem_vector α) :=
  match idxs.get i with
  | none => none
  | some idx =>
    if v.idx_out_of_range idx then some ret
    else
      match v.data.read (v.arr + idx) 1 with
      | none => none
      | some src =>
        (ret.data.write (ret.arr + (i : Int)) src).map fun d => { ret with data := d }

/-- The loop of `mem_vector::get(idxs)` over the positions that are left.  The
iterations are independent of each other and are run here in order. -/
def mem_vector.get_idxs_loop {α : Type} (v : mem_vector α) (idxs : mem_vector Int) :
    List Nat → mem_vector α → Option (mem_vector α)
  | [], ret => some ret
  | i :: rest, ret =>
    match v.get_idxs_step idxs ret i with
    | none => none
    | some ret' => mem_vector.get_idxs_loop v idxs rest ret'

/-- The method `mem_vector::get(const mem_vector &idxs)`: the vector it returns,
null when the indices are not of the type `off_t`, and the allocator after the
call. -/
def mem_vector.get_idxs {α : Type} [Inhabited α] (v : mem_vector α) (a : allocator)
    (idxs : mem_vector Int) : Option (Option (mem_vector α) × allocator) :=
  if idxs.get_type ≠ .T_LONG then some (none, a)
  else
    match mem_vector.create a idxs.length v.get_type with
    | none => none
    | some (ret, a') =>
      (mem_vector.get_idxs_loop v idxs (List.range idxs.length) ret).map fun r => (some r, a')

/-! ## Scan statistics (`scan_graph.cpp`) -/

/-- The constant `BIN_SEARCH_RATIO`, a `double` with the value 100; the quotients
that are compared with it are whole numbers. -/
def BIN_SEARCH_RATIO : Nat := 100

/-- The method `std::set<vertex_id_t>::insert` on a set that is held as the list of
its elements in ascending order, the order in which its iterator visits them. -/
def set_insert (x : Nat) : List Nat → List Nat
  | [] => [x]
  | y :: ys =>
    if x < y then x :: y :: ys
    else if x = y then y :: ys
    else y :: set_insert x ys

/-- The test `s->find(x) != s->end()` on a set. -/
def set_contains (s : List Nat) (x : Nat) : Bool :=
  decide (x ∈ s)

/-- Modelled from the spec: `TS_page_vertex` is declared in a header that is not
among the sources: a vertex with its id and, for every timestamp, the list of
its neighbours over which `get_neigh_begin` and `get_neigh_end` (with
`BOTH_EDGES`) iterate. -/
structure TS_page_vertex where
  id : Nat
  neigh : Int → List Nat

/-- Modelled from the spec: `get_num_edges(timestamp, BOTH_EDGES)`, the number of
neighbours in the list of the timestamp. -/
def TS_page_vertex.get_num_edges (v : TS_page_vertex) (timestamp : Int) : Nat :=
  (v.neigh timestamp).length

/-- The state of a `scan_vertex`: its id, the counters, and the two neighbour
sets, which are null pointers outside a computation.  The counters are not
bounded here. -/
structure scan_vertex where
  id : Nat
  num_joined : Int
  fetch_it : Nat
  num_edges1 : Int
  num_edges2 : Int
  neighbors1 : Option (List Nat)
  neighbors2 : Option (List Nat)

/-- The first loop of `scan_vertex::run`: the set `neighbors1`. -/
def scan_vertex.build_neighbors1 (ts_vertex : TS_page_vertex) (timestamp1 : Int) : List Nat :=
  (ts_vertex.neigh timestamp1).foldl
    (fun s id => if id ≠ ts_vertex.id then set_insert id s else s) []

/-- The second loop of `scan_vertex::run`: the set `neighbors2`, with the test
`id != ts_vertex->get_id() || neighbors1->find(id) != neighbors1->end()`. -/
def scan_vertex.build_neighbors2 (ts_vertex : TS_page_vertex) (timestamp2 : Int)
    (neighbors1 : List Nat) : List Nat :=
  (ts_vertex.neigh timestamp2).foldl
    (fun s id => if id ≠ ts_vertex.id ∨ set_contains neighbors1 id = true then set_insert id s
      else s) []

/-- The method `scan_vertex::run(graph, vertex)` for the two timestamps of the
program: the state after the call, when the three assertions hold. -/
def scan_vertex.run (self : scan_vertex) (ts_vertex : TS_page_vertex)
    (timestamp1 timestamp2 : Int) : Option scan_vertex :=
  if self.neighbors1 ≠ none ∨ self.neighbors2 ≠ none ∨ self.num_joined ≠ 0 then none
  else if ts_vertex.get_num_edges timestamp1 = 0 then some self
  else
    let neighbors1 := scan_vertex.build_neighbors1 ts_vertex timestamp1
    let neighbors2 := scan_vertex.build_neighbors2 ts_vertex timestamp2 neighbors1
    some { self with neighbors1 := some neighbors1, neighbors2 := some neighbors2,
                     fetch_it := 0,
                     num_edges1 := self.num_edges1 + (neighbors1.length : Int),
                     num_edges2 := self.num_edges2 + (neighbors2.length : Int) }

/-- The library function `std::lower_bound(first, last, value)`: the position of
the first element that is not less than `value`, which is `last` when there is
none, for a range whose elements less than `value` come first, as in a sorted
range. -/
def lower_bound (l : List Nat) (value : Nat) : Nat :=
  (l.takeWhile fun y => decide (y < value)).length

/-- An integer division; the divisor 0 ends the process. -/
def checked_div (a b : Nat) : Option Nat :=
  if b = 0 then none else some (a / b)

/-- The first branch of `scan_vertex::count_edges`: a binary search in the edge
list for every element of the set. -/
def count_edges_bin_search (v_id this_id : Nat) (edges neighbors : List Nat) : Nat :=
  neighbors.foldl
    (fun num_local_edges this_neighbor =>
      if this_neighbor ≠ v_id ∧ this_neighbor ≠ this_id then
        let first := lower_bound edges this_neighbor
        if first ≠ edges.length ∧ edges[first]? = some this_neighbor then num_local_edges + 1
        else num_local_edges
      else num_local_edges) 0

/-- The second branch of `scan_vertex::count_edges`: a lookup in the set for every
element of the edge list. -/
def count_edges_lookup (v_id this_id : Nat) (edges neighbors : List Nat) : Nat :=
  edges.foldl
    (fun num_local_edges neigh_neighbor =>
      if neigh_neighbor ≠ v_id ∧ neigh_neighbor ≠ this_id then
        if set_contains neighbors neigh_neighbor = true then num_local_edges + 1
        else num_local_edges
      else num_local_edges) 0

/-- The third branch of `scan_vertex::count_edges`: the loop that walks the set and
the edge list together, with a bound on the number of iterations. -/
def count_edges_merge (v_id this_id : Nat) : Nat → List Nat → List Nat → Nat → Option Nat
  | 0, this_it, other_it, num_local_edges =>
    match this_it, other_it with
    | _ :: _, _ :: _ => none
    | _, _ => some num_local_edges
  | fuel + 1, this_it, other_it, num_local_edges =>
    match this_it, other_it with
    | this_neighbor :: this_rest, neigh_neighbor :: other_rest =>
      if this_neighbor = neigh_neighbor then
        count_edges_merge v_id this_id fuel this_rest other_rest
          (if neigh_neighbor ≠ v_id ∧ neigh_neighbor ≠ this_id then num_local_edges + 1
           else num_local_edges)
      else if this_neighbor < neigh_neighbor then
        count_edges_merge v_id this_id fuel this_rest other_it num_local_edges
      else count_edges_merge v_id this_id fuel this_it other_rest num_local_edges
    | _, _ => some num_local_edges

/-- The method `scan_vertex::count_edges(v, neighbors, timestamp)`.  Each iteration
of the third loop advances in the set or in the edge list, so as many
iterations as both have elements are enough. -/
def scan_vertex.count_edges (self : scan_vertex) (v : TS_page_vertex) (neighbors : List Nat)
    (timestamp : Int) : Option Nat :=
  if v.get_num_edges timestamp = 0 ∨ neighbors.isEmpty = true then some 0
  else
    match checked_div (v.get_num_edges timestamp) neighbors.length with
    | none => none
    | some q1 =>
      if q1 > BIN_SEARCH_RATIO then
        some (count_edges_bin_search v.id self.id (v.neigh timestamp) neighbors)
      else
        match checked_div neighbors.length (v.get_num_edges timestamp) with
        | none => none
        | some q2 =>
          if q2 > BIN_SEARCH_RATIO then
            some (count_edges_lookup v.id self.id (v.neigh timestamp) neighbors)
          else
            count_edges_merge v.id self.id (neighbors.length + (v.neigh timestamp).length)
              neighbors (v.neigh timestamp) 0

/-- The specification of `count_edges`: the number of ids that are in the set and
in the edge list and are neither the id of the neighbour nor the id of the
vertex itself. -/
def common_edges (v_id this_id : Nat) (edges neighbors : List Nat) : Nat :=
  (neighbors.filter fun x => decide (x ∈ edges ∧ x ≠ v_id ∧ x ≠ this_id)).length

/-! ## The indices of `block_matrix::inner_prod_tall` -/

/-- The index `i = m2_row / block_size` and the count `part_num_rows` of every
iteration of the loop over `m2_row` in `block_matrix::inner_prod_tall`, in the
order of the iterations. -/
def block_matrix.tall_row_steps {α : Type} (self : block_matrix α) (mem_m2 : matrix_store α) :
    Option (List (Nat × Nat)) :=
  (for_range mem_m2.num_rows 0 mem_m2.num_rows self.block_size).map fun m2_rows =>
    m2_rows.map fun m2_row =>
      (m2_row / self.block_size, min self.block_size (mem_m2.num_rows - m2_row))

/-- The vector `tmp_mats` of `block_matrix::inner_prod_tall` after the loop over
`m2_row` for the output column block that starts at `m2_col`. -/
def block_matrix.tall_tmp_mats {α : Type} [Inhabited α] [Add α] [Mul α] (self : block_matrix α)
    (mem_m2 : matrix_store α) (left_op : Option (bulk_operate α)) (right_op : bulk_operate α)
    (out_layout : matrix_layout_t) (m2_col : Nat) : Option (List (Option (matrix_store α))) :=
  match for_range mem_m2.num_rows 0 mem_m2.num_rows self.block_size with
  | none => none
  | some m2_rows =>
    fill_loop (fun m2_row => m2_row / self.block_size)
      (self.tall_tmp_mat mem_m2 left_op right_op out_layout m2_col) m2_rows
      (List.replicate self.store.get_num_mats none)

/-- The vector `res_blocks` of `block_matrix::inner_prod_tall` after the loop over
`m2_col`. -/
def block_matrix.tall_res_blocks {α : Type} [Inhabited α] [Add α] [Mul α]
    (self : block_matrix α) (mem_m2 : matrix_store α) (left_op : Option (bulk_operate α))
    (right_op : bulk_operate α) (out_layout : matrix_layout_t) :
    Option (List (Option (matrix_store α))) :=
  match for_range mem_m2.num_cols 0 mem_m2.num_cols self.block_size with
  | none => none
  | some m2_cols =>
    fill_loop (fun m2_col => m2_col / self.block_size)
      (self.tall_res_block mem_m2 left_op right_op out_layout) m2_cols
      (List.replicate (div_ceil mem_m2.num_cols self.block_size) none)

/-! ## The distance matrix of k-means (`dist_matrix.h`) -/

/-- The constant `std::numeric_limits<double>::max()`, the largest finite `double`.
The distances are only stored and read back, so they are held as exact
rationals. -/
def DBL_MAX : ℚ := (2 ^ 53 - 1) * 2 ^ 971

/-- A `dist_matrix`: the rows `mat` of the upper triangle and the field `rows`. -/
structure dist_matrix where
  mat : List (List ℚ)
  rows : Nat

/-- The loop `for (unsigned i = this->rows; i > 0; i--)` of the constructor: a row
of `i` entries `max()` is pushed for `i` from the start value down to 1. -/
def dist_matrix.init_rows : Nat → List (List ℚ)
  | 0 => []
  | i + 1 => List.replicate (i + 1) DBL_MAX :: dist_matrix.init_rows i

/-- The constructor `dist_matrix(rows)` behind `create`; `BOOST_VERIFY(rows > 1)`
ends the process otherwise. -/
def dist_matrix.create (rows : Nat) : Option dist_matrix :=
  if rows > 1 then some { rows := rows - 1, mat := dist_matrix.init_rows (rows - 1) }
  else none

/-- The method `translate(row, col)`, on `unsigned` numbers of 32 bits: the two
numbers after the call, when both verifications pass. -/
def dist_matrix.translate (dm : dist_matrix) (row col : Nat) : Option (Nat × Nat) :=
  let smaller := if row > col then col else row
  let larger := if row > col then row else col
  if ¬ smaller < dm.rows then none
  else
    let translated := (larger + 2 ^ 32 - smaller - 1) % 2 ^ 32
    if ¬ translated < (dm.rows + 2 ^ 32 - smaller) % 2 ^ 32 then none
    else some (smaller, translated)

/-- The method `get(row, col)`; an index outside `mat` cannot be read. -/
def dist_matrix.get (dm : dist_matrix) (row col : Nat) : Option ℚ :=
  if row = col then some DBL_MAX
  else
    match dm.translate row col with
    | none => none
    | some (r, c) => (dm.mat[r]?).bind fun entries => entries[c]?

/-- The method `set(row, col, val)`: the matrix after the call; `BOOST_VERIFY(row
!= col)` ends the process otherwise, and an index outside `mat` cannot be
written. -/
def dist_matrix.set (dm : dist_matrix) (row col : Nat) (val : ℚ) : Option dist_matrix :=
  if row = col then none
  else
    match dm.translate row col with
    | none => none
    | some (r, c) =>
      match dm.mat[r]? with
      | none => none
      | some entries =>
        if c < entries.length then some { dm with mat := dm.mat.set r (entries.set c val) }
        else none

/-- A sequence of calls `set(i, j, v)`, one after the other. -/
def dist_matrix.set_all (dm : dist_matrix) : List (Nat × Nat × ℚ) → Option dist_matrix
  | [] => some dm
  | op :: ops =>
    match dm.set op.1 op.2.1 op.2.2 with
    | none => none
    | some dm' => dist_matrix.set_all dm' ops

/-- The value that a symmetric map on unordered pairs holds for the pair of `p` and
`q` after the calls `set(i, j, v)` of the list, when it held `cur` before: the
value of the last call for this pair, in either order. -/
def pair_value (p q : Nat) (cur : ℚ) (ops : List (Nat × Nat × ℚ)) : ℚ :=
  ops.foldl
    (fun cur op => if (op.1 = p ∧ op.2.1 = q) ∨ (op.1 = q ∧ op.2.1 = p) then op.2.2 else cur)
    cur

/-- The triangular storage of a matrix for `k` ids: `k - 1` rows, of which row `r`
has `k - 1 - r` entries. -/
structure dist_matrix.shaped (dm : dist_matrix) (k : Nat) : Prop where
  rows : dm.rows = k - 1
  shape : dm.mat.map List.length = (List.range (k - 1)).map fun r => k - 1 - r

/-- The storage is triangular and holds the value `f p q` for every pair of ids
`p < q` below `k`, at entry `q - p - 1` of row `p`. -/
structure dist_matrix.holds (dm : dist_matrix) (k : Nat) (f : Nat → Nat → ℚ) : Prop where
  shaped : dm.shaped k
  cell : ∀ p q, p < q → q < k → (dm.mat[p]?).bind (fun entries => entries[q - p - 1]?) = some (f p q)

/-! ## Concrete inputs used by the closed statements -/

/-- A one-by-one integer store holding `v`. -/
def int_cell (v : Int) : matrix_store Int :=
  { num_rows := 1, num_cols := 1, layout := .L_COL, type := .T_INT, get := fun _ _ => v }

/-- The kernel that returns its left operand: associative, not commutative. -/
def take_left_op : bulk_operate Int :=
  { left_entry_size := 4, right_entry_size := 4, output_entry_size := 4,
    output_type := .T_INT, run := fun a _ => a }

/-- The initialiser that writes `10 * row + col`. -/
def seq_init : set_operate Int :=
  { set := fun r c => 10 * (r : Int) + (c : Int) }

/-- A tall 3-by-2 block matrix of block size 1: two column blocks. -/
def tall_3x2 : block_matrix Int :=
  { block_size := 1,
    store := { mats := [matrix_store.create 3 1 .L_COL .T_INT seq_init,
                        matrix_store.create 3 1 .L_COL .T_INT
                          { set := fun r c => 10 * (r : Int) + (c : Int) + 1 }],
               layout := .L_COL } }

/-- The tall 3-by-2 matrix of `tall_3x2` as a block matrix of block size 2: one
column block. -/
def tall_3x2_one_block : block_matrix Int :=
  { block_size := 2,
    store := { mats := [matrix_store.create 3 2 .L_COL .T_INT seq_init], layout := .L_COL } }

/-- An ordinary 2-by-2 integer matrix, `[[5, 6], [7, 8]]`. -/
def mat_5678 : dense_matrix Int :=
  .plain (matrix_store.create 2 2 .L_COL .T_INT
    { set := fun r c => 5 + 2 * (r : Int) + (c : Int) })

/-- The matrix `[[1, 2], [3, 4]]` of doubles as a block matrix of block size 1:
two row blocks.  The values are whole numbers, held exactly. -/
def dbl_1234 : block_matrix Int :=
  { block_size := 1,
    store := { mats := [matrix_store.create 1 2 .L_ROW .T_DOUBLE
                          { set := fun _ c => 1 + (c : Int) },
                        matrix_store.create 1 2 .L_ROW .T_DOUBLE
                          { set := fun _ c => 3 + (c : Int) }],
               layout := .L_ROW } }

/-- The matrix `[[5, 6], [7, 8]]` of doubles. -/
def dbl_5678 : dense_matrix Int :=
  .plain (matrix_store.create 2 2 .L_ROW .T_DOUBLE
    { set := fun r c => 5 + 2 * (r : Int) + (c : Int) })

/-- The 2-by-3 matrix `[[0, 1, 2], [3, 4, 5]]` of doubles. -/
def dbl_2x3 : dense_matrix Int :=
  .plain (matrix_store.create 2 3 .L_ROW .T_DOUBLE
    { set := fun r c => 3 * (r : Int) + (c : Int) })

/-- The in-memory integer vector `[100, 200]`. -/
def vec_100_200 : vector Int :=
  { length := 2, type := .T_INT, in_mem := true, get := fun i => 100 * ((i : Int) + 1) }

/-- A block matrix of two lazy members that evaluate to the columns of
`[[0, 1], [10, 11], [20, 21]]`. -/
def lazy_3x2 : lazy_block_matrix Int :=
  { block_size := 1,
    mats := [{ is_virtual := true, mat := matrix_store.create 3 1 .L_COL .T_INT seq_init },
             { is_virtual := true,
               mat := matrix_store.create 3 1 .L_COL .T_INT
                 { set := fun r c => 10 * (r : Int) + (c : Int) + 1 } }],
    layout := .L_COL }

/-- An allocator with room for stores of up to 1000 elements. -/
def alloc_1000 : allocator :=
  { next_id := 1, limit := 1000 }

/-- The integer vector `[10, 20, 30, 40]`, which owns the whole of store 0. -/
def vec_10_40 : mem_vector Int :=
  { length := 4, in_mem := true, sorted := false,
    data := { id := 0, num_rows := 4, num_cols := 1, layout := .L_COL, type := .T_INT,
              raw := [10, 20, 30, 40] },
    arr := 0 }

/-- The vector `[7]` of doubles, over store 5.  The value is a whole number, held
exactly. -/
def dbl_vec_7 : mem_vector Int :=
  { length := 1, in_mem := true, sorted := false,
    data := { id := 5, num_rows := 1, num_cols := 1, layout := .L_COL, type := .T_DOUBLE,
              raw := [7] },
    arr := 0 }

/-- The operator `SUM` on integer keys: the sum of the elements of the group. -/
def sum_op : gr_apply_operate Int :=
  { key_type := .T_INT, output_type := .T_INT, run := fun _ grp => grp.sum }

/-- An operator on integer keys that emits the size of its group. -/
def count_op : gr_apply_operate Int :=
  { key_type := .T_INT, output_type := .T_INT, run := fun _ grp => (grp.length : Int) }

/-- The integer vector `[1, 1, 2, 2, 2, 3]` of the scenario, flagged as sorted. -/
def keys_112223 : mem_vector Int :=
  { length := 6, in_mem := true, sorted := true,
    data := { id := 0, num_rows := 6, num_cols := 1, layout := .L_COL, type := .T_INT,
              raw := [1, 1, 2, 2, 2, 3] },
    arr := 0 }

/-- The integer vector `[3, 1, 2]`, not sorted, which owns the whole of store 0. -/
def keys_312 : mem_vector Int :=
  { length := 3, in_mem := true, sorted := false,
    data := { id := 0, num_rows := 3, num_cols := 1, layout := .L_COL, type := .T_INT,
              raw := [3, 1, 2] },
    arr := 0 }

/-- The last two elements `[1, 2]` of the vector `[3, 1, 2]`, as a view of its
store. -/
def view_12 : mem_vector Int :=
  { length := 2, in_mem := true, sorted := false,
    data := { id := 0, num_rows := 3, num_cols := 1, layout := .L_COL, type := .T_INT,
              raw := [3, 1, 2] },
    arr := 1 }

/-- The 2x3 matrix `[[1, 2, 3], [4, 5, 6]]` of doubles (whole numbers, held
exactly). -/
def dbl_2x3_store : matrix_store Int :=
  { num_rows := 2, num_cols := 3, layout := .L_ROW, type := .T_DOUBLE,
    get := fun r c => (3 * r + c + 1 : Nat) }

/-- The 3x1 matrix `[[1], [0], [2]]` of ints. -/
def int_3x1_store : matrix_store Int :=
  { num_rows := 3, num_cols := 1, layout := .L_COL, type := .T_INT,
    get := fun r _ => if r = 0 then 1 else if r = 1 then 0 else 2 }

/-- The first two elements `[10, 20]` of the vector `[10, 20, 30, 40]`, as a view
of its store. -/
def view_10_20 : mem_vector Int :=
  { length := 2, in_mem := true, sorted := false,
    data := { id := 0, num_rows := 4, num_cols := 1, layout := .L_COL, type := .T_INT,
              raw := [10, 20, 30, 40] },
    arr := 0 }

/-- The elements `[20, 30]` of the vector `[10, 20, 30, 40]`, as a view of its
store that starts one element after its beginning. -/
def view_20_30 : mem_vector Int :=
  { length := 2, in_mem := true, sorted := false,
    data := { id := 0, num_rows := 4, num_cols := 1, layout := .L_COL, type := .T_INT,
              raw := [10, 20, 30, 40] },
    arr := 1 }

/-- The last two elements `[30, 40]` of the vector `[10, 20, 30, 40]`, as a view of
its store. -/
def view_30_40 : mem_vector Int :=
  { length := 2, in_mem := true, sorted := false,
    data := { id := 0, num_rows := 4, num_cols := 1, layout := .L_COL, type := .T_INT,
              raw := [10, 20, 30, 40] },
    arr := 2 }

/-- The index vector `[1, 3, -1]` of the type `off_t`, over store 7. -/
def idxs_1_3_m1 : mem_vector Int :=
  { length := 3, in_mem := true, sorted := false,
    data := { id := 7, num_rows := 3, num_cols := 1, layout := .L_COL, type := .T_LONG,
              raw := [1, 3, -1] },
    arr := 0 }

/-- The index vector `[4]` of the type `off_t`, over store 8. -/
def idxs_4 : mem_vector Int :=
  { length := 1, in_mem := true, sorted := false,
    data := { id := 8, num_rows := 1, num_cols := 1, layout := .L_COL, type := .T_LONG,
              raw := [4] },
    arr := 0 }

/-- A vertex in its initial state, with id 0. -/
def scan_vertex_0 : scan_vertex :=
  { id := 0, num_joined := 0, fetch_it := 0, num_edges1 := 0, num_edges2 := 0,
    neighbors1 := none, neighbors2 := none }

/-- The page vertex 0 with the neighbour `1` at timestamp 1 and the neighbour `2`
at timestamp 2. -/
def ts_vertex_0 : TS_page_vertex :=
  { id := 0, neigh := fun t => if t = 1 then [1] else if t = 2 then [2] else [] }

/-- The page vertex 5 with the neighbours `[0, 2, 3, 5, 8]` at every timestamp. -/
def ts_vertex_5 : TS_page_vertex :=
  { id := 5, neigh := fun _ => [0, 2, 3, 5, 8] }

/-- Three calls of `set` on a matrix for 5 ids: the pair of 0 and 1 is set to 3,
the pair of 4 and 2 to 7, and the pair of 1 and 0 to 9. -/
def dist_ops_5 : List (Nat × Nat × ℚ) :=
  [(0, 1, 3), (4, 2, 7), (1, 0, 9)]

/-! ## Theorems -/

/-- C7: `verify_inner_prod` accepts exactly when the entry sizes of both
operands match the left operator, the left operator's output size equals all
three sizes of the right operator, and the inner dimensions agree. -/
theorem C7_verify_inner_prod_iff {α : Type} (self m : dense_matrix α)
    (left_op right_op : bulk_operate α) :
    self.verify_inner_prod m left_op right_op = true ↔
      (self.get_entry_size = left_op.left_entry_size
        ∧ m.get_entry_size = left_op.right_entry_size
        ∧ left_op.output_entry_size = right_op.left_entry_size
        ∧ right_op.left_entry_size = right_op.right_entry_size
        ∧ right_op.right_entry_size = right_op.output_entry_size
        ∧ self.get_num_cols = m.get_num_rows) := by
  unfold dense_matrix.verify_inner_prod
  constructor
  · intro h
    split_ifs at h with h1 h2 h3 h4
    push_neg at h1 h2 h3 h4
    exact ⟨h1.1, h1.2, h2, h3.1, h3.1 ▸ h3.2, h4⟩
  · rintro ⟨h1, h2, h3, h4, h5, h6⟩
    simp [h1, h2, h3, h4, h5, h6]

/-- C8: `verify_mapply2` accepts exactly when both matrices have the same
shape and the same layout and their entry sizes match the operator; hence two
matrices in different layouts are never both accepted against one operand. -/
theorem C8_verify_mapply2_iff {α : Type} (self m : dense_matrix α)
    (op : bulk_operate α) :
    (self.verify_mapply2 m op = true ↔
      (self.get_num_rows = m.get_num_rows ∧ self.get_num_cols = m.get_num_cols
        ∧ self.store_layout = m.store_layout
        ∧ self.get_entry_size = op.left_entry_size
        ∧ m.get_entry_size = op.right_entry_size))
    ∧ (∀ other : dense_matrix α, self.store_layout ≠ other.store_layout →
        ¬ (self.verify_mapply2 m op = true ∧ other.verify_mapply2 m op = true)) := by
  have key : ∀ a : dense_matrix α, a.verify_mapply2 m op = true ↔
      (a.get_num_rows = m.get_num_rows ∧ a.get_num_cols = m.get_num_cols
        ∧ a.store_layout = m.store_layout
        ∧ a.get_entry_size = op.left_entry_size
        ∧ m.get_entry_size = op.right_entry_size) := by
    intro a
    unfold dense_matrix.verify_mapply2
    constructor
    · intro h
      split_ifs at h with h1 h2 h3
      push_neg at h1 h2 h3
      exact ⟨h1.1, h1.2, h2, h3.1, h3.2⟩
    · rintro ⟨h1, h2, h3, h4, h5⟩
      simp [h1, h2, h3, h4, h5]
  refine ⟨key self, ?_⟩
  rintro other hne ⟨ha, hb⟩
  exact hne (((key self).1 ha).2.2.1.trans ((key other).1 hb).2.2.1.symm)

/-! ### Generalised sum -/

theorem foldl_mapply2_shape {α : Type} (op : bulk_operate α) (rest : List (matrix_store α))
    (o : matrix_store α) :
    (rest.foldl (fun o x => detail.mapply2 x o op o) o).num_rows = o.num_rows
    ∧ (rest.foldl (fun o x => detail.mapply2 x o op o) o).num_cols = o.num_cols
    ∧ (rest.foldl (fun o x => detail.mapply2 x o op o) o).layout = o.layout
    ∧ (rest.foldl (fun o x => detail.mapply2 x o op o) o).type = o.type := by
  induction rest generalizing o with
  | nil => simp
  | cons x xs ih =>
    simp only [List.foldl_cons]
    have := ih (detail.mapply2 x o op o)
    simpa [detail.mapply2] using this

theorem foldl_mapply2_get {α : Type} (op : bulk_operate α) (rest : List (matrix_store α))
    (o : matrix_store α) (r c : Nat) :
    (rest.foldl (fun o x => detail.mapply2 x o op o) o).get r c
      = (rest.map fun m => m.get r c).foldl (fun acc z => op.run z acc) (o.get r c) := by
  induction rest generalizing o with
  | nil => simp
  | cons x xs ih =>
    simp only [List.foldl_cons, List.map_cons]
    rw [ih]
    rfl

theorem foldl_flip_of_comm {α : Type} (f : α → α → α) (hc : ∀ a b, f a b = f b a)
    (xs : List α) (a : α) :
    xs.foldl (fun acc z => f z acc) a = xs.foldl f a := by
  induction xs generalizing a with
  | nil => rfl
  | cons x xs ih =>
    simp only [List.foldl_cons]
    rw [ih, hc x a]

theorem fold_later_on_left_of_comm {α : Type} (f : α → α → α) (hc : ∀ a b, f a b = f b a)
    (xs : List α) : fold_later_on_left f xs = fold_in_order f xs := by
  match xs with
  | [] => rfl
  | [x] => rfl
  | x :: y :: rest =>
    simp only [fold_later_on_left, fold_in_order, List.foldl_cons]
    rw [foldl_flip_of_comm f hc]

/-- What `gsum_op::run` leaves in `out`, for any kernel: the shape of `out` is
kept and every element is the fold with each later input on the left. -/
theorem gsum_run_spec {α : Type} (g : gsum_op α) (ins : List (matrix_store α))
    (out : matrix_store α) (hne : ins ≠ []) :
    ∃ res, g.run ins out = some res
      ∧ res.num_rows = out.num_rows ∧ res.num_cols = out.num_cols
      ∧ res.layout = out.layout ∧ res.type = out.type
      ∧ ∀ r c, fold_later_on_left g.op.run (ins.map fun m => m.get r c)
          = some (res.get r c) := by
  match ins, hne with
  | [a], _ =>
    exact ⟨out.copy_from a, rfl, rfl, rfl, rfl, rfl, fun r c => rfl⟩
  | a :: b :: rest, _ =>
    refine ⟨_, rfl, ?_, ?_, ?_, ?_, ?_⟩
    · exact (foldl_mapply2_shape g.op rest _).1
    · exact (foldl_mapply2_shape g.op rest _).2.1
    · exact (foldl_mapply2_shape g.op rest _).2.2.1
    · exact (foldl_mapply2_shape g.op rest _).2.2.2
    · intro r c
      simp only [List.map_cons, fold_later_on_left]
      rw [foldl_mapply2_get]
      rfl

/-- C2, the divergence: the loop of `gsum_op::run` calls
`mapply2(*ins[i], out, *op, out)`, so for every kernel and every non-empty list
of inputs it writes, elementwise, the fold in which the first two inputs are
combined in order and every later input is the left operand of the running
value, and not the in-order fold `ins[0] op ins[1] op ... op ins[k-1]` of the
summation; the two are the same when the kernel is commutative, and
associativity is not enough. -/
theorem C2_gsum_run_fold {α : Type} (g : gsum_op α) (ins : List (matrix_store α))
    (out : matrix_store α) (hne : ins ≠ []) :
    ∃ res, g.run ins out = some res
      ∧ res.num_rows = out.num_rows ∧ res.num_cols = out.num_cols
      ∧ ∀ r c,
          fold_later_on_left g.op.run (ins.map fun m => m.get r c) = some (res.get r c)
          ∧ ((∀ a b, g.op.run a b = g.op.run b a) →
              fold_in_order g.op.run (ins.map fun m => m.get r c) = some (res.get r c)) := by
  obtain ⟨res, hrun, hr, hc, -, -, hget⟩ := gsum_run_spec g ins out hne
  refine ⟨res, hrun, hr, hc, fun r c => ⟨hget r c, fun hcomm => ?_⟩⟩
  rw [← fold_later_on_left_of_comm g.op.run hcomm]
  exact hget r c

/-- C2, at the failing input: the kernel that returns its left operand is
associative, yet on the three one-by-one inputs 0, 1, 2 `gsum_op::run` writes 2
where the in-order fold is 0; with the commutative kernel `ADD` the same inputs
give 3 both ways. -/
theorem C2_gsum_run_fold_witness :
    [int_cell 0, int_cell 1, int_cell 2] ≠ []
    ∧ (∀ a b c : Int, take_left_op.run (take_left_op.run a b) c
        = take_left_op.run a (take_left_op.run b c))
    ∧ (∃ res, gsum_op.run { op := take_left_op, out_num_rows := 1, out_num_cols := 1 }
          [int_cell 0, int_cell 1, int_cell 2] (int_cell 7) = some res
        ∧ res.get 0 0 = 2
        ∧ fold_in_order take_left_op.run
            ([int_cell 0, int_cell 1, int_cell 2].map fun m => m.get 0 0) = some 0)
    ∧ ∃ res, gsum_op.run
          { op := basic_ops_get_add .T_INT, out_num_rows := 1, out_num_cols := 1 }
          [int_cell 0, int_cell 1, int_cell 2] (int_cell 7) = some res
        ∧ res.num_rows = (int_cell 7).num_rows ∧ res.num_cols = (int_cell 7).num_cols
        ∧ ∀ r c,
            fold_later_on_left (basic_ops_get_add .T_INT : bulk_operate Int).run
                ([int_cell 0, int_cell 1, int_cell 2].map fun m => m.get r c)
              = some (res.get r c)
            ∧ ((∀ a b : Int, (basic_ops_get_add .T_INT : bulk_operate Int).run a b
                  = (basic_ops_get_add .T_INT : bulk_operate Int).run b a) →
                fold_in_order (basic_ops_get_add .T_INT : bulk_operate Int).run
                    ([int_cell 0, int_cell 1, int_cell 2].map fun m => m.get r c)
                  = some (res.get r c)) := by
  obtain ⟨res, hrun, -, -, hget⟩ := C2_gsum_run_fold
    { op := take_left_op, out_num_rows := 1, out_num_cols := 1 }
    [int_cell 0, int_cell 1, int_cell 2] (int_cell 7) (by simp)
  have hleft : fold_later_on_left take_left_op.run
      ([int_cell 0, int_cell 1, int_cell 2].map fun m => m.get 0 0) = some 2 := rfl
  have hres : res.get 0 0 = 2 := by
    have h := (hget 0 0).1
    rw [hleft] at h
    exact (Option.some.inj h).symm
  exact ⟨by simp, fun a b c => rfl, ⟨res, hrun, hres, rfl⟩, C2_gsum_run_fold
    { op := basic_ops_get_add .T_INT, out_num_rows := 1, out_num_cols := 1 }
    [int_cell 0, int_cell 1, int_cell 2] (int_cell 7) (by simp)⟩

/-! ### Creation -/

theorem div_ceil_bounds (n b : Nat) (hb : 0 < b) (hn : 0 < n) :
    0 < div_ceil n b ∧ (div_ceil n b - 1) * b < n ∧ n ≤ div_ceil n b * b := by
  unfold div_ceil
  have h1 := Nat.div_add_mod (n + b - 1) b
  have h2 := Nat.mod_lt (n + b - 1) hb
  have hpos : 0 < (n + b - 1) / b := Nat.div_pos (by omega) hb
  obtain ⟨q, hq⟩ : ∃ q, (n + b - 1) / b = q + 1 := ⟨(n + b - 1) / b - 1, by omega⟩
  rw [hq] at h1 ⊢
  have h3 : b * (q + 1) = q * b + b := by ring
  have h4 : (q + 1) * b = q * b + b := by ring
  rw [h3] at h1
  rw [h4]
  simp only [Nat.add_sub_cancel]
  omega

theorem sum_full_blocks (n b k : Nat) (hk : k * b ≤ n) :
    ((List.range k).map fun i => min (n - i * b) b).sum = k * b := by
  induction k with
  | zero => simp
  | succ k ih =>
    have h1 : (k + 1) * b = k * b + b := by ring
    rw [List.range_succ, List.map_append, List.sum_append, ih (by omega)]
    simp only [List.map_cons, List.map_nil, List.sum_cons, List.sum_nil]
    omega

theorem sum_block_sizes (n b : Nat) (hb : 0 < b) (hn : 0 < n) :
    ((List.range (div_ceil n b)).map fun i => min (n - i * b) b).sum = n := by
  obtain ⟨hpos, hlo, hhi⟩ := div_ceil_bounds n b hb hn
  obtain ⟨q, hq⟩ : ∃ q, div_ceil n b = q + 1 := ⟨div_ceil n b - 1, by omega⟩
  rw [hq] at hlo hhi ⊢
  have h4 : (q + 1) * b = q * b + b := by ring
  simp only [Nat.add_sub_cancel] at hlo
  rw [List.range_succ, List.map_append, List.sum_append, sum_full_blocks n b q (by omega)]
  simp only [List.map_cons, List.map_nil, List.sum_cons, List.sum_nil]
  omega

theorem block_size_of_index (n b i : Nat) (hb : 0 < b) (hn : 0 < n)
    (hi : i < div_ceil n b) :
    1 ≤ min (n - i * b) b ∧ min (n - i * b) b ≤ b
      ∧ (i + 1 < div_ceil n b → min (n - i * b) b = b) := by
  obtain ⟨hpos, hlo, hhi⟩ := div_ceil_bounds n b hb hn
  obtain ⟨q, hq⟩ : ∃ q, div_ceil n b = q + 1 := ⟨div_ceil n b - 1, by omega⟩
  rw [hq] at hlo hi hhi ⊢
  simp only [Nat.add_sub_cancel] at hlo
  have h1 : i * b ≤ q * b := Nat.mul_le_mul_right b (by omega)
  refine ⟨by omega, by omega, fun h => ?_⟩
  have h2 : (i + 1) * b ≤ q * b := Nat.mul_le_mul_right b (by omega)
  have h3 : (i + 1) * b = i * b + b := by ring
  omega

theorem blocks_same_size_created {α : Type} (dim : matrix_store α → Nat)
    (mk : Nat → matrix_store α) (n b : Nat) (hb : 0 < b) (hn : 0 < n)
    (hdim : ∀ i, i < div_ceil n b → dim (mk i) = min (n - i * b) b) :
    blocks_same_size dim ((List.range (div_ceil n b)).map mk) = true := by
  unfold blocks_same_size
  rw [List.all_eq_true]
  intro i hi
  simp only [List.length_map, List.length_range, List.mem_range] at hi
  simp only [Bool.or_eq_true, decide_eq_true_eq]
  by_cases h0 : i < 1
  · exact Or.inl h0
  · right
    have e1 : ((List.range (div_ceil n b)).map mk)[i]? = some (mk i) := by
      simp [List.getElem?_map, List.getElem?_range (show i < div_ceil n b by omega)]
    have e2 : ((List.range (div_ceil n b)).map mk)[i - 1]? = some (mk (i - 1)) := by
      simp [List.getElem?_map, List.getElem?_range (show i - 1 < div_ceil n b by omega)]
    rw [e1, e2]
    simp only [Option.map_some', hdim i (by omega), hdim (i - 1) (by omega)]
    rw [(block_size_of_index n b i hb hn (by omega)).2.2 (by omega),
      (block_size_of_index n b (i - 1) hb hn (by omega)).2.2 (by omega)]

theorem mk_of_store_block_size_cons {α : Type} (m : matrix_store α)
    (rest : List (matrix_store α)) (layout : matrix_layout_t) :
    (block_matrix.mk_of_store { mats := m :: rest, layout := layout }).block_size
      = if m.is_wide then m.num_rows else m.num_cols := rfl

theorem create_of_store_tall {α : Type} (store : combined_matrix_store α)
    (m0 : matrix_store α) (h0 : store.mats[0]? = some m0) (hw : m0.is_wide = false)
    (hs : blocks_same_size (fun m => m.num_cols) store.mats = true) :
    block_matrix.create_of_store store = some (.block (block_matrix.mk_of_store store)) := by
  simp [block_matrix.create_of_store, combined_matrix_store.get_mat, h0, hw, hs]

theorem create_of_store_wide {α : Type} (store : combined_matrix_store α)
    (m0 : matrix_store α) (h0 : store.mats[0]? = some m0) (hw : m0.is_wide = true)
    (hs : blocks_same_size (fun m => m.num_rows) store.mats = true) :
    block_matrix.create_of_store store = some (.block (block_matrix.mk_of_store store)) := by
  simp [block_matrix.create_of_store, combined_matrix_store.get_mat, h0, hw, hs]

theorem created_list_head {α : Type} (mk : Nat → matrix_store α) (n : Nat) (hn : 0 < n) :
    ∃ rest, (List.range n).map mk = mk 0 :: rest := by
  obtain ⟨k, rfl⟩ : ∃ k, n = k + 1 := ⟨n - 1, by omega⟩
  exact ⟨(List.range k).map (mk ∘ Nat.succ), by simp [List.range_succ_eq_map]⟩

/-- C6: for a positive block size, a tall shape with at least `block_size`
columns is built as `ceil(num_cols / block_size)` column blocks of `num_rows`
rows in `COL` layout, all of width `block_size` except a last one of width
between 1 and `block_size`, the widths adding up to `num_cols`; a shape that is
not tall with at least `block_size` rows is built the same way from row blocks
in `ROW` layout. -/
theorem C6_create_blocks {α : Type} (num_rows num_cols block_size : Nat)
    (type : scalar_type) (op : set_operate α) (hb : 0 < block_size) :
    (num_cols < num_rows → block_size ≤ num_cols →
      ∃ bm, block_matrix.create num_rows num_cols block_size type op = some (.block bm)
        ∧ bm.block_size = block_size
        ∧ bm.store.mats.length = div_ceil num_cols block_size
        ∧ (bm.store.mats.length - 1) * block_size < num_cols
        ∧ num_cols ≤ bm.store.mats.length * block_size
        ∧ (∀ i m, bm.store.mats[i]? = some m →
            m.num_rows = num_rows ∧ m.layout = .L_COL
            ∧ 1 ≤ m.num_cols ∧ m.num_cols ≤ block_size
            ∧ (i + 1 < bm.store.mats.length → m.num_cols = block_size))
        ∧ (bm.store.mats.map fun m => m.num_cols).sum = num_cols)
    ∧ (num_rows ≤ num_cols → block_size ≤ num_rows →
      ∃ bm, block_matrix.create num_rows num_cols block_size type op = some (.block bm)
        ∧ bm.block_size = block_size
        ∧ bm.store.mats.length = div_ceil num_rows block_size
        ∧ (bm.store.mats.length - 1) * block_size < num_rows
        ∧ num_rows ≤ bm.store.mats.length * block_size
        ∧ (∀ i m, bm.store.mats[i]? = some m →
            m.num_cols = num_cols ∧ m.layout = .L_ROW
            ∧ 1 ≤ m.num_rows ∧ m.num_rows ≤ block_size
            ∧ (i + 1 < bm.store.mats.length → m.num_rows = block_size))
        ∧ (bm.store.mats.map fun m => m.num_rows).sum = num_rows) := by
  constructor
  · intro htall hge
    have hn : 0 < num_cols := by omega
    obtain ⟨hpos, hlo, hhi⟩ := div_ceil_bounds num_cols block_size hb hn
    let mk : Nat → matrix_store α := fun i =>
      matrix_store.create num_rows (min (num_cols - i * block_size) block_size) .L_COL type op
    obtain ⟨rest, hrest⟩ := created_list_head mk (div_ceil num_cols block_size) hpos
    have hsame := blocks_same_size_created (fun m : matrix_store α => m.num_cols) mk
      num_cols block_size hb hn (fun i _ => rfl)
    have hcreate : block_matrix.create num_rows num_cols block_size type op
        = some (.block (block_matrix.mk_of_store
            { mats := (List.range (div_ceil num_cols block_size)).map mk, layout := .L_COL })) := by
      have hne : ((List.range (div_ceil num_cols block_size)).map mk).isEmpty = false := by
        rw [hrest]; rfl
      unfold block_matrix.create
      rw [if_pos htall, if_neg (by omega)]
      simp only [combined_matrix_store.create]
      rw [show (List.map (fun i => matrix_store.create num_rows
          (min (num_cols - i * block_size) block_size) matrix_layout_t.L_COL type op)
          (List.range (div_ceil num_cols block_size))) = (List.range (div_ceil num_cols block_size)).map mk
        from rfl, hne]
      simp only [Bool.false_eq_true, if_false, Option.some_bind]
      refine create_of_store_tall _ (mk 0) (by simp [hrest]) ?_ hsame
      simp only [matrix_store.is_wide, mk, matrix_store.create, decide_eq_false_iff_not]
      simp only [Nat.zero_mul, Nat.sub_zero]
      omega
    refine ⟨_, hcreate, ?_, ?_, ?_, ?_, ?_, ?_⟩
    · rw [hrest, mk_of_store_block_size_cons]
      simp only [mk, matrix_store.create, matrix_store.is_wide, Nat.zero_mul, Nat.sub_zero,
        decide_eq_true_eq]
      split_ifs with h <;> omega
    · simp [block_matrix.mk_of_store]
    · simpa [block_matrix.mk_of_store] using hlo
    · simpa [block_matrix.mk_of_store] using hhi
    · intro i m hm
      simp only [block_matrix.mk_of_store, List.getElem?_map] at hm
      have hi : i < div_ceil num_cols block_size := by
        by_contra hcon
        rw [List.getElem?_eq_none (by simpa using Nat.le_of_not_lt hcon)] at hm
        simp at hm
      rw [List.getElem?_range hi] at hm
      simp only [Option.map_some', Option.some.injEq] at hm
      subst hm
      obtain ⟨h1, h2, h3⟩ := block_size_of_index num_cols block_size i hb hn hi
      refine ⟨rfl, rfl, h1, h2, fun h => h3 ?_⟩
      simpa [block_matrix.mk_of_store] using h
    · simp only [block_matrix.mk_of_store, List.map_map]
      exact sum_block_sizes num_cols block_size hb hn
  · intro hwide hge
    have hn : 0 < num_rows := by omega
    obtain ⟨hpos, hlo, hhi⟩ := div_ceil_bounds num_rows block_size hb hn
    let mk : Nat → matrix_store α := fun i =>
      matrix_store.create (min (num_rows - i * block_size) block_size) num_cols .L_ROW type op
    obtain ⟨rest, hrest⟩ := created_list_head mk (div_ceil num_rows block_size) hpos
    have hsame := blocks_same_size_created (fun m : matrix_store α => m.num_rows) mk
      num_rows block_size hb hn (fun i _ => rfl)
    have hw0 : (mk 0).is_wide = true := by
      simp only [matrix_store.is_wide, mk, matrix_store.create, decide_eq_true_eq]
      simp only [Nat.zero_mul, Nat.sub_zero]
      omega
    have hcreate : block_matrix.create num_rows num_cols block_size type op
        = some (.block (block_matrix.mk_of_store
            { mats := (List.range (div_ceil num_rows block_size)).map mk, layout := .L_ROW })) := by
      have hne : ((List.range (div_ceil num_rows block_size)).map mk).isEmpty = false := by
        rw [hrest]; rfl
      unfold block_matrix.create
      rw [if_neg (by omega), if_neg (by omega)]
      simp only [combined_matrix_store.create]
      rw [show (List.map (fun i => matrix_store.create
          (min (num_rows - i * block_size) block_size) num_cols matrix_layout_t.L_ROW type op)
          (List.range (div_ceil num_rows block_size))) = (List.range (div_ceil num_rows block_size)).map mk
        from rfl, hne]
      simp only [Bool.false_eq_true, if_false, Option.some_bind]
      exact create_of_store_wide _ (mk 0) (by simp [hrest]) hw0 hsame
    refine ⟨_, hcreate, ?_, ?_, ?_, ?_, ?_, ?_⟩
    · rw [hrest, mk_of_store_block_size_cons]
      simp only [mk, matrix_store.create, matrix_store.is_wide, Nat.zero_mul, Nat.sub_zero,
        decide_eq_true_eq]
      split_ifs with h <;> omega
    · simp [block_matrix.mk_of_store]
    · simpa [block_matrix.mk_of_store] using hlo
    · simpa [block_matrix.mk_of_store] using hhi
    · intro i m hm
      simp only [block_matrix.mk_of_store, List.getElem?_map] at hm
      have hi : i < div_ceil num_rows block_size := by
        by_contra hcon
        rw [List.getElem?_eq_none (by simpa using Nat.le_of_not_lt hcon)] at hm
        simp at hm
      rw [List.getElem?_range hi] at hm
      simp only [Option.map_some', Option.some.injEq] at hm
      subst hm
      obtain ⟨h1, h2, h3⟩ := block_size_of_index num_rows block_size i hb hn hi
      refine ⟨rfl, rfl, h1, h2, fun h => h3 ?_⟩
      simpa [block_matrix.mk_of_store] using h
    · simp only [block_matrix.mk_of_store, List.map_map]
      exact sum_block_sizes num_rows block_size hb hn

/-! ### Slicing -/

theorem is_sorted_iff (l : List Int) : is_sorted l = true ↔ l.Sorted (· ≤ ·) := by
  induction l with
  | nil => simp [is_sorted]
  | cons a t ih =>
    cases t with
    | nil => simp [is_sorted]
    | cons b t =>
      rw [is_sorted, Bool.and_eq_true, ih]
      constructor
      · rintro ⟨hab, hs⟩
        have hab' : a ≤ b := by simpa using hab
        refine List.sorted_cons.2 ⟨fun c hc => ?_, hs⟩
        rcases List.mem_cons.1 hc with rfl | hc
        · exact hab'
        · exact le_trans hab' (List.rel_of_sorted_cons hs c hc)
      · intro h
        have h2 := List.sorted_cons.1 h
        exact ⟨by simpa using h2.1 b (List.mem_cons_self _ _), h2.2⟩

theorem to_size_t_of_nonneg (x : Int) (h0 : 0 ≤ x) (h1 : x < 2 ^ 63) :
    to_size_t x = x.toNat := by
  unfold to_size_t
  rw [Int.emod_eq_of_lt h0 (by omega)]

theorem to_off_t_of_lt (n : Nat) (h : n < 2 ^ 63) : to_off_t n = (n : Int) := by
  unfold to_off_t
  have : n % 2 ^ 64 = n := Nat.mod_eq_of_lt (by omega)
  rw [this, if_pos h]

theorem off_div (x : Int) (b : Nat) (h0 : 0 ≤ x) (h1 : x < 2 ^ 63) :
    to_off_t (to_size_t x / b) = x / (b : Int) := by
  rw [to_size_t_of_nonneg x h0 h1]
  have hle : x.toNat / b ≤ x.toNat := Nat.div_le_self _ _
  rw [to_off_t_of_lt _ (by omega)]
  rw [Int.natCast_div, Int.toNat_of_nonneg h0]

theorem off_mod (x : Int) (b : Nat) (h0 : 0 ≤ x) (h1 : x < 2 ^ 63) :
    to_off_t (to_size_t x % b) = x % (b : Int) := by
  rw [to_size_t_of_nonneg x h0 h1]
  have hle : x.toNat % b ≤ x.toNat := Nat.mod_le _ _
  rw [to_off_t_of_lt _ (by omega)]
  rw [Int.natCast_mod, Int.toNat_of_nonneg h0]

theorem push_back_last_snoc (gs : List (List Int)) (g : List Int) (l : Int) :
    push_back_last (gs ++ [g]) l = gs ++ [g ++ [l]] := by
  simp [push_back_last]

theorem get_local_idxs_step_snoc (b : Nat) (ms : List Int) (gs : List (List Int))
    (L : Int) (g : List Int) (x : Int) (h0 : 0 ≤ x) (h1 : x < 2 ^ 63) :
    get_local_idxs_step b (ms ++ [L], gs ++ [g]) x
      = if x / (b : Int) ≠ L then (ms ++ [L] ++ [x / (b : Int)], gs ++ [g] ++ [[x % (b : Int)]])
        else (ms ++ [L], gs ++ [g ++ [x % (b : Int)]]) := by
  unfold get_local_idxs_step
  simp only [off_div x b h0 h1, off_mod x b h0 h1, List.getLast?_concat,
    push_back_last_snoc, ne_eq, Option.some.injEq]

theorem concat_groups_snoc (b : Nat) (ms : List Int) (gs : List (List Int)) (L : Int)
    (g : List Int) (hlen : ms.length = gs.length) :
    concat_groups b (ms ++ [L]) (gs ++ [g])
      = concat_groups b ms gs ++ g.map fun l => L * (b : Int) + l := by
  unfold concat_groups
  rw [List.zip_append hlen]
  simp

theorem get_local_idxs_fold (b : Nat) (hb : 0 < b) :
    ∀ (rest : List Int) (ms : List Int) (gs : List (List Int)) (L : Int) (g : List Int)
      (pre : List Int) (last : Int),
      ms.length = gs.length →
      (ms ++ [L]).Sorted (· < ·) →
      (∀ g' ∈ gs ++ [g], g' ≠ [] ∧ ∀ l ∈ g', 0 ≤ l ∧ l < (b : Int)) →
      concat_groups b (ms ++ [L]) (gs ++ [g]) = pre ++ [last] →
      L = last / (b : Int) →
      (last :: rest).Sorted (· ≤ ·) →
      (∀ x ∈ rest, 0 ≤ x ∧ x < 2 ^ 63) →
      ∃ ms' gs', rest.foldl (get_local_idxs_step b) (ms ++ [L], gs ++ [g]) = (ms', gs')
        ∧ ms'.length = gs'.length
        ∧ ms'.Sorted (· < ·)
        ∧ (∀ g' ∈ gs', g' ≠ [] ∧ ∀ l ∈ g', 0 ≤ l ∧ l < (b : Int))
        ∧ concat_groups b ms' gs' = pre ++ [last] ++ rest := by
  intro rest
  induction rest with
  | nil =>
    intro ms gs L g pre last hlen hsorted hloc hcat _ _ _
    exact ⟨ms ++ [L], gs ++ [g], rfl, by simp [hlen], hsorted, hloc, by simpa using hcat⟩
  | cons x rest ih =>
    intro ms gs L g pre last hlen hsorted hloc hcat hL hs hrange
    have hx := hrange x (List.mem_cons_self _ _)
    have hbpos : (0 : Int) < (b : Int) := by exact_mod_cast hb
    have hlast_le : last ≤ x := List.rel_of_sorted_cons hs x (List.mem_cons_self _ _)
    have hdiv_le : last / (b : Int) ≤ x / (b : Int) := Int.ediv_le_ediv hbpos hlast_le
    have hmod0 : 0 ≤ x % (b : Int) := Int.emod_nonneg _ (by omega)
    have hmodlt : x % (b : Int) < (b : Int) := Int.emod_lt_of_pos _ hbpos
    have hsplit : x / (b : Int) * (b : Int) + x % (b : Int) = x := Int.ediv_add_emod' x b
    have hs' : (x :: rest).Sorted (· ≤ ·) := (List.sorted_cons.1 hs).2
    have hrange' : ∀ y ∈ rest, 0 ≤ y ∧ y < 2 ^ 63 := fun y hy =>
      hrange y (List.mem_cons_of_mem _ hy)
    rw [List.foldl_cons, get_local_idxs_step_snoc b ms gs L g x hx.1 hx.2]
    by_cases hnew : x / (b : Int) ≠ L
    · rw [if_pos hnew]
      have hlt : L < x / (b : Int) := lt_of_le_of_ne (hL ▸ hdiv_le) (Ne.symm hnew)
      have hsorted' : (ms ++ [L] ++ [x / (b : Int)]).Sorted (· < ·) := by
        refine List.pairwise_append.2 ⟨hsorted, List.pairwise_singleton _ _, ?_⟩
        intro a ha c hc
        rw [List.mem_singleton] at hc
        subst hc
        rcases List.mem_append.1 ha with ha | ha
        · have := (List.pairwise_append.1 hsorted).2.2 a ha L (List.mem_singleton_self _)
          exact lt_trans this hlt
        · rw [List.mem_singleton] at ha
          rw [ha]; exact hlt
      have hloc' : ∀ g' ∈ gs ++ [g] ++ [[x % (b : Int)]],
          g' ≠ [] ∧ ∀ l ∈ g', 0 ≤ l ∧ l < (b : Int) := by
        intro g' hg'
        rcases List.mem_append.1 hg' with hg' | hg'
        · exact hloc g' hg'
        · rw [List.mem_singleton] at hg'
          subst hg'
          refine ⟨by simp, fun l hl => ?_⟩
          rw [List.mem_singleton] at hl
          subst hl
          exact ⟨hmod0, hmodlt⟩
      have hcat' : concat_groups b (ms ++ [L] ++ [x / (b : Int)]) (gs ++ [g] ++ [[x % (b : Int)]])
          = (pre ++ [last]) ++ [x] := by
        rw [concat_groups_snoc b (ms ++ [L]) (gs ++ [g]) _ _ (by simp [hlen]), hcat]
        simp [hsplit]
      obtain ⟨ms', gs', h1, h2, h3, h4, h5⟩ :=
        ih (ms ++ [L]) (gs ++ [g]) (x / (b : Int)) [x % (b : Int)] (pre ++ [last]) x
          (by simp [hlen]) hsorted' hloc' hcat' rfl hs' hrange'
      exact ⟨ms', gs', h1, h2, h3, h4, by simpa using h5⟩
    · rw [if_neg hnew]
      have hsame : x / (b : Int) = L := not_not.1 hnew
      have hloc' : ∀ g' ∈ gs ++ [g ++ [x % (b : Int)]],
          g' ≠ [] ∧ ∀ l ∈ g', 0 ≤ l ∧ l < (b : Int) := by
        intro g' hg'
        rcases List.mem_append.1 hg' with hg' | hg'
        · exact hloc g' (List.mem_append_left _ hg')
        · rw [List.mem_singleton] at hg'
          subst hg'
          refine ⟨by simp, fun l hl => ?_⟩
          rcases List.mem_append.1 hl with hl | hl
          · exact (hloc g (by simp)).2 l hl
          · rw [List.mem_singleton] at hl
            subst hl
            exact ⟨hmod0, hmodlt⟩
      have hcat' : concat_groups b (ms ++ [L]) (gs ++ [g ++ [x % (b : Int)]])
          = (pre ++ [last]) ++ [x] := by
        rw [concat_groups_snoc b ms gs _ _ hlen] at hcat ⊢
        rw [List.map_append, ← List.append_assoc, hcat]
        simp only [List.map_cons, List.map_nil, List.append_cancel_left_eq, List.cons.injEq,
          and_true]
        rw [← hsame]; exact hsplit
      obtain ⟨ms', gs', h1, h2, h3, h4, h5⟩ :=
        ih ms gs L (g ++ [x % (b : Int)]) (pre ++ [last]) x
          hlen hsorted hloc' hcat' hsame.symm hs' hrange'
      exact ⟨ms', gs', h1, h2, h3, h4, by simpa using h5⟩

/-- The grouping computed by `get_local_idxs` on a non-empty, non-decreasing list
of non-negative `off_t` values. -/
theorem get_local_idxs_spec (idxs : List Int) (b : Nat) (hb : 0 < b) (hne : idxs ≠ [])
    (hrange : ∀ x ∈ idxs, 0 ≤ x ∧ x < 2 ^ 63) (hs : idxs.Sorted (· ≤ ·)) :
    ∃ mat_idxs local_idxs, get_local_idxs idxs b = some (mat_idxs, local_idxs)
      ∧ mat_idxs.length = local_idxs.length
      ∧ mat_idxs.Sorted (· < ·)
      ∧ (∀ g ∈ local_idxs, g ≠ [] ∧ ∀ l ∈ g, 0 ≤ l ∧ l < (b : Int))
      ∧ concat_groups b mat_idxs local_idxs = idxs := by
  match idxs, hne with
  | i0 :: rest, _ =>
    have h0 := hrange i0 (List.mem_cons_self _ _)
    have hbpos : (0 : Int) < (b : Int) := by exact_mod_cast hb
    have hloc : ∀ g' ∈ ([] : List (List Int)) ++ [[i0 % (b : Int)]],
        g' ≠ [] ∧ ∀ l ∈ g', 0 ≤ l ∧ l < (b : Int) := by
      intro g' hg'
      simp only [List.nil_append, List.mem_singleton] at hg'
      subst hg'
      refine ⟨by simp, fun l hl => ?_⟩
      rw [List.mem_singleton] at hl
      subst hl
      exact ⟨Int.emod_nonneg _ (by omega), Int.emod_lt_of_pos _ hbpos⟩
    have hcat : concat_groups b ([] ++ [i0 / (b : Int)]) ([] ++ [[i0 % (b : Int)]])
        = [] ++ [i0] := by
      simp [concat_groups, Int.ediv_add_emod']
    obtain ⟨ms', gs', h1, h2, h3, h4, h5⟩ :=
      get_local_idxs_fold b hb rest [] [] (i0 / (b : Int)) [i0 % (b : Int)] [] i0 rfl
        (by simp) hloc hcat rfl hs (fun x hx => hrange x (List.mem_cons_of_mem _ hx))
    refine ⟨ms', gs', ?_, h2, h3, h4, by simpa using h5⟩
    have hb0 : b ≠ 0 := by omega
    simp only [List.nil_append] at h1
    simp only [get_local_idxs, if_neg hb0, off_div i0 b h0.1 h0.2, off_mod i0 b h0.1 h0.2, h1,
      h2, if_true]

/-- C6, at concrete shapes: 5 by 3 with block size 2 (tall) and 2 by 3 with
block size 2 (not tall). -/
theorem C6_create_blocks_witness :
    (∃ bm, block_matrix.create 5 3 2 .T_INT seq_init = some (.block bm)
        ∧ bm.block_size = 2
        ∧ bm.store.mats.length = div_ceil 3 2
        ∧ (bm.store.mats.length - 1) * 2 < 3
        ∧ 3 ≤ bm.store.mats.length * 2
        ∧ (∀ i m, bm.store.mats[i]? = some m →
            m.num_rows = 5 ∧ m.layout = .L_COL
            ∧ 1 ≤ m.num_cols ∧ m.num_cols ≤ 2
            ∧ (i + 1 < bm.store.mats.length → m.num_cols = 2))
        ∧ (bm.store.mats.map fun m => m.num_cols).sum = 3)
    ∧ (∃ bm, block_matrix.create 2 3 2 .T_INT seq_init = some (.block bm)
        ∧ bm.block_size = 2
        ∧ bm.store.mats.length = div_ceil 2 2
        ∧ (bm.store.mats.length - 1) * 2 < 2
        ∧ 2 ≤ bm.store.mats.length * 2
        ∧ (∀ i m, bm.store.mats[i]? = some m →
            m.num_cols = 3 ∧ m.layout = .L_ROW
            ∧ 1 ≤ m.num_rows ∧ m.num_rows ≤ 2
            ∧ (i + 1 < bm.store.mats.length → m.num_rows = 2))
        ∧ (bm.store.mats.map fun m => m.num_rows).sum = 2) :=
  ⟨(C6_create_blocks 5 3 2 .T_INT seq_init (by decide)).1 (by decide) (by decide),
   (C6_create_blocks 2 3 2 .T_INT seq_init (by decide)).2 (by decide) (by decide)⟩

theorem div_ceil_succ_block (n b : Nat) (hb : 0 < b) (hn : 0 < n) :
    div_ceil n b = div_ceil (n - b) b + 1 := by
  unfold div_ceil
  by_cases h : b ≤ n
  · have : n + b - 1 = (n - b + b - 1) + b := by omega
    rw [this, Nat.add_div_right _ hb]
  · have h1 : n - b = 0 := by omega
    rw [h1, Nat.zero_add, Nat.div_eq_of_lt (show b - 1 < b by omega)]
    have h2 : (n + b - 1) / b = 1 := by
      have : n + b - 1 = (n - 1) + b := by omega
      rw [this, Nat.add_div_right _ hb, Nat.div_eq_of_lt (by omega)]
    rw [h2]

theorem div_ceil_zero (b : Nat) (hb : 0 < b) : div_ceil 0 b = 0 := by
  unfold div_ceil
  rw [Nat.zero_add]
  exact Nat.div_eq_of_lt (by omega)

theorem div_ceil_unique (n b k : Nat) (hb : 0 < b) (hlo : (k - 1) * b < n) (hhi : n ≤ k * b) :
    div_ceil n b = k := by
  have hn : 0 < n := by omega
  obtain ⟨hpos, hlo', hhi'⟩ := div_ceil_bounds n b hb hn
  have hk : 0 < k := by
    rcases Nat.eq_zero_or_pos k with h | h
    · subst h; simp at hhi; omega
    · exact h
  by_contra hne
  rcases Nat.lt_or_gt_of_ne hne with h | h
  · have : div_ceil n b * b ≤ (k - 1) * b := Nat.mul_le_mul_right b (by omega)
    omega
  · have : k * b ≤ (div_ceil n b - 1) * b := Nat.mul_le_mul_right b (by omega)
    omega

theorem for_range_from (step : Nat) (hs : 0 < step) :
    ∀ (fuel start stop : Nat), stop - start ≤ fuel →
      for_range fuel start stop step
        = some ((List.range (div_ceil (stop - start) step)).map fun t => start + t * step) := by
  intro fuel
  induction fuel with
  | zero =>
    intro start stop hfuel
    have h0 : stop - start = 0 := by omega
    simp [for_range, h0, div_ceil_zero step hs, show ¬ start < stop by omega]
  | succ fuel ih =>
    intro start stop hfuel
    unfold for_range
    by_cases hlt : start < stop
    · rw [if_pos hlt, ih (start + step) stop (by omega)]
      rw [div_ceil_succ_block (stop - start) step hs (by omega)]
      have e : stop - (start + step) = stop - start - step := by omega
      rw [e, List.range_succ_eq_map]
      simp only [Option.map_some', List.map_cons, List.map_map, Nat.zero_mul, Nat.add_zero,
        Option.some.injEq, List.cons.injEq, true_and]
      apply List.map_congr_left
      intro t _
      simp only [Function.comp, Nat.succ_eq_add_one]
      ring
    · rw [if_neg hlt]
      have h0 : stop - start = 0 := by omega
      simp [h0, div_ceil_zero step hs]

theorem for_range_blocks (stop step : Nat) (hs : 0 < step) :
    for_range stop 0 stop step
      = some ((List.range (div_ceil stop step)).map fun t => t * step) := by
  rw [for_range_from step hs stop 0 stop (by omega)]
  simp

theorem set_after_done {β : Type} (done : List β) (v : β) (k : Nat) :
    (done.map some ++ List.replicate (k + 1) none).set done.length (some v)
      = (done ++ [v]).map some ++ List.replicate k none := by
  induction done with
  | nil => simp [List.replicate_succ]
  | cons d ds ih => simpa using ih

theorem fill_loop_in_order {β : Type} (slot : Nat → Nat) (body : Nat → Option β)
    (val : Nat → β) :
    ∀ (xs : List Nat) (done : List β),
      (∀ j x, xs[j]? = some x → slot x = done.length + j ∧ body x = some (val x)) →
      fill_loop slot body xs (done.map some ++ List.replicate xs.length none)
        = some ((done ++ xs.map val).map some) := by
  intro xs
  induction xs with
  | nil => intro done _; simp [fill_loop]
  | cons x xs ih =>
    intro done h
    obtain ⟨hslot, hbody⟩ := h 0 x (by simp)
    unfold fill_loop
    rw [hbody]
    simp only [hslot, Nat.add_zero, List.length_append, List.length_map, List.length_replicate,
      List.length_cons]
    rw [if_pos (by omega), set_after_done]
    have := ih (done ++ [val x]) (fun j y hy => by
      have := h (j + 1) y (by simpa using hy)
      simp only [List.length_append, List.length_singleton]
      exact ⟨by omega, this.2⟩)
    rw [this]
    simp

theorem fill_loop_blocks {β : Type} (b n : Nat) (hb : 0 < b) (body : Nat → Option β)
    (val : Nat → β) (h : ∀ t, t < n → body (t * b) = some (val t)) :
    fill_loop (fun x => x / b) body ((List.range n).map fun t => t * b) (List.replicate n none)
      = some ((List.range n).map fun t => some (val t)) := by
  have key := fill_loop_in_order (fun x => x / b) body (fun x => val (x / b))
    ((List.range n).map fun t => t * b) [] (by
      intro j x hx
      simp only [List.getElem?_map] at hx
      have hj : j < n := by
        by_contra hcon
        rw [List.getElem?_eq_none (by simpa using Nat.le_of_not_lt hcon)] at hx
        simp at hx
      rw [List.getElem?_range hj] at hx
      simp only [Option.map_some', Option.some.injEq] at hx
      subst hx
      simp only [List.length_nil, Nat.zero_add, Nat.mul_div_cancel _ hb, true_and]
      exact h j hj)
  simp only [List.map_nil, List.nil_append, List.length_map, List.length_range] at key
  rw [key]
  simp only [List.map_map, Option.some.injEq]
  apply List.map_congr_left
  intro t _
  simp [Function.comp, Nat.mul_div_cancel _ hb]

theorem all_non_null_map_some {β : Type} (l : List β) :
    all_non_null (l.map some) = some l := by
  induction l with
  | nil => rfl
  | cons x xs ih => simp [all_non_null, ih]

/-! ### Column blocks -/

theorem col_blocks.length_pos {α : Type} {mats : List (matrix_store α)} {M K b : Nat}
    (h : col_blocks mats M K b) : 0 < mats.length := by
  have h1 := h.tail_pos
  have h2 := h.tail_le
  rcases Nat.eq_zero_or_pos mats.length with h0 | h0
  · rw [h0] at h1 h2; simp at h2; omega
  · exact h0

theorem col_blocks.length_eq {α : Type} {mats : List (matrix_store α)} {M K b : Nat}
    (h : col_blocks mats M K b) : mats.length = div_ceil K b :=
  (div_ceil_unique K b mats.length h.block_pos h.tail_pos h.tail_le).symm

theorem col_blocks.member {α : Type} {mats : List (matrix_store α)} {M K b : Nat}
    (h : col_blocks mats M K b) (i : Nat) (hi : i < mats.length) :
    ∃ m, mats[i]? = some m ∧ m.num_rows = M ∧ m.num_cols = min (K - i * b) b := by
  have hm : mats[i]? = some mats[i] := List.getElem?_eq_getElem hi
  refine ⟨mats[i], hm, h.rows _ (List.getElem_mem hi), ?_⟩
  have hlo := h.tail_pos
  have hhi := h.tail_le
  by_cases hlast : i + 1 < mats.length
  · have hf := h.full i hlast
    rw [hm] at hf
    simp only [Option.map_some', Option.some.injEq] at hf
    have h2 : (i + 1) * b ≤ (mats.length - 1) * b := Nat.mul_le_mul_right b (by omega)
    have h3 : (i + 1) * b = i * b + b := by ring
    omega
  · have hi' : i = mats.length - 1 := by omega
    have ht := h.tail
    rw [← hi', hm] at ht
    simp only [Option.map_some', Option.some.injEq] at ht
    rw [← hi'] at hlo
    have h3 : mats.length * b = i * b + b := by
      have : mats.length = i + 1 := by omega
      rw [this]; ring
    omega

theorem col_blocks_created {α : Type} (mk : Nat → matrix_store α) (M N b : Nat)
    (hb : 0 < b) (hN : 0 < N)
    (hrows : ∀ i, i < div_ceil N b → (mk i).num_rows = M)
    (hcols : ∀ i, i < div_ceil N b → (mk i).num_cols = min (N - i * b) b) :
    col_blocks ((List.range (div_ceil N b)).map mk) M N b := by
  obtain ⟨hpos, hlo, hhi⟩ := div_ceil_bounds N b hb hN
  have hget : ∀ i, i < div_ceil N b → ((List.range (div_ceil N b)).map mk)[i]? = some (mk i) := by
    intro i hi
    simp [List.getElem?_map, List.getElem?_range hi]
  refine ⟨hb, ?_, ?_, ?_, ?_, ?_⟩
  · intro m hm
    obtain ⟨i, hi, rfl⟩ := List.mem_map.1 hm
    exact hrows i (List.mem_range.1 hi)
  · intro i hi
    simp only [List.length_map, List.length_range] at hi
    rw [hget i (by omega)]
    simp only [Option.map_some', Option.some.injEq, hcols i (by omega)]
    exact (block_size_of_index N b i hb hN (by omega)).2.2 hi
  · simp only [List.length_map, List.length_range]
    rw [hget _ (by omega)]
    simp only [Option.map_some', Option.some.injEq, hcols _ (show div_ceil N b - 1 < div_ceil N b by omega)]
    have e : div_ceil N b * b = (div_ceil N b - 1) * b + b := by
      obtain ⟨k, hk⟩ : ∃ k, div_ceil N b = k + 1 := ⟨div_ceil N b - 1, by omega⟩
      rw [hk]; simp; ring
    omega
  · simpa using hlo
  · simpa using hhi

theorem col_concat_get_uniform {α : Type} [Inhabited α] (b : Nat) (hb : 0 < b) (r : Nat) :
    ∀ (mats : List (matrix_store α)) (c : Nat),
      (∀ i, i + 1 < mats.length → (mats[i]?).map (fun m => m.num_cols) = some b) →
      ∀ m, mats[c / b]? = some m → (c / b + 1 = mats.length → c % b < m.num_cols) →
      col_concat_get mats r c = m.get r (c % b) := by
  intro mats
  induction mats with
  | nil => intro c _ m hm; simp at hm
  | cons m0 ms ih =>
    intro c hfull m hm htail
    by_cases hc : c < b
    · have hq : c / b = 0 := Nat.div_eq_of_lt hc
      have hmod : c % b = c := Nat.mod_eq_of_lt hc
      rw [hq] at hm htail
      simp only [List.getElem?_cons_zero, Option.some.injEq] at hm
      subst hm
      have hlt : c < m0.num_cols := by
        by_cases hms : ms = []
        · subst hms
          have := htail (by simp)
          omega
        · have hlen : 0 < ms.length := List.length_pos.2 hms
          have := hfull 0 (by simp; omega)
          simp only [List.getElem?_cons_zero, Option.map_some', Option.some.injEq] at this
          omega
      rw [col_concat_get, if_pos hlt, hmod]
    · have hcb : b ≤ c := Nat.le_of_not_lt hc
      have hq : c / b = (c - b) / b + 1 := by
        have h1 : c = (c - b) + b := by omega
        conv_lhs => rw [h1]
        exact Nat.add_div_right _ hb
      have hmod : c % b = (c - b) % b := by
        have h1 : c = (c - b) + b := by omega
        conv_lhs => rw [h1]
        exact Nat.add_mod_right _ _
      rw [hq] at hm htail
      simp only [List.getElem?_cons_succ] at hm
      have hlen : (c - b) / b < ms.length := by
        by_contra hcon
        rw [List.getElem?_eq_none (Nat.le_of_not_lt hcon)] at hm
        simp at hm
      have hlen0 : 0 < ms.length := Nat.lt_of_le_of_lt (Nat.zero_le _) hlen
      have hw : m0.num_cols = b := by
        have := hfull 0 (by simp only [List.length_cons]; omega)
        simpa using this
      rw [col_concat_get, if_neg (by omega), hw, hmod]
      refine ih (c - b) (fun i hi => ?_) m hm (fun h => ?_)
      · have := hfull (i + 1) (by simp only [List.length_cons]; omega)
        simpa using this
      · rw [← hmod]
        exact htail (by simp only [List.length_cons]; rw [h])

theorem col_blocks.get_eq {α : Type} [Inhabited α] {mats : List (matrix_store α)}
    {M K b : Nat} (h : col_blocks mats M K b) (r c : Nat) (hc : c < K) :
    ∃ m, mats[c / b]? = some m ∧ m.num_rows = M ∧ c % b < m.num_cols
      ∧ m.num_cols = min (K - c / b * b) b
      ∧ col_concat_get mats r c = m.get r (c % b) := by
  have hb := h.block_pos
  have hidx : c / b < mats.length := by
    rw [Nat.div_lt_iff_lt_mul hb]
    exact lt_of_lt_of_le hc h.tail_le
  obtain ⟨m, hm, hrows, hcols⟩ := h.member (c / b) hidx
  have hsplit := Nat.div_add_mod c b
  have hmodlt := Nat.mod_lt c hb
  have hcomm : b * (c / b) = c / b * b := Nat.mul_comm _ _
  have hlt : c % b < m.num_cols := by
    rw [hcols]
    omega
  exact ⟨m, hm, hrows, hlt, hcols, col_concat_get_uniform b hb r mats c h.full m hm (fun _ => hlt)⟩

theorem sum_widths_uniform {α : Type} (b : Nat) :
    ∀ (mats : List (matrix_store α)) (t : Nat),
      (∀ i, i + 1 < mats.length → (mats[i]?).map (fun m => m.num_cols) = some b) →
      (mats[mats.length - 1]?).map (fun m => m.num_cols) = some t →
      (mats.map fun m => m.num_cols).sum = (mats.length - 1) * b + t := by
  intro mats
  induction mats with
  | nil => intro t _ ht; simp at ht
  | cons m0 ms ih =>
    intro t hfull htail
    by_cases hms : ms = []
    · subst hms
      simp only [List.length_singleton, Nat.sub_self, List.getElem?_cons_zero, Option.map_some',
        Option.some.injEq] at htail
      simp [htail]
    · have hlen : 0 < ms.length := List.length_pos.2 hms
      have hw : m0.num_cols = b := by
        have := hfull 0 (by simp; omega)
        simpa using this
      have htail' : (ms[ms.length - 1]?).map (fun m => m.num_cols) = some t := by
        have e : (m0 :: ms).length - 1 = (ms.length - 1) + 1 := by simp; omega
        rw [e] at htail
        simpa using htail
      have := ih t (fun i hi => by
        have := hfull (i + 1) (by simp; omega)
        simpa using this) htail'
      simp only [List.map_cons, List.sum_cons, this, hw, List.length_cons, Nat.add_sub_cancel]
      have e : ms.length * b = (ms.length - 1) * b + b := by
        obtain ⟨k, hk⟩ : ∃ k, ms.length = k + 1 := ⟨ms.length - 1, by omega⟩
        rw [hk]; simp; ring
      omega

theorem col_blocks.sum_cols {α : Type} {mats : List (matrix_store α)} {M K b : Nat}
    (h : col_blocks mats M K b) : (mats.map fun m => m.num_cols).sum = K := by
  rw [sum_widths_uniform b mats _ h.full h.tail]
  have := h.tail_pos
  omega

/-! ### The tall inner product -/

theorem verify_inner_prod_of_sizes {α : Type} (a m : dense_matrix α)
    (lop rop : bulk_operate α)
    (h1 : a.get_entry_size = lop.left_entry_size) (h2 : m.get_entry_size = lop.right_entry_size)
    (h3 : lop.output_entry_size = rop.left_entry_size)
    (h4 : rop.left_entry_size = rop.right_entry_size)
    (h5 : rop.right_entry_size = rop.output_entry_size)
    (h6 : a.get_num_cols = m.get_num_rows) :
    a.verify_inner_prod m lop rop = true := by
  unfold dense_matrix.verify_inner_prod
  simp [h1, h2, h3, h4, h5, h6]

theorem tall_tmp_mat_spec {α : Type} [Inhabited α] [Add α] [Mul α] (self : block_matrix α)
    (m : dense_matrix α) (left_op right_op : Option (bulk_operate α))
    (lop rop : bulk_operate α) (out_layout : matrix_layout_t) (M K N : Nat)
    (hA : self.tall_invariant M K) (hrow : m.get_num_rows = K) (hcol : m.get_num_cols = N)
    (hops : tall_operands self m left_op right_op lop rop)
    (i j : Nat) (hi : i < self.store.mats.length) (hj : j * self.block_size < N) :
    ∃ T, self.tall_tmp_mat m.conv_store left_op rop out_layout
          (j * self.block_size) (i * self.block_size) = some T
      ∧ T.num_rows = M ∧ T.num_cols = min (N - j * self.block_size) self.block_size
      ∧ ∀ r c, T.get r c = self.tall_cell m lop rop i r (j * self.block_size + c) := by
  have hb := hA.blocks.block_pos
  obtain ⟨left, hleft, hlrows, hlcols⟩ := hA.blocks.member i hi
  have hltype : left.type = (dense_matrix.block self).get_type :=
    hops.member_type left (List.getElem?_mem hleft)
  obtain ⟨part, hpart⟩ : ∃ part : matrix_store α, part =
      { num_rows := min self.block_size (K - i * self.block_size),
        num_cols := min self.block_size (N - j * self.block_size),
        layout := m.store_layout, type := m.get_type,
        get := fun r c => m.get (i * self.block_size + r) (j * self.block_size + c) } :=
    ⟨_, rfl⟩
  have hsub : get_sub_mat m.conv_store (i * self.block_size) (j * self.block_size)
      (min self.block_size (m.conv_store.num_rows - i * self.block_size))
      (min self.block_size (m.conv_store.num_cols - j * self.block_size)) = some part := by
    have hlo := hA.blocks.tail_pos
    have h2 : i * self.block_size ≤ (self.store.mats.length - 1) * self.block_size :=
      Nat.mul_le_mul_right _ (by omega)
    simp only [get_sub_mat, dense_matrix.conv_store, hrow, hcol]
    rw [if_pos (by constructor <;> omega), hpart]
  have hverify : (dense_matrix.plain left).verify_inner_prod (dense_matrix.plain part)
      lop rop = true := by
    apply verify_inner_prod_of_sizes _ _ _ _ _ _ hops.out_left hops.rop_lr hops.rop_ro
    · simp only [dense_matrix.get_num_cols, dense_matrix.get_num_rows, hlcols, hpart]
      exact Nat.min_comm _ _
    · have := hops.left_size
      simpa [dense_matrix.get_entry_size, dense_matrix.get_type, hltype] using this
    · have := hops.right_size
      simpa [dense_matrix.get_entry_size, dense_matrix.get_type, hpart] using this
  obtain ⟨T, hT⟩ : ∃ T : matrix_store α, T =
      { num_rows := left.num_rows,
        num_cols := min self.block_size (N - j * self.block_size),
        layout := if out_layout = .L_NONE then left.layout else out_layout,
        type := rop.output_type,
        get := fun r c => inner_prod_cell lop rop left.num_cols (fun k => left.get r k)
          (fun k => m.get (i * self.block_size + k) (j * self.block_size + c)) } :=
    ⟨_, rfl⟩
  have hprod : left.inner_prod (dense_matrix.plain part) lop rop out_layout = some T := by
    unfold matrix_store.inner_prod
    rw [if_pos hverify, hT, hpart]
    rfl
  have hbody : self.tall_tmp_mat m.conv_store left_op rop out_layout
      (j * self.block_size) (i * self.block_size) = some T := by
    unfold block_matrix.tall_tmp_mat
    simp only [Nat.mul_div_cancel _ hb, combined_matrix_store.get_mat, hleft, hsub]
    rcases hops.mode with ⟨hl, -⟩ | ⟨hl, -, -, hlop, hrop⟩
    · subst hl
      exact hprod
    · subst hl
      simp only [matrix_store.multiply, hltype, ← hlop, ← hrop]
      exact hprod
  refine ⟨T, hbody, ?_, ?_, fun r c => ?_⟩
  · rw [hT]; exact hlrows
  · rw [hT]; exact Nat.min_comm _ _
  · simp only [block_matrix.tall_cell, hleft, hT]

theorem fill_loop_blocks_exists {β : Type} (d : β) (b n : Nat) (hb : 0 < b)
    (body : Nat → Option β) (P : Nat → β → Prop)
    (h : ∀ t, t < n → ∃ v, body (t * b) = some v ∧ P t v) :
    ∃ val : Nat → β,
      fill_loop (fun x => x / b) body ((List.range n).map fun t => t * b) (List.replicate n none)
        = some ((List.range n).map fun t => some (val t))
      ∧ ∀ t, t < n → P t (val t) := by
  refine ⟨fun t => (body (t * b)).getD d, ?_, ?_⟩
  · apply fill_loop_blocks b n hb
    intro t ht
    obtain ⟨v, hv, -⟩ := h t ht
    simp [hv]
  · intro t ht
    obtain ⟨v, hv, hP⟩ := h t ht
    simpa [hv] using hP

theorem range_map_head {β : Type} (f : Nat → β) (n : Nat) (hn : 0 < n) :
    ((List.range n).map f).head? = some (f 0) := by
  obtain ⟨k, rfl⟩ : ∃ k, n = k + 1 := ⟨n - 1, by omega⟩
  simp [List.range_succ_eq_map]

theorem tall_res_block_spec {α : Type} [Inhabited α] [Add α] [Mul α] (self : block_matrix α)
    (m : dense_matrix α) (left_op right_op : Option (bulk_operate α))
    (lop rop : bulk_operate α) (out_layout : matrix_layout_t) (M K N : Nat)
    (hA : self.tall_invariant M K) (hrow : m.get_num_rows = K) (hcol : m.get_num_cols = N)
    (hops : tall_operands self m left_op right_op lop rop)
    (j : Nat) (hj : j * self.block_size < N) :
    ∃ blk, self.tall_res_block m.conv_store left_op rop out_layout (j * self.block_size)
          = some blk
      ∧ blk.num_rows = M ∧ blk.num_cols = min (N - j * self.block_size) self.block_size
      ∧ ∀ r c, fold_later_on_left rop.run
            ((List.range self.store.mats.length).map fun i =>
              self.tall_cell m lop rop i r (j * self.block_size + c))
          = some (blk.get r c) := by
  have hb := hA.blocks.block_pos
  have hn := hA.blocks.length_pos
  have hlen := hA.blocks.length_eq
  obtain ⟨val, hfill, hval⟩ := fill_loop_blocks_exists
    ({ num_rows := 0, num_cols := 0, layout := .L_COL, type := .T_INT,
       get := fun _ _ => default } : matrix_store α)
    self.block_size self.store.mats.length hb
    (self.tall_tmp_mat m.conv_store left_op rop out_layout (j * self.block_size))
    (fun i T => T.num_rows = M ∧ T.num_cols = min (N - j * self.block_size) self.block_size
      ∧ ∀ r c, T.get r c = self.tall_cell m lop rop i r (j * self.block_size + c))
    (fun i hi => tall_tmp_mat_spec self m left_op right_op lop rop out_layout M K N hA hrow hcol
      hops i j hi hj)
  have hrange : for_range m.conv_store.num_rows 0 m.conv_store.num_rows self.block_size
      = some ((List.range self.store.mats.length).map fun t => t * self.block_size) := by
    rw [for_range_blocks _ _ hb]
    simp only [dense_matrix.conv_store, hrow, ← hlen]
  have hsome : ((List.range self.store.mats.length).map fun t => some (val t))
      = ((List.range self.store.mats.length).map val).map some := by
    simp [List.map_map, Function.comp]
  have hne : (List.range self.store.mats.length).map val ≠ [] := by
    intro hnil
    have := congrArg List.length hnil
    simp only [List.length_map, List.length_range, List.length_nil] at this
    omega
  have hshape : (((List.range self.store.mats.length).map val).all fun x =>
      decide (x.num_rows = (val 0).num_rows ∧ x.num_cols = (val 0).num_cols)) = true := by
    rw [List.all_eq_true]
    intro x hx
    obtain ⟨i, hi, rfl⟩ := List.mem_map.1 hx
    rw [List.mem_range] at hi
    have h0 := hval 0 hn
    have h1 := hval i hi
    simp only [decide_eq_true_eq]
    exact ⟨h1.1.trans h0.1.symm, h1.2.1.trans h0.2.1.symm⟩
  obtain ⟨res, hrun, hr, hc, -, -, hget⟩ := gsum_run_spec
    { op := rop, out_num_rows := (val 0).num_rows, out_num_cols := (val 0).num_cols }
    ((List.range self.store.mats.length).map val)
    { num_rows := (val 0).num_rows, num_cols := (val 0).num_cols, layout := .L_COL,
      type := rop.output_type, get := fun _ _ => default } hne
  refine ⟨res, ?_, ?_, ?_, ?_⟩
  · unfold block_matrix.tall_res_block
    simp only [hrange, combined_matrix_store.get_num_mats, hfill]
    rw [range_map_head _ _ hn]
    simp only [mapply_portion, hsome, all_non_null_map_some, hshape, if_true]
    exact hrun
  · rw [hr]; exact (hval 0 hn).1
  · rw [hc]; exact (hval 0 hn).2.1
  · intro r c
    rw [← hget r c]
    congr 1
    rw [List.map_map]
    apply List.map_congr_left
    intro i hi
    rw [List.mem_range] at hi
    exact ((hval i hi).2.2 r c).symm

theorem range_map_two {β : Type} (f : Nat → β) (n : Nat) (hn : 2 ≤ n) :
    ∃ rest, (List.range n).map f = f 0 :: f 1 :: rest := by
  obtain ⟨k, rfl⟩ : ∃ k, n = k + 2 := ⟨n - 2, by omega⟩
  refine ⟨(List.range k).map (f ∘ Nat.succ ∘ Nat.succ), ?_⟩
  rw [List.range_succ_eq_map, List.range_succ_eq_map]
  simp [List.map_map, Function.comp]

/-- What `inner_prod_tall` returns for a tall block matrix that satisfies the
block invariant: a matrix of the shape of the product whose element `(r, c)`
is the `gsum` fold of the partial products of the members. -/
theorem inner_prod_tall_spec {α : Type} [Inhabited α] [Add α] [Mul α] (self : block_matrix α)
    (m : dense_matrix α) (left_op right_op : Option (bulk_operate α))
    (lop rop : bulk_operate α) (out_layout : matrix_layout_t) (M K N : Nat)
    (hA : self.tall_invariant M K) (hrow : m.get_num_rows = K) (hcol : m.get_num_cols = N)
    (hN : 0 < N) (hops : tall_operands self m left_op right_op lop rop) :
    ∃ R, self.inner_prod_tall m left_op right_op out_layout = some R
      ∧ R.get_num_rows = M ∧ R.get_num_cols = N
      ∧ (∀ r c, c < N →
          fold_later_on_left rop.run
            ((List.range self.store.mats.length).map fun i => self.tall_cell m lop rop i r c)
          = some (R.get r c))
      ∧ ((∃ s, R = .plain s)
        ∨ ∃ bm, R = .block bm ∧ col_blocks bm.store.mats M N self.block_size
            ∧ bm.block_size = self.block_size ∧ self.block_size ≤ N) := by
  have hb := hA.blocks.block_pos
  obtain ⟨hpos, hlo, hhi⟩ := div_ceil_bounds N self.block_size hb hN
  have hjlt : ∀ j, j < div_ceil N self.block_size → j * self.block_size < N := by
    intro j hj
    have : j * self.block_size ≤ (div_ceil N self.block_size - 1) * self.block_size :=
      Nat.mul_le_mul_right _ (by omega)
    omega
  obtain ⟨val, hfill, hval⟩ := fill_loop_blocks_exists
    ({ num_rows := 0, num_cols := 0, layout := .L_COL, type := .T_INT,
       get := fun _ _ => default } : matrix_store α)
    self.block_size (div_ceil N self.block_size) hb
    (self.tall_res_block m.conv_store left_op rop out_layout)
    (fun j blk => blk.num_rows = M ∧ blk.num_cols = min (N - j * self.block_size) self.block_size
      ∧ ∀ r c, fold_later_on_left rop.run
            ((List.range self.store.mats.length).map fun i =>
              self.tall_cell m lop rop i r (j * self.block_size + c))
          = some (blk.get r c))
    (fun j hj => tall_res_block_spec self m left_op right_op lop rop out_layout M K N hA hrow
      hcol hops j (hjlt j hj))
  have hguard : (left_op.isNone && !((dense_matrix.block self).get_type.is_floating_point
      && m.get_type.is_floating_point)) = false := by
    rcases hops.mode with ⟨hl, -⟩ | ⟨hl, h1, h2, -, -⟩
    · simp [hl]
    · simp [hl, h1, h2]
  have hrop : (if left_op.isNone = true then
        some (basic_ops_get_add (dense_matrix.block self).get_type) else right_op) = some rop := by
    rcases hops.mode with ⟨hl, hr⟩ | ⟨hl, -, -, -, hr⟩
    · simp [hl, hr]
    · simp [hl, hr]
  have hrange : for_range m.conv_store.num_cols 0 m.conv_store.num_cols self.block_size
      = some ((List.range (div_ceil N self.block_size)).map fun t => t * self.block_size) := by
    rw [for_range_blocks _ _ hb]
    simp only [dense_matrix.conv_store, hcol]
  have hstart : self.inner_prod_tall m left_op right_op out_layout
      = self.tall_result ((List.range (div_ceil N self.block_size)).map fun t => some (val t)) := by
    unfold block_matrix.inner_prod_tall
    simp only [hguard, hrop, hrange, Bool.false_eq_true, if_false]
    have hc : m.conv_store.num_cols = N := by simp only [dense_matrix.conv_store, hcol]
    rw [hc, hfill]
  rw [hstart]
  by_cases hone : div_ceil N self.block_size = 1
  · have h0 := hval 0 (by omega)
    rw [hone] at hhi
    refine ⟨.plain (val 0), ?_, h0.1, ?_, fun r c _ => ?_, Or.inl ⟨val 0, rfl⟩⟩
    · rw [hone]; rfl
    · simp only [dense_matrix.get_num_cols, h0.2.1]
      omega
    · have := h0.2.2 r c
      simpa using this
  · have htwo : 2 ≤ div_ceil N self.block_size := by omega
    obtain ⟨rest, hrest⟩ := range_map_two (fun t => some (val t)) _ htwo
    have hsome : ((List.range (div_ceil N self.block_size)).map fun t => some (val t))
        = ((List.range (div_ceil N self.block_size)).map val).map some := by
      simp [List.map_map, Function.comp]
    have hblocks : col_blocks ((List.range (div_ceil N self.block_size)).map val) M N
        self.block_size :=
      col_blocks_created val M N self.block_size hb hN (fun i hi => (hval i hi).1)
        (fun i hi => (hval i hi).2.1)
    obtain ⟨rest', hrest'⟩ := created_list_head val (div_ceil N self.block_size) hpos
    have hnotwide : (val 0).is_wide = false := by
      have h0 := hval 0 hpos
      have h1 := hA.tall
      have h2 := hA.block_le
      simp only [matrix_store.is_wide, decide_eq_false_iff_not, h0.1, h0.2.1]
      omega
    have hsame : blocks_same_size (fun x : matrix_store α => x.num_cols)
        ((List.range (div_ceil N self.block_size)).map val) = true :=
      blocks_same_size_created _ val N self.block_size hb hN (fun i hi => (hval i hi).2.1)
    have hmatch : self.tall_result
          ((List.range (div_ceil N self.block_size)).map fun t => some (val t))
        = some (.block (block_matrix.mk_of_store
            { mats := (List.range (div_ceil N self.block_size)).map val,
              layout := (dense_matrix.block self).store_layout })) := by
      have hcreate : combined_matrix_store.create
          ((List.range (div_ceil N self.block_size)).map val)
          (dense_matrix.block self).store_layout
          = some { mats := (List.range (div_ceil N self.block_size)).map val,
                   layout := (dense_matrix.block self).store_layout } := by
        simp only [combined_matrix_store.create, hrest']
        rfl
      have hall := all_non_null_map_some ((List.range (div_ceil N self.block_size)).map val)
      rw [← hsome] at hall
      rw [hrest] at hall ⊢
      simp only [block_matrix.tall_result, hall, hcreate, Option.some_bind]
      exact create_of_store_tall _ (val 0) (by simp [hrest']) hnotwide hsame
    have hbN : self.block_size ≤ N := by
      have : 1 * self.block_size ≤ (div_ceil N self.block_size - 1) * self.block_size :=
        Nat.mul_le_mul_right _ (by omega)
      omega
    have hbsize : (block_matrix.mk_of_store
        { mats := (List.range (div_ceil N self.block_size)).map val,
          layout := (dense_matrix.block self).store_layout }).block_size = self.block_size := by
      rw [hrest', mk_of_store_block_size_cons, hnotwide]
      simp only [Bool.false_eq_true, if_false, (hval 0 hpos).2.1, Nat.zero_mul, Nat.sub_zero]
      omega
    refine ⟨_, hmatch, ?_, ?_, fun r c hc => ?_, Or.inr ⟨_, rfl, hblocks, hbsize, hbN⟩⟩
    · simp only [dense_matrix.get_num_rows, block_matrix.mk_of_store,
        combined_matrix_store.get_num_rows, combined_matrix_store.is_wide_group, hrest',
        hnotwide, Bool.false_eq_true, if_false]
      exact (hval 0 hpos).1
    · simp only [dense_matrix.get_num_cols, block_matrix.mk_of_store,
        combined_matrix_store.get_num_cols, combined_matrix_store.is_wide_group, hrest',
        hnotwide, Bool.false_eq_true, if_false]
      rw [← hrest']
      exact hblocks.sum_cols
    · obtain ⟨blk, hblk, -, -, -, hget⟩ := hblocks.get_eq r c hc
      have hidx : c / self.block_size < div_ceil N self.block_size := by
        by_contra hcon
        rw [List.getElem?_eq_none (by simpa using Nat.le_of_not_lt hcon)] at hblk
        simp at hblk
      have hblk' : blk = val (c / self.block_size) := by
        rw [List.getElem?_map, List.getElem?_range hidx] at hblk
        simpa using hblk.symm
      have hfold := (hval _ hidx).2.2 r (c % self.block_size)
      have hsplit : c / self.block_size * self.block_size + c % self.block_size = c := by
        rw [Nat.mul_comm]; exact Nat.div_add_mod c _
      rw [hsplit] at hfold
      rw [hfold]
      simp only [dense_matrix.get, block_matrix.mk_of_store, combined_matrix_store.get,
        combined_matrix_store.is_wide_group, hrest', hnotwide, Bool.false_eq_true, if_false]
      rw [← hrest', hget, hblk']

/-! ### Sums over the inner dimension -/

theorem list_sum_range_map {α : Type} [AddCommMonoid α] (g : Nat → α) (n : Nat) :
    ((List.range n).map g).sum = ∑ i ∈ Finset.range n, g i := by
  induction n with
  | zero => simp
  | succ n ih =>
    rw [List.range_succ, List.map_append, List.sum_append, ih, Finset.sum_range_succ]
    simp

theorem foldl_add_later_on_left {α : Type} [AddCommMonoid α] (xs : List α) (a : α) :
    xs.foldl (fun acc z => z + acc) a = a + xs.sum := by
  induction xs generalizing a with
  | nil => simp
  | cons x xs ih =>
    simp only [List.foldl_cons, List.sum_cons]
    rw [ih, add_comm x a, add_assoc]

theorem fold_later_on_left_add {α : Type} [AddCommMonoid α] (xs : List α) (hne : xs ≠ []) :
    fold_later_on_left (fun a b : α => a + b) xs = some xs.sum := by
  match xs, hne with
  | [x], _ => simp [fold_later_on_left]
  | x :: y :: rest, _ =>
    simp only [fold_later_on_left, List.sum_cons]
    rw [foldl_add_later_on_left, add_assoc]

theorem inner_prod_cell_mul_add {α : Type} [Semiring α] (lop rop : bulk_operate α)
    (hl : lop.run = fun a b => a * b) (hr : rop.run = fun a b => a + b)
    (len : Nat) (hlen : 0 < len) (row col : Nat → α) :
    inner_prod_cell lop rop len row col = ∑ k ∈ Finset.range len, row k * col k := by
  obtain ⟨n, rfl⟩ : ∃ n, len = n + 1 := ⟨len - 1, by omega⟩
  unfold inner_prod_cell
  simp only [hl, hr, Nat.add_sub_cancel]
  clear hlen
  induction n with
  | zero => simp
  | succ n ih =>
    rw [List.range_succ, List.foldl_append, ih, Finset.sum_range_succ _ (n + 1)]
    simp

theorem sum_full_rows {α : Type} [AddCommMonoid α] (f : Nat → α) (b q : Nat) :
    ∑ i ∈ Finset.range q, ∑ k ∈ Finset.range b, f (i * b + k)
      = ∑ x ∈ Finset.range (q * b), f x := by
  induction q with
  | zero => simp
  | succ q ih =>
    rw [Finset.sum_range_succ, ih, Nat.succ_mul, Finset.sum_range_add]

theorem sum_by_blocks {α : Type} [AddCommMonoid α] (f : Nat → α) (b n K : Nat)
    (hlo : (n - 1) * b < K) (hhi : K ≤ n * b) :
    ∑ i ∈ Finset.range n, ∑ k ∈ Finset.range (min (K - i * b) b), f (i * b + k)
      = ∑ x ∈ Finset.range K, f x := by
  have hn : 0 < n := by
    rcases Nat.eq_zero_or_pos n with h | h
    · subst h; simp at hhi; omega
    · exact h
  obtain ⟨q, rfl⟩ : ∃ q, n = q + 1 := ⟨n - 1, by omega⟩
  simp only [Nat.add_sub_cancel] at hlo
  have hqb : (q + 1) * b = q * b + b := by ring
  rw [Finset.sum_range_succ]
  have hfull : ∑ i ∈ Finset.range q, ∑ k ∈ Finset.range (min (K - i * b) b), f (i * b + k)
      = ∑ i ∈ Finset.range q, ∑ k ∈ Finset.range b, f (i * b + k) := by
    apply Finset.sum_congr rfl
    intro i hi
    rw [Finset.mem_range] at hi
    have h1 : (i + 1) * b ≤ q * b := Nat.mul_le_mul_right b (by omega)
    have h2 : (i + 1) * b = i * b + b := by ring
    rw [show min (K - i * b) b = b by omega]
  rw [hfull, sum_full_rows, show min (K - q * b) b = K - q * b by omega]
  have hK : K = q * b + (K - q * b) := by omega
  conv_rhs => rw [hK]
  rw [Finset.sum_range_add]

/-- The `gsum` of the partial products of a tall block matrix, with `MUL` and
`ADD` of a semiring as kernels, is the sum over the whole inner dimension. -/
theorem tall_cells_sum {α : Type} [Inhabited α] [Semiring α] (self : block_matrix α)
    (m : dense_matrix α) (lop rop : bulk_operate α)
    (hl : lop.run = fun a b => a * b) (hr : rop.run = fun a b => a + b)
    (M K : Nat) (hA : self.tall_invariant M K) (r c : Nat) :
    fold_later_on_left rop.run
        ((List.range self.store.mats.length).map fun i => self.tall_cell m lop rop i r c)
      = some (∑ k ∈ Finset.range K, (dense_matrix.block self).get r k * m.get k c) := by
  have hb := hA.blocks.block_pos
  have hn := hA.blocks.length_pos
  have hne : ((List.range self.store.mats.length).map
      fun i => self.tall_cell m lop rop i r c) ≠ [] := by
    intro hnil
    have := congrArg List.length hnil
    simp only [List.length_map, List.length_range, List.length_nil] at this
    omega
  obtain ⟨m0, hm0, hm0rows, hm0cols⟩ := hA.blocks.member 0 hn
  have hget : ∀ x, (dense_matrix.block self).get r x = col_concat_get self.store.mats r x := by
    intro x
    have hnw : self.store.is_wide_group = false := by
      obtain ⟨rest, hrest⟩ : ∃ rest, self.store.mats = m0 :: rest := by
        cases hmats : self.store.mats with
        | nil => rw [hmats] at hm0; simp at hm0
        | cons a rest =>
          rw [hmats] at hm0
          simp only [List.getElem?_cons_zero, Option.some.injEq] at hm0
          exact ⟨rest, by rw [hm0]⟩
      have h1 := hA.tall
      have h2 := hA.block_le
      simp only [combined_matrix_store.is_wide_group, hrest, matrix_store.is_wide,
        decide_eq_false_iff_not, hm0rows, hm0cols]
      omega
    simp only [dense_matrix.get, combined_matrix_store.get, hnw, Bool.false_eq_true, if_false]
  rw [hr, fold_later_on_left_add _ hne, list_sum_range_map,
    ← sum_by_blocks (fun x => (dense_matrix.block self).get r x * m.get x c) self.block_size
      self.store.mats.length K hA.blocks.tail_pos hA.blocks.tail_le]
  congr 1
  apply Finset.sum_congr rfl
  intro i hi
  rw [Finset.mem_range] at hi
  obtain ⟨left, hleft, -, hlcols⟩ := hA.blocks.member i hi
  have hlo := hA.blocks.tail_pos
  have h2 : i * self.block_size ≤ (self.store.mats.length - 1) * self.block_size :=
    Nat.mul_le_mul_right _ (by omega)
  have hwpos : 0 < left.num_cols := by rw [hlcols]; omega
  simp only [block_matrix.tall_cell, hleft]
  rw [inner_prod_cell_mul_add lop rop hl hr _ hwpos, hlcols]
  apply Finset.sum_congr rfl
  intro k hk
  rw [Finset.mem_range] at hk
  have hx : i * self.block_size + k < K := by omega
  obtain ⟨left', hleft', -, -, -, hcc⟩ := hA.blocks.get_eq r (i * self.block_size + k) hx
  have hdiv : (i * self.block_size + k) / self.block_size = i := by
    rw [Nat.add_comm, Nat.add_mul_div_right _ _ hb, Nat.div_eq_of_lt (by omega)]
    omega
  have hmod : (i * self.block_size + k) % self.block_size = k := by
    rw [Nat.add_comm, Nat.add_mul_mod_self_right]
    exact Nat.mod_eq_of_lt (by omega)
  rw [hdiv, hleft] at hleft'
  simp only [Option.some.injEq] at hleft'
  rw [hget, hcc, hmod, ← hleft']

theorem block_get_type_of_members {α : Type} (self : block_matrix α) (t : scalar_type)
    (hne : 0 < self.store.mats.length) (h : ∀ x ∈ self.store.mats, x.type = t) :
    (dense_matrix.block self).get_type = t := by
  cases hmats : self.store.mats with
  | nil => rw [hmats] at hne; simp at hne
  | cons a rest =>
    simp only [dense_matrix.get_type, combined_matrix_store.get_type, hmats]
    exact h a (by rw [hmats]; exact List.mem_cons_self _ _)

theorem tall_operands_int (self : block_matrix Int) (m : dense_matrix Int) (M K : Nat)
    (hA : self.tall_invariant M K) (ht : ∀ x ∈ self.store.mats, x.type = .T_INT)
    (hm : m.get_type = .T_INT) :
    tall_operands self m (some (basic_ops_get_multiply .T_INT)) (some (basic_ops_get_add .T_INT))
      (basic_ops_get_multiply .T_INT) (basic_ops_get_add .T_INT) := by
  have hty := block_get_type_of_members self .T_INT hA.blocks.length_pos ht
  refine ⟨fun x hx => by rw [hty]; exact ht x hx, Or.inl ⟨rfl, rfl⟩, ?_, ?_, rfl, rfl, rfl⟩
  · simp only [dense_matrix.get_entry_size, hty]
    rfl
  · simp only [dense_matrix.get_entry_size, hm]
    rfl

/-- C1: for tall block matrices of integers that satisfy the block invariant and
an integer matrix `B` with as many rows as they have columns, `inner_prod_tall`
with `MUL` and `ADD` returns a matrix of the shape of the product whose element
`(r, c)` is the sum over `k` of `A[r][k] * B[k][c]`; two block matrices with the
same elements and different block sizes therefore give equal results. -/
theorem C1_inner_prod_tall (A1 A2 : block_matrix Int) (B : dense_matrix Int)
    (out_layout : matrix_layout_t) (M K N : Nat)
    (h1 : A1.tall_invariant M K) (h2 : A2.tall_invariant M K)
    (ht1 : ∀ x ∈ A1.store.mats, x.type = .T_INT) (ht2 : ∀ x ∈ A2.store.mats, x.type = .T_INT)
    (hBt : B.get_type = .T_INT) (hrow : B.get_num_rows = K) (hcol : B.get_num_cols = N)
    (hN : 0 < N)
    (hsame : ∀ r, r < M → ∀ k, k < K →
      (dense_matrix.block A1).get r k = (dense_matrix.block A2).get r k) :
    ∃ R1 R2,
      A1.inner_prod_tall B (some (basic_ops_get_multiply .T_INT))
          (some (basic_ops_get_add .T_INT)) out_layout = some R1
      ∧ A2.inner_prod_tall B (some (basic_ops_get_multiply .T_INT))
          (some (basic_ops_get_add .T_INT)) out_layout = some R2
      ∧ R1.get_num_rows = M ∧ R1.get_num_cols = N
      ∧ R2.get_num_rows = M ∧ R2.get_num_cols = N
      ∧ ∀ r, r < M → ∀ c, c < N →
          R1.get r c = ∑ k ∈ Finset.range K, (dense_matrix.block A1).get r k * B.get k c
          ∧ R2.get r c = R1.get r c := by
  obtain ⟨R1, hR1, hr1, hc1, hg1, -⟩ := inner_prod_tall_spec A1 B _ _ _ _ out_layout M K N h1 hrow
    hcol hN (tall_operands_int A1 B M K h1 ht1 hBt)
  obtain ⟨R2, hR2, hr2, hc2, hg2, -⟩ := inner_prod_tall_spec A2 B _ _ _ _ out_layout M K N h2 hrow
    hcol hN (tall_operands_int A2 B M K h2 ht2 hBt)
  refine ⟨R1, R2, hR1, hR2, hr1, hc1, hr2, hc2, fun r hr c hc => ?_⟩
  have e1 := hg1 r c hc
  have e2 := hg2 r c hc
  rw [tall_cells_sum A1 B _ _ rfl rfl M K h1 r c] at e1
  rw [tall_cells_sum A2 B _ _ rfl rfl M K h2 r c] at e2
  simp only [Option.some.injEq] at e1 e2
  refine ⟨e1.symm, ?_⟩
  rw [← e1, ← e2]
  apply Finset.sum_congr rfl
  intro k hk
  rw [Finset.mem_range] at hk
  rw [hsame r hr k hk]

theorem tall_3x2_invariant : tall_3x2.tall_invariant 3 2 := by
  refine ⟨⟨by decide, ?_, ?_, ?_, by decide, by decide⟩, by decide, by decide⟩
  · intro m hm
    simp only [tall_3x2, List.mem_cons, List.mem_singleton, List.not_mem_nil, or_false] at hm
    rcases hm with rfl | rfl <;> rfl
  · intro i hi
    have : i = 0 := by simp [tall_3x2] at hi; omega
    subst this
    rfl
  · rfl

theorem tall_3x2_one_block_invariant : tall_3x2_one_block.tall_invariant 3 2 := by
  refine ⟨⟨by decide, ?_, ?_, ?_, by decide, by decide⟩, by decide, by decide⟩
  · intro m hm
    simp only [tall_3x2_one_block, List.mem_singleton] at hm
    subst hm
    rfl
  · intro i hi
    simp [tall_3x2_one_block] at hi
  · rfl

/-- C1, at a concrete input: the 3-by-2 matrix `[[0, 1], [10, 11], [20, 21]]` in
blocks of one column and as one block of two columns, times `[[5, 6], [7, 8]]`. -/
theorem C1_inner_prod_tall_witness :
    ∃ R1 R2,
      tall_3x2.inner_prod_tall mat_5678 (some (basic_ops_get_multiply .T_INT))
          (some (basic_ops_get_add .T_INT)) .L_NONE = some R1
      ∧ tall_3x2_one_block.inner_prod_tall mat_5678 (some (basic_ops_get_multiply .T_INT))
          (some (basic_ops_get_add .T_INT)) .L_NONE = some R2
      ∧ R1.get_num_rows = 3 ∧ R1.get_num_cols = 2
      ∧ R2.get_num_rows = 3 ∧ R2.get_num_cols = 2
      ∧ ∀ r, r < 3 → ∀ c, c < 2 →
          R1.get r c = ∑ k ∈ Finset.range 2, (dense_matrix.block tall_3x2).get r k
            * mat_5678.get k c
          ∧ R2.get r c = R1.get r c :=
  C1_inner_prod_tall tall_3x2 tall_3x2_one_block mat_5678 .L_NONE 3 2 2
    tall_3x2_invariant tall_3x2_one_block_invariant
    (by intro x hx
        simp only [tall_3x2, List.mem_cons, List.mem_singleton, List.not_mem_nil, or_false] at hx
        rcases hx with rfl | rfl <;> rfl)
    (by intro x hx
        simp only [tall_3x2_one_block, List.mem_singleton] at hx
        subst hx
        rfl)
    rfl rfl rfl (by decide) (by decide)

/-! ### Columns of a slice -/

theorem block_matrix.tall_invariant.not_wide_group {α : Type} {self : block_matrix α}
    {M K : Nat} (hA : self.tall_invariant M K) : self.store.is_wide_group = false := by
  obtain ⟨m0, hm0, hm0rows, hm0cols⟩ := hA.blocks.member 0 hA.blocks.length_pos
  cases hmats : self.store.mats with
  | nil => rw [hmats] at hm0; simp at hm0
  | cons a rest =>
    rw [hmats] at hm0
    simp only [List.getElem?_cons_zero, Option.some.injEq] at hm0
    have h1 := hA.tall
    have h2 := hA.block_le
    simp only [combined_matrix_store.is_wide_group, hmats, matrix_store.is_wide,
      decide_eq_false_iff_not, hm0, hm0rows, hm0cols]
    omega

theorem block_matrix.tall_invariant.num_rows_eq {α : Type} {self : block_matrix α}
    {M K : Nat} (hA : self.tall_invariant M K) : (dense_matrix.block self).get_num_rows = M := by
  obtain ⟨m0, hm0, hm0rows, -⟩ := hA.blocks.member 0 hA.blocks.length_pos
  simp only [dense_matrix.get_num_rows, combined_matrix_store.get_num_rows, hA.not_wide_group,
    Bool.false_eq_true, if_false]
  cases hmats : self.store.mats with
  | nil => rw [hmats] at hm0; simp at hm0
  | cons a rest =>
    rw [hmats] at hm0
    simp only [List.getElem?_cons_zero, Option.some.injEq] at hm0
    simp only [hm0, hm0rows]

theorem block_matrix.tall_invariant.num_cols_eq {α : Type} {self : block_matrix α}
    {M K : Nat} (hA : self.tall_invariant M K) : (dense_matrix.block self).get_num_cols = K := by
  simp only [dense_matrix.get_num_cols, combined_matrix_store.get_num_cols, hA.not_wide_group,
    Bool.false_eq_true, if_false]
  exact hA.blocks.sum_cols

theorem block_matrix.tall_invariant.get_eq_concat {α : Type} [Inhabited α] {self : block_matrix α}
    {M K : Nat} (hA : self.tall_invariant M K) (r c : Nat) :
    (dense_matrix.block self).get r c = col_concat_get self.store.mats r c := by
  simp only [dense_matrix.get, combined_matrix_store.get, hA.not_wide_group,
    Bool.false_eq_true, if_false]

theorem combined_of_not_wide {α : Type} [Inhabited α] (m0 : matrix_store α)
    (rest : List (matrix_store α)) (layout : matrix_layout_t) (hw : m0.is_wide = false) :
    (combined_matrix_store.to_store { mats := m0 :: rest, layout := layout }).num_rows
        = m0.num_rows
    ∧ (combined_matrix_store.to_store { mats := m0 :: rest, layout := layout }).num_cols
        = ((m0 :: rest).map fun s => s.num_cols).sum
    ∧ ∀ r c, (combined_matrix_store.to_store { mats := m0 :: rest, layout := layout }).get r c
        = col_concat_get (m0 :: rest) r c := by
  simp [combined_matrix_store.to_store, combined_matrix_store.get_num_rows,
    combined_matrix_store.get_num_cols, combined_matrix_store.get,
    combined_matrix_store.is_wide_group, hw]

theorem all_non_null_map_exists {γ β : Type} (d : β) (l : List γ) (F : γ → Option β)
    (P : γ → β → Prop) (h : ∀ p ∈ l, ∃ v, F p = some v ∧ P p v) :
    ∃ sel : γ → β, all_non_null (l.map F) = some (l.map sel) ∧ ∀ p ∈ l, P p (sel p) := by
  refine ⟨fun p => (F p).getD d, ?_, ?_⟩
  · rw [← all_non_null_map_some (l.map fun p => (F p).getD d), List.map_map]
    congr 1
    apply List.map_congr_left
    intro p hp
    obtain ⟨v, hv, -⟩ := h p hp
    simp [hv]
  · intro p hp
    obtain ⟨v, hv, hP⟩ := h p hp
    simpa [hv] using hP

theorem range_map_zip {γ δ β : Type} (F : γ → δ → Option β) :
    ∀ (l1 : List γ) (l2 : List δ), l1.length = l2.length →
      (List.range l1.length).map (at_both l1 l2 F)
      = (List.zip l1 l2).map fun p => F p.1 p.2 := by
  intro l1
  induction l1 with
  | nil => intro l2 _; simp
  | cons a l1 ih =>
    intro l2 hlen
    cases l2 with
    | nil => simp at hlen
    | cons b l2 =>
      simp only [List.length_cons, Nat.add_right_cancel_iff] at hlen
      rw [List.length_cons, List.range_succ_eq_map]
      simp only [List.map_cons, List.zip_cons_cons, List.map_map, List.cons.injEq]
      rw [← ih l2 hlen]
      constructor
      · simp [at_both]
      · apply List.map_congr_left
        intro i _
        simp [at_both]

theorem range_map_getD {β : Type} (l : List Int) (f : Int → β) :
    ((List.range l.length).map fun j => f (l.getD j 0)) = l.map f := by
  apply List.ext_getElem?
  intro j
  by_cases hj : j < l.length
  · simp [List.getElem?_map, List.getElem?_range hj, List.getElem?_eq_getElem hj,
      List.getD_eq_getElem _ _ hj]
  · have h1 : (List.range l.length).length ≤ j := by simpa using Nat.le_of_not_lt hj
    simp [List.getElem?_map, List.getElem?_eq_none h1, List.getElem?_eq_none (Nat.le_of_not_lt hj)]

theorem col_concat_get_flat {α : Type} [Inhabited α] (r : Nat) :
    ∀ (ss : List (matrix_store α)) (k : Nat),
      k < (ss.map fun s => s.num_cols).sum →
      (ss.flatMap fun s => (List.range s.num_cols).map fun j => s.get r j)[k]?
        = some (col_concat_get ss r k) := by
  intro ss
  induction ss with
  | nil => intro k hk; simp at hk
  | cons s ss ih =>
    intro k hk
    simp only [List.map_cons, List.sum_cons] at hk
    simp only [List.flatMap_cons, col_concat_get]
    by_cases hlt : k < s.num_cols
    · rw [if_pos hlt, List.getElem?_append_left (by simpa using hlt)]
      simp [List.getElem?_map, List.getElem?_range hlt]
    · rw [if_neg hlt, List.getElem?_append_right (by simpa using Nat.le_of_not_lt hlt)]
      simp only [List.length_map, List.length_range]
      exact ih (k - s.num_cols) (by omega)

theorem sorted_lt_length_le (hi : Int) :
    ∀ (l : List Int) (lo : Int), l.Sorted (· < ·) → (∀ x ∈ l, lo ≤ x ∧ x < hi) →
      (l.length : Int) ≤ max (hi - lo) 0 := by
  intro l
  induction l with
  | nil => intro lo _ _; simp
  | cons a t ih =>
    intro lo hs hr
    have ha := hr a (List.mem_cons_self _ _)
    have hs' := List.sorted_cons.1 hs
    have := ih (a + 1) hs'.2 (fun x hx =>
      ⟨by have := hs'.1 x hx; omega, (hr x (List.mem_cons_of_mem _ hx)).2⟩)
    simp only [List.length_cons, Nat.cast_add, Nat.cast_one]
    omega

theorem concat_groups_length (b : Nat) :
    ∀ (ms : List Int) (gs : List (List Int)),
      (concat_groups b ms gs).length = ((List.zip ms gs).map fun p => p.2.length).sum := by
  intro ms gs
  unfold concat_groups
  induction List.zip ms gs with
  | nil => simp
  | cons p ps ih => simp [List.flatMap_cons, ih]

theorem mem_concat_groups (b : Nat) (ms : List Int) (gs : List (List Int)) (p : Int × List Int)
    (hp : p ∈ List.zip ms gs) (l : Int) (hl : l ∈ p.2) :
    p.1 * (b : Int) + l ∈ concat_groups b ms gs := by
  unfold concat_groups
  rw [List.mem_flatMap]
  exact ⟨p, hp, List.mem_map.2 ⟨l, hl, rfl⟩⟩

/-- On a tall block matrix that satisfies the block invariant, `get_cols` of a
non-empty, strictly ascending list of column indices returns the matrix of the
selected columns. -/
theorem get_cols_spec {α : Type} [Inhabited α] (self : block_matrix α) (M K : Nat)
    (idxs : List Int) (hA : self.tall_invariant M K) (hne : idxs ≠ [])
    (hrange : ∀ x ∈ idxs, 0 ≤ x ∧ x < (K : Int) ∧ x < 2 ^ 63) (hs : idxs.Sorted (· < ·)) :
    ∃ R, self.get_cols idxs = some R
      ∧ R.get_num_rows = M ∧ R.get_num_cols = idxs.length
      ∧ ∀ k x, idxs[k]? = some x → ∀ r, R.get r k = (dense_matrix.block self).get r x.toNat := by
  have hb := hA.blocks.block_pos
  have hbpos : (0 : Int) < (self.block_size : Int) := by exact_mod_cast hb
  have hsle : idxs.Sorted (· ≤ ·) := List.Pairwise.imp (fun h => le_of_lt h) hs
  obtain ⟨ms, gs, hloc, hlen, hms, hgs, hcat⟩ := get_local_idxs_spec idxs self.block_size hb hne
    (fun x hx => ⟨(hrange x hx).1, (hrange x hx).2.2⟩) hsle
  -- every group member stands for an index of the list
  have hmem : ∀ p ∈ List.zip ms gs, ∀ l ∈ p.2,
      0 ≤ l ∧ l < (self.block_size : Int) ∧ 0 ≤ p.1
        ∧ p.1 * (self.block_size : Int) + l < (K : Int)
        ∧ p.1 * (self.block_size : Int) + l < 2 ^ 63 := by
    intro p hp l hl
    have hg := (hgs p.2 (List.of_mem_zip hp).2).2 l hl
    have hx := hrange _ (hcat ▸ mem_concat_groups self.block_size ms gs p hp l hl)
    refine ⟨hg.1, hg.2, ?_, hx.2.1, hx.2.2⟩
    by_contra hneg
    have h1 : p.1 ≤ -1 := by omega
    have h2 : p.1 * (self.block_size : Int) ≤ -1 * (self.block_size : Int) :=
      Int.mul_le_mul_of_nonneg_right h1 (le_of_lt hbpos)
    omega
  have hcell : ∀ p ∈ List.zip ms gs, ∀ l ∈ p.2, ∀ r,
      ∃ mem, self.store.mats[p.1.toNat]? = some mem ∧ mem.num_rows = M
        ∧ l.toNat < mem.num_cols
        ∧ (dense_matrix.block self).get r (p.1 * (self.block_size : Int) + l).toNat
            = mem.get r l.toNat := by
    intro p hp l hl r
    obtain ⟨h0, h1, h2, h3, -⟩ := hmem p hp l hl
    obtain ⟨q, hq⟩ : ∃ q : Nat, p.1 = (q : Int) := ⟨p.1.toNat, (Int.toNat_of_nonneg h2).symm⟩
    obtain ⟨t, ht⟩ : ∃ t : Nat, l = (t : Int) := ⟨l.toNat, (Int.toNat_of_nonneg h0).symm⟩
    have hc : (p.1 * (self.block_size : Int) + l).toNat = q * self.block_size + t := by
      rw [hq, ht]
      have : ((q : Int) * (self.block_size : Int) + (t : Int))
          = ((q * self.block_size + t : Nat) : Int) := by push_cast; ring
      rw [this, Int.toNat_ofNat]
    have htb : t < self.block_size := by rw [ht] at h1; exact_mod_cast h1
    have hcK : q * self.block_size + t < K := by
      rw [hq, ht] at h3
      exact_mod_cast h3
    obtain ⟨mem, hm1, hm2, hm3, -, hm5⟩ := hA.blocks.get_eq r (q * self.block_size + t) hcK
    have hdiv : (q * self.block_size + t) / self.block_size = q := by
      rw [Nat.add_comm, Nat.add_mul_div_right _ _ hb, Nat.div_eq_of_lt htb]
      omega
    have hmod : (q * self.block_size + t) % self.block_size = t := by
      rw [Nat.add_comm, Nat.add_mul_mod_self_right]
      exact Nat.mod_eq_of_lt htb
    rw [hdiv] at hm1
    rw [hmod] at hm3 hm5
    refine ⟨mem, ?_, hm2, ?_, ?_⟩
    · rw [hq, Int.toNat_ofNat]; exact hm1
    · rw [ht, Int.toNat_ofNat]; exact hm3
    · rw [hc, hA.get_eq_concat, hm5, ht, Int.toNat_ofNat]
  -- the stores returned by the members
  obtain ⟨sel, hsel, hselP⟩ := all_non_null_map_exists
    ({ num_rows := 0, num_cols := 0, layout := .L_COL, type := .T_INT,
       get := fun _ _ => default } : matrix_store α)
    (List.zip ms gs)
    (fun p => (self.store.get_mat (to_size_t p.1)).bind fun mem => mem.get_cols p.2)
    (fun p v => v.num_rows = M ∧ v.num_cols = p.2.length
      ∧ ∀ r, ((List.range v.num_cols).map fun j => v.get r j)
          = p.2.map fun l =>
              (dense_matrix.block self).get r (p.1 * (self.block_size : Int) + l).toNat)
    (by
      intro p hp
      have hgne := (hgs p.2 (List.of_mem_zip hp).2).1
      obtain ⟨l0, hl0⟩ := List.exists_mem_of_ne_nil _ hgne
      obtain ⟨h0, h1, h2, h3, h4⟩ := hmem p hp l0 hl0
      obtain ⟨mem, hmem1, hmem2, -, -⟩ := hcell p hp l0 hl0 0
      have hp63 : p.1 < 2 ^ 63 := by
        have : p.1 * 1 ≤ p.1 * (self.block_size : Int) :=
          Int.mul_le_mul_of_nonneg_left (by omega) h2
        omega
      have hall : (p.2.all fun i => decide (0 ≤ i) && decide (i.toNat < mem.num_cols)) = true := by
        rw [List.all_eq_true]
        intro l hl
        obtain ⟨mem', hm1, -, hm3, -⟩ := hcell p hp l hl 0
        rw [hmem1] at hm1
        simp only [Option.some.injEq] at hm1
        subst hm1
        simp only [Bool.and_eq_true, decide_eq_true_eq]
        exact ⟨(hmem p hp l hl).1, hm3⟩
      refine ⟨{ mem with num_cols := p.2.length,
                         get := fun r c => mem.get r (p.2.getD c 0).toNat }, ?_, hmem2, rfl, ?_⟩
      · simp only [combined_matrix_store.get_mat, to_size_t_of_nonneg p.1 h2 hp63, hmem1,
          Option.some_bind, matrix_store.get_cols, hall, if_true]
      · intro r
        simp only []
        rw [range_map_getD p.2 (fun l => mem.get r l.toNat)]
        apply List.map_congr_left
        intro l hl
        obtain ⟨mem', hm1, -, -, hm4⟩ := hcell p hp l hl r
        rw [hmem1] at hm1
        simp only [Option.some.injEq] at hm1
        subst hm1
        exact hm4.symm)
  -- the shape of the result
  have hzip_len : (List.zip ms gs).length = ms.length := by
    simp [List.length_zip, hlen]
  have hms_pos : 0 < ms.length := by
    have h1 := congrArg List.length hcat
    rw [concat_groups_length] at h1
    rcases Nat.eq_zero_or_pos ms.length with h0 | h0
    · have : List.zip ms gs = [] := List.length_eq_zero.1 (by omega)
      rw [this] at h1
      simp only [List.map_nil, List.sum_nil] at h1
      exact absurd (List.length_eq_zero.1 h1.symm) hne
    · exact h0
  obtain ⟨p0, prest, hzip⟩ : ∃ p0 prest, List.zip ms gs = p0 :: prest := by
    cases hz : List.zip ms gs with
    | nil => rw [hz] at hzip_len; simp at hzip_len; omega
    | cons a t => exact ⟨a, t, rfl⟩
  have hcols_sum : (((List.zip ms gs).map sel).map fun s => s.num_cols).sum = idxs.length := by
    rw [← hcat, concat_groups_length, List.map_map]
    congr 1
    apply List.map_congr_left
    intro p hp
    exact (hselP p hp).2.1
  have hidx_len : (idxs.length : Int) ≤ (K : Int) := by
    have := sorted_lt_length_le (K : Int) idxs 0 hs (fun x hx => ⟨(hrange x hx).1, (hrange x hx).2.1⟩)
    omega
  have hp0 : p0 ∈ List.zip ms gs := by rw [hzip]; exact List.mem_cons_self _ _
  have hnotwide : (sel p0).is_wide = false := by
    have h1 := hselP p0 hp0
    have h2 : (sel p0).num_cols ≤ idxs.length := by
      rw [← hcols_sum, hzip]
      simp only [List.map_cons, List.sum_cons]
      omega
    have h3 := hA.tall
    simp only [matrix_store.is_wide, decide_eq_false_iff_not, h1.1]
    omega
  have hrun : self.get_cols idxs = some (dense_matrix.plain
      (combined_matrix_store.to_store { mats := (List.zip ms gs).map sel, layout := .L_COL })) := by
    have hw : (dense_matrix.block self).is_wide = false := by
      simp only [dense_matrix.is_wide, hA.num_rows_eq, hA.num_cols_eq, decide_eq_false_iff_not]
      have := hA.tall
      omega
    have hbound : (idxs.any fun idx =>
        idx_out_of_bound idx (dense_matrix.block self).get_num_cols) = false := by
      rw [List.any_eq_false]
      intro x hx
      obtain ⟨h0, h1, h2⟩ := hrange x hx
      simp only [idx_out_of_bound, hA.num_cols_eq, to_size_t_of_nonneg x h0 h2, Bool.or_eq_true,
        decide_eq_true_eq, not_or, not_le, not_lt]
      exact ⟨by omega, h0⟩
    have hsorted : is_sorted idxs = true := (is_sorted_iff idxs).2 hsle
    unfold block_matrix.get_cols
    simp only [hw, hbound, hsorted, hloc, Bool.false_eq_true, if_false, Bool.not_true]
    rw [range_map_zip (fun a b => (self.store.get_mat (to_size_t a)).bind fun mem => mem.get_cols b)
      ms gs hlen]
    simp only [hsel]
    simp only [combined_matrix_store.create, hzip, List.map_cons, List.isEmpty_cons,
      Bool.false_eq_true, if_false, Option.map_some']
  obtain ⟨srest, hsrest⟩ : ∃ srest, (List.zip ms gs).map sel = sel p0 :: srest :=
    ⟨prest.map sel, by rw [hzip]; rfl⟩
  obtain ⟨hR1, hR2, hR3⟩ := combined_of_not_wide (sel p0) srest .L_COL hnotwide
  rw [← hsrest] at hR1 hR2 hR3
  refine ⟨_, hrun, ?_, ?_, ?_⟩
  · simp only [dense_matrix.get_num_rows, hR1]
    exact (hselP p0 hp0).1
  · simp only [dense_matrix.get_num_cols, hR2]
    exact hcols_sum
  · intro k x hk r
    have hklt : k < idxs.length := by
      by_contra hcon
      rw [List.getElem?_eq_none (Nat.le_of_not_lt hcon)] at hk
      simp at hk
    have hflat := col_concat_get_flat r ((List.zip ms gs).map sel) k (by rw [hcols_sum]; exact hklt)
    have hvals : (((List.zip ms gs).map sel).flatMap fun s =>
        (List.range s.num_cols).map fun j => s.get r j)
        = idxs.map fun x => (dense_matrix.block self).get r x.toNat := by
      rw [← hcat]
      unfold concat_groups
      rw [List.map_flatMap, List.flatMap_map]
      apply List.flatMap_congr
      intro p hp
      rw [(hselP p hp).2.2 r, List.map_map]
      rfl
    rw [hvals, List.getElem?_map, hk] at hflat
    simp only [Option.map_some', Option.some.injEq] at hflat
    simp only [dense_matrix.get, hR3]
    exact hflat.symm

/-- C10: for a non-empty, non-decreasing list of non-negative `off_t` indices and
a positive block size, `get_local_idxs` returns as many groups as block
indices, the block indices strictly increasing, every group non-empty with
local indices below the block size, and `mat_idxs[k] * b + l` over the groups
in order spells the index list; hence, on a tall block matrix that satisfies the
block invariant, column `k` of `get_cols(idxs)` for a strictly ascending list of
column indices is column `idxs[k]` of the block matrix. -/
theorem C10_get_local_idxs_get_cols {α : Type} [Inhabited α] (idxs : List Int) (b : Nat)
    (hb : 0 < b) (hne : idxs ≠ []) (hoff : ∀ x ∈ idxs, 0 ≤ x ∧ x < 2 ^ 63)
    (hs : idxs.Sorted (· ≤ ·)) :
    (∃ mat_idxs local_idxs, get_local_idxs idxs b = some (mat_idxs, local_idxs)
      ∧ mat_idxs.length = local_idxs.length
      ∧ mat_idxs.Sorted (· < ·)
      ∧ (∀ g ∈ local_idxs, g ≠ [] ∧ ∀ l ∈ g, 0 ≤ l ∧ l < (b : Int))
      ∧ concat_groups b mat_idxs local_idxs = idxs)
    ∧ ∀ (A : block_matrix α) (M K : Nat), A.tall_invariant M K →
        (∀ x ∈ idxs, x < (K : Int)) → idxs.Sorted (· < ·) →
        ∃ R, A.get_cols idxs = some R
          ∧ R.get_num_rows = M ∧ R.get_num_cols = idxs.length
          ∧ ∀ k x, idxs[k]? = some x → ∀ r,
              R.get r k = (dense_matrix.block A).get r x.toNat :=
  ⟨get_local_idxs_spec idxs b hb hne hoff hs,
   fun A M K hA hK hlt => get_cols_spec A M K idxs hA hne
     (fun x hx => ⟨(hoff x hx).1, hK x hx, (hoff x hx).2⟩) hlt⟩

/-- C10, at a concrete input: the index list `[0, 1]` with block size 1, and the
columns 0 and 1 of the tall 3-by-2 block matrix. -/
theorem C10_get_local_idxs_get_cols_witness :
    (∃ mat_idxs local_idxs, get_local_idxs [0, 1] 1 = some (mat_idxs, local_idxs)
      ∧ mat_idxs.length = local_idxs.length
      ∧ mat_idxs.Sorted (· < ·)
      ∧ (∀ g ∈ local_idxs, g ≠ [] ∧ ∀ l ∈ g, 0 ≤ l ∧ l < ((1 : Nat) : Int))
      ∧ concat_groups 1 mat_idxs local_idxs = [0, 1])
    ∧ ∃ R, tall_3x2.get_cols [0, 1] = some R
        ∧ R.get_num_rows = 3 ∧ R.get_num_cols = ([0, 1] : List Int).length
        ∧ ∀ k x, ([0, 1] : List Int)[k]? = some x → ∀ r,
            R.get r k = (dense_matrix.block tall_3x2).get r x.toNat :=
  ⟨(@C10_get_local_idxs_get_cols Int _ [0, 1] 1 (by decide) (by decide) (by decide)
      (by decide)).1,
   (@C10_get_local_idxs_get_cols Int _ [0, 1] 1 (by decide) (by decide) (by decide)
      (by decide)).2 tall_3x2 3 2 tall_3x2_invariant (by decide) (by decide)⟩

/-! ### Multiplication -/

/-- For a wide floating-point block matrix whose right operand has the same
element type and no longer a dimension, `block_matrix::multiply` is
`multiply_wide`, which returns the null pointer. -/
theorem multiply_wide_is_null {α : Type} [Inhabited α] [Add α] [Mul α] (self : block_matrix α)
    (mat : dense_matrix α) (out_layout : matrix_layout_t)
    (hfloat : (dense_matrix.block self).get_type.is_floating_point = true)
    (hwide : (dense_matrix.block self).is_wide = true)
    (hlong : max mat.get_num_rows mat.get_num_cols
      ≤ max (dense_matrix.block self).get_num_rows (dense_matrix.block self).get_num_cols) :
    self.multiply mat out_layout = none := by
  unfold block_matrix.multiply dense_matrix.multiply_fuel
  simp only [hfloat, if_true, hwide, block_matrix.multiply_wide]
  split_ifs <;> first | rfl | omega

/-- C4, the code at the failing input: the wide (square) block matrix
`[[1, 2], [3, 4]]` of doubles with block size 1 is multiplied by
`[[5, 6], [7, 8]]`; `multiply` returns null, although `inner_prod_wide` with
`MUL` and `ADD` computes `[[19, 22], [43, 50]]`. -/
theorem C4_multiply_wide_returns_null :
    (dense_matrix.block dbl_1234).is_wide = true
    ∧ (dense_matrix.block dbl_1234).get_type.is_floating_point = true
    ∧ (dense_matrix.block dbl_1234).get_num_cols = dbl_5678.get_num_rows
    ∧ dbl_1234.multiply dbl_5678 .L_NONE = none
    ∧ ((dbl_1234.inner_prod_wide dbl_5678 (some (basic_ops_get_multiply .T_DOUBLE))
          (some (basic_ops_get_add .T_DOUBLE)) .L_NONE).map fun m =>
        (List.range 2).map fun r => (List.range 2).map fun c => m.get r c)
      = some [[19, 22], [43, 50]] := by
  refine ⟨by decide, by decide, by decide, ?_, ?_⟩
  · exact multiply_wide_is_null dbl_1234 dbl_5678 .L_NONE (by decide) (by decide) (by decide)
  · decide

/-! ### Row blocks -/

theorem row_concat_get_transpose {α : Type} [Inhabited α] :
    ∀ (mats : List (matrix_store α)) (r c : Nat),
      row_concat_get mats r c = col_concat_get (mats.map matrix_store.transpose) c r := by
  intro mats
  induction mats with
  | nil => intro r c; rfl
  | cons m ms ih =>
    intro r c
    simp only [row_concat_get, List.map_cons, col_concat_get, matrix_store.transpose]
    split_ifs
    · rfl
    · exact ih _ _

theorem col_concat_get_transpose {α : Type} [Inhabited α] :
    ∀ (mats : List (matrix_store α)) (r c : Nat),
      col_concat_get mats r c = row_concat_get (mats.map matrix_store.transpose) c r := by
  intro mats
  induction mats with
  | nil => intro r c; rfl
  | cons m ms ih =>
    intro r c
    simp only [row_concat_get, List.map_cons, col_concat_get, matrix_store.transpose]
    split_ifs
    · rfl
    · exact ih _ _

theorem row_blocks.to_col_blocks {α : Type} {mats : List (matrix_store α)} {M K b : Nat}
    (h : row_blocks mats M K b) : col_blocks (mats.map matrix_store.transpose) K M b := by
  refine ⟨h.block_pos, ?_, ?_, ?_, ?_, ?_⟩
  · intro m hm
    obtain ⟨x, hx, rfl⟩ := List.mem_map.1 hm
    exact h.cols x hx
  · intro i hi
    simp only [List.length_map] at hi
    have := h.full i hi
    simp only [List.getElem?_map, Option.map_map] at this ⊢
    exact this
  · have := h.tail
    simp only [List.length_map, List.getElem?_map, Option.map_map] at this ⊢
    exact this
  · simpa using h.tail_pos
  · simpa using h.tail_le

theorem col_blocks.to_row_blocks {α : Type} {mats : List (matrix_store α)} {M K b : Nat}
    (h : col_blocks mats M K b) : row_blocks (mats.map matrix_store.transpose) K M b := by
  refine ⟨h.block_pos, ?_, ?_, ?_, ?_, ?_⟩
  · intro m hm
    obtain ⟨x, hx, rfl⟩ := List.mem_map.1 hm
    exact h.rows x hx
  · intro i hi
    simp only [List.length_map] at hi
    have := h.full i hi
    simp only [List.getElem?_map, Option.map_map] at this ⊢
    exact this
  · have := h.tail
    simp only [List.length_map, List.getElem?_map, Option.map_map] at this ⊢
    exact this
  · simpa using h.tail_pos
  · simpa using h.tail_le

theorem row_blocks.length_pos_rows {α : Type} {mats : List (matrix_store α)} {M K b : Nat}
    (h : row_blocks mats M K b) : 0 < mats.length := by
  simpa using h.to_col_blocks.length_pos

theorem row_blocks.member_rows {α : Type} {mats : List (matrix_store α)} {M K b : Nat}
    (h : row_blocks mats M K b) (j : Nat) (hj : j < mats.length) :
    ∃ m, mats[j]? = some m ∧ m.num_cols = K ∧ m.num_rows = min (M - j * b) b := by
  obtain ⟨mt, hmt, h1, h2⟩ := h.to_col_blocks.member j (by simpa using hj)
  rw [List.getElem?_map, List.getElem?_eq_getElem hj] at hmt
  simp only [Option.map_some', Option.some.injEq] at hmt
  subst hmt
  exact ⟨mats[j], List.getElem?_eq_getElem hj, h1, h2⟩

theorem row_blocks.get_eq_rows {α : Type} [Inhabited α] {mats : List (matrix_store α)}
    {M K b : Nat} (h : row_blocks mats M K b) (r c : Nat) (hr : r < M) :
    ∃ m, mats[r / b]? = some m ∧ m.num_cols = K ∧ r % b < m.num_rows
      ∧ m.num_rows = min (M - r / b * b) b
      ∧ row_concat_get mats r c = m.get (r % b) c := by
  obtain ⟨mt, hmt, h1, h2, h3, h4⟩ := h.to_col_blocks.get_eq c r hr
  rw [List.getElem?_map] at hmt
  cases hm : mats[r / b]? with
  | none => rw [hm] at hmt; simp at hmt
  | some m =>
    rw [hm] at hmt
    simp only [Option.map_some', Option.some.injEq] at hmt
    subst hmt
    exact ⟨m, rfl, h1, h2, h3, by rw [row_concat_get_transpose]; exact h4⟩

theorem row_blocks.sum_rows {α : Type} {mats : List (matrix_store α)} {M K b : Nat}
    (h : row_blocks mats M K b) : (mats.map fun m => m.num_rows).sum = M := by
  have := h.to_col_blocks.sum_cols
  simpa [List.map_map, Function.comp, matrix_store.transpose] using this

theorem block_matrix.wide_invariant.wide_group {α : Type} {self : block_matrix α}
    {M K : Nat} (hA : self.wide_invariant M K) : self.store.is_wide_group = true := by
  obtain ⟨m0, hm0, hm0cols, hm0rows⟩ := hA.blocks.member_rows 0 hA.blocks.length_pos_rows
  cases hmats : self.store.mats with
  | nil => rw [hmats] at hm0; simp at hm0
  | cons a rest =>
    rw [hmats] at hm0
    simp only [List.getElem?_cons_zero, Option.some.injEq] at hm0
    have h1 := hA.wide
    have h2 := hA.block_le
    simp only [combined_matrix_store.is_wide_group, hmats, matrix_store.is_wide,
      decide_eq_true_eq, hm0, hm0rows, hm0cols]
    omega

theorem block_matrix.wide_invariant.num_rows_wide {α : Type} {self : block_matrix α}
    {M K : Nat} (hA : self.wide_invariant M K) : (dense_matrix.block self).get_num_rows = M := by
  simp only [dense_matrix.get_num_rows, combined_matrix_store.get_num_rows, hA.wide_group,
    if_true]
  exact hA.blocks.sum_rows

theorem block_matrix.wide_invariant.num_cols_wide {α : Type} {self : block_matrix α}
    {M K : Nat} (hA : self.wide_invariant M K) : (dense_matrix.block self).get_num_cols = K := by
  obtain ⟨m0, hm0, hm0cols, -⟩ := hA.blocks.member_rows 0 hA.blocks.length_pos_rows
  simp only [dense_matrix.get_num_cols, combined_matrix_store.get_num_cols, hA.wide_group,
    if_true]
  cases hmats : self.store.mats with
  | nil => rw [hmats] at hm0; simp at hm0
  | cons a rest =>
    rw [hmats] at hm0
    simp only [List.getElem?_cons_zero, Option.some.injEq] at hm0
    simp only [hm0, hm0cols]

theorem block_matrix.wide_invariant.get_eq_stack {α : Type} [Inhabited α]
    {self : block_matrix α} {M K : Nat} (hA : self.wide_invariant M K) (r c : Nat) :
    (dense_matrix.block self).get r c = row_concat_get self.store.mats r c := by
  simp only [dense_matrix.get, combined_matrix_store.get, hA.wide_group, if_true]

/-! ### The wide inner product -/

theorem blocks_same_size_of_full {α : Type} (dim : matrix_store α → Nat)
    (mats : List (matrix_store α)) (b : Nat)
    (hfull : ∀ i, i + 1 < mats.length → (mats[i]?).map dim = some b) :
    blocks_same_size dim mats = true := by
  unfold blocks_same_size
  rw [List.all_eq_true]
  intro i hi
  rw [List.mem_range] at hi
  simp only [Bool.or_eq_true, decide_eq_true_eq]
  by_cases h0 : i < 1
  · exact Or.inl h0
  · right
    rw [hfull i (by omega), hfull (i - 1) (by omega)]

theorem mats_head {α : Type} (mats : List (matrix_store α)) (m0 : matrix_store α)
    (h : mats[0]? = some m0) : ∃ rest, mats = m0 :: rest := by
  cases hm : mats with
  | nil => rw [hm] at h; simp at h
  | cons a t =>
    rw [hm] at h
    simp only [List.getElem?_cons_zero, Option.some.injEq] at h
    exact ⟨t, by rw [h]⟩

theorem combined_wide_head {α : Type} (c : combined_matrix_store α) (m0 : matrix_store α)
    (rest : List (matrix_store α)) (h : c.mats = m0 :: rest) (hw : m0.is_wide = true) :
    c.is_wide_group = true
    ∧ c.get_num_rows = (c.mats.map fun m => m.num_rows).sum
    ∧ c.get_num_cols = m0.num_cols
    ∧ (block_matrix.mk_of_store c).block_size = m0.num_rows := by
  have hg : c.is_wide_group = true := by
    simp only [combined_matrix_store.is_wide_group, h, hw]
  refine ⟨hg, ?_, ?_, ?_⟩
  · simp only [combined_matrix_store.get_num_rows, hg, if_true]
  · simp only [combined_matrix_store.get_num_cols, hg, if_true, h]
  · simp only [block_matrix.mk_of_store, h, hw, if_true]

theorem combined_tall_head {α : Type} (c : combined_matrix_store α) (m0 : matrix_store α)
    (rest : List (matrix_store α)) (h : c.mats = m0 :: rest) (hw : m0.is_wide = false) :
    c.is_wide_group = false
    ∧ c.get_num_rows = m0.num_rows
    ∧ c.get_num_cols = (c.mats.map fun m => m.num_cols).sum
    ∧ (block_matrix.mk_of_store c).block_size = m0.num_cols := by
  have hg : c.is_wide_group = false := by
    simp only [combined_matrix_store.is_wide_group, h, hw]
  refine ⟨hg, ?_, ?_, ?_⟩
  · simp only [combined_matrix_store.get_num_rows, hg, Bool.false_eq_true, if_false, h]
  · simp only [combined_matrix_store.get_num_cols, hg, Bool.false_eq_true, if_false]
  · simp only [block_matrix.mk_of_store, h, hw, Bool.false_eq_true, if_false]

/-- The transpose of a tall block matrix that satisfies the block invariant is a
wide block matrix of the same block size with the transposed elements. -/
theorem transpose_of_tall {α : Type} [Inhabited α] (A : block_matrix α) (M K : Nat)
    (hA : A.tall_invariant M K) :
    ∃ T, A.transpose = some (.block T)
      ∧ T.store.mats = A.store.mats.map matrix_store.transpose
      ∧ T.wide_invariant K M
      ∧ ∀ r c, (dense_matrix.block T).get r c = (dense_matrix.block A).get c r := by
  have hb := hA.blocks.block_pos
  obtain ⟨m0, hm0, hm0rows, hm0cols⟩ := hA.blocks.member 0 hA.blocks.length_pos
  obtain ⟨rest, hrest⟩ := mats_head _ m0 hm0
  have h1 := hA.tall
  have h2 := hA.block_le
  simp only [Nat.zero_mul, Nat.sub_zero] at hm0cols
  have hwide0 : m0.transpose.is_wide = true := by
    simp only [matrix_store.is_wide, matrix_store.transpose, decide_eq_true_eq, hm0rows, hm0cols]
    omega
  have hrows := hA.blocks.to_row_blocks
  have hmatsT : A.store.transpose.mats = m0.transpose :: rest.map matrix_store.transpose := by
    simp [combined_matrix_store.transpose, hrest]
  have hT : A.transpose = some (.block (block_matrix.mk_of_store A.store.transpose)) := by
    unfold block_matrix.transpose
    apply create_of_store_wide _ m0.transpose
    · rw [hmatsT]; simp
    · exact hwide0
    · exact blocks_same_size_of_full _ _ A.block_size hrows.full
  obtain ⟨-, -, -, hbs0⟩ := combined_wide_head _ _ _ hmatsT hwide0
  have hbs : (block_matrix.mk_of_store A.store.transpose).block_size = A.block_size := by
    rw [hbs0]
    show m0.num_cols = A.block_size
    omega
  have hinv : (block_matrix.mk_of_store A.store.transpose).wide_invariant K M := by
    refine ⟨?_, by omega, by rw [hbs]; exact h2⟩
    rw [hbs]
    exact hrows
  refine ⟨_, hT, rfl, hinv, fun r c => ?_⟩
  rw [hinv.get_eq_stack, hA.get_eq_concat, col_concat_get_transpose]
  rfl

/-- The transpose of a wide block matrix that satisfies the block invariant is a
block matrix of the transposed shape with the transposed elements; when the
matrix has more columns than rows the transpose satisfies the tall invariant. -/
theorem transpose_of_wide {α : Type} [Inhabited α] (A : block_matrix α) (M K : Nat)
    (hA : A.wide_invariant M K) :
    ∃ T, A.transpose = some (.block T)
      ∧ T.store.mats = A.store.mats.map matrix_store.transpose
      ∧ (dense_matrix.block T).get_num_rows = K ∧ (dense_matrix.block T).get_num_cols = M
      ∧ (∀ r c, r < K → c < M → (dense_matrix.block T).get r c = (dense_matrix.block A).get c r)
      ∧ (M < K → T.tall_invariant K M) := by
  have hb := hA.blocks.block_pos
  obtain ⟨m0, hm0, hm0cols, hm0rows⟩ := hA.blocks.member_rows 0 hA.blocks.length_pos_rows
  obtain ⟨rest, hrest⟩ := mats_head _ m0 hm0
  have h1 := hA.wide
  have h2 := hA.block_le
  simp only [Nat.zero_mul, Nat.sub_zero] at hm0rows
  have hcolsT := hA.blocks.to_col_blocks
  have hmatsT : A.store.transpose.mats = m0.transpose :: rest.map matrix_store.transpose := by
    simp [combined_matrix_store.transpose, hrest]
  have hTrows : m0.transpose.num_rows = K := hm0cols
  have hTcols : m0.transpose.num_cols = m0.num_rows := rfl
  by_cases hw : m0.transpose.is_wide = true
  · -- a single square member
    have hKM : K = M ∧ A.block_size = M := by
      simp only [matrix_store.is_wide, decide_eq_true_eq, hTrows, hTcols, hm0rows] at hw
      omega
    have hlen : A.store.mats.length = 1 := by
      have hlo := hA.blocks.tail_pos
      have hpos := hA.blocks.length_pos_rows
      by_contra hne
      have : 1 * A.block_size ≤ (A.store.mats.length - 1) * A.block_size :=
        Nat.mul_le_mul_right _ (by omega)
      omega
    have hrest_nil : rest = [] := by
      rw [hrest] at hlen
      simpa using hlen
    subst hrest_nil
    have hT : A.transpose = some (.block (block_matrix.mk_of_store A.store.transpose)) := by
      unfold block_matrix.transpose
      apply create_of_store_wide _ m0.transpose
      · rw [hmatsT]; simp
      · exact hw
      · rw [hmatsT]; rfl
    obtain ⟨hg, hr, hc, -⟩ := combined_wide_head _ _ _ hmatsT hw
    refine ⟨_, hT, rfl, ?_, ?_, ?_, fun hlt => by omega⟩
    · show A.store.transpose.get_num_rows = K
      rw [hr, hmatsT]
      simp only [List.map_nil, List.map_cons, List.sum_cons, List.sum_nil, Nat.add_zero, hTrows]
    · show A.store.transpose.get_num_cols = M
      rw [hc, hTcols, hm0rows]
      omega
    · intro r c hr' hc'
      have hwA := hA.wide_group
      show A.store.transpose.get r c = A.store.get c r
      simp only [combined_matrix_store.get, hg, hwA, if_true, hmatsT, hrest, List.map_nil,
        row_concat_get]
      rw [if_pos (by rw [hTrows]; exact hr'), if_pos (by omega)]
      rfl
  · have hw' : m0.transpose.is_wide = false := by simpa using hw
    have hlt0 : m0.num_rows < K := by
      simp only [matrix_store.is_wide, decide_eq_false_iff_not, hTrows, hTcols] at hw'
      omega
    have hT : A.transpose = some (.block (block_matrix.mk_of_store A.store.transpose)) := by
      unfold block_matrix.transpose
      apply create_of_store_tall _ m0.transpose
      · rw [hmatsT]; simp
      · exact hw'
      · exact blocks_same_size_of_full _ _ A.block_size hcolsT.full
    obtain ⟨hg, hr, hc, hbs0⟩ := combined_tall_head _ _ _ hmatsT hw'
    have hbs : (block_matrix.mk_of_store A.store.transpose).block_size = A.block_size := by
      rw [hbs0, hTcols]
      omega
    refine ⟨_, hT, rfl, ?_, ?_, ?_, fun hlt => ?_⟩
    · show A.store.transpose.get_num_rows = K
      rw [hr, hTrows]
    · show A.store.transpose.get_num_cols = M
      rw [hc]
      exact hcolsT.sum_cols
    · intro r c _ _
      show A.store.transpose.get r c = A.store.get c r
      simp only [combined_matrix_store.get, hg, Bool.false_eq_true, if_false, hA.wide_group,
        if_true]
      rw [row_concat_get_transpose]
      rfl
    · refine ⟨?_, hlt, by rw [hbs]; exact h2⟩
      rw [hbs]
      exact hcolsT

/-! ### Well-formed operands -/

theorem well_formed_dims {α : Type} (m : dense_matrix α) (R C : Nat) (t : scalar_type)
    (h : m.well_formed R C t) :
    m.get_num_rows = R ∧ m.get_num_cols = C ∧ m.get_type = t := by
  cases m with
  | plain s => exact h
  | block bm =>
    obtain ⟨hinv, hty⟩ := h
    rcases hinv with hi | hi
    · exact ⟨hi.num_rows_eq, hi.num_cols_eq,
        block_get_type_of_members bm t hi.blocks.length_pos hty⟩
    · exact ⟨hi.num_rows_wide, hi.num_cols_wide,
        block_get_type_of_members bm t hi.blocks.length_pos_rows hty⟩

theorem transpose_well_formed {α : Type} [Inhabited α] (m : dense_matrix α) (R C : Nat)
    (t : scalar_type) (h : m.well_formed R C t) :
    ∃ mt, m.transpose = some mt
      ∧ mt.get_num_rows = C ∧ mt.get_num_cols = R ∧ mt.get_type = t
      ∧ (∀ r c, r < C → c < R → mt.get r c = m.get c r)
      ∧ (R < C → mt.well_formed C R t) := by
  cases m with
  | plain s =>
    obtain ⟨h1, h2, h3⟩ := h
    exact ⟨.plain s.transpose, rfl, h2, h1, h3, fun r c _ _ => rfl, fun _ => ⟨h2, h1, h3⟩⟩
  | block bm =>
    obtain ⟨hinv, hty⟩ := h
    have htyT : ∀ T : block_matrix α, T.store.mats = bm.store.mats.map matrix_store.transpose →
        ∀ x ∈ T.store.mats, x.type = t := by
      intro T hT x hx
      rw [hT] at hx
      obtain ⟨y, hy, rfl⟩ := List.mem_map.1 hx
      exact hty y hy
    rcases hinv with hi | hi
    · obtain ⟨T, hT, hmats, hTinv, hget⟩ := transpose_of_tall bm R C hi
      refine ⟨.block T, hT, hTinv.num_rows_wide, hTinv.num_cols_wide,
        block_get_type_of_members T t hTinv.blocks.length_pos_rows (htyT T hmats),
        fun r c _ _ => hget r c, fun hlt => ?_⟩
      have := hi.tall
      omega
    · obtain ⟨T, hT, hmats, hrows, hcols, hget, htall⟩ := transpose_of_wide bm R C hi
      have hlen : 0 < T.store.mats.length := by
        rw [hmats, List.length_map]
        exact hi.blocks.length_pos_rows
      exact ⟨.block T, hT, hrows, hcols, block_get_type_of_members T t hlen (htyT T hmats),
        hget, fun hlt => ⟨Or.inl (htall hlt), htyT T hmats⟩⟩

/-- The product of an ordinary matrix with a well-shaped operand of the same
element type, over a semiring. -/
theorem plain_multiply_spec {α : Type} [Inhabited α] [Semiring α] (s : matrix_store α)
    (m : dense_matrix α) (out_layout : matrix_layout_t) (R K C : Nat)
    (hs1 : s.num_rows = R) (hs2 : s.num_cols = K) (hK : 0 < K)
    (hm1 : m.get_num_rows = K) (hm2 : m.get_num_cols = C) (ht : m.get_type = s.type) :
    ∃ P, s.multiply m out_layout = some P ∧ P.num_rows = R ∧ P.num_cols = C
      ∧ ∀ r c, P.get r c = ∑ k ∈ Finset.range K, s.get r k * m.get k c := by
  have hv : (dense_matrix.plain s).verify_inner_prod m (basic_ops_get_multiply s.type)
      (basic_ops_get_add s.type) = true := by
    apply verify_inner_prod_of_sizes
    · rfl
    · simp only [dense_matrix.get_entry_size, ht]; rfl
    · rfl
    · rfl
    · rfl
    · simp only [dense_matrix.get_num_cols, hs2, hm1]
  obtain ⟨P, hP⟩ : ∃ P : matrix_store α, P =
      { num_rows := s.num_rows, num_cols := m.get_num_cols,
        layout := if out_layout = .L_NONE then s.layout else out_layout,
        type := (basic_ops_get_add s.type : bulk_operate α).output_type,
        get := fun r c => inner_prod_cell (basic_ops_get_multiply s.type)
          (basic_ops_get_add s.type) s.num_cols (fun k => s.get r k) (fun k => m.get k c) } :=
    ⟨_, rfl⟩
  refine ⟨P, ?_, by rw [hP]; exact hs1, by rw [hP]; exact hm2, fun r c => ?_⟩
  · unfold matrix_store.multiply matrix_store.inner_prod
    rw [if_pos hv, hP]
  · rw [hP]
    simp only []
    rw [inner_prod_cell_mul_add _ _ rfl rfl _ (by omega), hs2]

/-- The product computed by `multiply_tall` for a tall floating-point block
matrix that satisfies the block invariant, over a semiring. -/
theorem multiply_tall_spec {α : Type} [Inhabited α] [Semiring α] (T : block_matrix α)
    (m : dense_matrix α) (out_layout : matrix_layout_t) (N K M : Nat) (t : scalar_type)
    (hfloat : t.is_floating_point = true) (hinv : T.tall_invariant N K)
    (hty : ∀ x ∈ T.store.mats, x.type = t)
    (hm1 : m.get_num_rows = K) (hm2 : m.get_num_cols = M) (hmt : m.get_type = t)
    (hM : 0 < M) :
    ∃ P, T.multiply_tall m out_layout = some P
      ∧ P.get_num_rows = N ∧ P.get_num_cols = M
      ∧ (∀ r c, c < M →
          P.get r c = ∑ k ∈ Finset.range K, (dense_matrix.block T).get r k * m.get k c)
      ∧ ((∃ s, P = .plain s)
        ∨ ∃ bm, P = .block bm ∧ col_blocks bm.store.mats N M T.block_size
            ∧ bm.block_size = T.block_size ∧ T.block_size ≤ M) := by
  have hTt := block_get_type_of_members T t hinv.blocks.length_pos hty
  have hops : tall_operands T m none none (basic_ops_get_multiply t) (basic_ops_get_add t) := by
    refine ⟨fun x hx => by rw [hTt]; exact hty x hx, Or.inr ⟨rfl, ?_, ?_, ?_, ?_⟩, ?_, ?_,
      rfl, rfl, rfl⟩
    · rw [hTt]; exact hfloat
    · rw [hmt]; exact hfloat
    · rw [hTt]
    · rw [hTt]
    · simp only [dense_matrix.get_entry_size, hTt]; rfl
    · simp only [dense_matrix.get_entry_size, hmt]; rfl
  obtain ⟨P, hP, hr, hc, hget, hshape⟩ := inner_prod_tall_spec T m none none _ _ out_layout
    N K M hinv hm1 hm2 hM hops
  refine ⟨P, hP, hr, hc, fun r c hcM => ?_, hshape⟩
  have e := hget r c hcM
  rw [tall_cells_sum T m _ _ rfl rfl N K hinv r c] at e
  simpa using e.symm

/-- The call `other^T.multiply(this^T, L)` of the transposed computation: for a
well-formed `Bt` of shape `N` by `K` with `N` longer than everything else, it
does not transpose again and returns the product, in a form that can be
transposed back. -/
theorem multiply_longer_left {α : Type} [Inhabited α] [CommSemiring α]
    (Bt At : dense_matrix α) (out_layout : matrix_layout_t) (M K N : Nat) (t : scalar_type)
    (hfloat : t.is_floating_point = true) (hBt : Bt.well_formed N K t)
    (hA1 : At.get_num_rows = K) (hA2 : At.get_num_cols = M) (hA3 : At.get_type = t)
    (hK : 0 < K) (hM : 0 < M) (hNK : K < N) (hNM : M < N) :
    ∃ P, (∀ n, dense_matrix.multiply_fuel (n + 1) Bt At out_layout = some P)
      ∧ P.get_num_rows = N ∧ P.get_num_cols = M
      ∧ (∀ r c, c < M → P.get r c = ∑ k ∈ Finset.range K, Bt.get r k * At.get k c)
      ∧ ((∃ s, P = .plain s) ∨ ∃ bm, P = .block bm ∧ bm.tall_invariant N M) := by
  cases Bt with
  | plain s =>
    obtain ⟨h1, h2, h3⟩ := hBt
    obtain ⟨P, hP, hr, hc, hget⟩ := plain_multiply_spec s At out_layout N K M h1 h2 hK hA1 hA2
      (by rw [hA3, h3])
    refine ⟨.plain P, fun n => ?_, hr, hc, fun r c _ => hget r c, Or.inl ⟨P, rfl⟩⟩
    simp only [dense_matrix.multiply_fuel, hP, Option.map_some']
  | block T =>
    obtain ⟨hinv, hty⟩ := hBt
    have htall : T.tall_invariant N K := by
      rcases hinv with hi | hi
      · exact hi
      · have := hi.wide
        omega
    have hTt := block_get_type_of_members T t htall.blocks.length_pos hty
    obtain ⟨P, hP, hr, hc, hget, hshape⟩ := multiply_tall_spec T At out_layout N K M t hfloat
      htall hty hA1 hA2 hA3 hM
    refine ⟨P, fun n => ?_, hr, hc, hget, ?_⟩
    · have hw : (dense_matrix.block T).is_wide = false := by
        simp only [dense_matrix.is_wide, htall.num_rows_eq, htall.num_cols_eq,
          decide_eq_false_iff_not]
        omega
      simp only [dense_matrix.multiply_fuel, hTt, hfloat, if_true, hA3, ne_eq, not_true_eq_false,
        if_false, htall.num_rows_eq, htall.num_cols_eq, hA1, hA2, hw, Bool.false_eq_true]
      rw [if_neg (by omega)]
      exact hP
    · rcases hshape with hs | ⟨bm, hbm, hblocks, hbs, hle⟩
      · exact Or.inl hs
      · refine Or.inr ⟨bm, hbm, ⟨?_, hNM, by rw [hbs]; exact hle⟩⟩
        rw [hbs]
        exact hblocks

/-- The last step of the transposed computation, `t_res->transpose()`. -/
theorem transpose_back {α : Type} [Inhabited α] (P : dense_matrix α) (N M : Nat)
    (hr : P.get_num_rows = N) (hc : P.get_num_cols = M)
    (hshape : (∃ s, P = .plain s) ∨ ∃ bm, P = .block bm ∧ bm.tall_invariant N M) :
    ∃ R, P.transpose = some R ∧ R.get_num_rows = M ∧ R.get_num_cols = N
      ∧ ∀ r c, R.get r c = P.get c r := by
  rcases hshape with ⟨s, rfl⟩ | ⟨bm, rfl, hinv⟩
  · exact ⟨.plain s.transpose, rfl, hc, hr, fun r c => rfl⟩
  · obtain ⟨T, hT, -, hTinv, hget⟩ := transpose_of_tall bm N M hinv
    exact ⟨.block T, hT, hTinv.num_rows_wide, hTinv.num_cols_wide, hget⟩

/-- C5: for a floating-point block matrix `this` (`M` by `K`) and an operand
`other` (`K` by `N`) of the same type, both well formed: when `other` has the
longer dimension, `multiply` returns the transpose of
`other^T.multiply(this^T, L)`, where `L` exchanges `ROW` and `COL` and keeps
`NONE`; the result has shape `M` by `N` and its element `(r, c)` is the sum over
`k` of `this[r][k] * other[k][c]`.  Otherwise nothing is transposed and the call
is `multiply_wide` or `multiply_tall` according to `is_wide()`. -/
theorem C5_multiply_transposes {α : Type} [Inhabited α] [CommSemiring α]
    (A : block_matrix α) (B : dense_matrix α) (out_layout : matrix_layout_t) (M K N : Nat)
    (t : scalar_type) (hfloat : t.is_floating_point = true)
    (hA : (dense_matrix.block A).well_formed M K t) (hB : B.well_formed K N t) :
    (max M K < max K N →
      ∃ At Bt P R, A.transpose = some At ∧ B.transpose = some Bt
        ∧ (∀ n, dense_matrix.multiply_fuel (n + 1) Bt At (t_layout_of out_layout) = some P)
        ∧ P.transpose = some R
        ∧ (∀ n, dense_matrix.multiply_fuel (n + 2) (.block A) B out_layout = some R)
        ∧ A.multiply B out_layout = some R
        ∧ R.get_num_rows = M ∧ R.get_num_cols = N
        ∧ ∀ r, r < M → ∀ c, c < N →
            R.get r c = ∑ k ∈ Finset.range K, (dense_matrix.block A).get r k * B.get k c)
    ∧ (¬ max M K < max K N →
        A.multiply B out_layout
          = if (dense_matrix.block A).is_wide then A.multiply_wide B out_layout
            else A.multiply_tall B out_layout)
    ∧ (t_layout_of .L_ROW = .L_COL ∧ t_layout_of .L_COL = .L_ROW
        ∧ t_layout_of .L_NONE = .L_NONE) := by
  obtain ⟨hAr, hAc, hAt⟩ := well_formed_dims _ M K t hA
  obtain ⟨hBr, hBc, hBt⟩ := well_formed_dims _ K N t hB
  have hMK : 0 < M ∧ 0 < K := by
    obtain ⟨hinv, -⟩ := hA
    rcases hinv with hi | hi
    · have h1 := hi.blocks.tail_pos
      have h2 := hi.tall
      omega
    · have h1 := hi.blocks.tail_pos
      have h2 := hi.wide
      omega
  refine ⟨fun hlong => ?_, fun hnot => ?_, rfl, rfl, rfl⟩
  · have hNK : K < N := by omega
    have hNM : M < N := by omega
    obtain ⟨At, hAt1, hAt2, hAt3, hAt4, hAt5, -⟩ := transpose_well_formed _ M K t hA
    obtain ⟨Bt, hBt1, hBt2, hBt3, hBt4, hBt5, hBt6⟩ := transpose_well_formed _ K N t hB
    obtain ⟨P, hP, hPr, hPc, hPget, hPshape⟩ := multiply_longer_left Bt At
      (t_layout_of out_layout) M K N t hfloat (hBt6 hNK) hAt2 hAt3 hAt4 hMK.2 hMK.1 hNK hNM
    obtain ⟨R, hR, hRr, hRc, hRget⟩ := transpose_back P N M hPr hPc hPshape
    have hfuel : ∀ n, dense_matrix.multiply_fuel (n + 2) (.block A) B out_layout = some R := by
      intro n
      have hA1 : A.transpose = some At := hAt1
      simp only [dense_matrix.multiply_fuel, hAt, hfloat, if_true, hBt, ne_eq, not_true_eq_false,
        if_false, hAr, hAc, hBr, hBc]
      rw [if_pos (by omega), hA1, hBt1]
      simp only [hP n, hR]
    refine ⟨At, Bt, P, R, hAt1, hBt1, hP, hR, hfuel, hfuel 0, hRr, hRc, fun r hr c hc => ?_⟩
    rw [hRget r c, hPget c r hr]
    apply Finset.sum_congr rfl
    intro k hk
    rw [Finset.mem_range] at hk
    rw [hBt5 c k hc hk, hAt5 k r hk hr, mul_comm]
  · unfold block_matrix.multiply
    simp only [dense_matrix.multiply_fuel, hAt, hfloat, if_true, hBt, ne_eq, not_true_eq_false,
      if_false, hAr, hAc, hBr, hBc]
    rw [if_neg (by omega)]

theorem dbl_1234_invariant : dbl_1234.wide_invariant 2 2 := by
  refine ⟨⟨by decide, ?_, ?_, ?_, by decide, by decide⟩, by decide, by decide⟩
  · intro m hm
    simp only [dbl_1234, List.mem_cons, List.mem_singleton, List.not_mem_nil, or_false] at hm
    rcases hm with rfl | rfl <;> rfl
  · intro i hi
    have : i = 0 := by simp [dbl_1234] at hi; omega
    subst this
    rfl
  · rfl

theorem dbl_1234_type : ∀ x ∈ dbl_1234.store.mats, x.type = scalar_type.T_DOUBLE := by
  intro x hx
  simp only [dbl_1234, List.mem_cons, List.mem_singleton, List.not_mem_nil, or_false] at hx
  rcases hx with rfl | rfl <;> rfl

/-- C5, at a concrete input: the 2-by-2 block matrix `[[1, 2], [3, 4]]` of
doubles times the ordinary 2-by-3 matrix `[[0, 1, 2], [3, 4, 5]]` of doubles,
whose longer dimension 3 exceeds 2. -/
theorem C5_multiply_transposes_witness :
    scalar_type.T_DOUBLE.is_floating_point = true
    ∧ (dense_matrix.block dbl_1234).well_formed 2 2 .T_DOUBLE
    ∧ dbl_2x3.well_formed 2 3 .T_DOUBLE
    ∧ ∃ At Bt P R, dbl_1234.transpose = some At ∧ dbl_2x3.transpose = some Bt
        ∧ (∀ n, dense_matrix.multiply_fuel (n + 1) Bt At (t_layout_of .L_ROW) = some P)
        ∧ P.transpose = some R
        ∧ (∀ n, dense_matrix.multiply_fuel (n + 2) (.block dbl_1234) dbl_2x3 .L_ROW = some R)
        ∧ dbl_1234.multiply dbl_2x3 .L_ROW = some R
        ∧ R.get_num_rows = 2 ∧ R.get_num_cols = 3
        ∧ ∀ r, r < 2 → ∀ c, c < 3 →
            R.get r c
              = ∑ k ∈ Finset.range 2, (dense_matrix.block dbl_1234).get r k * dbl_2x3.get k c :=
  ⟨rfl, ⟨Or.inr dbl_1234_invariant, dbl_1234_type⟩, ⟨rfl, rfl, rfl⟩,
    (C5_multiply_transposes dbl_1234 dbl_2x3 .L_ROW 2 2 3 .T_DOUBLE rfl
      ⟨Or.inr dbl_1234_invariant, dbl_1234_type⟩ ⟨rfl, rfl, rfl⟩).1 (by decide)⟩

theorem idx_out_of_bound_iff (idx : Int) (n : Nat) (h : idx < 2 ^ 63) :
    idx_out_of_bound idx n = false ↔ 0 ≤ idx ∧ idx.toNat < n := by
  unfold idx_out_of_bound
  by_cases h0 : 0 ≤ idx
  · rw [to_size_t_of_nonneg idx h0 h]
    simp only [Bool.or_eq_false_iff, decide_eq_false_iff_not, not_le, not_lt]
    exact ⟨fun hh => ⟨h0, hh.1⟩, fun hh => ⟨hh.2, h0⟩⟩
  · simp only [Bool.or_eq_false_iff, decide_eq_false_iff_not, not_le, not_lt]
    exact ⟨fun hh => absurd hh.2 h0, fun hh => absurd hh.1 h0⟩

/-- The indices `mat_idx` and `local_idx` of the slicing methods, for an index
that passed the bound test. -/
theorem slice_indices (idx : Int) (b : Nat) (h0 : 0 ≤ idx) (h1 : idx < 2 ^ 63) :
    to_size_t (to_off_t (to_size_t idx / b)) = idx.toNat / b
    ∧ to_off_t (to_size_t idx % b) = ((idx.toNat % b : Nat) : Int) := by
  rw [to_size_t_of_nonneg idx h0 h1]
  have hn : idx.toNat < 2 ^ 63 := by omega
  have h2 : idx.toNat / b < 2 ^ 63 := Nat.lt_of_le_of_lt (Nat.div_le_self _ _) hn
  have h3 : idx.toNat % b < 2 ^ 63 := by
    rcases Nat.eq_zero_or_pos b with hb | hb
    · subst hb; simpa using hn
    · exact Nat.lt_of_le_of_lt (Nat.mod_le _ _) hn
  rw [to_off_t_of_lt _ h2, to_off_t_of_lt _ h3]
  refine ⟨?_, rfl⟩
  rw [to_size_t_of_nonneg _ (Int.natCast_nonneg _) (by exact_mod_cast h2), Int.toNat_ofNat]

theorem get_col_spec {α : Type} [Inhabited α] (A : block_matrix α) (M K : Nat) (idx : Int)
    (hA : A.tall_invariant M K) (hlay : ∀ x ∈ A.store.mats, x.layout = .L_COL)
    (h0 : 0 ≤ idx) (h1 : idx < (K : Int)) (h2 : idx < 2 ^ 63) :
    ∃ m v, A.store.mats[idx.toNat / A.block_size]? = some m
      ∧ idx.toNat % A.block_size < m.num_cols
      ∧ m.get_col_vec ((idx.toNat % A.block_size : Nat) : Int) = some v
      ∧ A.get_col idx = some v
      ∧ v.length = M
      ∧ ∀ r, v.get r = (dense_matrix.block A).get r idx.toNat := by
  have hc : idx.toNat < K := by omega
  obtain ⟨m, hm, hrows, hloc, -, hget⟩ := hA.blocks.get_eq (default : Nat) idx.toNat hc
  have hmem : m ∈ A.store.mats := List.getElem?_mem hm
  have hw : (dense_matrix.block A).is_wide = false := by
    simp only [dense_matrix.is_wide, hA.num_rows_eq, hA.num_cols_eq, decide_eq_false_iff_not]
    have := hA.tall
    omega
  have hb := hA.blocks.block_pos
  obtain ⟨hi1, hi2⟩ := slice_indices idx A.block_size h0 h2
  have hvec : m.get_col_vec ((idx.toNat % A.block_size : Nat) : Int)
      = some { length := m.num_rows, type := m.type, in_mem := true,
               get := fun r => m.get r (idx.toNat % A.block_size) } := by
    unfold matrix_store.get_col_vec
    rw [if_pos, Int.toNat_ofNat]
    refine ⟨by rw [hlay m hmem]; decide, Int.natCast_nonneg _, ?_⟩
    rw [Int.toNat_ofNat]
    exact hloc
  refine ⟨m, _, hm, hloc, hvec, ?_, hrows, fun r => ?_⟩
  · unfold block_matrix.get_col
    rw [(idx_out_of_bound_iff idx _ h2).2 ⟨h0, by rw [hA.num_cols_eq]; exact hc⟩]
    simp only [hw, Bool.false_eq_true, if_false, Nat.pos_iff_ne_zero.1 hb, hi1, hi2,
      combined_matrix_store.get_mat, hm]
    exact hvec
  · obtain ⟨m', hm', -, -, -, hget'⟩ := hA.blocks.get_eq r idx.toNat hc
    rw [hm] at hm'
    cases hm'
    rw [hA.get_eq_concat, hget']

theorem get_row_spec {α : Type} [Inhabited α] (A : block_matrix α) (M K : Nat) (idx : Int)
    (hA : A.wide_invariant M K) (hlay : ∀ x ∈ A.store.mats, x.layout = .L_ROW)
    (h0 : 0 ≤ idx) (h1 : idx < (M : Int)) (h2 : idx < 2 ^ 63) :
    ∃ m v, A.store.mats[idx.toNat / A.block_size]? = some m
      ∧ idx.toNat % A.block_size < m.num_rows
      ∧ m.get_row_vec ((idx.toNat % A.block_size : Nat) : Int) = some v
      ∧ A.get_row idx = some v
      ∧ v.length = K
      ∧ ∀ c, v.get c = (dense_matrix.block A).get idx.toNat c := by
  have hc : idx.toNat < M := by omega
  obtain ⟨m, hm, hcols, hloc, -, hget⟩ := hA.blocks.get_eq_rows idx.toNat (default : Nat) hc
  have hmem : m ∈ A.store.mats := List.getElem?_mem hm
  have hw : (dense_matrix.block A).is_wide = true := by
    simp only [dense_matrix.is_wide, hA.num_rows_wide, hA.num_cols_wide, decide_eq_true_eq]
    exact hA.wide
  have hb := hA.blocks.block_pos
  obtain ⟨hi1, hi2⟩ := slice_indices idx A.block_size h0 h2
  have hvec : m.get_row_vec ((idx.toNat % A.block_size : Nat) : Int)
      = some { length := m.num_cols, type := m.type, in_mem := true,
               get := fun c => m.get (idx.toNat % A.block_size) c } := by
    unfold matrix_store.get_row_vec
    rw [if_pos, Int.toNat_ofNat]
    refine ⟨by rw [hlay m hmem]; decide, Int.natCast_nonneg _, ?_⟩
    rw [Int.toNat_ofNat]
    exact hloc
  refine ⟨m, _, hm, hloc, hvec, ?_, hcols, fun c => ?_⟩
  · unfold block_matrix.get_row
    rw [(idx_out_of_bound_iff idx _ h2).2 ⟨h0, by rw [hA.num_rows_wide]; exact hc⟩]
    simp only [hw, Bool.not_true, Bool.false_eq_true, if_false, Nat.pos_iff_ne_zero.1 hb, hi1, hi2,
      combined_matrix_store.get_mat, hm]
    exact hvec
  · obtain ⟨m', hm', -, -, -, hget'⟩ := hA.blocks.get_eq_rows idx.toNat c hc
    rw [hm] at hm'
    cases hm'
    rw [hA.get_eq_stack, hget']

theorem get_col_none {α : Type} (A : block_matrix α) (idx : Int) (n : Nat)
    (hn : (dense_matrix.block A).get_num_cols = n) (h2 : idx < 2 ^ 63)
    (h : (dense_matrix.block A).is_wide = true ∨ ¬ (0 ≤ idx ∧ idx < (n : Int))) :
    A.get_col idx = none := by
  unfold block_matrix.get_col
  rcases h with h | h
  · by_cases hb : idx_out_of_bound idx (dense_matrix.block A).get_num_cols = true
    · rw [if_pos hb]
    · rw [if_neg hb, if_pos h]
  · rw [if_pos]
    by_contra hb
    rw [Bool.not_eq_true, idx_out_of_bound_iff idx _ h2, hn] at hb
    exact h ⟨hb.1, by omega⟩

theorem get_row_none {α : Type} (A : block_matrix α) (idx : Int) (n : Nat)
    (hn : (dense_matrix.block A).get_num_rows = n) (h2 : idx < 2 ^ 63)
    (h : (dense_matrix.block A).is_wide = false ∨ ¬ (0 ≤ idx ∧ idx < (n : Int))) :
    A.get_row idx = none := by
  unfold block_matrix.get_row
  rcases h with h | h
  · by_cases hb : idx_out_of_bound idx (dense_matrix.block A).get_num_rows = true
    · rw [if_pos hb]
    · rw [if_neg hb, if_pos (by rw [h]; rfl)]
  · rw [if_pos]
    by_contra hb
    rw [Bool.not_eq_true, idx_out_of_bound_iff idx _ h2, hn] at hb
    exact h ⟨hb.1, by omega⟩

/-- The shape and orientation of a block matrix that satisfies the block
invariant. -/
theorem invariant_shape {α : Type} (A : block_matrix α) (M K : Nat)
    (hA : A.tall_invariant M K ∨ A.wide_invariant M K) :
    (dense_matrix.block A).get_num_rows = M ∧ (dense_matrix.block A).get_num_cols = K
      ∧ ((dense_matrix.block A).is_wide = true ↔ M ≤ K)
      ∧ (K < M → A.tall_invariant M K) ∧ (M ≤ K → A.wide_invariant M K) := by
  rcases hA with h | h
  · have ht := h.tall
    refine ⟨h.num_rows_eq, h.num_cols_eq, ?_, fun _ => h, fun hw => by omega⟩
    simp only [dense_matrix.is_wide, h.num_rows_eq, h.num_cols_eq, decide_eq_true_eq]
  · have hw := h.wide
    refine ⟨h.num_rows_wide, h.num_cols_wide, ?_, fun ht => by omega, fun _ => h⟩
    simp only [dense_matrix.is_wide, h.num_rows_wide, h.num_cols_wide, decide_eq_true_eq]

/-- C11: for a block matrix that satisfies the block invariant, with members in
the layout of their orientation (`COL` for column blocks, `ROW` for row
blocks), and an `off_t` index: `get_col(idx)` is non-null exactly when the
matrix is tall and `0 ≤ idx < ncol`; it is then column `idx % block_size` of
member `idx / block_size`, which exists and has that column, and it is column
`idx` of the whole matrix.  `get_row` is the mirror image for a wide block
matrix. -/
theorem C11_get_col_get_row {α : Type} [Inhabited α] (A : block_matrix α) (M K : Nat)
    (idx : Int) (hA : A.tall_invariant M K ∨ A.wide_invariant M K)
    (hlay : ∀ x ∈ A.store.mats, x.layout = if K < M then .L_COL else .L_ROW)
    (hidx : idx < 2 ^ 63) :
    ((A.get_col idx).isSome = true ↔ (K < M ∧ 0 ≤ idx ∧ idx < (K : Int)))
    ∧ (K < M → 0 ≤ idx → idx < (K : Int) →
        ∃ m v, A.store.mats[idx.toNat / A.block_size]? = some m
          ∧ idx.toNat % A.block_size < m.num_cols
          ∧ m.get_col_vec ((idx.toNat % A.block_size : Nat) : Int) = some v
          ∧ A.get_col idx = some v
          ∧ v.length = M
          ∧ ∀ r, v.get r = (dense_matrix.block A).get r idx.toNat)
    ∧ ((A.get_row idx).isSome = true ↔ (M ≤ K ∧ 0 ≤ idx ∧ idx < (M : Int)))
    ∧ (M ≤ K → 0 ≤ idx → idx < (M : Int) →
        ∃ m v, A.store.mats[idx.toNat / A.block_size]? = some m
          ∧ idx.toNat % A.block_size < m.num_rows
          ∧ m.get_row_vec ((idx.toNat % A.block_size : Nat) : Int) = some v
          ∧ A.get_row idx = some v
          ∧ v.length = K
          ∧ ∀ c, v.get c = (dense_matrix.block A).get idx.toNat c) := by
  obtain ⟨hr, hc, hw, htall, hwide⟩ := invariant_shape A M K hA
  have hcol : K < M → 0 ≤ idx → idx < (K : Int) → _ := fun ht h0 h1 =>
    get_col_spec A M K idx (htall ht) (fun x hx => by rw [hlay x hx, if_pos ht]) h0 h1 hidx
  have hrow : M ≤ K → 0 ≤ idx → idx < (M : Int) → _ := fun hwd h0 h1 =>
    get_row_spec A M K idx (hwide hwd) (fun x hx => by rw [hlay x hx, if_neg (by omega)]) h0 h1
      hidx
  refine ⟨⟨fun hsome => ?_, fun ⟨ht, h0, h1⟩ => ?_⟩, hcol, ⟨fun hsome => ?_, fun ⟨hwd, h0, h1⟩ => ?_⟩,
    hrow⟩
  · by_contra hcon
    have : A.get_col idx = none := by
      apply get_col_none A idx K hc hidx
      by_cases ht : K < M
      · right
        intro hh
        exact hcon ⟨ht, hh.1, hh.2⟩
      · left
        exact hw.2 (by omega)
    rw [this] at hsome
    cases hsome
  · obtain ⟨m, v, -, -, -, hv, -⟩ := hcol ht h0 h1
    rw [hv]
    rfl
  · by_contra hcon
    have : A.get_row idx = none := by
      apply get_row_none A idx M hr hidx
      by_cases hwd : M ≤ K
      · right
        intro hh
        exact hcon ⟨hwd, hh.1, hh.2⟩
      · left
        have : ¬ (dense_matrix.block A).is_wide = true := fun h => hwd (hw.1 h)
        simpa using this
    rw [this] at hsome
    cases hsome
  · obtain ⟨m, v, -, -, -, hv, -⟩ := hrow hwd h0 h1
    rw [hv]
    rfl

theorem member_mapply_rows {α : Type} (m : matrix_store α) (vals : vector α)
    (op : bulk_operate α) (hmem : vals.in_mem = true) (hlen : m.num_cols = vals.length)
    (hl : m.type.get_size = op.left_entry_size) (hr : vals.type.get_size = op.right_entry_size) :
    m.mapply_rows vals op
      = some { m with type := op.output_type,
                      get := fun r c => op.run (m.get r c) (vals.get c) } := by
  unfold matrix_store.mapply_rows
  simp [hmem, hlen, hl, hr]

theorem col_blocks_of_shapes {α : Type} (mats res : List (matrix_store α)) (M K b : Nat)
    (hrows : res.map (fun m => m.num_rows) = mats.map (fun m => m.num_rows))
    (hcols : res.map (fun m => m.num_cols) = mats.map (fun m => m.num_cols))
    (h : col_blocks mats M K b) : col_blocks res M K b := by
  have hlen : res.length = mats.length := by
    have := congrArg List.length hrows
    simpa using this
  have hc : ∀ i : Nat, (res[i]?).map (fun m : matrix_store α => m.num_cols)
      = (mats[i]?).map (fun m : matrix_store α => m.num_cols) := by
    intro i
    have := congrArg (fun l : List Nat => l[i]?) hcols
    simpa only [List.getElem?_map] using this
  refine ⟨h.block_pos, ?_, ?_, ?_, ?_, ?_⟩
  · intro m hm
    have : m.num_rows ∈ res.map (fun m => m.num_rows) := List.mem_map_of_mem _ hm
    rw [hrows, List.mem_map] at this
    obtain ⟨x, hx, hxe⟩ := this
    rw [← hxe]
    exact h.rows x hx
  · intro i hi
    rw [hc]
    exact h.full i (by omega)
  · rw [hc, hlen]
    exact h.tail
  · rw [hlen]; exact h.tail_pos
  · rw [hlen]; exact h.tail_le

theorem row_blocks_of_shapes {α : Type} (mats res : List (matrix_store α)) (M K b : Nat)
    (hrows : res.map (fun m => m.num_rows) = mats.map (fun m => m.num_rows))
    (hcols : res.map (fun m => m.num_cols) = mats.map (fun m => m.num_cols))
    (h : row_blocks mats M K b) : row_blocks res M K b := by
  have hlen : res.length = mats.length := by
    have := congrArg List.length hrows
    simpa using this
  have hc : ∀ i : Nat, (res[i]?).map (fun m : matrix_store α => m.num_rows)
      = (mats[i]?).map (fun m : matrix_store α => m.num_rows) := by
    intro i
    have := congrArg (fun l : List Nat => l[i]?) hrows
    simpa only [List.getElem?_map] using this
  refine ⟨h.block_pos, ?_, ?_, ?_, ?_, ?_⟩
  · intro m hm
    have : m.num_cols ∈ res.map (fun m => m.num_cols) := List.mem_map_of_mem _ hm
    rw [hcols, List.mem_map] at this
    obtain ⟨x, hx, hxe⟩ := this
    rw [← hxe]
    exact h.cols x hx
  · intro i hi
    rw [hc]
    exact h.full i (by omega)
  · rw [hc, hlen]
    exact h.tail
  · rw [hlen]; exact h.tail_pos
  · rw [hlen]; exact h.tail_le

/-- A combined store whose members are column blocks, in a tall shape with a
block no wider than the matrix, makes a block matrix that satisfies the tall
invariant with the same block size. -/
theorem create_tall_invariant {α : Type} (res : List (matrix_store α))
    (layout : matrix_layout_t) (M K b : Nat) (h : col_blocks res M K b) (ht : K < M)
    (hb : b ≤ K) :
    ∃ R, (combined_matrix_store.create res layout).bind block_matrix.create_of_store
        = some (.block R)
      ∧ R.store.mats = res ∧ R.block_size = b ∧ R.tall_invariant M K := by
  obtain ⟨m0, hm0, hm0rows, hm0cols⟩ := h.member 0 h.length_pos
  obtain ⟨rest, hrest⟩ := mats_head _ m0 hm0
  simp only [Nat.zero_mul, Nat.sub_zero] at hm0cols
  have hw0 : m0.is_wide = false := by
    simp only [matrix_store.is_wide, decide_eq_false_iff_not, hm0rows, hm0cols]
    omega
  obtain ⟨c, hc⟩ : ∃ c : combined_matrix_store α, c = { mats := res, layout := layout } :=
    ⟨_, rfl⟩
  have hcreate : combined_matrix_store.create res layout = some c := by
    rw [hc]
    unfold combined_matrix_store.create
    rw [hrest]
    simp
  have hcm : c.mats = m0 :: rest := by rw [hc]; exact hrest
  obtain ⟨-, -, -, hbs0⟩ := combined_tall_head c m0 rest hcm hw0
  have hbs : (block_matrix.mk_of_store c).block_size = b := by
    rw [hbs0]
    omega
  refine ⟨block_matrix.mk_of_store c, ?_, by rw [hc]; rfl, hbs, ?_⟩
  · rw [hcreate]
    show block_matrix.create_of_store c = _
    apply create_of_store_tall c m0
    · rw [hcm]; simp
    · exact hw0
    · apply blocks_same_size_of_full _ _ b
      have : c.mats = res := by rw [hc]
      rw [this]
      exact h.full
  · refine ⟨?_, ht, by rw [hbs]; exact hb⟩
    rw [hbs]
    have : (block_matrix.mk_of_store c).store.mats = res := by rw [hc]; rfl
    rw [this]
    exact h

/-- The mirror image of `create_tall_invariant` for row blocks. -/
theorem create_wide_invariant {α : Type} (res : List (matrix_store α))
    (layout : matrix_layout_t) (M K b : Nat) (h : row_blocks res M K b) (ht : M ≤ K)
    (hb : b ≤ M) :
    ∃ R, (combined_matrix_store.create res layout).bind block_matrix.create_of_store
        = some (.block R)
      ∧ R.store.mats = res ∧ R.block_size = b ∧ R.wide_invariant M K := by
  obtain ⟨m0, hm0, hm0cols, hm0rows⟩ := h.member_rows 0 h.length_pos_rows
  obtain ⟨rest, hrest⟩ := mats_head _ m0 hm0
  simp only [Nat.zero_mul, Nat.sub_zero] at hm0rows
  have hw0 : m0.is_wide = true := by
    simp only [matrix_store.is_wide, decide_eq_true_eq, hm0rows, hm0cols]
    omega
  obtain ⟨c, hc⟩ : ∃ c : combined_matrix_store α, c = { mats := res, layout := layout } :=
    ⟨_, rfl⟩
  have hcreate : combined_matrix_store.create res layout = some c := by
    rw [hc]
    unfold combined_matrix_store.create
    rw [hrest]
    simp
  have hcm : c.mats = m0 :: rest := by rw [hc]; exact hrest
  obtain ⟨-, -, -, hbs0⟩ := combined_wide_head c m0 rest hcm hw0
  have hbs : (block_matrix.mk_of_store c).block_size = b := by
    rw [hbs0]
    omega
  refine ⟨block_matrix.mk_of_store c, ?_, by rw [hc]; rfl, hbs, ?_⟩
  · rw [hcreate]
    show block_matrix.create_of_store c = _
    apply create_of_store_wide c m0
    · rw [hcm]; simp
    · exact hw0
    · apply blocks_same_size_of_full _ _ b
      have : c.mats = res := by rw [hc]
      rw [this]
      exact h.full
  · refine ⟨?_, ht, by rw [hbs]; exact hb⟩
    rw [hbs]
    have : (block_matrix.mk_of_store c).store.mats = res := by rw [hc]; rfl
    rw [this]
    exact h

/-- The loop of the tall branch, from any state: each member receives the segment
that starts where the previous one ended and is as long as the member is
wide. -/
theorem mapply_rows_tall_loop_spec {α : Type} [Inhabited α] (vals : vector α)
    (op : bulk_operate α) (hr : vals.type.get_size = op.right_entry_size) :
    ∀ (mats : List (matrix_store α)) (st : Nat × List (matrix_store α) × List (Nat × Nat)),
      (∀ x ∈ mats, x.type.get_size = op.left_entry_size) →
      st.1 + (mats.map fun m => m.num_cols).sum ≤ vals.length →
      ∃ res tr, block_matrix.mapply_rows_tall_loop vals op mats st
          = some (st.1 + (mats.map fun m => m.num_cols).sum, st.2.1 ++ res, st.2.2 ++ tr)
        ∧ res.map (fun m => m.num_rows) = mats.map (fun m => m.num_rows)
        ∧ res.map (fun m => m.num_cols) = mats.map (fun m => m.num_cols)
        ∧ (∀ x ∈ res, x.type = op.output_type)
        ∧ (∀ r c, c < (mats.map fun m => m.num_cols).sum →
            col_concat_get res r c = op.run (col_concat_get mats r c) (vals.get (st.1 + c)))
        ∧ tr.map (fun s => s.2) = mats.map (fun m => m.num_cols)
        ∧ ∀ i m, mats[i]? = some m →
            tr[i]? = some (st.1 + ((mats.take i).map fun m => m.num_cols).sum, m.num_cols) := by
  intro mats
  induction mats with
  | nil =>
    intro st _ _
    refine ⟨[], [], ?_, rfl, rfl, by simp, by simp, rfl, by simp⟩
    simp [block_matrix.mapply_rows_tall_loop]
  | cons m ms ih =>
    intro st hty hle
    simp only [List.map_cons, List.sum_cons] at hle
    have hpart : vals.get_part st.1 m.num_cols
        = some { length := m.num_cols, type := vals.type, in_mem := true,
                 get := fun j => vals.get (st.1 + j) } := by
      unfold vector.get_part
      rw [if_pos (by omega)]
    obtain ⟨part, hp⟩ : ∃ p : vector α,
        p = { length := m.num_cols, type := vals.type, in_mem := true,
              get := fun j => vals.get (st.1 + j) } := ⟨_, rfl⟩
    rw [← hp] at hpart
    have hres := member_mapply_rows m part op (by rw [hp]) (by rw [hp])
      (hty m (List.mem_cons_self _ _)) (by rw [hp]; exact hr)
    obtain ⟨r0, hr0⟩ : ∃ r0 : matrix_store α,
        r0 = { m with type := op.output_type,
                      get := fun r c => op.run (m.get r c) (part.get c) } := ⟨_, rfl⟩
    rw [← hr0] at hres
    obtain ⟨res, tr, hrun, h1, h2, h3, h4, h5, h6⟩ := ih
      (st.1 + m.num_cols, st.2.1 ++ [r0], st.2.2 ++ [(st.1, m.num_cols)])
      (fun x hx => hty x (List.mem_cons_of_mem _ hx)) (by simp only; omega)
    have hr0rows : r0.num_rows = m.num_rows := by rw [hr0]
    have hr0cols : r0.num_cols = m.num_cols := by rw [hr0]
    refine ⟨r0 :: res, (st.1, m.num_cols) :: tr, ?_, ?_, ?_, ?_, ?_, ?_, ?_⟩
    · simp only [block_matrix.mapply_rows_tall_loop, hpart, hres, hrun, List.map_cons,
        List.sum_cons, List.append_assoc, List.singleton_append, Nat.add_assoc]
    · simp only [List.map_cons, h1, hr0rows]
    · simp only [List.map_cons, h2, hr0cols]
    · intro x hx
      rcases List.mem_cons.1 hx with rfl | hx
      · rw [hr0]
      · exact h3 x hx
    · intro r c hc
      simp only [List.map_cons, List.sum_cons] at hc
      simp only [col_concat_get, hr0cols]
      by_cases hcm : c < m.num_cols
      · rw [if_pos hcm, if_pos hcm, hr0, hp]
      · rw [if_neg hcm, if_neg hcm, h4 r (c - m.num_cols) (by omega)]
        have : st.1 + m.num_cols + (c - m.num_cols) = st.1 + c := by omega
        simp only [this]
    · simp only [List.map_cons, h5]
    · intro i x hx
      cases i with
      | zero =>
        simp only [List.getElem?_cons_zero, Option.some.injEq] at hx
        subst hx
        simp
      | succ j =>
        simp only [List.getElem?_cons_succ] at hx
        simp only [List.getElem?_cons_succ, List.take_succ_cons, List.map_cons, List.sum_cons]
        rw [h6 j x hx]
        simp only [Nat.add_assoc]

/-- Every member of a wide block matrix receives the whole vector. -/
theorem mapply_rows_wide_members {α : Type} [Inhabited α] (vals : vector α)
    (op : bulk_operate α) (hmem : vals.in_mem = true)
    (hr : vals.type.get_size = op.right_entry_size) :
    ∀ (mats : List (matrix_store α)),
      (∀ x ∈ mats, x.type.get_size = op.left_entry_size) →
      (∀ x ∈ mats, x.num_cols = vals.length) →
      ∃ res, all_non_null (mats.map fun m => m.mapply_rows vals op) = some res
        ∧ res.map (fun m => m.num_rows) = mats.map (fun m => m.num_rows)
        ∧ res.map (fun m => m.num_cols) = mats.map (fun m => m.num_cols)
        ∧ (∀ x ∈ res, x.type = op.output_type)
        ∧ ∀ r c, r < (mats.map fun m => m.num_rows).sum →
            row_concat_get res r c = op.run (row_concat_get mats r c) (vals.get c) := by
  intro mats
  induction mats with
  | nil =>
    intro _ _
    exact ⟨[], rfl, rfl, rfl, by simp, by simp⟩
  | cons m ms ih =>
    intro hty hcols
    obtain ⟨res, hrun, h1, h2, h3, h4⟩ := ih (fun x hx => hty x (List.mem_cons_of_mem _ hx))
      (fun x hx => hcols x (List.mem_cons_of_mem _ hx))
    have hres := member_mapply_rows m vals op hmem (hcols m (List.mem_cons_self _ _))
      (hty m (List.mem_cons_self _ _)) hr
    obtain ⟨r0, hr0⟩ : ∃ r0 : matrix_store α,
        r0 = { m with type := op.output_type,
                      get := fun r c => op.run (m.get r c) (vals.get c) } := ⟨_, rfl⟩
    rw [← hr0] at hres
    have hr0rows : r0.num_rows = m.num_rows := by rw [hr0]
    have hr0cols : r0.num_cols = m.num_cols := by rw [hr0]
    refine ⟨r0 :: res, ?_, ?_, ?_, ?_, ?_⟩
    · simp only [List.map_cons, all_non_null, hres, hrun, Option.map_some']
    · simp only [List.map_cons, h1, hr0rows]
    · simp only [List.map_cons, h2, hr0cols]
    · intro x hx
      rcases List.mem_cons.1 hx with rfl | hx
      · rw [hr0]
      · exact h3 x hx
    · intro r c hrc
      simp only [List.map_cons, List.sum_cons] at hrc
      simp only [row_concat_get, hr0rows]
      by_cases hrm : r < m.num_rows
      · rw [if_pos hrm, if_pos hrm, hr0]
      · rw [if_neg hrm, if_neg hrm, h4 (r - m.num_rows) c (by omega)]

/-- What `block_matrix::mapply_rows` returns on a block matrix that satisfies the
block invariant, and which segment of the vector each member received. -/
theorem mapply_rows_spec {α : Type} [Inhabited α] (A : block_matrix α) (vals : vector α)
    (op : bulk_operate α) (M K : Nat)
    (hA : A.tall_invariant M K ∨ A.wide_invariant M K)
    (hty : ∀ x ∈ A.store.mats, x.type.get_size = op.left_entry_size)
    (hvt : vals.type.get_size = op.right_entry_size)
    (hmem : vals.in_mem = true) (hlen : vals.length = K) :
    ∃ R segs, A.mapply_rows_trace vals op = some (.block R, segs)
      ∧ R.store.mats.length = A.store.mats.length
      ∧ R.block_size = A.block_size
      ∧ (R.tall_invariant M K ∨ R.wide_invariant M K)
      ∧ (∀ x ∈ R.store.mats, x.type = op.output_type)
      ∧ (∀ r c, r < M → c < K →
          (dense_matrix.block R).get r c
            = op.run ((dense_matrix.block A).get r c) (vals.get c))
      ∧ segs.length = A.store.mats.length
      ∧ (M ≤ K → ∀ s ∈ segs, s = (0, vals.length))
      ∧ (K < M → ∀ i m, A.store.mats[i]? = some m →
          segs[i]? = some (((A.store.mats.take i).map fun m => m.num_cols).sum, m.num_cols))
      ∧ (K < M → (segs.map fun s => s.2).sum = vals.length) := by
  obtain ⟨hr, hc, hw, -, -⟩ := invariant_shape A M K hA
  rcases hA with hA | hA
  · -- tall: the vector is cut into segments
    have ht := hA.tall
    have hsum := hA.blocks.sum_cols
    obtain ⟨res, tr, hrun, h1, h2, h3, h4, h5, h6⟩ := mapply_rows_tall_loop_spec vals op hvt
      A.store.mats (0, [], []) hty (by simp only [Nat.zero_add]; omega)
    simp only [Nat.zero_add, List.nil_append, hsum] at hrun h4 h6
    obtain ⟨R, hR, hRm, hRb, hRinv⟩ := create_tall_invariant res A.store.layout M K A.block_size
      (col_blocks_of_shapes _ _ M K _ h1 h2 hA.blocks) ht hA.block_le
    have hwf : (dense_matrix.block A).is_wide = false := by
      cases hh : (dense_matrix.block A).is_wide
      · rfl
      · have := hw.1 hh
        omega
    have hlen1 : res.length = A.store.mats.length := by
      have := congrArg List.length h1
      simpa using this
    have hlen2 : tr.length = A.store.mats.length := by
      have := congrArg List.length h5
      simpa using this
    refine ⟨R, tr, ?_, by rw [hRm, hlen1], hRb, Or.inl hRinv, by rw [hRm]; exact h3, ?_, hlen2,
      fun hwd => by omega, fun _ => ?_, fun _ => by rw [h5, hsum, hlen]⟩
    · unfold block_matrix.mapply_rows_trace
      simp only [hmem, Bool.not_true, Bool.false_eq_true, if_false, hc, hlen, ne_eq,
        not_true_eq_false, hwf, hrun, if_true, hR, Option.map_some']
    · intro r c _ hcK
      rw [hRinv.get_eq_concat, hRm, h4 r c hcK, hA.get_eq_concat]
    · intro i m hm
      have := h6 i m hm
      simpa using this
  · -- wide: every member receives the whole vector
    have hwd := hA.wide
    have hsum := hA.blocks.sum_rows
    obtain ⟨res, hrun, h1, h2, h3, h4⟩ := mapply_rows_wide_members vals op hmem hvt A.store.mats
      hty (fun x hx => by rw [hA.blocks.cols x hx, hlen])
    rw [hsum] at h4
    obtain ⟨R, hR, hRm, hRb, hRinv⟩ := create_wide_invariant res A.store.layout M K A.block_size
      (row_blocks_of_shapes _ _ M K _ h1 h2 hA.blocks) hwd hA.block_le
    have hwt : (dense_matrix.block A).is_wide = true := hw.2 hwd
    have hlen1 : res.length = A.store.mats.length := by
      have := congrArg List.length h1
      simpa using this
    refine ⟨R, A.store.mats.map fun _ => (0, vals.length), ?_, by rw [hRm, hlen1], hRb,
      Or.inr hRinv, by rw [hRm]; exact h3, ?_, by simp, fun _ s hs => ?_, fun ht => by omega,
      fun ht => by omega⟩
    · unfold block_matrix.mapply_rows_trace
      simp only [hmem, Bool.not_true, Bool.false_eq_true, if_false, hc, hlen, ne_eq,
        not_true_eq_false, hwt, hrun, if_true, hR, Option.map_some']
    · intro r c hrM _
      rw [hRinv.get_eq_stack, hRm, h4 r c hrM, hA.get_eq_stack]
    · simp only [List.mem_map] at hs
      obtain ⟨_, _, hs⟩ := hs
      exact hs.symm

/-- C12: for a block matrix `A` that satisfies the block invariant, a kernel whose
entry sizes fit, and an in-memory vector `vals` with `vals.length == A.ncol`,
`mapply_rows(vals, op)` yields a block matrix with the same member count whose
element `(r, c)` is `op(A[r][c], vals[c])`.  On a wide block matrix every member
receives the whole vector; on a tall one member `i` receives the segment that
starts at the sum of the earlier members' column counts and is as long as the
member is wide, and the segment lengths add up to `vals.length`. -/
theorem C12_mapply_rows {α : Type} [Inhabited α] (A : block_matrix α) (vals : vector α)
    (op : bulk_operate α) (M K : Nat)
    (hA : A.tall_invariant M K ∨ A.wide_invariant M K)
    (hty : ∀ x ∈ A.store.mats, x.type.get_size = op.left_entry_size)
    (hvt : vals.type.get_size = op.right_entry_size)
    (hmem : vals.in_mem = true) (hlen : vals.length = K) :
    ∃ R segs, A.mapply_rows_trace vals op = some (.block R, segs)
      ∧ A.mapply_rows vals op = some (.block R)
      ∧ R.store.mats.length = A.store.mats.length
      ∧ (dense_matrix.block R).get_num_rows = M ∧ (dense_matrix.block R).get_num_cols = K
      ∧ (∀ r c, r < M → c < K →
          (dense_matrix.block R).get r c
            = op.run ((dense_matrix.block A).get r c) (vals.get c))
      ∧ segs.length = A.store.mats.length
      ∧ (M ≤ K → ∀ s ∈ segs, s = (0, vals.length))
      ∧ (K < M → ∀ i m, A.store.mats[i]? = some m →
          segs[i]? = some (((A.store.mats.take i).map fun m => m.num_cols).sum, m.num_cols))
      ∧ (K < M → (segs.map fun s => s.2).sum = vals.length) := by
  obtain ⟨R, segs, hrun, h1, -, h3, -, h5, h6, h7, h8, h9⟩ :=
    mapply_rows_spec A vals op M K hA hty hvt hmem hlen
  obtain ⟨hr, hc, -, -, -⟩ := invariant_shape R M K h3
  refine ⟨R, segs, hrun, ?_, h1, hr, hc, h5, h6, h7, h8, h9⟩
  unfold block_matrix.mapply_rows
  rw [hrun]
  rfl

theorem tall_3x2_layout :
    ∀ x ∈ tall_3x2.store.mats, x.layout = if 2 < 3 then matrix_layout_t.L_COL else .L_ROW := by
  intro x hx
  simp only [tall_3x2, List.mem_cons, List.mem_singleton, List.not_mem_nil, or_false] at hx
  rcases hx with rfl | rfl <;> rfl

/-- C11, at a concrete input: column 1 of the tall 3-by-2 block matrix of block
size 1. -/
theorem C11_get_col_get_row_witness :
    (tall_3x2.tall_invariant 3 2 ∨ tall_3x2.wide_invariant 3 2)
    ∧ (∀ x ∈ tall_3x2.store.mats, x.layout = if 2 < 3 then matrix_layout_t.L_COL else .L_ROW)
    ∧ (1 : Int) < 2 ^ 63
    ∧ ((tall_3x2.get_col 1).isSome = true ↔ (2 < 3 ∧ (0 : Int) ≤ 1 ∧ (1 : Int) < ((2 : Nat) : Int)))
    ∧ (2 < 3 → (0 : Int) ≤ 1 → (1 : Int) < ((2 : Nat) : Int) →
        ∃ m v, tall_3x2.store.mats[(1 : Int).toNat / tall_3x2.block_size]? = some m
          ∧ (1 : Int).toNat % tall_3x2.block_size < m.num_cols
          ∧ m.get_col_vec (((1 : Int).toNat % tall_3x2.block_size : Nat) : Int) = some v
          ∧ tall_3x2.get_col 1 = some v
          ∧ v.length = 3
          ∧ ∀ r, v.get r = (dense_matrix.block tall_3x2).get r (1 : Int).toNat)
    ∧ ((tall_3x2.get_row 1).isSome = true ↔ (3 ≤ 2 ∧ (0 : Int) ≤ 1 ∧ (1 : Int) < ((3 : Nat) : Int)))
    ∧ (3 ≤ 2 → (0 : Int) ≤ 1 → (1 : Int) < ((3 : Nat) : Int) →
        ∃ m v, tall_3x2.store.mats[(1 : Int).toNat / tall_3x2.block_size]? = some m
          ∧ (1 : Int).toNat % tall_3x2.block_size < m.num_rows
          ∧ m.get_row_vec (((1 : Int).toNat % tall_3x2.block_size : Nat) : Int) = some v
          ∧ tall_3x2.get_row 1 = some v
          ∧ v.length = 2
          ∧ ∀ c, v.get c = (dense_matrix.block tall_3x2).get (1 : Int).toNat c) :=
  ⟨Or.inl tall_3x2_invariant, tall_3x2_layout, by decide,
    C11_get_col_get_row tall_3x2 3 2 1 (Or.inl tall_3x2_invariant) tall_3x2_layout (by decide)⟩

theorem tall_3x2_sizes :
    ∀ x ∈ tall_3x2.store.mats,
      x.type.get_size = (basic_ops_get_add scalar_type.T_INT : bulk_operate Int).left_entry_size := by
  intro x hx
  simp only [tall_3x2, List.mem_cons, List.mem_singleton, List.not_mem_nil, or_false] at hx
  rcases hx with rfl | rfl <;> rfl

/-- C12, at a concrete input: the vector `[100, 200]` added to the rows of the
tall 3-by-2 block matrix of block size 1. -/
theorem C12_mapply_rows_witness :
    (tall_3x2.tall_invariant 3 2 ∨ tall_3x2.wide_invariant 3 2)
    ∧ vec_100_200.in_mem = true ∧ vec_100_200.length = 2
    ∧ ∃ R segs, tall_3x2.mapply_rows_trace vec_100_200 (basic_ops_get_add .T_INT)
          = some (.block R, segs)
      ∧ tall_3x2.mapply_rows vec_100_200 (basic_ops_get_add .T_INT) = some (.block R)
      ∧ R.store.mats.length = tall_3x2.store.mats.length
      ∧ (dense_matrix.block R).get_num_rows = 3 ∧ (dense_matrix.block R).get_num_cols = 2
      ∧ (∀ r c, r < 3 → c < 2 →
          (dense_matrix.block R).get r c
            = (basic_ops_get_add scalar_type.T_INT : bulk_operate Int).run
                ((dense_matrix.block tall_3x2).get r c) (vec_100_200.get c))
      ∧ segs.length = tall_3x2.store.mats.length
      ∧ (3 ≤ 2 → ∀ s ∈ segs, s = (0, vec_100_200.length))
      ∧ (2 < 3 → ∀ i m, tall_3x2.store.mats[i]? = some m →
          segs[i]? = some (((tall_3x2.store.mats.take i).map fun m => m.num_cols).sum,
            m.num_cols))
      ∧ (2 < 3 → (segs.map fun s => s.2).sum = vec_100_200.length) :=
  ⟨Or.inl tall_3x2_invariant, rfl, rfl,
    C12_mapply_rows tall_3x2 vec_100_200 (basic_ops_get_add .T_INT) 3 2
      (Or.inl tall_3x2_invariant) tall_3x2_sizes rfl rfl rfl⟩

/-- The transposed matrix has as many columns as the matrix has rows, for a block
matrix that satisfies the block invariant. -/
theorem transpose_of_invariant {α : Type} [Inhabited α] (A : block_matrix α) (M K : Nat)
    (hA : A.tall_invariant M K ∨ A.wide_invariant M K) :
    ∃ T, A.transpose = some (.block T)
      ∧ T.store.mats = A.store.mats.map matrix_store.transpose
      ∧ (dense_matrix.block T).get_num_rows = K ∧ (dense_matrix.block T).get_num_cols = M
      ∧ (∀ r c, r < K → c < M → (dense_matrix.block T).get r c = (dense_matrix.block A).get c r)
      ∧ (M ≠ K → (T.tall_invariant K M ∨ T.wide_invariant K M)) := by
  rcases hA with hA | hA
  · obtain ⟨T, h1, h2, h3, h4⟩ := transpose_of_tall A M K hA
    exact ⟨T, h1, h2, h3.num_rows_wide, h3.num_cols_wide, fun r c _ _ => h4 r c,
      fun _ => Or.inr h3⟩
  · obtain ⟨T, h1, h2, h3, h4, h5, h6⟩ := transpose_of_wide A M K hA
    have := hA.wide
    exact ⟨T, h1, h2, h3, h4, h5, fun hne => Or.inl (h6 (by omega))⟩

/-- A vector that is not in memory, or whose length is not the number of columns,
makes `block_matrix::mapply_rows` return null. -/
theorem mapply_rows_null {α : Type} (T : block_matrix α) (vals : vector α)
    (op : bulk_operate α)
    (h : vals.in_mem = false ∨ vals.length ≠ (dense_matrix.block T).get_num_cols) :
    T.mapply_rows vals op = none := by
  unfold block_matrix.mapply_rows block_matrix.mapply_rows_trace
  rcases h with h | h
  · simp [h]
  · by_cases hm : vals.in_mem = true
    · have h' : ¬ (dense_matrix.block T).get_num_cols = vals.length := fun e => h e.symm
      simp [hm, h']
    · simp [hm]

/-- What `block_matrix::mapply_cols` does on a block matrix that satisfies the
block invariant. -/
theorem mapply_cols_spec {α : Type} [Inhabited α] (A : block_matrix α) (vals : vector α)
    (op : bulk_operate α) (M K : Nat) (hA : A.tall_invariant M K ∨ A.wide_invariant M K) :
    ((vals.in_mem = false ∨ vals.length ≠ M) → A.mapply_cols vals op = .null_deref)
    ∧ (M ≠ K → vals.in_mem = true → vals.length = M →
        (∀ x ∈ A.store.mats, x.type.get_size = op.left_entry_size) →
        vals.type.get_size = op.right_entry_size →
        ∃ T R R', A.transpose = some T ∧ T.mapply_rows vals op = some R
          ∧ R.transpose = some R'
          ∧ A.mapply_cols vals op = .returned (some R')
          ∧ R'.get_num_rows = M ∧ R'.get_num_cols = K
          ∧ ∀ r c, r < M → c < K →
              R'.get r c = op.run ((dense_matrix.block A).get r c) (vals.get r)) := by
  obtain ⟨T, hT, hTm, hTr, hTc, hTget, hTinv⟩ := transpose_of_invariant A M K hA
  refine ⟨fun hbad => ?_, fun hne hmem hlen hty hvt => ?_⟩
  · have : T.mapply_rows vals op = none := by
      apply mapply_rows_null
      rw [hTc]
      exact hbad
    simp only [block_matrix.mapply_cols, hT, dense_matrix.mapply_rows, this]
  · have htyT : ∀ x ∈ T.store.mats, x.type.get_size = op.left_entry_size := by
      intro x hx
      rw [hTm, List.mem_map] at hx
      obtain ⟨y, hy, rfl⟩ := hx
      exact hty y hy
    obtain ⟨R, segs, hrun, -, -, hRinv, -, hRget, -⟩ :=
      mapply_rows_spec T vals op K M (hTinv hne) htyT hvt hmem hlen
    have hR : T.mapply_rows vals op = some (.block R) := by
      unfold block_matrix.mapply_rows
      rw [hrun]
      rfl
    obtain ⟨R', hR', -, hR'r, hR'c, hR'get, -⟩ := transpose_of_invariant R K M hRinv
    refine ⟨.block T, .block R, .block R', hT, hR, hR', ?_, hR'r, hR'c, fun r c hr hc => ?_⟩
    · simp only [block_matrix.mapply_cols, hT, dense_matrix.mapply_rows, hR]
      rw [show (dense_matrix.block R).transpose = R.transpose from rfl, hR']
    · rw [hR'get r c hr hc, hRget c r hc hr, hTget c r hc hr]

/-- C13: on a block matrix that satisfies the block invariant, a vector that is
not in memory or whose length differs from the number of rows makes
`mapply_cols` call `transpose()` through the null pointer that `mapply_rows`
returned: the call does not return null to the caller.  With a fitting
in-memory vector of the right length, on a matrix that is not square, it
returns the transpose of `mapply_rows` of the transposed matrix, whose element
`(r, c)` is `op(this[r][c], vals[r])`. -/
theorem C13_mapply_cols_null_deref {α : Type} [Inhabited α] (A : block_matrix α)
    (vals : vector α) (op : bulk_operate α) (M K : Nat)
    (hA : A.tall_invariant M K ∨ A.wide_invariant M K) :
    ((vals.in_mem = false ∨ vals.length ≠ M) →
        A.mapply_cols vals op = .null_deref
        ∧ A.mapply_cols vals op ≠ .returned none)
    ∧ (M ≠ K → vals.in_mem = true → vals.length = M →
        (∀ x ∈ A.store.mats, x.type.get_size = op.left_entry_size) →
        vals.type.get_size = op.right_entry_size →
        ∃ T R R', A.transpose = some T ∧ T.mapply_rows vals op = some R
          ∧ R.transpose = some R'
          ∧ A.mapply_cols vals op = .returned (some R')
          ∧ R'.get_num_rows = M ∧ R'.get_num_cols = K
          ∧ ∀ r c, r < M → c < K →
              R'.get r c = op.run ((dense_matrix.block A).get r c) (vals.get r)) := by
  obtain ⟨h1, h2⟩ := mapply_cols_spec A vals op M K hA
  refine ⟨fun hbad => ⟨h1 hbad, ?_⟩, h2⟩
  rw [h1 hbad]
  intro h
  cases h

/-- C13, at a concrete input: the vector `[100, 200]` of length 2 on the tall
3-by-2 block matrix, which has 3 rows. -/
theorem C13_mapply_cols_null_deref_witness :
    (tall_3x2.tall_invariant 3 2 ∨ tall_3x2.wide_invariant 3 2)
    ∧ (vec_100_200.in_mem = false ∨ vec_100_200.length ≠ 3)
    ∧ tall_3x2.mapply_cols vec_100_200 (basic_ops_get_add .T_INT) = .null_deref
    ∧ tall_3x2.mapply_cols vec_100_200 (basic_ops_get_add .T_INT) ≠ .returned none :=
  ⟨Or.inl tall_3x2_invariant, Or.inr (by decide),
    (C13_mapply_cols_null_deref tall_3x2 vec_100_200 (basic_ops_get_add .T_INT) 3 2
      (Or.inl tall_3x2_invariant)).1 (Or.inr (by decide))⟩

/-- C15: for every block matrix with at least one member, `materialize_self()`
returns, `is_virtual()` is false afterwards, and a second call leaves the block
matrix as the first call left it; the matrices that the members hold are those
that the members evaluated to, and the block size is kept. -/
theorem C15_materialize_self_idempotent {α : Type} (self : lazy_block_matrix α)
    (hne : self.mats ≠ []) :
    ∃ s1, self.materialize_self = some s1
      ∧ s1.is_virtual = some false
      ∧ s1.materialize_self = some s1
      ∧ s1.mats.map (fun m => m.mat) = self.mats.map (fun m => m.mat)
      ∧ s1.block_size = self.block_size := by
  obtain ⟨m0, rest, hm⟩ : ∃ m0 rest, self.mats = m0 :: rest := by
    cases h : self.mats with
    | nil => exact absurd h hne
    | cons a l => exact ⟨a, l, rfl⟩
  cases hv : m0.is_virtual with
  | false =>
    have h1 : self.is_virtual = some false := by
      simp [lazy_block_matrix.is_virtual, hm, hv]
    have h2 : self.materialize_self = some self := by
      simp only [lazy_block_matrix.materialize_self, h1]
    exact ⟨self, h2, h1, h2, rfl, rfl⟩
  | true =>
    have h1 : self.is_virtual = some true := by
      simp [lazy_block_matrix.is_virtual, hm, hv]
    obtain ⟨s1, hs1⟩ : ∃ s1 : lazy_block_matrix α,
        s1 = { self with mats := self.mats.map lazy_store.materialize,
                         layout := m0.materialize.mat.layout } := ⟨_, rfl⟩
    have h2 : self.materialize_self = some s1 := by
      simp only [lazy_block_matrix.materialize_self, h1, hm, List.map_cons,
        List.getElem?_cons_zero, hs1]
    have h3 : s1.is_virtual = some false := by
      simp [lazy_block_matrix.is_virtual, hs1, hm, lazy_store.materialize, hv]
    refine ⟨s1, h2, h3, ?_, ?_, by rw [hs1]⟩
    · simp only [lazy_block_matrix.materialize_self, h3]
    · rw [hs1]
      simp only [List.map_map]
      apply List.map_congr_left
      intro x _
      simp only [Function.comp, lazy_store.materialize]
      split <;> rfl

/-- C15, at a concrete input: a block matrix of two lazy members. -/
theorem C15_materialize_self_idempotent_witness :
    lazy_3x2.mats ≠ []
    ∧ ∃ s1, lazy_3x2.materialize_self = some s1
      ∧ s1.is_virtual = some false
      ∧ s1.materialize_self = some s1
      ∧ s1.mats.map (fun m => m.mat) = lazy_3x2.mats.map (fun m => m.mat)
      ∧ s1.block_size = lazy_3x2.block_size :=
  ⟨by simp [lazy_3x2], C15_materialize_self_idempotent lazy_3x2 (by simp [lazy_3x2])⟩

theorem read_in_range {α : Type} (d : mem_dense_matrix α) (pos : Int) (n : Nat)
    (h0 : 0 ≤ pos) (h1 : pos.toNat + n ≤ d.raw.length) :
    d.read pos n = some ((d.raw.drop pos.toNat).take n) := by
  unfold mem_dense_matrix.read
  rw [if_pos ⟨h0, h1⟩]

theorem get_in_range {α : Type} (v : mem_vector α) (i : Nat) (h0 : 0 ≤ v.arr)
    (h1 : v.arr.toNat + i < v.data.raw.length) :
    v.get i = v.data.raw[v.arr.toNat + i]? ∧ (v.get i).isSome = true := by
  have hpos : (v.arr + (i : Int)).toNat = v.arr.toNat + i := by omega
  have hget : v.get i = v.data.raw[v.arr.toNat + i]? := by
    unfold mem_vector.get
    rw [read_in_range _ _ _ (by omega) (by rw [hpos]; omega), hpos]
    simp [List.head?_take, List.head?_drop]
  refine ⟨hget, ?_⟩
  rw [hget, List.getElem?_eq_getElem h1]
  rfl

/-- A resize to at most the present length changes the length and nothing else. -/
theorem resize_shrink {α : Type} [Inhabited α] (v : mem_vector α) (a : allocator) (n : Nat)
    (hwf : v.well_formed) (hn : n ≤ v.length) :
    v.resize a n = some (true, { v with length := n }, a) := by
  unfold mem_vector.resize
  by_cases h : n = v.length
  · rw [if_pos h]
    subst h
    rfl
  · rw [if_neg h]
    have h1 := hwf.in_store
    have h2 := hwf.store_len
    have : n < v.data.num_rows * v.data.num_cols := by omega
    simp only [this, if_true]

/-- C16: for every well-formed in-memory vector `v` and every `s ≥ 0` and `l` with
`s + l ≤ v.get_length()`, `get_sub_vec(s, l)` returns a non-null vector of
length `l` that holds the backing store of `v`, starts `s` elements after the
start of `v`, and whose element `i` is element `s + i` of `v` for `i < l`;
nothing is allocated. -/
theorem C16_get_sub_vec_view {α : Type} [Inhabited α] (v : mem_vector α) (a : allocator)
    (s : Int) (l : Nat) (hwf : v.well_formed) (hs : 0 ≤ s)
    (hl : s + (l : Int) ≤ (v.length : Int)) :
    ∃ sub, v.get_sub_vec a s l = some (some sub, a)
      ∧ sub.length = l
      ∧ sub.data = v.data
      ∧ sub.arr = v.arr + s
      ∧ ∀ i, i < l → sub.get i = v.get (s.toNat + i) ∧ (sub.get i).isSome = true := by
  have h1 := hwf.in_store
  have h2 := hwf.fits
  have h3 := hwf.arr_nonneg
  have hs63 : s < 2 ^ 63 := by omega
  have hcheck : ¬ (to_size_t s + l) % 2 ^ 64 > v.length := by
    rw [to_size_t_of_nonneg s hs hs63, Nat.mod_eq_of_lt (by omega)]
    omega
  have hres := resize_shrink v a l hwf (by omega)
  refine ⟨{ length := l, in_mem := v.in_mem, sorted := v.sorted, data := v.data,
            arr := v.arr + s }, ?_, rfl, rfl, rfl, fun i hi => ?_⟩
  · unfold mem_vector.get_sub_vec
    rw [if_neg hcheck, hres]
  · obtain ⟨sub, hsub⟩ : ∃ sub : mem_vector α,
        sub = { length := l, in_mem := v.in_mem, sorted := v.sorted, data := v.data,
                arr := v.arr + s } := ⟨_, rfl⟩
    rw [← hsub]
    have hsa : sub.arr = v.arr + s := by rw [hsub]
    have hsd : sub.data = v.data := by rw [hsub]
    obtain ⟨g1, g2⟩ := get_in_range sub i (by rw [hsa]; omega) (by rw [hsa, hsd]; omega)
    obtain ⟨g3, -⟩ := get_in_range v (s.toNat + i) h3 (by omega)
    refine ⟨?_, g2⟩
    rw [g1, g3, hsa, hsd]
    have : (v.arr + s).toNat + i = v.arr.toNat + (s.toNat + i) := by omega
    rw [this]

theorem vec_10_40_well_formed : vec_10_40.well_formed :=
  ⟨rfl, rfl, by decide, by decide, by decide⟩

/-- C16, at a concrete input: the two elements of `[10, 20, 30, 40]` from
position 1 on. -/
theorem C16_get_sub_vec_view_witness :
    vec_10_40.well_formed ∧ (0 : Int) ≤ 1 ∧ (1 : Int) + ((2 : Nat) : Int) ≤ (vec_10_40.length : Int)
    ∧ ∃ sub, vec_10_40.get_sub_vec alloc_1000 1 2 = some (some sub, alloc_1000)
      ∧ sub.length = 2
      ∧ sub.data = vec_10_40.data
      ∧ sub.arr = vec_10_40.arr + 1
      ∧ ∀ i, i < 2 → sub.get i = vec_10_40.get ((1 : Int).toNat + i)
          ∧ (sub.get i).isSome = true :=
  ⟨vec_10_40_well_formed, by decide, by decide,
    C16_get_sub_vec_view vec_10_40 alloc_1000 1 2 vec_10_40_well_formed (by decide) (by decide)⟩

/-- C17, the code at failing inputs: for every well-formed vector and every `k`
with `1 ≤ k ≤ v.get_length()`, the request `get_sub_vec(-k, k)`, whose range
`[-k, 0)` lies before the vector, passes the bound test, because
`(size_t) (-k) + k` wraps around to 0: the call returns a non-null vector of
length `k` that starts `k` elements before `v`. -/
theorem C17_get_sub_vec_negative_start {α : Type} [Inhabited α] (v : mem_vector α)
    (a : allocator) (k : Nat) (hwf : v.well_formed) (hk : 1 ≤ k) (hkl : k ≤ v.length) :
    ∃ sub, v.get_sub_vec a (-(k : Int)) k = some (some sub, a)
      ∧ sub.length = k
      ∧ sub.arr = v.arr - (k : Int)
      ∧ sub.data = v.data := by
  have h1 := hwf.in_store
  have h2 := hwf.fits
  have hcheck : ¬ (to_size_t (-(k : Int)) + k) % 2 ^ 64 > v.length := by
    have : to_size_t (-(k : Int)) = 2 ^ 64 - k := by
      unfold to_size_t
      have hmod : (-(k : Int)) % 2 ^ 64 = 2 ^ 64 - (k : Int) := by omega
      rw [hmod]
      omega
    rw [this]
    have : 2 ^ 64 - k + k = 2 ^ 64 := by omega
    rw [this, Nat.mod_self]
    omega
  have hres := resize_shrink v a k hwf hkl
  refine ⟨{ length := k, in_mem := v.in_mem, sorted := v.sorted, data := v.data,
            arr := v.arr + -(k : Int) }, ?_, rfl, by show v.arr + -(k : Int) = _; ring, rfl⟩
  unfold mem_vector.get_sub_vec
  rw [if_neg hcheck, hres]

/-- C17, at a concrete input: `get_sub_vec(-1, 1)` on `[10, 20, 30, 40]`. -/
theorem C17_get_sub_vec_negative_start_witness :
    vec_10_40.well_formed ∧ 1 ≤ 1 ∧ 1 ≤ vec_10_40.length
    ∧ ∃ sub, vec_10_40.get_sub_vec alloc_1000 (-((1 : Nat) : Int)) 1 = some (some sub, alloc_1000)
      ∧ sub.length = 1
      ∧ sub.arr = vec_10_40.arr - ((1 : Nat) : Int)
      ∧ sub.data = vec_10_40.data :=
  ⟨vec_10_40_well_formed, by decide, by decide,
    C17_get_sub_vec_negative_start vec_10_40 alloc_1000 1 vec_10_40_well_formed (by decide)
      (by decide)⟩

/-- A resize that is neither a no-op nor within the present store allocates a
column store of the new length, copies the elements and points the vector at
its start. -/
theorem resize_realloc {α : Type} [Inhabited α] (v : mem_vector α) (a : allocator) (n : Nat)
    (h0 : 0 ≤ v.arr) (h1 : v.arr.toNat + v.length ≤ v.data.raw.length)
    (h2 : v.data.raw.length = v.data.num_rows * v.data.num_cols)
    (hne : n ≠ v.length) (hge : v.data.num_rows * v.data.num_cols ≤ n)
    (hlim : n ≤ a.limit) :
    v.resize a n = some (true,
      { length := n, in_mem := v.in_mem, sorted := v.sorted,
        data := { id := a.next_id, num_rows := n, num_cols := 1, layout := .L_COL,
                  type := v.data.type,
                  raw := (v.data.raw.drop v.arr.toNat).take v.length
                    ++ List.replicate (n - v.length) default },
        arr := 0 },
      { a with next_id := a.next_id + 1 }) := by
  have hmin : min v.length n = v.length := by omega
  have hcreate : mem_col_dense_matrix.create a n 1 v.get_type
      = some (({ id := a.next_id, num_rows := n, num_cols := 1, layout := .L_COL,
                 type := v.data.type, raw := List.replicate n default } : mem_dense_matrix α),
              { a with next_id := a.next_id + 1 }) := by
    unfold mem_col_dense_matrix.create
    rw [if_pos (by omega)]
    simp [mem_vector.get_type]
  have hread := read_in_range v.data v.arr v.length h0 h1
  have hlen : ((v.data.raw.drop v.arr.toNat).take v.length).length = v.length := by
    rw [List.length_take, List.length_drop]
    omega
  unfold mem_vector.resize
  rw [if_neg hne, if_neg (by omega)]
  simp only [hcreate, hmin, hread]
  unfold mem_dense_matrix.write
  rw [if_pos ⟨le_refl _, by simp only [Int.toNat_zero, Nat.zero_add, hlen, List.length_replicate]; omega⟩]
  simp only [Int.toNat_zero, List.take_zero, List.nil_append, Nat.zero_add, hlen,
    List.drop_replicate]

/-- C18: for every well-formed vector that starts at the beginning of its backing
store and every `n`: `resize(n)` returns true unless a needed allocation fails;
after it returned true the length is `n` and elements `0 .. min(old_length, n) -
1` are unchanged; when `n != old_length` and `n` is at least the element count
of the old store, the store is a newly allocated one of `n` elements, and
otherwise the store and the start are those of before and nothing was
allocated.  After it returned false nothing has changed. -/
theorem C18_resize_frame {α : Type} [Inhabited α] (v : mem_vector α) (a : allocator) (n : Nat)
    (hwf : v.well_formed) (harr : v.arr = 0) (hid : v.data.id < a.next_id) :
    ∃ ok v' a', v.resize a n = some (ok, v', a')
      ∧ (ok = true ↔ (n = v.length ∨ n < v.data.num_rows * v.data.num_cols ∨ n ≤ a.limit))
      ∧ (ok = true →
          v'.length = n
          ∧ (∀ i, i < min v.length n → v'.get i = v.get i ∧ (v'.get i).isSome = true)
          ∧ ((n ≠ v.length ∧ v.data.num_rows * v.data.num_cols ≤ n) →
              v'.data.id = a.next_id ∧ v'.data.id ≠ v.data.id
              ∧ v'.data.num_rows = n ∧ v'.data.num_cols = 1 ∧ v'.data.raw.length = n
              ∧ v'.arr = 0 ∧ a'.next_id = a.next_id + 1)
          ∧ (¬ (n ≠ v.length ∧ v.data.num_rows * v.data.num_cols ≤ n) →
              v'.data = v.data ∧ v'.arr = v.arr ∧ a' = a))
      ∧ (ok = false → v' = v ∧ a' = a) := by
  have h1 := hwf.in_store
  have h2 := hwf.store_len
  rw [harr] at h1
  simp only [Int.toNat_zero, Nat.zero_add] at h1
  have hgetv : ∀ i, i < v.length → v.get i = v.data.raw[i]? ∧ (v.get i).isSome = true := by
    intro i hi
    have := get_in_range v i hwf.arr_nonneg (by rw [harr]; simp; omega)
    rw [harr] at this
    simpa using this
  by_cases hsame : n = v.length
  · refine ⟨true, v, a, ?_, by simp [hsame], fun _ => ⟨hsame.symm, fun i hi => ?_,
      fun hh => absurd hsame hh.1, fun _ => ⟨rfl, rfl, rfl⟩⟩, fun hh => by cases hh⟩
    · unfold mem_vector.resize
      rw [if_pos hsame]
    · exact ⟨rfl, (hgetv i (by omega)).2⟩
  by_cases hlt : n < v.data.num_rows * v.data.num_cols
  · obtain ⟨v', hv'⟩ : ∃ v' : mem_vector α, v' = { v with length := n } := ⟨_, rfl⟩
    have hd : v'.data = v.data := by rw [hv']
    have ha : v'.arr = v.arr := by rw [hv']
    refine ⟨true, v', a, ?_, by simp [hlt], fun _ => ⟨by rw [hv'], fun i hi => ?_,
      fun hh => by omega, fun _ => ⟨hd, ha, rfl⟩⟩, fun hh => by cases hh⟩
    · unfold mem_vector.resize
      rw [if_neg hsame]
      simp only [hlt, if_true, hv']
    · have g := get_in_range v' i (by rw [ha]; exact hwf.arr_nonneg)
        (by rw [ha, hd, harr]; simp; omega)
      rw [ha, hd, harr] at g
      simp only [Int.toNat_zero, Nat.zero_add] at g
      refine ⟨?_, g.2⟩
      rw [g.1, (hgetv i (by omega)).1]
  by_cases hlim : n ≤ a.limit
  · have hrun := resize_realloc v a n hwf.arr_nonneg hwf.in_store hwf.store_len hsame (by omega)
      hlim
    rw [harr] at hrun
    simp only [Int.toNat_zero, List.drop_zero] at hrun
    have hvn : v.length ≤ n := by omega
    obtain ⟨v', hv'⟩ : ∃ v' : mem_vector α,
        v' = { length := n, in_mem := v.in_mem, sorted := v.sorted,
               data := { id := a.next_id, num_rows := n, num_cols := 1, layout := .L_COL,
                         type := v.data.type,
                         raw := v.data.raw.take v.length
                           ++ List.replicate (n - v.length) default },
               arr := 0 } := ⟨_, rfl⟩
    rw [← hv'] at hrun
    have hraw : v'.data.raw = v.data.raw.take v.length
        ++ List.replicate (n - v.length) default := by rw [hv']
    have hrawlen : v'.data.raw.length = n := by
      rw [hraw, List.length_append, List.length_take, List.length_replicate]
      omega
    have ha : v'.arr = 0 := by rw [hv']
    refine ⟨true, v', _, hrun, by simp [hlim], fun _ => ⟨by rw [hv'], fun i hi => ?_,
      fun _ => ⟨by rw [hv'], by rw [hv']; show a.next_id ≠ _; omega, by rw [hv'], by rw [hv'],
        hrawlen, ha, rfl⟩, fun hh => absurd ⟨hsame, by omega⟩ hh⟩, fun hh => by cases hh⟩
    have hi' : i < v.length := by omega
    have g := get_in_range v' i (by rw [ha]) (by rw [ha, hrawlen]; simp; omega)
    rw [ha] at g
    simp only [Int.toNat_zero, Nat.zero_add] at g
    refine ⟨?_, g.2⟩
    rw [g.1, (hgetv i hi').1, hraw, List.getElem?_append_left (by
      rw [List.length_take]; omega), List.getElem?_take_of_lt hi']
  · refine ⟨false, v, a, ?_, by simp [hsame, hlt, hlim], fun hh => (by cases hh),
      fun _ => ⟨rfl, rfl⟩⟩
    unfold mem_vector.resize
    rw [if_neg hsame]
    have hc : (mem_col_dense_matrix.create a n 1 v.get_type
        : Option (mem_dense_matrix α × allocator)) = none := by
      unfold mem_col_dense_matrix.create
      rw [if_neg (by omega)]
    simp only [hlt, if_false, hc]

/-- C18, at a concrete input: `[10, 20, 30, 40]` resized to 6 elements. -/
theorem C18_resize_frame_witness :
    vec_10_40.well_formed ∧ vec_10_40.arr = 0 ∧ vec_10_40.data.id < alloc_1000.next_id
    ∧ ∃ ok v' a', vec_10_40.resize alloc_1000 6 = some (ok, v', a')
      ∧ (ok = true ↔ (6 = vec_10_40.length
          ∨ 6 < vec_10_40.data.num_rows * vec_10_40.data.num_cols ∨ 6 ≤ alloc_1000.limit))
      ∧ (ok = true →
          v'.length = 6
          ∧ (∀ i, i < min vec_10_40.length 6 →
              v'.get i = vec_10_40.get i ∧ (v'.get i).isSome = true)
          ∧ ((6 ≠ vec_10_40.length ∧ vec_10_40.data.num_rows * vec_10_40.data.num_cols ≤ 6) →
              v'.data.id = alloc_1000.next_id ∧ v'.data.id ≠ vec_10_40.data.id
              ∧ v'.data.num_rows = 6 ∧ v'.data.num_cols = 1 ∧ v'.data.raw.length = 6
              ∧ v'.arr = 0 ∧ a'.next_id = alloc_1000.next_id + 1)
          ∧ (¬ (6 ≠ vec_10_40.length ∧ vec_10_40.data.num_rows * vec_10_40.data.num_cols ≤ 6) →
              v'.data = vec_10_40.data ∧ v'.arr = vec_10_40.arr ∧ a' = alloc_1000))
      ∧ (ok = false → v' = vec_10_40 ∧ a' = alloc_1000) :=
  ⟨vec_10_40_well_formed, rfl, by decide,
    C18_resize_frame vec_10_40 alloc_1000 6 vec_10_40_well_formed rfl (by decide)⟩

/-- C19, the code at failing inputs: for every well-formed vector `v` and every
non-empty in-memory vector `vec` of another element type, with room for the
resize: `append(vec)` returns true although `set_sub_vec` rejected the copy and
returned false; the receiver has been resized, so its length has changed, and
no element of `vec` was copied. -/
theorem C19_append_swallows_failure {α : Type} [Inhabited α] (v vec : mem_vector α)
    (a : allocator) (hwf : v.well_formed) (hmem : vec.in_mem = true)
    (hty : v.get_type ≠ vec.get_type) (hpos : 1 ≤ vec.length)
    (hfit : vec.length + v.length < 2 ^ 63) (hlim : vec.length + v.length ≤ a.limit) :
    ∃ v1 a1, v.resize a (vec.length + v.length) = some (true, v1, a1)
      ∧ v1.set_sub_vec (v.length : Int) vec = some (false, v1)
      ∧ v.append a vec = some (true, v1, a1)
      ∧ v1.length = v.length + vec.length
      ∧ v1.length ≠ v.length := by
  have hresize : ∃ v1 a1, v.resize a (vec.length + v.length) = some (true, v1, a1)
      ∧ v1.length = vec.length + v.length ∧ v1.get_type = v.get_type := by
    by_cases hlt : vec.length + v.length < v.data.num_rows * v.data.num_cols
    · refine ⟨{ v with length := vec.length + v.length }, a, ?_, rfl, rfl⟩
      unfold mem_vector.resize
      rw [if_neg (by omega)]
      simp only [hlt, if_true]
    · exact ⟨_, _, resize_realloc v a _ hwf.arr_nonneg hwf.in_store hwf.store_len (by omega)
        (by omega) hlim, rfl, rfl⟩
  obtain ⟨v1, a1, hr, hlen, hty1⟩ := hresize
  have hset : v1.set_sub_vec (v.length : Int) vec = some (false, v1) := by
    unfold mem_vector.set_sub_vec
    simp only [hmem, Bool.not_true, Bool.false_eq_true, if_false, hty1]
    rw [if_pos hty]
  refine ⟨v1, a1, hr, hset, ?_, by omega, by omega⟩
  unfold mem_vector.append
  have hmod : (vec.length + v.length) % 2 ^ 64 = vec.length + v.length :=
    Nat.mod_eq_of_lt (by omega)
  have hloc : to_off_t v.length = (v.length : Int) := to_off_t_of_lt _ (by omega)
  have hsz : to_size_t (v.length : Int) = v.length := by
    rw [to_size_t_of_nonneg _ (Int.natCast_nonneg _) (by omega), Int.toNat_ofNat]
  simp only [hmod, hr, hloc, hsz]
  rw [Nat.add_comm, hmod, if_pos (by omega), hset]

/-- C19, at a concrete input: the double vector `[7]` appended to the integer
vector `[10, 20, 30, 40]`. -/
theorem C19_append_swallows_failure_witness :
    vec_10_40.well_formed ∧ dbl_vec_7.in_mem = true ∧ vec_10_40.get_type ≠ dbl_vec_7.get_type
    ∧ 1 ≤ dbl_vec_7.length
    ∧ ∃ v1 a1, vec_10_40.resize alloc_1000 (dbl_vec_7.length + vec_10_40.length)
          = some (true, v1, a1)
      ∧ v1.set_sub_vec (vec_10_40.length : Int) dbl_vec_7 = some (false, v1)
      ∧ vec_10_40.append alloc_1000 dbl_vec_7 = some (true, v1, a1)
      ∧ v1.length = vec_10_40.length + dbl_vec_7.length
      ∧ v1.length ≠ vec_10_40.length :=
  ⟨vec_10_40_well_formed, rfl, by decide, by decide,
    C19_append_swallows_failure vec_10_40 dbl_vec_7 alloc_1000 vec_10_40_well_formed rfl
      (by decide) (by decide) (by decide) (by decide)⟩

/-! ### Runs of equal neighbours -/

theorem runs_head {α : Type} [DecidableEq α] (x : α) (xs : List α) :
    ∃ g gs, runs (x :: xs) = (x :: g) :: gs := by
  show ∃ g gs, runs_push x (runs xs) = (x :: g) :: gs
  cases runs xs with
  | nil => exact ⟨[], [], rfl⟩
  | cons g gs =>
    simp only [runs_push]
    split
    · exact ⟨g, gs, rfl⟩
    · exact ⟨[], g :: gs, rfl⟩

theorem runs_push_append {α : Type} [DecidableEq α] (x : α) (R S : List (List α))
    (hR : R ≠ []) : runs_push x (R ++ S) = runs_push x R ++ S := by
  cases R with
  | nil => exact absurd rfl hR
  | cons g gs =>
    simp only [List.cons_append, runs_push]
    split <;> rfl

/-- The first run is the first element with the longest constant stretch after
it, and the other runs are those of the rest: the view of the list that the
loops of the group-by take. -/
theorem runs_cons {α : Type} [DecidableEq α] (x : α) (xs : List α) :
    runs (x :: xs)
      = (x :: xs.takeWhile fun y => decide (y = x))
        :: runs (xs.dropWhile fun y => decide (y = x)) := by
  induction xs generalizing x with
  | nil => rfl
  | cons y ys ih =>
    show runs_push x (runs (y :: ys)) = _
    rw [ih y]
    by_cases hyx : y = x
    · subst hyx
      simp [runs_push]
    · have h1 : ¬ (some y = some x) := fun h => hyx (Option.some.inj h)
      simp only [runs_push, List.head?_cons, h1, if_false, List.takeWhile_cons, hyx,
        decide_False, List.dropWhile_cons, Bool.false_eq_true]
      rw [ih y]

/-- The runs of a list that is cut where two neighbours differ are the runs of the
two parts. -/
theorem runs_append {α : Type} [DecidableEq α] (A B : List α) (hA : A ≠ [])
    (hcut : ∀ a b, A.getLast? = some a → B.head? = some b → a ≠ b) :
    runs (A ++ B) = runs A ++ runs B := by
  induction A with
  | nil => exact absurd rfl hA
  | cons x A' ih =>
    cases A' with
    | nil =>
      cases B with
      | nil => simp [runs]
      | cons b B' =>
        have hne : x ≠ b := hcut x b rfl rfl
        obtain ⟨g, gs, hg⟩ := runs_head b B'
        have h1 : ¬ (some b = some x) := fun h => hne (Option.some.inj h).symm
        show runs_push x (runs (b :: B')) = runs_push x (runs []) ++ runs (b :: B')
        rw [hg]
        simp only [runs_push, runs, List.head?_cons, h1, if_false, List.cons_append,
          List.nil_append]
    | cons y A'' =>
      have hrec := ih (by simp) (fun a b ha hb => hcut a b (by
        rw [List.getLast?_cons_cons]; exact ha) hb)
      obtain ⟨g, gs, hg⟩ := runs_head y A''
      show runs_push x (runs ((y :: A'') ++ B)) = runs_push x (runs (y :: A'')) ++ runs B
      rw [hrec, runs_push_append x _ _ (by rw [hg]; simp)]

/-- The runs of a list in non-decreasing order: their first elements are in
strictly increasing order and are the elements of the list, and the run of a
key is as long as the key is frequent in the list. -/
theorem runs_sorted {α : Type} [LinearOrder α] [Inhabited α] (l : List α)
    (h : l.Sorted (· ≤ ·)) :
    ((runs l).map fun g => g.headD default).Sorted (· < ·)
    ∧ (∀ x, x ∈ ((runs l).map fun g => g.headD default) ↔ x ∈ l)
    ∧ ∀ g ∈ runs l, g = List.replicate (l.count (g.headD default)) (g.headD default) := by
  induction l with
  | nil => simp [runs]
  | cons x xs ih =>
    have hs := List.sorted_cons.1 h
    obtain ⟨ih1, ih2, ih3⟩ := ih hs.2
    cases xs with
    | nil =>
      refine ⟨by simp [runs, runs_push], by simp [runs, runs_push], ?_⟩
      intro g hg
      simp only [runs, runs_push, List.mem_singleton] at hg
      subst hg
      simp
    | cons y ys =>
      obtain ⟨g0, gs, hg0⟩ := runs_head y ys
      have hxy : x ≤ y := hs.1 y (List.mem_cons_self _ _)
      have hys : ∀ z ∈ y :: ys, y ≤ z := by
        intro z hz
        rcases List.mem_cons.1 hz with rfl | hz
        · exact le_refl _
        · exact (List.sorted_cons.1 hs.2).1 z hz
      rw [hg0] at ih1 ih2 ih3
      simp only [List.map_cons, List.headD_cons] at ih1 ih2
      have hkeys_gt : ∀ k ∈ gs.map (fun g => g.headD default), y < k :=
        (List.sorted_cons.1 ih1).1
      have hrun : runs (x :: y :: ys) = runs_push x ((y :: g0) :: gs) := by
        show runs_push x (runs (y :: ys)) = _
        rw [hg0]
      by_cases hyx : y = x
      · subst hyx
        have hrun' : runs (y :: y :: ys) = (y :: y :: g0) :: gs := by
          rw [hrun]
          simp [runs_push]
        rw [hrun']
        simp only [List.map_cons, List.headD_cons]
        refine ⟨ih1, fun z => ?_, fun g hg => ?_⟩
        · rw [ih2 z]
          simp
        · rcases List.mem_cons.1 hg with rfl | hg
          · have h0 := ih3 (y :: g0) (List.mem_cons_self _ _)
            simp only [List.headD_cons] at h0 ⊢
            rw [List.count_cons_self, List.replicate_succ, ← h0]
          · have h0 := ih3 g (List.mem_cons_of_mem _ hg)
            have hne : g.headD default ≠ y := by
              have := hkeys_gt (g.headD default) (List.mem_map_of_mem _ hg)
              exact ne_of_gt this
            rw [List.count_cons_of_ne hne]
            exact h0
      · have hlt : x < y := lt_of_le_of_ne hxy (Ne.symm hyx)
        have h1 : ¬ (some y = some x) := fun h => hyx (Option.some.inj h)
        have hrun' : runs (x :: y :: ys) = [x] :: (y :: g0) :: gs := by
          rw [hrun]
          simp [runs_push, h1]
        have hxnot : x ∉ y :: ys := fun hx => absurd (hys x hx) (not_le.2 hlt)
        rw [hrun']
        simp only [List.map_cons, List.headD_cons]
        refine ⟨?_, fun z => ?_, fun g hg => ?_⟩
        · refine List.sorted_cons.2 ⟨fun k hk => ?_, ih1⟩
          rcases List.mem_cons.1 hk with rfl | hk
          · exact hlt
          · exact lt_trans hlt (hkeys_gt k hk)
        · rw [List.mem_cons, ih2 z, List.mem_cons (a := z) (b := x)]
        · rcases List.mem_cons.1 hg with rfl | hg
          · simp only [List.headD_cons, List.count_cons_self, List.count_eq_zero_of_not_mem hxnot]
            rfl
          · have h0 := ih3 g hg
            have hmem : g.headD default ∈ y :: ys := by
              rw [← ih2]
              rcases List.mem_cons.1 hg with rfl | hg'
              · simp
              · exact List.mem_cons_of_mem _ (List.mem_map_of_mem _ hg')
            have hne : g.headD default ≠ x := fun e => hxnot (e ▸ hmem)
            rw [List.count_cons_of_ne hne]
            exact h0

theorem runs_join {α : Type} [DecidableEq α] (l : List α) : (runs l).flatten = l := by
  induction l with
  | nil => rfl
  | cons x xs ih =>
    show (runs_push x (runs xs)).flatten = x :: xs
    cases hr : runs xs with
    | nil =>
      rw [hr] at ih
      simp only [List.flatten_nil] at ih
      rw [← ih]
      rfl
    | cons g gs =>
      rw [hr] at ih
      simp only [runs_push]
      split <;> simp [← ih]

/-! ### Vectors that own their store -/

theorem write_in_range {α : Type} (d : mem_dense_matrix α) (pos : Int) (src : List α)
    (h0 : 0 ≤ pos) (h1 : pos.toNat + src.length ≤ d.raw.length) :
    d.write pos src
      = some { d with raw := d.raw.take pos.toNat ++ src
                        ++ d.raw.drop (pos.toNat + src.length) } := by
  unfold mem_dense_matrix.write
  rw [if_pos ⟨h0, h1⟩]

theorem stores_elems {α : Type} (v : mem_vector α) (l : List α) (t : scalar_type)
    (h : v.stores l t) : v.elems = some l := by
  unfold mem_vector.elems
  rw [read_in_range _ _ _ (by rw [h.arr]) (by rw [h.arr, h.length]; simpa using h.room),
    h.arr, h.length]
  simp only [Int.toNat_zero, List.drop_zero, h.content]

/-- What `resize` does to a vector at the start of its store when the allocator
can satisfy it: the length is set and the elements that fit are kept. -/
theorem resize_from_start {α : Type} [Inhabited α] (v : mem_vector α) (a : allocator) (n : Nat)
    (harr : v.arr = 0) (hsl : v.data.raw.length = v.data.num_rows * v.data.num_cols)
    (hlen : v.length ≤ v.data.raw.length) (hlim : n ≤ a.limit) :
    ∃ v1 a1, v.resize a n = some (true, v1, a1)
      ∧ v1.arr = 0 ∧ v1.in_mem = v.in_mem ∧ v1.sorted = v.sorted
      ∧ v1.data.type = v.data.type ∧ v1.length = n
      ∧ v1.data.raw.length = v1.data.num_rows * v1.data.num_cols
      ∧ n ≤ v1.data.raw.length
      ∧ (∀ k, k ≤ v.length → k ≤ n → v1.data.raw.take k = v.data.raw.take k)
      ∧ a1.limit = a.limit
      ∧ (v1.data.raw.length = v.data.raw.length ∨ v1.data.raw.length = n) := by
  by_cases hsame : n = v.length
  · refine ⟨v, a, ?_, harr, rfl, rfl, rfl, hsame.symm, hsl, by omega, fun _ _ _ => rfl, rfl,
      Or.inl rfl⟩
    unfold mem_vector.resize
    rw [if_pos hsame]
  by_cases hlt : n < v.data.num_rows * v.data.num_cols
  · refine ⟨{ v with length := n }, a, ?_, harr, rfl, rfl, rfl, rfl, hsl, ?_,
      fun _ _ _ => rfl, rfl, Or.inl rfl⟩
    · unfold mem_vector.resize
      rw [if_neg hsame]
      simp only [hlt, if_true]
    · show n ≤ v.data.raw.length
      omega
  · have hrun := resize_realloc v a n (by rw [harr]) (by rw [harr]; simpa using hlen) hsl hsame
      (by omega) hlim
    rw [harr] at hrun
    simp only [Int.toNat_zero, List.drop_zero] at hrun
    refine ⟨_, _, hrun, rfl, rfl, rfl, rfl, rfl, ?_, ?_, fun k hk hkn => ?_, rfl, Or.inr ?_⟩
    · simp only [List.length_append, List.length_take, List.length_replicate]
      omega
    · simp only [List.length_append, List.length_take, List.length_replicate]
      omega
    · show (v.data.raw.take v.length ++ List.replicate (n - v.length) default).take k = _
      rw [List.take_append_of_le_length (by rw [List.length_take]; omega), List.take_take,
        min_eq_left hk]
    · simp only [List.length_append, List.length_take, List.length_replicate]
      omega

/-- What `set_sub_vec` does when it accepts the copy: the elements of `vec` land
at position `loc`. -/
theorem set_sub_vec_at {α : Type} (v vec : mem_vector α) (loc : Nat) (xs : List α)
    (harr : v.arr = 0) (hmem : vec.in_mem = true) (hty : v.data.type = vec.data.type)
    (hxs : vec.elems = some xs) (hvl : vec.length = xs.length)
    (hloc : loc + xs.length ≤ v.length) (hlen : v.length ≤ v.data.raw.length)
    (h63 : v.length < 2 ^ 63) :
    v.set_sub_vec (loc : Int) vec
      = some (true, { v with data := { v.data with
          raw := v.data.raw.take loc ++ xs ++ v.data.raw.drop (loc + xs.length) } }) := by
  have hsz : to_size_t (loc : Int) = loc := by
    rw [to_size_t_of_nonneg _ (Int.natCast_nonneg _) (by omega), Int.toNat_ofNat]
  have hcheck : ¬ (to_size_t (loc : Int) + vec.length) % 2 ^ 64 > v.length := by
    rw [hsz, hvl, Nat.mod_eq_of_lt (by omega)]
    omega
  have hread : vec.data.read vec.arr vec.length = some xs := hxs
  have hty' : ¬ v.get_type ≠ vec.get_type := by
    simp only [mem_vector.get_type, hty, ne_eq, not_true_eq_false, not_false_eq_true]
  unfold mem_vector.set_sub_vec
  rw [if_neg (by simp [hmem]), if_neg hty', if_neg hcheck]
  simp only [hread]
  rw [write_in_range _ _ _ (by rw [harr]; omega) (by rw [harr]; simp; omega), harr]
  simp

/-- Appending a vector of the same type to a vector that owns its store: the
elements are added at the end. -/
theorem append_stores {α : Type} [Inhabited α] (v vec : mem_vector α) (a : allocator)
    (l xs : List α) (t : scalar_type) (hv : v.stores l t) (hmem : vec.in_mem = true)
    (hty : vec.data.type = t) (hxs : vec.elems = some xs) (hvl : vec.length = xs.length)
    (h63 : l.length + xs.length < 2 ^ 63) (hlim : l.length + xs.length ≤ a.limit) :
    ∃ v' a', v.append a vec = some (true, v', a') ∧ v'.stores (l ++ xs) t
      ∧ a'.limit = a.limit := by
  have hvlen := hv.length
  obtain ⟨v1, a1, hr, h1, h2, -, h4, h5, h6, h7, h8, h9, -⟩ := resize_from_start v a
    (xs.length + l.length) hv.arr hv.store_len (by rw [hvlen]; exact hv.room) (by omega)
  have hset := set_sub_vec_at v1 vec l.length xs h1 hmem (by rw [h4, hv.type, hty]) hxs hvl
    (by omega) (by omega) (by omega)
  have hmod : (vec.length + v.length) % 2 ^ 64 = xs.length + l.length := by
    rw [hvl, hvlen]
    exact Nat.mod_eq_of_lt (by omega)
  have hloc : to_off_t v.length = (l.length : Int) := by
    rw [hvlen]
    exact to_off_t_of_lt _ (by omega)
  have hsz : to_size_t (l.length : Int) = l.length := by
    rw [to_size_t_of_nonneg _ (Int.natCast_nonneg _) (by omega), Int.toNat_ofNat]
  obtain ⟨v2, hv2⟩ : ∃ v2 : mem_vector α,
      v2 = { v1 with data := { v1.data with
        raw := v1.data.raw.take l.length ++ xs ++ v1.data.raw.drop (l.length + xs.length) } } :=
    ⟨_, rfl⟩
  rw [← hv2] at hset
  refine ⟨v2, a1, ?_, ?_, h9⟩
  · unfold mem_vector.append
    simp only [hmod, hr, hloc, hsz]
    rw [hvl, Nat.mod_eq_of_lt (by omega), if_pos (by omega), hset]
  · have hk := h8 l.length (by omega) (by omega)
    rw [hv2]
    refine ⟨by show v1.in_mem = true; rw [h2, hv.in_mem],
      by show v1.data.type = t; rw [h4, hv.type], h1, ?_, ?_, ?_, ?_⟩
    · show v1.length = (l ++ xs).length
      rw [h5, List.length_append]
      omega
    · show (v1.data.raw.take l.length ++ xs ++ v1.data.raw.drop (l.length + xs.length)).length
        = v1.data.num_rows * v1.data.num_cols
      rw [← h6]
      simp only [List.length_append, List.length_take, List.length_drop]
      omega
    · show (l ++ xs).length
        ≤ (v1.data.raw.take l.length ++ xs ++ v1.data.raw.drop (l.length + xs.length)).length
      simp only [List.length_append, List.length_take, List.length_drop]
      omega
    · show (v1.data.raw.take l.length ++ xs ++ v1.data.raw.drop (l.length + xs.length)).take
        (l ++ xs).length = l ++ xs
      rw [hk, hv.content, List.take_append_of_le_length (by simp)]
      simp

theorem create_spec {α : Type} [Inhabited α] (a : allocator) (n : Nat) (t : scalar_type)
    (hlim : n ≤ a.limit) :
    ∃ v a', (mem_vector.create a n t : Option (mem_vector α × allocator)) = some (v, a')
      ∧ v.in_mem = true ∧ v.data.type = t ∧ v.arr = 0 ∧ v.length = n
      ∧ v.data.raw.length = v.data.num_rows * v.data.num_cols
      ∧ v.data.raw.length = n ∧ a'.limit = a.limit := by
  obtain ⟨d, hd⟩ : ∃ d : mem_dense_matrix α,
      d = { id := a.next_id, num_rows := n, num_cols := 1, layout := .L_COL, type := t,
            raw := List.replicate (n * 1) default } := ⟨_, rfl⟩
  refine ⟨{ length := n, in_mem := true, sorted := false, data := d, arr := 0 },
    { a with next_id := a.next_id + 1 }, ?_, rfl, by rw [hd], rfl, rfl, by rw [hd]; simp,
    by rw [hd]; simp, rfl⟩
  unfold mem_vector.create mem_col_dense_matrix.create
  rw [if_pos (by omega), hd]

/-- The statement that makes room in `val`. -/
theorem reserve_val_spec {α : Type} [Inhabited α] (val : mem_vector α) (keys : List α)
    (t : scalar_type) (a : allocator) (hv : val.buffers keys t)
    (hlim : 2 * keys.length ≤ a.limit) (h63 : a.limit < 2 ^ 63) :
    ∃ val' a', groupby_reserve_val (some val) keys.length a = some (some val', a')
      ∧ val'.buffers keys t ∧ keys.length < val'.length ∧ a'.limit = a.limit := by
  by_cases hfull : keys.length ≥ val.length
  · have hroom := hv.room
    have hpos := hv.pos
    have heq : keys.length = val.length := by omega
    have hmod : val.length * 2 % 2 ^ 64 = val.length * 2 := Nat.mod_eq_of_lt (by omega)
    obtain ⟨v1, a1, hr, h1, h2, -, h4, h5, h6, h7, h8, h9, h10⟩ := resize_from_start val a
      (val.length * 2) hv.arr hv.store_len (by rw [hv.full]) (by omega)
    have hfull1 : v1.length = v1.data.raw.length := by
      have := hv.full
      omega
    refine ⟨v1, a1, ?_, ⟨by rw [h2, hv.in_mem], by rw [h4, hv.type], h1, h6, hfull1, by omega,
      by omega, ?_, by omega⟩, by omega, h9⟩
    · simp only [groupby_reserve_val, hfull, if_true, hmod, hr, Option.map_some']
    · rw [h8 keys.length (by omega) (by omega), hv.content]
  · refine ⟨val, a, ?_, hv, by omega, rfl⟩
    simp only [groupby_reserve_val, hfull, if_false]

/-- The statement that stores a key in `val`. -/
theorem store_val_spec {α : Type} (val : mem_vector α) (keys : List α) (t : scalar_type)
    (key : α) (hv : val.buffers keys t) (hroom : keys.length < val.length) :
    ∃ val', groupby_store_val (some val) keys.length key = some (some val')
      ∧ val'.buffers (keys ++ [key]) t := by
  have hfull := hv.full
  obtain ⟨val', hval'⟩ : ∃ val' : mem_vector α,
      val' = { val with data := { val.data with
        raw := val.data.raw.take keys.length ++ [key]
          ++ val.data.raw.drop (keys.length + 1) } } := ⟨_, rfl⟩
  have hlen' : val'.data.raw.length = val.data.raw.length := by
    rw [hval']
    simp only [List.length_append, List.length_take, List.length_drop, List.length_singleton]
    omega
  refine ⟨val', ?_, ⟨by rw [hval']; exact hv.in_mem, by rw [hval']; exact hv.type,
    by rw [hval']; exact hv.arr, ?_, ?_, ?_, ?_, ?_, ?_⟩⟩
  · have hw : val.data.write (val.arr + (keys.length : Int)) [key]
        = some { val.data with
            raw := val.data.raw.take keys.length ++ [key]
              ++ val.data.raw.drop (keys.length + 1) } := by
      rw [hv.arr, Int.zero_add,
        write_in_range _ _ _ (Int.natCast_nonneg _) (by
          rw [Int.toNat_ofNat, List.length_singleton]; omega),
        Int.toNat_ofNat, List.length_singleton]
    simp only [groupby_store_val, hw, Option.map_some', hval']
  · rw [hlen']
    rw [hval']
    exact hv.store_len
  · rw [hlen']
    rw [hval']
    exact hfull
  · rw [hval']
    exact hv.pos
  · rw [hval']
    simp only [List.length_append, List.length_singleton]
    omega
  · rw [hval']
    simp only [List.length_append, List.length_singleton]
    rw [List.take_append_of_le_length (by
      simp only [List.length_append, List.length_take, List.length_singleton]; omega),
      List.take_append_eq_append_take]
    simp only [List.length_take, List.take_take]
    have h1 : min (keys.length + 1) keys.length = keys.length := by omega
    have h2 : keys.length + 1 - min keys.length val.data.raw.length = 1 := by omega
    rw [h1, h2, hv.content]
    rfl
  · have := hv.bound
    rw [hval']
    simp only [List.length_append, List.length_singleton]
    show val.length ≤ _
    omega

/-- The end of the filling of `val`: it is cut to the keys. -/
theorem finish_val_spec {α : Type} [Inhabited α] (val : mem_vector α) (keys : List α)
    (t : scalar_type) (a : allocator) (hv : val.buffers keys t)
    (hlim : keys.length ≤ a.limit) :
    ∃ val' a', val.resize a keys.length = some (true, val', a') ∧ val'.stores keys t
      ∧ a'.limit = a.limit := by
  obtain ⟨v1, a1, hr, h1, h2, -, h4, h5, h6, h7, h8, h9, -⟩ := resize_from_start val a
    keys.length hv.arr hv.store_len (by rw [hv.full]) hlim
  refine ⟨v1, a1, hr, ⟨by rw [h2, hv.in_mem], by rw [h4, hv.type], h1, h5, h6, h7, ?_⟩, h9⟩
  rw [h8 keys.length hv.room (le_refl _), hv.content]

/-- What `expose_sub_vec` does to a vector that points into a store: it becomes
the view of the requested range. -/
theorem expose_sub_vec_spec {α : Type} [Inhabited α] (copy : mem_vector α) (a : allocator)
    (start n : Nat)
    (hlay : copy.data.layout = .L_ROW ∨ copy.data.layout = .L_COL)
    (hsl : copy.data.raw.length = copy.data.num_rows * copy.data.num_cols)
    (hfit : copy.data.raw.length < 2 ^ 63)
    (hrange : start + n ≤ copy.data.raw.length)
    (hn : n < copy.data.raw.length ∨ n = copy.length) :
    copy.expose_sub_vec a (start : Int) n
      = some (true, { copy with length := n, arr := (start : Int) }, a) := by
  have hsz : to_size_t (start : Int) = start := by
    rw [to_size_t_of_nonneg _ (Int.natCast_nonneg _) (by omega), Int.toNat_ofNat]
  have hres : copy.resize a n = some (true, { copy with length := n }, a) := by
    unfold mem_vector.resize
    by_cases hsame : n = copy.length
    · rw [if_pos hsame]
      subst hsame
      rfl
    · rw [if_neg hsame]
      have : n < copy.data.num_rows * copy.data.num_cols := by omega
      simp only [this, if_true]
  have hbase : get_matrix_raw_data copy.data = some 0 := by
    unfold get_matrix_raw_data
    rcases hlay with h | h
    · rw [if_pos h]
    · rw [h]
      simp
  unfold mem_vector.expose_sub_vec
  simp only [hsz]
  rw [Nat.mod_eq_of_lt (by omega), if_neg (by omega), hres]
  simp only [hbase, Int.zero_add]

/-! ### The loop of `serial_groupby` -/

theorem views_length {α : Type} (v : mem_vector α) (l : List α) (h : v.views l) :
    l.length = v.length := by
  rw [← h.content, List.length_take, List.length_drop]
  have := h.in_store
  omega

theorem views_drop {α : Type} (v : mem_vector α) (l : List α) (h : v.views l) (loc : Nat) :
    l.drop loc = (v.data.raw.drop (v.arr.toNat + loc)).take (v.length - loc) := by
  rw [← h.content, List.drop_take, List.drop_drop]

theorem views_read {α : Type} (v : mem_vector α) (l : List α) (h : v.views l) (loc n : Nat)
    (hn : loc + n ≤ v.length) :
    v.data.read (v.arr + (loc : Int)) n = some ((l.drop loc).take n) := by
  have h0 := h.arr_nonneg
  have h1 := h.in_store
  have hpos : (v.arr + (loc : Int)).toNat = v.arr.toNat + loc := by omega
  rw [read_in_range _ _ _ (by omega) (by rw [hpos]; omega), hpos, views_drop v l h,
    List.take_take, min_eq_left (by omega)]

theorem takeWhile_eq_take {α : Type} (p : α → Bool) (xs : List α) :
    xs.takeWhile p = xs.take (xs.takeWhile p).length :=
  List.prefix_iff_eq_take.1 (List.takeWhile_prefix p)

theorem takeWhile_length_le {α : Type} (p : α → Bool) (xs : List α) :
    (xs.takeWhile p).length ≤ xs.length :=
  (List.takeWhile_prefix p).length_le

theorem drop_takeWhile_length {α : Type} (p : α → Bool) (xs : List α) :
    xs.drop (xs.takeWhile p).length = xs.dropWhile p := by
  induction xs with
  | nil => rfl
  | cons a as ih =>
    by_cases h : p a = true
    · simp only [List.takeWhile_cons, h, if_true, List.length_cons, List.drop_succ_cons,
        List.dropWhile_cons, ih]
    · simp only [List.takeWhile_cons, h, if_false, List.length_nil, List.drop_zero,
        List.dropWhile_cons, Bool.false_eq_true]

/-- One iteration of the loop of `serial_groupby`, at a position where the rest of
the sorted vector is `x :: xs`: the run of `x` is handled. -/
theorem serial_groupby_step_spec {α : Type} [Inhabited α] [DecidableEq α]
    (sv one_agg : mem_vector α) (op : gr_apply_operate α) (L : List α) (limit : Nat)
    (hsv : sv.views L) (hlim : 2 * L.length ≤ limit) (h63 : limit < 2 ^ 63)
    (ho1 : one_agg.in_mem = true) (ho2 : one_agg.data.type = op.output_type)
    (ho3 : one_agg.arr = 0) (ho4 : one_agg.length = 1) (ho5 : one_agg.data.raw.length = 1)
    (st : groupby_state α) (rs : List (List α)) (x : α) (xs : List α)
    (hdrop : L.drop st.loc = x :: xs) (hinv : groupby_inv sv op limit st rs) :
    ∃ st', sv.serial_groupby_step op (sv.arr.toNat : Int) one_agg st = some st'
      ∧ groupby_inv sv op limit st' (rs ++ [x :: xs.takeWhile fun y => decide (y = x)])
      ∧ st'.loc = st.loc + (1 + (xs.takeWhile fun y => decide (y = x)).length) := by
  obtain ⟨tw, htw⟩ : ∃ tw, tw = xs.takeWhile fun y => decide (y = x) := ⟨_, rfl⟩
  rw [← htw]
  have hLlen := views_length sv L hsv
  have h0 := hsv.arr_nonneg
  have h1 := hsv.in_store
  have hfit := hsv.fits
  have hloc : st.loc < L.length := by
    by_contra hcon
    rw [List.drop_eq_nil_of_le (by omega)] at hdrop
    cases hdrop
  have hxs : xs.length + 1 = L.length - st.loc := by
    have := congrArg List.length hdrop
    simpa using this.symm
  have htwlen : tw.length ≤ xs.length := by
    rw [htw]
    exact takeWhile_length_le _ _
  -- the run is found
  have hread := views_read sv L hsv st.loc (sv.length - st.loc) (by omega)
  rw [List.take_of_length_le (by rw [List.length_drop]; omega), hdrop] at hread
  have hfind : find_next (x :: xs) = some (1 + tw.length) := by
    rw [htw]
    rfl
  -- room is made in `val`
  obtain ⟨val, hval, hbuf⟩ := hinv.val
  obtain ⟨keys, hkeys⟩ : ∃ keys, keys = rs.map fun g => g.headD default := ⟨_, rfl⟩
  obtain ⟨outs, houts⟩ : ∃ outs, outs = rs.map fun g => op.run (g.headD default) g :=
    ⟨_, rfl⟩
  rw [← hkeys] at hbuf
  have hagg := hinv.agg
  rw [← houts] at hagg
  have hklen : keys.length = rs.length := by rw [hkeys, List.length_map]
  have holen : outs.length = rs.length := by rw [houts, List.length_map]
  have hidx := hinv.idx
  have hidx_le := hinv.idx_le
  obtain ⟨val1, a1, hres, hbuf1, hroom1, hlim1⟩ := reserve_val_spec val keys sv.data.type st.alloc
    hbuf (by rw [hinv.limit]; omega) (by rw [hinv.limit]; exact h63)
  rw [hklen, ← hidx, ← hval] at hres
  -- the copy is pointed at the run
  have hsz : to_size_t ((sv.arr.toNat : Nat) : Int) = sv.arr.toNat := by
    rw [to_size_t_of_nonneg _ (Int.natCast_nonneg _) (by omega), Int.toNat_ofNat]
  have hstart : to_off_t ((st.loc + to_size_t ((sv.arr.toNat : Nat) : Int)) % 2 ^ 64)
      = ((st.loc + sv.arr.toNat : Nat) : Int) := by
    rw [hsz, Nat.mod_eq_of_lt (by omega), to_off_t_of_lt _ (by omega)]
  have hexp := expose_sub_vec_spec st.copy a1 (st.loc + sv.arr.toNat) (1 + tw.length)
    (by rw [hinv.copy_data]; exact hsv.layout) (by rw [hinv.copy_data]; exact hsv.store_len)
    (by rw [hinv.copy_data]; exact hfit) (by rw [hinv.copy_data]; omega)
    (by
      rw [hinv.copy_data]
      by_cases hz : st.loc = 0
      · have := hinv.copy_len hz
        omega
      · left
        omega)
  obtain ⟨copy1, hcopy1⟩ : ∃ copy1 : mem_vector α,
      copy1 = { st.copy with length := 1 + tw.length,
                             arr := ((st.loc + sv.arr.toNat : Nat) : Int) } := ⟨_, rfl⟩
  rw [← hcopy1] at hexp
  have hc1d : copy1.data = sv.data := by rw [hcopy1]; exact hinv.copy_data
  have hc1a : copy1.arr = sv.arr + (st.loc : Int) := by
    rw [hcopy1]
    show ((st.loc + sv.arr.toNat : Nat) : Int) = _
    omega
  have hc1l : copy1.length = 1 + tw.length := by rw [hcopy1]
  have hassert : copy1.data.id = sv.data.id ∧ copy1.arr = sv.arr + (st.loc : Int) :=
    ⟨by rw [hc1d], hc1a⟩
  -- the key and the group
  have hkey : (sv.data.read (sv.arr + (st.loc : Int)) 1).bind List.head? = some x := by
    rw [views_read sv L hsv st.loc 1 (by omega), hdrop]
    rfl
  have hgrp : copy1.elems = some (x :: tw) := by
    unfold mem_vector.elems
    rw [hc1d, hc1a, hc1l, views_read sv L hsv st.loc (1 + tw.length) (by omega), hdrop,
      Nat.add_comm, List.take_succ_cons, htw, ← takeWhile_eq_take]
  -- the output of the operator is appended to `agg`
  obtain ⟨d, hd⟩ : ∃ d : mem_dense_matrix α,
      d = { one_agg.data with raw := [op.run x (x :: tw)] } := ⟨_, rfl⟩
  have hwrite : one_agg.data.write one_agg.arr [op.run x (x :: tw)] = some d := by
    rw [ho3, write_in_range _ _ _ (le_refl _) (by simp [ho5]), hd]
    simp only [Int.toNat_zero, List.take_zero, List.nil_append, Nat.zero_add,
      List.length_singleton]
    rw [List.drop_of_length_le (by omega)]
    rfl
  obtain ⟨vec, hvec⟩ : ∃ vec : mem_vector α, vec = { one_agg with data := d } := ⟨_, rfl⟩
  have hvec_elems : vec.elems = some [op.run x (x :: tw)] := by
    rw [hvec, hd]
    unfold mem_vector.elems
    show mem_dense_matrix.read _ one_agg.arr one_agg.length = _
    rw [ho3, ho4, read_in_range _ _ _ (le_refl _) (by simp)]
    rfl
  obtain ⟨agg1, a3, happ, hagg1, hlim3⟩ := append_stores st.agg vec a1 outs
    [op.run x (x :: tw)] op.output_type hagg (by rw [hvec]; exact ho1)
    (by rw [hvec, hd]; exact ho2) hvec_elems (by rw [hvec]; exact ho4)
    (by simp only [List.length_singleton]; omega)
    (by simp only [List.length_singleton]; rw [hlim1, hinv.limit]; omega)
  -- the key is stored in `val`
  obtain ⟨val2, hstore, hbuf2⟩ := store_val_spec val1 keys sv.data.type x hbuf1 hroom1
  rw [hklen, ← hidx] at hstore
  refine ⟨{ loc := st.loc + (1 + tw.length), idx := st.idx + 1, copy := copy1, agg := agg1,
            val := some val2, alloc := a3 }, ?_, ⟨?_, ?_, hc1d, ?_, ?_, ⟨val2, rfl, ?_⟩, ?_⟩,
    rfl⟩
  · unfold mem_vector.serial_groupby_step
    simp only [hread, Option.some_bind, hfind, hres, hstart, hexp, hassert, and_self,
      if_true, hkey, hgrp, hwrite, ← hvec, happ, hstore]
  · show st.idx + 1 = (rs ++ [x :: tw]).length
    rw [List.length_append, List.length_singleton, hidx]
  · show (rs ++ [x :: tw]).length ≤ st.loc + (1 + tw.length)
    rw [List.length_append, List.length_singleton]
    omega
  · intro hz
    have : st.loc + (1 + tw.length) = 0 := hz
    omega
  · show agg1.stores ((rs ++ [x :: tw]).map fun g => op.run (g.headD default) g) _
    rw [List.map_append, ← houts]
    exact hagg1
  · rw [List.map_append, ← hkeys]
    exact hbuf2
  · show a3.limit = limit
    rw [hlim3, hlim1, hinv.limit]

/-- The loop of `serial_groupby` handles the runs of the rest of the sorted
vector, one run per iteration; as many iterations as there are elements left
are enough. -/
theorem serial_groupby_loop_spec {α : Type} [Inhabited α] [DecidableEq α]
    (sv one_agg : mem_vector α) (op : gr_apply_operate α) (L : List α) (limit : Nat)
    (hsv : sv.views L) (hlim : 2 * L.length ≤ limit) (h63 : limit < 2 ^ 63)
    (ho1 : one_agg.in_mem = true) (ho2 : one_agg.data.type = op.output_type)
    (ho3 : one_agg.arr = 0) (ho4 : one_agg.length = 1) (ho5 : one_agg.data.raw.length = 1) :
    ∀ (fuel : Nat) (st : groupby_state α) (rs : List (List α)),
      groupby_inv sv op limit st rs → st.loc ≤ L.length → L.length - st.loc ≤ fuel →
      ∃ st', sv.serial_groupby_loop op (sv.arr.toNat : Int) one_agg fuel st = some st'
        ∧ groupby_inv sv op limit st' (rs ++ runs (L.drop st.loc))
        ∧ st'.loc ≤ L.length := by
  have hLlen := views_length sv L hsv
  have hdone : ∀ (fuel : Nat) (st : groupby_state α) (rs : List (List α)),
      groupby_inv sv op limit st rs → st.loc ≤ L.length → ¬ st.loc < sv.length →
      ∃ st', sv.serial_groupby_loop op (sv.arr.toNat : Int) one_agg fuel st = some st'
        ∧ groupby_inv sv op limit st' (rs ++ runs (L.drop st.loc))
        ∧ st'.loc ≤ L.length := by
    intro fuel st rs hinv hle hnot
    refine ⟨st, ?_, ?_, hle⟩
    · cases fuel <;> simp only [mem_vector.serial_groupby_loop, hnot, if_false]
    · rw [List.drop_eq_nil_of_le (by omega)]
      simpa [runs] using hinv
  intro fuel
  induction fuel with
  | zero =>
    intro st rs hinv hle hfuel
    exact hdone 0 st rs hinv hle (by omega)
  | succ fuel ih =>
    intro st rs hinv hle hfuel
    by_cases hlt : st.loc < sv.length
    · cases hdrop : L.drop st.loc with
      | nil =>
        have := congrArg List.length hdrop
        simp only [List.length_drop, List.length_nil] at this
        omega
      | cons x xs =>
        obtain ⟨st1, hstep, hinv1, hloc1⟩ := serial_groupby_step_spec sv one_agg op L limit hsv
          hlim h63 ho1 ho2 ho3 ho4 ho5 st rs x xs hdrop hinv
        have hxs : xs.length + 1 = L.length - st.loc := by
          have := congrArg List.length hdrop
          simpa using this.symm
        have htw := takeWhile_length_le (fun y => decide (y = x)) xs
        have hdrop1 : L.drop st1.loc = xs.dropWhile fun y => decide (y = x) := by
          rw [hloc1, ← List.drop_drop, hdrop, Nat.add_comm 1, List.drop_succ_cons,
            drop_takeWhile_length]
        obtain ⟨st2, hloop, hinv2, hloc2⟩ := ih st1 _ hinv1 (by omega) (by omega)
        refine ⟨st2, ?_, ?_, hloc2⟩
        · simp only [mem_vector.serial_groupby_loop, hlt, if_true, hstep, hloop]
        · rw [runs_cons, ← hdrop1]
          simpa using hinv2
    · exact hdone (fuel + 1) st rs hinv hle hlt

/-- What `serial_groupby` with `val` returns on a vector that is flagged as
sorted: a frame of the keys of the runs of its elements and of the outputs of
the operator on the runs. -/
theorem serial_groupby_spec {α : Type} [Inhabited α] [LinearOrder α] (v : mem_vector α)
    (a : allocator) (op : gr_apply_operate α) (L : List α) (hv : v.views L)
    (hsorted : v.sorted = true) (hop : op.key_type = v.data.type)
    (hlim : 2 * L.length ≤ a.limit) (h16 : 16 ≤ a.limit) (h63 : a.limit < 2 ^ 63) :
    ∃ val agg a', v.serial_groupby a op true
        = some (some { vecs := [("val", val), ("agg", agg)] }, a')
      ∧ val.stores ((runs L).map fun g => g.headD default) v.data.type
      ∧ agg.stores ((runs L).map fun g => op.run (g.headD default) g) op.output_type
      ∧ a'.limit = a.limit := by
  have hLlen := views_length v L hv
  have h0 := hv.arr_nonneg
  have hfit := hv.fits
  have hin := hv.in_store
  have hverify : v.verify_groupby op = true := by
    simp [mem_vector.verify_groupby, mem_vector.get_type, hop]
  have hcopy : v.sorted_copy a = some (v, a) := by
    simp [mem_vector.sorted_copy, hsorted]
  obtain ⟨agg0, a2, hc1, g1, g2, g3, g4, g5, g6, g7⟩ :=
    create_spec (α := α) a 0 op.output_type (by omega)
  obtain ⟨val0, a3, hc2, w1, w2, w3, w4, w5, w6, w7⟩ :=
    create_spec (α := α) a2 16 v.get_type (by omega)
  obtain ⟨one_agg, a4, hc3, o1, o2, o3, o4, o5, o6, o7⟩ :=
    create_spec (α := α) a3 1 op.output_type (by omega)
  have hbase : get_matrix_raw_data v.data = some 0 := by
    unfold get_matrix_raw_data
    rcases hv.layout with h | h
    · rw [if_pos h]
    · rw [h]
      simp
  have hsub : v.get_sub_start = some v.arr.toNat := by
    unfold mem_vector.get_sub_start
    rw [hbase]
    simp only [Option.map_some', Int.sub_zero]
    rw [to_size_t_of_nonneg _ h0 (by omega)]
  have hoff : to_off_t v.arr.toNat = ((v.arr.toNat : Nat) : Int) := to_off_t_of_lt _ (by omega)
  have hlim4 : a4.limit = a.limit := by rw [o7, w7, g7]
  have hinv0 : groupby_inv v op a.limit
      { loc := 0, idx := 0, copy := v, agg := agg0, val := some val0, alloc := a4 } [] := by
    refine ⟨rfl, le_refl _, rfl, fun _ => rfl, ⟨g1, g2, g3, g4, g5, by simp, by simp⟩,
      ⟨val0, rfl, ⟨w1, w2, w3, w5, by rw [w4, w6], by omega, by simp, by simp, ?_⟩⟩, hlim4⟩
    rw [w4]
    simp
  obtain ⟨st, hloop, hinv, hloc⟩ := serial_groupby_loop_spec v one_agg op L a.limit hv hlim h63
    o1 o2 o3 o4 o6 v.length _ [] hinv0 (Nat.zero_le _) (by simp only [Nat.sub_zero]; omega)
  simp only [List.drop_zero, List.nil_append] at hinv
  obtain ⟨val, hval, hbuf⟩ := hinv.val
  have hidx := hinv.idx
  have hidx_le := hinv.idx_le
  obtain ⟨val', a', hfin, hstores, hlim'⟩ := finish_val_spec val _ v.data.type st.alloc hbuf (by
    rw [List.length_map, hinv.limit]
    omega)
  rw [List.length_map, ← hidx] at hfin
  refine ⟨val', st.agg, a', ?_, hstores, hinv.agg, by rw [hlim', hinv.limit]⟩
  unfold mem_vector.serial_groupby
  simp only [hverify, Bool.not_true, Bool.false_eq_true, if_false, hcopy, hc1, if_true, hc2,
    Option.map_some', hv.in_mem, hsub, hoff, hc3, hloop, groupby_frame, hval, hfin,
    data_frame.add_vec, List.nil_append, List.cons_append]

/-! ### The partitions of `groupby` -/

theorem ends_run_is_cut {α : Type} (l : List α) (s p : Nat) (h : ends_run_of l s p) :
    is_cut l p := by
  obtain ⟨h1, h2, h3, h4⟩ := h
  refine ⟨h2, fun _ hp => ?_⟩
  rw [h3 (p - 1) (by omega) (by omega)]
  exact fun e => h4 hp e.symm

/-- The ends of the runs are in the order of the positions they are taken at. -/
theorem ends_run_mono {α : Type} (l : List α) (s t p q : Nat) (hst : s ≤ t)
    (hp : ends_run_of l s p) (hq : ends_run_of l t q) : p ≤ q := by
  obtain ⟨p1, p2, p3, p4⟩ := hp
  obtain ⟨q1, q2, q3, q4⟩ := hq
  by_contra hcon
  have hqp : q < p := by omega
  have h1 : l[t]? = l[s]? := p3 t hst (by omega)
  have h2 : l[q]? = l[s]? := p3 q (by omega) hqp
  exact q4 (by omega) (by rw [h2, h1])

/-- The entry of `par_starts` computed for a position inside the vector is the end
of the run that contains the position. -/
theorem par_start_at_spec {α : Type} [DecidableEq α] (sv : mem_vector α) (L : List α)
    (hsv : sv.views L) (num_omp i : Nat) (hs : sv.length / num_omp * i < sv.length) :
    ∃ p : Nat, sv.par_start_at num_omp i = some (p : Int)
      ∧ ends_run_of L (sv.length / num_omp * i) p := by
  obtain ⟨s, hs'⟩ : ∃ s, s = sv.length / num_omp * i := ⟨_, rfl⟩
  rw [← hs'] at hs ⊢
  have hLlen := views_length sv L hsv
  have hread := views_read sv L hsv s (sv.length - s) (by omega)
  rw [List.take_of_length_le (by rw [List.length_drop]; omega)] at hread
  cases hdrop : L.drop s with
  | nil =>
    have := congrArg List.length hdrop
    simp only [List.length_drop, List.length_nil] at this
    omega
  | cons x xs =>
    obtain ⟨tw, htw⟩ : ∃ tw, tw = xs.takeWhile fun y => decide (y = x) := ⟨_, rfl⟩
    have hxs : xs.length + 1 = L.length - s := by
      have := congrArg List.length hdrop
      simpa using this.symm
    have htwlen : tw.length ≤ xs.length := by
      rw [htw]
      exact takeWhile_length_le _ _
    have hget : ∀ k, L[s + k]? = (x :: xs)[k]? := by
      intro k
      rw [← hdrop, List.getElem?_drop]
    have hLs : L[s]? = some x := by
      have := hget 0
      simpa using this
    refine ⟨s + (1 + tw.length), ?_, by omega, by omega, fun k hk1 hk2 => ?_, fun hp => ?_⟩
    · unfold mem_vector.par_start_at
      simp only [← hs', hread, hdrop, Option.some_bind, find_next, ← htw, Option.map_some']
      congr 1
      push_cast
      ring
    · obtain ⟨j, rfl⟩ : ∃ j, k = s + j := ⟨k - s, by omega⟩
      rw [hget j, hLs]
      cases j with
      | zero => simp
      | succ j =>
        rw [List.getElem?_cons_succ]
        have hj : j < tw.length := by omega
        have hsplit : xs = tw ++ xs.dropWhile fun y => decide (y = x) := by
          rw [htw, List.takeWhile_append_dropWhile]
        have hpre : xs[j]? = tw[j]? := by
          conv_lhs => rw [hsplit]
          exact List.getElem?_append_left hj
        rw [hpre, List.getElem?_eq_getElem hj]
        have hmem : tw[j] ∈ xs.takeWhile fun y => decide (y = x) := by
          rw [← htw]
          exact List.getElem_mem hj
        have := List.mem_takeWhile_imp hmem
        simp only [decide_eq_true_eq] at this
        rw [this]
    · rw [hget (1 + tw.length), hLs, Nat.add_comm 1, List.getElem?_cons_succ]
      have hdw : xs.drop tw.length = xs.dropWhile fun y => decide (y = x) := by
        rw [htw]
        exact drop_takeWhile_length _ _
      have hlt : tw.length < xs.length := by omega
      have hne : xs.dropWhile (fun y => decide (y = x)) ≠ [] := by
        rw [← hdw]
        intro e
        have := congrArg List.length e
        simp only [List.length_drop, List.length_nil] at this
        omega
      have hhead := List.head_dropWhile_not (fun y => decide (y = x)) xs hne
      simp only [decide_eq_false_iff_not] at hhead
      have hx : xs[tw.length]? = some ((xs.dropWhile fun y => decide (y = x)).head hne) := by
        have h1 : (xs.drop tw.length)[0]? = xs[tw.length]? := by
          rw [List.getElem?_drop]
          rfl
        rw [← h1, hdw, ← List.head?_eq_getElem?, List.head?_eq_head hne]
      rw [hx]
      intro e
      exact hhead (Option.some.inj e)

theorem getLast_snoc {β : Type} (l : List β) (a : β) : (l ++ [a]).getLast? = some a := by
  simp

theorem set_last {β : Type} (l : List β) (a b : β) : (l ++ [a]).set l.length b = l ++ [b] := by
  induction l with
  | nil => rfl
  | cons x xs ih => simp only [List.cons_append, List.length_cons, List.set_cons_succ, ih]

theorem div_mul_lt (len n i : Nat) (hlen : 1 ≤ len) (hi : i < n) : len / n * i < len := by
  have h1 : len / n * n ≤ len := Nat.div_mul_le_self len n
  have h2 : len / n * i + len / n ≤ len / n * n := by
    have : len / n * (i + 1) ≤ len / n * n := Nat.mul_le_mul_left _ (by omega)
    rw [Nat.mul_add, Nat.mul_one] at this
    exact this
  rcases Nat.eq_zero_or_pos (len / n) with h0 | h0
  · rw [h0, Nat.zero_mul]
    omega
  · omega

/-- The array `par_starts` of `groupby` on a non-empty vector, for at least one
worker: it starts with 0, ends with the length, is in non-decreasing order, and
each of its entries is a place where the vector can be cut between two runs. -/
theorem par_starts_spec {α : Type} [DecidableEq α] (sv : mem_vector α) (L : List α)
    (hsv : sv.views L) (num_omp : Nat) (hn : 1 ≤ num_omp) (hlen : 1 ≤ sv.length) :
    ∃ par : List Int, sv.par_starts num_omp = some par ∧ is_sorted par = true
      ∧ par.head? = some 0 ∧ par.getLast? = some (sv.length : Int)
      ∧ ∀ x ∈ par, 0 ≤ x ∧ is_cut L x.toNat := by
  have hLlen := views_length sv L hsv
  obtain ⟨m, rfl⟩ : ∃ m, num_omp = m + 1 := ⟨num_omp - 1, by omega⟩
  obtain ⟨sel, hsel, hP⟩ := all_non_null_map_exists (0 : Int) (List.range (m + 1))
    (sv.par_start_at (m + 1))
    (fun i v => ∃ p : Nat, v = (p : Int) ∧ ends_run_of L (sv.length / (m + 1) * i) p)
    (fun i hi => by
      obtain ⟨p, hp1, hp2⟩ := par_start_at_spec sv L hsv (m + 1) i
        (div_mul_lt _ _ _ hlen (List.mem_range.1 hi))
      exact ⟨p, hp1, p, rfl, hp2⟩)
  obtain ⟨rest, hrest⟩ : ∃ rest, rest = (List.range m).map fun i => sel (i + 1) := ⟨_, rfl⟩
  have hmap : (List.range (m + 1)).map sel = sel 0 :: rest := by
    rw [List.range_succ_eq_map, List.map_cons, List.map_map, hrest]
    rfl
  have hrestlen : rest.length = m := by rw [hrest, List.length_map, List.length_range]
  have hpar : sv.par_starts (m + 1) = some (0 :: (rest ++ [(sv.length : Int)])) := by
    unfold mem_vector.par_starts
    rw [hsel, hmap]
    simp only [Option.map_some', List.cons_append, List.set_cons_zero, List.set_cons_succ]
    rw [← hrestlen, set_last]
  have hrest_mem : ∀ x ∈ rest, ∃ i p : Nat, i < m + 1 ∧ x = (p : Int)
      ∧ ends_run_of L (sv.length / (m + 1) * i) p := by
    intro x hx
    rw [hrest, List.mem_map] at hx
    obtain ⟨i, hi, rfl⟩ := hx
    obtain ⟨p, hp1, hp2⟩ := hP (i + 1) (List.mem_range.2 (by
      have := List.mem_range.1 hi
      omega))
    exact ⟨i + 1, p, by have := List.mem_range.1 hi; omega, hp1, hp2⟩
  have hrest_sorted : rest.Sorted (· ≤ ·) := by
    rw [hrest]
    apply List.pairwise_map.2
    apply (List.pairwise_lt_range m).imp_of_mem
    intro i j hi hj hij
    obtain ⟨p, hp1, hp2⟩ := hP (i + 1) (List.mem_range.2 (by
      have := List.mem_range.1 hi
      omega))
    obtain ⟨q, hq1, hq2⟩ := hP (j + 1) (List.mem_range.2 (by
      have := List.mem_range.1 hj
      omega))
    rw [hp1, hq1]
    have := ends_run_mono L _ _ p q (Nat.mul_le_mul_left _ (by omega)) hp2 hq2
    exact_mod_cast this
  have hlast : (0 :: (rest ++ [(sv.length : Int)])).getLast? = some (sv.length : Int) := by
    exact getLast_snoc (0 :: rest) _
  refine ⟨_, hpar, ?_, rfl, hlast, ?_⟩
  · rw [is_sorted_iff]
    refine List.sorted_cons.2 ⟨fun x hx => ?_, List.pairwise_append.2 ⟨hrest_sorted, by simp,
      fun x hx y hy => ?_⟩⟩
    · rcases List.mem_append.1 hx with hx | hx
      · obtain ⟨i, p, -, rfl, -⟩ := hrest_mem x hx
        exact Int.natCast_nonneg _
      · simp only [List.mem_singleton] at hx
        rw [hx]
        exact Int.natCast_nonneg _
    · simp only [List.mem_singleton] at hy
      obtain ⟨i, p, -, rfl, hp⟩ := hrest_mem x hx
      rw [hy]
      have := hp.2.1
      rw [hLlen] at this
      exact_mod_cast this
  · intro x hx
    rcases List.mem_cons.1 hx with rfl | hx
    · exact ⟨le_refl _, Nat.zero_le _, fun h => absurd h (by simp)⟩
    rcases List.mem_append.1 hx with hx | hx
    · obtain ⟨i, p, -, rfl, hp⟩ := hrest_mem x hx
      refine ⟨Int.natCast_nonneg _, ?_⟩
      rw [Int.toNat_ofNat]
      exact ends_run_is_cut L _ p hp
    · simp only [List.mem_singleton] at hx
      rw [hx, Int.toNat_ofNat]
      exact ⟨Int.natCast_nonneg _, by omega, fun _ h => by omega⟩

/-- The function `std::unique` on an array in non-decreasing order: the result is
in strictly increasing order, has the same elements, and starts and ends as
the array does. -/
theorem unique_spec : ∀ l : List Int, l.Sorted (· ≤ ·) →
    (unique l).Sorted (· < ·) ∧ (∀ x, x ∈ unique l ↔ x ∈ l)
      ∧ (unique l).head? = l.head? ∧ (unique l).getLast? = l.getLast?
  | [], _ => by simp [unique]
  | [x], _ => by simp [unique]
  | x :: y :: rest, h => by
    have hs := List.sorted_cons.1 h
    obtain ⟨ih1, ih2, ih3, ih4⟩ := unique_spec (y :: rest) hs.2
    by_cases hxy : x = y
    · subst hxy
      simp only [unique, if_true]
      refine ⟨ih1, fun z => ?_, by rw [ih3]; rfl, by rw [ih4]; simp [List.getLast?_cons_cons]⟩
      rw [ih2 z]
      simp
    · simp only [unique, hxy, if_false]
      have hlt : x < y := lt_of_le_of_ne (hs.1 y (List.mem_cons_self _ _)) hxy
      have hne : unique (y :: rest) ≠ [] := by
        intro e
        rw [e] at ih3
        cases ih3
      refine ⟨List.sorted_cons.2 ⟨fun z hz => ?_, ih1⟩, fun z => ?_, rfl, ?_⟩
      · have hz' := (ih2 z).1 hz
        rcases List.mem_cons.1 hz' with rfl | hz''
        · exact hlt
        · exact lt_of_lt_of_le hlt ((List.sorted_cons.1 hs.2).1 z hz'')
      · rw [List.mem_cons, ih2 z, List.mem_cons (a := z) (b := x)]
      · obtain ⟨u0, us, hu⟩ := List.exists_cons_of_ne_nil hne
        rw [hu, List.getLast?_cons_cons, ← hu, ih4, List.getLast?_cons_cons]

/-- A sub-vector taken between two positions of a view is the view of the
elements between them. -/
theorem get_sub_vec_views {α : Type} [Inhabited α] (sv : mem_vector α) (a : allocator)
    (L : List α) (hsv : sv.views L) (s e : Int) (h0 : 0 ≤ s) (hse : s ≤ e)
    (he : e ≤ (L.length : Int)) :
    ∃ sub, sv.get_sub_vec a s (to_size_t (e - s)) = some (some sub, a)
      ∧ sub.views ((L.drop s.toNat).take (e - s).toNat)
      ∧ sub.sorted = sv.sorted ∧ sub.data = sv.data := by
  have hLlen := views_length sv L hsv
  have h1 := hsv.in_store
  have h2 := hsv.fits
  have h3 := hsv.arr_nonneg
  have hwf : sv.well_formed := ⟨hsv.in_mem, hsv.store_len, h3, h1, h2⟩
  have hn : to_size_t (e - s) = (e - s).toNat := to_size_t_of_nonneg _ (by omega) (by omega)
  have hcheck : ¬ (to_size_t s + (e - s).toNat) % 2 ^ 64 > sv.length := by
    rw [to_size_t_of_nonneg s h0 (by omega), Nat.mod_eq_of_lt (by omega)]
    omega
  have hres := resize_shrink sv a (e - s).toNat hwf (by omega)
  obtain ⟨sub, hsub⟩ : ∃ sub : mem_vector α,
      sub = { length := (e - s).toNat, in_mem := sv.in_mem, sorted := sv.sorted,
              data := sv.data, arr := sv.arr + s } := ⟨_, rfl⟩
  refine ⟨sub, ?_, ?_, by rw [hsub], by rw [hsub]⟩
  · unfold mem_vector.get_sub_vec
    rw [hn, if_neg hcheck, hres, hsub]
  · have hpos : (sv.arr + s).toNat = sv.arr.toNat + s.toNat := by omega
    rw [hsub]
    refine ⟨hsv.in_mem, hsv.layout, hsv.store_len, by show 0 ≤ sv.arr + s; omega, ?_, h2, ?_⟩
    · show (sv.arr + s).toNat + (e - s).toNat ≤ sv.data.raw.length
      omega
    · show (sv.data.raw.drop (sv.arr + s).toNat).take (e - s).toNat = _
      rw [hpos, views_drop sv L hsv, List.take_take, min_eq_left (by omega)]

theorem getElem?_getLast {β : Type} (l : List β) :
    l.getLast? = l[l.length - 1]? := by
  rw [List.getLast?_eq_getElem?]

/-- The second loop of `groupby` over a chain of cut positions that ends at the
end of the vector: every partition yields a frame of the keys and outputs of
its runs, and together these are the keys and outputs of the runs of the
vector from the first position on. -/
theorem groupby_parts_spec {α : Type} [Inhabited α] [LinearOrder α] (sv : mem_vector α)
    (op : gr_apply_operate α) (L : List α) (limit : Nat) (hsv : sv.views L)
    (hsorted : sv.sorted = true) (hop : op.key_type = sv.data.type)
    (hlim : 2 * L.length ≤ limit) (h16 : 16 ≤ limit) (h63 : limit < 2 ^ 63) :
    ∀ (u : List Int) (s : Int) (a : allocator), a.limit = limit →
      (s :: u).Sorted (· < ·) → (∀ x ∈ s :: u, 0 ≤ x ∧ is_cut L x.toNat) →
      (s :: u).getLast? = some (L.length : Int) →
      ∃ (cols : List ((mem_vector α × mem_vector α) × (List α × List α))) (a' : allocator),
        sv.groupby_parts op true ((s :: u).zip u) a
          = some (cols.map (fun c => some { vecs := [("val", c.1.1), ("agg", c.1.2)] }), a')
        ∧ a'.limit = limit ∧ cols.length = u.length
        ∧ (∀ c ∈ cols, c.1.1.stores c.2.1 sv.data.type ∧ c.1.2.stores c.2.2 op.output_type)
        ∧ (cols.map fun c => c.2.1).flatten
            = (runs (L.drop s.toNat)).map (fun g => g.headD default)
        ∧ (cols.map fun c => c.2.2).flatten
            = (runs (L.drop s.toNat)).map (fun g => op.run (g.headD default) g) := by
  intro u
  induction u with
  | nil =>
    intro s a ha _ hcut hlast
    have hs : s = (L.length : Int) := by
      simpa using hlast
    refine ⟨[], a, rfl, ha, rfl, by simp, ?_, ?_⟩ <;>
    · rw [hs, Int.toNat_ofNat, List.drop_length]
      rfl
  | cons e u ih =>
    intro s a ha hchain hcut hlast
    have hs0 := (hcut s (List.mem_cons_self _ _)).1
    obtain ⟨he0, hecut⟩ := hcut e (List.mem_cons_of_mem _ (List.mem_cons_self _ _))
    have hse : s < e := (List.sorted_cons.1 hchain).1 e (List.mem_cons_self _ _)
    have heL : e ≤ (L.length : Int) := by
      have := hecut.1
      omega
    obtain ⟨sub, hsub, hviews, hsubsorted, hsubdata⟩ := get_sub_vec_views sv a L hsv s e hs0
      (le_of_lt hse) heL
    obtain ⟨slice, hslice⟩ : ∃ slice, slice = (L.drop s.toNat).take (e - s).toNat := ⟨_, rfl⟩
    rw [← hslice] at hviews
    have hslen : slice.length = (e - s).toNat := by
      rw [hslice, List.length_take, List.length_drop]
      omega
    obtain ⟨val, agg, a1, hser, hval, hagg, hlim1⟩ := serial_groupby_spec sub a op slice hviews
      (by rw [hsubsorted, hsorted]) (by rw [hsubdata]; exact hop) (by rw [ha]; omega)
      (by rw [ha]; exact h16) (by rw [ha]; exact h63)
    obtain ⟨cols, a2, hrec, hlim2, hlen2, hst2, hk2, ho2⟩ := ih e a1 (by rw [hlim1, ha])
      (List.sorted_cons.1 hchain).2 (fun x hx => hcut x (List.mem_cons_of_mem _ hx))
      (by rw [List.getLast?_cons_cons] at hlast; exact hlast)
    -- the runs of the vector from `s` on are those of the slice and those from `e` on
    have hsplit : L.drop s.toNat = slice ++ L.drop e.toNat := by
      rw [hslice]
      have : e.toNat = s.toNat + (e - s).toNat := by omega
      rw [this, ← List.drop_drop, List.take_append_drop]
    have hne : slice ≠ [] := by
      intro hnil
      rw [hnil] at hslen
      simp only [List.length_nil] at hslen
      omega
    have hruns : runs (L.drop s.toNat) = runs slice ++ runs (L.drop e.toNat) := by
      rw [hsplit]
      apply runs_append _ _ hne
      intro x y hx hy
      have hlt : e.toNat < L.length := by
        by_contra hcon
        rw [List.drop_eq_nil_of_le (by omega)] at hy
        cases hy
      have hcutne := hecut.2 (by omega) hlt
      have hx' : L[e.toNat - 1]? = some x := by
        rw [getElem?_getLast slice, hslice, List.getElem?_take_of_lt (by
          rw [← hslice]; omega), List.getElem?_drop, ← hslice, hslen] at hx
        rw [← hx]
        congr 1
        omega
      have hy' : L[e.toNat]? = some y := by
        rw [List.head?_eq_getElem?, List.getElem?_drop] at hy
        simpa using hy
      intro hxy
      rw [hx', hy', hxy] at hcutne
      exact hcutne rfl
    have hsubmem : sub.in_mem = true := hviews.in_mem
    refine ⟨((val, agg), ((runs slice).map (fun g => g.headD default),
      (runs slice).map (fun g => op.run (g.headD default) g))) :: cols, a2, ?_, hlim2, ?_, ?_,
      ?_, ?_⟩
    · rw [List.zip_cons_cons]
      simp only [mem_vector.groupby_parts, hsub, hsubmem, Bool.not_true,
        Bool.false_eq_true, if_false, hser]
      rw [hrec]
      rfl
    · simp only [List.length_cons, hlen2]
    · intro c hc
      rcases List.mem_cons.1 hc with rfl | hc
      · exact ⟨by rw [← hsubdata]; exact hval, hagg⟩
      · exact hst2 c hc
    · simp only [List.map_cons, List.flatten_cons, hk2, hruns, List.map_append]
    · simp only [List.map_cons, List.flatten_cons, ho2, hruns, List.map_append]


/-- The copying loop of `append(vec_it, vec_end)` on a vector at the start of its
store with room for all the vectors: their elements land one after the other
from `loc` on. -/
theorem append_range_loop_spec {α : Type} (t : scalar_type) :
    ∀ (cs : List (mem_vector α × List α)) (loc : Nat) (v : mem_vector α),
      (∀ c ∈ cs, c.1.stores c.2 t) → v.arr = 0 → v.data.type = t →
      loc + (cs.map fun c => c.2).flatten.length ≤ v.length →
      v.length ≤ v.data.raw.length → v.length < 2 ^ 63 →
      ∃ v' : mem_vector α,
        mem_vector.append_range_loop (cs.map fun c => c.1) ((loc : Int), v)
          = some (((loc + (cs.map fun c => c.2).flatten.length : Nat) : Int), v')
        ∧ v'.arr = 0 ∧ v'.in_mem = v.in_mem ∧ v'.data.type = v.data.type
        ∧ v'.length = v.length ∧ v'.data.raw.length = v.data.raw.length
        ∧ v'.data.num_rows = v.data.num_rows ∧ v'.data.num_cols = v.data.num_cols
        ∧ v'.data.raw.take (loc + (cs.map fun c => c.2).flatten.length)
            = v.data.raw.take loc ++ (cs.map fun c => c.2).flatten := by
  intro cs
  induction cs with
  | nil =>
    intro loc v _ harr _ _ _ _
    refine ⟨v, ?_, harr, rfl, rfl, rfl, rfl, rfl, rfl, ?_⟩
    · simp [mem_vector.append_range_loop]
    · simp
  | cons c cs ih =>
    intro loc v hcs harr hty hroom hlen h63
    have hc := hcs c (List.mem_cons_self _ _)
    have hflat : ((c :: cs).map fun c => c.2).flatten.length
        = c.2.length + (cs.map fun c => c.2).flatten.length := by
      simp only [List.map_cons, List.flatten_cons, List.length_append]
    rw [hflat] at hroom
    have hset := set_sub_vec_at v c.1 loc c.2 harr hc.in_mem (by rw [hty, hc.type])
      (stores_elems _ _ _ hc) hc.length (by omega) hlen h63
    obtain ⟨v2, hv2⟩ : ∃ v2 : mem_vector α,
        v2 = { v with data := { v.data with
          raw := v.data.raw.take loc ++ c.2 ++ v.data.raw.drop (loc + c.2.length) } } :=
      ⟨_, rfl⟩
    rw [← hv2] at hset
    have hsz : to_size_t (loc : Int) = loc := by
      rw [to_size_t_of_nonneg _ (Int.natCast_nonneg _) (by omega), Int.toNat_ofNat]
    have hrawlen : v2.data.raw.length = v.data.raw.length := by
      rw [hv2]
      show (v.data.raw.take loc ++ c.2 ++ v.data.raw.drop (loc + c.2.length)).length = _
      simp only [List.length_append, List.length_take, List.length_drop]
      omega
    obtain ⟨v', hloop, h1, h2, h3, h4, h5, h6, h7, h8⟩ := ih (loc + c.2.length) v2
      (fun x hx => hcs x (List.mem_cons_of_mem _ hx)) (by rw [hv2]; exact harr)
      (by rw [hv2]; exact hty)
      (by rw [hv2]; show _ ≤ v.length; omega) (by rw [hrawlen, hv2]; exact hlen)
      (by rw [hv2]; exact h63)
    refine ⟨v', ?_, h1, by rw [h2, hv2], by rw [h3, hv2], by rw [h4, hv2],
      by rw [h5, hrawlen], by rw [h6, hv2], by rw [h7, hv2], ?_⟩
    · rw [List.map_cons, mem_vector.append_range_loop]
      simp only [hsz, hc.length]
      rw [Nat.mod_eq_of_lt (by omega), if_pos (by omega), hset]
      simp only []
      rw [to_off_t_of_lt _ (by omega), hloop, hflat, Nat.add_assoc]
    · rw [hflat, ← Nat.add_assoc, h8, hv2]
      show (v.data.raw.take loc ++ c.2 ++ v.data.raw.drop (loc + c.2.length)).take
        (loc + c.2.length) ++ _ = _
      rw [List.take_append_of_le_length (by
        simp only [List.length_append, List.length_take]; omega)]
      rw [List.take_of_length_le (by
        simp only [List.length_append, List.length_take]; omega)]
      simp only [List.map_cons, List.flatten_cons, List.append_assoc]

theorem foldl_lengths {α : Type} : ∀ (vecs : List (mem_vector α)) (n : Nat),
    n + (vecs.map fun it => it.length).sum < 2 ^ 64 →
    vecs.foldl (fun t it => (t + it.length) % 2 ^ 64) n
      = n + (vecs.map fun it => it.length).sum
  | [], n, _ => by simp
  | it :: rest, n, h => by
    simp only [List.map_cons, List.sum_cons] at h
    simp only [List.foldl_cons, List.map_cons, List.sum_cons]
    rw [Nat.mod_eq_of_lt (by omega), foldl_lengths rest (n + it.length) (by omega)]
    omega

theorem stored_lengths {α : Type} (t : scalar_type) :
    ∀ cs : List (mem_vector α × List α), (∀ c ∈ cs, c.1.stores c.2 t) →
      ((cs.map fun c => c.1).map fun it => it.length).sum
        = (cs.map fun c => c.2).flatten.length
  | [], _ => rfl
  | c :: cs, h => by
    simp only [List.map_cons, List.sum_cons, List.flatten_cons, List.length_append]
    rw [stored_lengths t cs (fun x hx => h x (List.mem_cons_of_mem _ hx)),
      (h c (List.mem_cons_self _ _)).length]

/-- Appending a range of vectors of the same type to a vector that owns its
store: their elements are added at the end, in order. -/
theorem append_range_stores {α : Type} [Inhabited α] (v : mem_vector α) (a : allocator)
    (l : List α) (t : scalar_type) (cs : List (mem_vector α × List α)) (hv : v.stores l t)
    (hcs : ∀ c ∈ cs, c.1.stores c.2 t)
    (h63 : l.length + (cs.map fun c => c.2).flatten.length < 2 ^ 63)
    (hlim : l.length + (cs.map fun c => c.2).flatten.length ≤ a.limit) :
    ∃ v' a', v.append_range a (cs.map fun c => c.1) = some (true, v', a')
      ∧ v'.stores (l ++ (cs.map fun c => c.2).flatten) t ∧ a'.limit = a.limit := by
  have hvlen := hv.length
  have hsum := stored_lengths t cs hcs
  have hany : ((cs.map fun c => c.1).any fun it => !it.in_mem) = false := by
    rw [List.any_eq_false]
    intro x hx
    obtain ⟨c, hc, rfl⟩ := List.mem_map.1 hx
    simp [(hcs c hc).in_mem]
  have htot : (cs.map fun c => c.1).foldl (fun t it => (t + it.length) % 2 ^ 64) v.length
      = l.length + (cs.map fun c => c.2).flatten.length := by
    rw [foldl_lengths _ _ (by rw [hsum, hvlen]; omega), hsum, hvlen]
  obtain ⟨v1, a1, hr, h1, h2, -, h4, h5, h6, h7, h8, h9, -⟩ := resize_from_start v a
    (l.length + (cs.map fun c => c.2).flatten.length) hv.arr hv.store_len
    (by rw [hvlen]; exact hv.room) hlim
  obtain ⟨v', hloop, g1, g2, g3, g4, g5, g6, g7, g8⟩ := append_range_loop_spec t cs l.length v1
    hcs h1 (by rw [h4, hv.type]) (by omega) (by omega) (by omega)
  have hloc : to_off_t v.length = (l.length : Int) := by
    rw [hvlen]
    exact to_off_t_of_lt _ (by omega)
  refine ⟨v', a1, ?_, ?_, h9⟩
  · unfold mem_vector.append_range
    rw [hany]
    simp only [Bool.false_eq_true, if_false, htot, hr, hloc, hloop, Option.map_some']
  · have hk := h8 l.length (by omega) (by omega)
    refine ⟨by rw [g2, h2, hv.in_mem], by rw [g3, h4, hv.type], g1, ?_, ?_, ?_, ?_⟩
    · rw [g4, h5, List.length_append]
    · rw [g5, g6, g7, h6]
    · rw [g5, List.length_append]
      exact h7
    · rw [List.length_append, g8, hk, hv.content]

theorem all_non_null_somes {β γ : Type} (f : γ → β) : ∀ l : List γ,
    all_non_null (l.map fun x => some (f x)) = some (l.map f)
  | [] => rfl
  | x :: l => by
    rw [List.map_cons, all_non_null, all_non_null_somes f l]
    rfl

theorem get_vec_val {α : Type} (val agg : mem_vector α) :
    (data_frame.get_vec { vecs := [("val", val), ("agg", agg)] } "val") = some val := by
  simp [data_frame.get_vec]

theorem get_vec_agg {α : Type} (val agg : mem_vector α) :
    (data_frame.get_vec { vecs := [("val", val), ("agg", agg)] } "agg") = some agg := by
  simp [data_frame.get_vec]

/-- Appending frames of a `val` and an `agg` column to a frame of the same
columns: each column receives the elements of the matching columns, in order. -/
theorem frame_append_spec {α : Type} [Inhabited α] (val agg : mem_vector α) (a : allocator)
    (lk lo : List α) (tk tv : scalar_type)
    (cols : List ((mem_vector α × mem_vector α) × (List α × List α)))
    (hval : val.stores lk tk) (hagg : agg.stores lo tv)
    (hcols : ∀ c ∈ cols, c.1.1.stores c.2.1 tk ∧ c.1.2.stores c.2.2 tv)
    (hk63 : lk.length + (cols.map fun c => c.2.1).flatten.length < 2 ^ 63)
    (hklim : lk.length + (cols.map fun c => c.2.1).flatten.length ≤ a.limit)
    (ho63 : lo.length + (cols.map fun c => c.2.2).flatten.length < 2 ^ 63)
    (holim : lo.length + (cols.map fun c => c.2.2).flatten.length ≤ a.limit) :
    ∃ val' agg' a', data_frame.append { vecs := [("val", val), ("agg", agg)] }
          (cols.map fun c => some { vecs := [("val", c.1.1), ("agg", c.1.2)] }) a
        = some ({ vecs := [("val", val'), ("agg", agg')] }, a')
      ∧ val'.stores (lk ++ (cols.map fun c => c.2.1).flatten) tk
      ∧ agg'.stores (lo ++ (cols.map fun c => c.2.2).flatten) tv ∧ a'.limit = a.limit := by
  have hkmap : (cols.map fun c => (c.1.1, c.2.1)).map (fun c => c.2)
      = cols.map fun c => c.2.1 := by
    rw [List.map_map]
    rfl
  have homap : (cols.map fun c => (c.1.2, c.2.2)).map (fun c => c.2)
      = cols.map fun c => c.2.2 := by
    rw [List.map_map]
    rfl
  obtain ⟨val', a1, hv1, hvs, hl1⟩ := append_range_stores val a lk tk
    (cols.map fun c => (c.1.1, c.2.1)) hval
    (fun c hc => by
      obtain ⟨x, hx, rfl⟩ := List.mem_map.1 hc
      exact (hcols x hx).1)
    (by rw [hkmap]; exact hk63) (by rw [hkmap]; exact hklim)
  obtain ⟨agg', a2, hv2, hos, hl2⟩ := append_range_stores agg a1 lo tv
    (cols.map fun c => (c.1.2, c.2.2)) hagg
    (fun c hc => by
      obtain ⟨x, hx, rfl⟩ := List.mem_map.1 hc
      exact (hcols x hx).2)
    (by rw [homap]; exact ho63) (by rw [homap, hl1]; exact holim)
  rw [hkmap] at hvs
  rw [homap] at hos
  rw [List.map_map] at hv1 hv2
  refine ⟨val', agg', a2, ?_, hvs, hos, by rw [hl2, hl1]⟩
  have hvals : (cols.map fun c =>
      ({ vecs := [("val", c.1.1), ("agg", c.1.2)] } : data_frame α)).map
        (fun df => df.get_vec "val") = cols.map fun c => some c.1.1 := by
    rw [List.map_map]
    exact List.map_congr_left fun c _ => get_vec_val c.1.1 c.1.2
  have haggs : (cols.map fun c =>
      ({ vecs := [("val", c.1.1), ("agg", c.1.2)] } : data_frame α)).map
        (fun df => df.get_vec "agg") = cols.map fun c => some c.1.2 := by
    rw [List.map_map]
    exact List.map_congr_left fun c _ => get_vec_agg c.1.1 c.1.2
  unfold data_frame.append
  rw [all_non_null_somes (fun c : (mem_vector α × mem_vector α) × (List α × List α) =>
    ({ vecs := [("val", c.1.1), ("agg", c.1.2)] } : data_frame α)) cols]
  simp only [data_frame.append_cols, hvals, haggs,
    all_non_null_somes (fun c : (mem_vector α × mem_vector α) × (List α × List α) => c.1.1) cols,
    all_non_null_somes (fun c : (mem_vector α × mem_vector α) × (List α × List α) => c.1.2) cols]
  have hv1' : val.append_range a (cols.map fun c => c.1.1) = some (true, val', a1) := hv1
  have hv2' : agg.append_range a1 (cols.map fun c => c.1.2) = some (true, agg', a2) := hv2
  simp only [hv1', hv2', List.nil_append, List.singleton_append, Option.map_some']

/-! ### The whole of `groupby` -/

/-- The vector that `groupby` works on: the vector itself when its `sorted` flag
is set, else a sorted copy, which exists when the vector starts at the beginning
of its store. -/
theorem sorted_copy_spec {α : Type} [LinearOrder α] (v : mem_vector α) (a : allocator)
    (L : List α) (hv : v.views L) (hflag : v.sorted = true → L.Sorted (· ≤ ·))
    (hown : v.sorted = false → v.arr = 0) (hlim : v.data.raw.length ≤ a.limit) :
    ∃ sv a1 Ls, v.sorted_copy a = some (sv, a1) ∧ sv.views Ls ∧ sv.sorted = true
      ∧ sv.data.type = v.data.type ∧ sv.length = v.length ∧ a1.limit = a.limit
      ∧ Ls.Sorted (· ≤ ·) ∧ Ls.Perm L := by
  cases hs : v.sorted with
  | true =>
    refine ⟨v, a, L, ?_, hv, hs, rfl, rfl, rfl, hflag hs, List.Perm.refl _⟩
    simp [mem_vector.sorted_copy, hs]
  | false =>
    have harr := hown hs
    have hLlen := views_length v L hv
    have hin := hv.in_store
    rw [harr] at hin
    simp only [Int.toNat_zero, Nat.zero_add] at hin
    have hcontent : v.data.raw.take v.length = L := by
      have := hv.content
      rw [harr] at this
      simpa using this
    have hbase : get_matrix_raw_data v.data = some 0 := by
      unfold get_matrix_raw_data
      rcases hv.layout with h | h
      · rw [if_pos h]
      · rw [h]
        simp
    obtain ⟨Ls, hLs⟩ : ∃ Ls, Ls = L.insertionSort fun x y => x ≤ y := ⟨_, rfl⟩
    have hLslen : Ls.length = L.length := by rw [hLs, List.length_insertionSort]
    obtain ⟨d1, hd1⟩ : ∃ d1 : mem_dense_matrix α, d1 = { v.data with id := a.next_id } :=
      ⟨_, rfl⟩
    obtain ⟨vec, hvec⟩ : ∃ vec : mem_vector α, vec = { v with data := d1, arr := 0 } :=
      ⟨_, rfl⟩
    obtain ⟨d2, hd2⟩ : ∃ d2 : mem_dense_matrix α,
        d2 = { d1 with raw := d1.raw.take 0 ++ Ls ++ d1.raw.drop (0 + Ls.length) } := ⟨_, rfl⟩
    obtain ⟨sv, hsv⟩ : ∃ sv : mem_vector α, sv = { vec with data := d2, sorted := true } :=
      ⟨_, rfl⟩
    have hd1raw : d1.raw = v.data.raw := by rw [hd1]
    have hdeep : v.deep_copy a = some (vec, { a with next_id := a.next_id + 1 }) := by
      unfold mem_vector.deep_copy mem_dense_matrix.deep_copy
      rw [hbase, harr, if_neg (by simp), if_pos hlim, hvec, hd1]
    have helems : vec.elems = some L := by
      unfold mem_vector.elems
      rw [hvec]
      show d1.read 0 v.length = _
      rw [read_in_range _ _ _ (le_refl _) (by rw [hd1raw]; simpa using hin), hd1raw]
      simp only [Int.toNat_zero, List.drop_zero, hcontent]
    have hwrite : vec.data.write vec.arr Ls = some d2 := by
      rw [hvec]
      show d1.write 0 Ls = _
      rw [write_in_range _ _ _ (le_refl _) (by rw [hd1raw]; simp; omega), hd2]
      rfl
    have hsort : vec.sort = some sv := by
      unfold mem_vector.sort
      rw [helems]
      simp only [← hLs, hwrite, Option.map_some', hsv]
    have hd2raw : d2.raw = Ls ++ v.data.raw.drop Ls.length := by
      rw [hd2, hd1raw]
      simp
    refine ⟨sv, { a with next_id := a.next_id + 1 }, Ls, ?_, ?_, by rw [hsv], ?_, by rw [hsv, hvec],
      rfl, ?_, ?_⟩
    · unfold mem_vector.sorted_copy
      rw [hs]
      simp only [Bool.not_false, if_true, hdeep, hsort, Option.map_some']
    · rw [hsv, hvec]
      refine ⟨hv.in_mem, ?_, ?_, le_refl _, ?_, ?_, ?_⟩
      · show d2.layout = .L_ROW ∨ d2.layout = .L_COL
        rw [hd2, hd1]
        exact hv.layout
      · show d2.raw.length = d2.num_rows * d2.num_cols
        rw [hd2raw, hd2, hd1]
        show _ = v.data.num_rows * v.data.num_cols
        rw [← hv.store_len, List.length_append, List.length_drop]
        omega
      · show (0 : Int).toNat + v.length ≤ d2.raw.length
        rw [hd2raw, List.length_append, List.length_drop]
        simp only [Int.toNat_zero]
        omega
      · show d2.raw.length < 2 ^ 63
        have := hv.fits
        rw [hd2raw, List.length_append, List.length_drop]
        omega
      · show (d2.raw.drop (0 : Int).toNat).take v.length = Ls
        rw [hd2raw]
        simp only [Int.toNat_zero, List.drop_zero]
        rw [List.take_append_of_le_length (by omega), List.take_of_length_le (by omega)]
    · rw [hsv]
      show d2.type = v.data.type
      rw [hd2, hd1]
    · rw [hLs]
      exact List.sorted_insertionSort _ _
    · rw [hLs]
      exact List.perm_insertionSort _ _

theorem runs_push_length {α : Type} [DecidableEq α] (x : α) (R : List (List α)) :
    (runs_push x R).length ≤ R.length + 1 := by
  cases R with
  | nil => simp [runs_push]
  | cons g gs =>
    show (if g.head? = some x then (x :: g) :: gs else [x] :: g :: gs).length ≤ _
    split <;> simp

theorem runs_length_le {α : Type} [DecidableEq α] : ∀ l : List α, (runs l).length ≤ l.length
  | [] => by simp [runs]
  | x :: xs => by
    have := runs_push_length x (runs xs)
    have := runs_length_le xs
    show (runs_push x (runs xs)).length ≤ xs.length + 1
    omega

/-- The distinct keys in ascending order are the only list in strictly increasing
order that has the elements of the list. -/
theorem distinct_keys_unique {α : Type} [LinearOrder α] (l keys : List α)
    (hs : keys.Sorted (· < ·)) (hm : ∀ x, x ∈ keys ↔ x ∈ l) : keys = distinct_keys l := by
  have hsorted : (distinct_keys l).Sorted (· < ·) := by
    unfold distinct_keys
    have h1 : (l.insertionSort fun x y => x ≤ y).Sorted (· ≤ ·) := List.sorted_insertionSort _ _
    have h2 : ((l.insertionSort fun x y => x ≤ y).dedup).Sorted (· ≤ ·) :=
      h1.sublist (List.dedup_sublist _)
    exact h2.lt_of_le (List.nodup_dedup _)
  have hmem : ∀ x, x ∈ distinct_keys l ↔ x ∈ l := by
    intro x
    unfold distinct_keys
    rw [List.mem_dedup]
    exact (List.perm_insertionSort _ l).mem_iff
  apply List.eq_of_perm_of_sorted ((List.perm_ext_iff_of_nodup hs.nodup hsorted.nodup).2 ?_)
    hs hsorted
  intro x
  rw [hm x, hmem x]

/-- What `groupby` with `val` returns for at least one worker on a non-empty
vector whose `sorted` flag is right and which, when not sorted, starts at the
beginning of its store: a frame of the keys of the runs of the sorted elements
and of the outputs of the operator on these runs. -/
theorem groupby_runs {α : Type} [Inhabited α] [LinearOrder α] (v : mem_vector α)
    (a : allocator) (op : gr_apply_operate α) (num_omp : Nat) (L : List α) (hv : v.views L)
    (hne : 1 ≤ v.length) (hn : 1 ≤ num_omp) (hflag : v.sorted = true → L.Sorted (· ≤ ·))
    (hown : v.sorted = false → v.arr = 0) (hop : op.key_type = v.data.type)
    (hlim : 2 * v.data.raw.length ≤ a.limit) (h16 : 16 ≤ a.limit) (h63 : a.limit < 2 ^ 63) :
    ∃ val agg a' Ls, v.groupby a op true num_omp
        = some (some { vecs := [("val", val), ("agg", agg)] }, a')
      ∧ Ls.Sorted (· ≤ ·) ∧ Ls.Perm L
      ∧ val.stores ((runs Ls).map fun g => g.headD default) v.data.type
      ∧ agg.stores ((runs Ls).map fun g => op.run (g.headD default) g) op.output_type := by
  have hLlen := views_length v L hv
  have hverify : v.verify_groupby op = true := by
    simp [mem_vector.verify_groupby, mem_vector.get_type, hop]
  obtain ⟨sv, a1, Ls, hcopy, hsv, hsorted, htype, hlen, hlim1, hLs, hperm⟩ :=
    sorted_copy_spec v a L hv hflag hown (by omega)
  have hLslen : Ls.length = sv.length := views_length sv Ls hsv
  have hLsL : Ls.length = L.length := hperm.length_eq
  have hLraw : L.length ≤ v.data.raw.length := by
    have := hv.in_store
    omega
  have hruns := runs_length_le Ls
  obtain ⟨par, hpar, hparsorted, hhead, hlast, hcuts⟩ := par_starts_spec sv Ls hsv num_omp hn
    (by omega)
  obtain ⟨u1, u2, u3, u4⟩ := unique_spec par ((is_sorted_iff par).1 hparsorted)
  rw [hhead] at u3
  rw [hlast] at u4
  obtain ⟨s, u, hu⟩ : ∃ s u, unique par = s :: u := by
    cases h : unique par with
    | nil =>
      rw [h] at u3
      cases u3
    | cons s u => exact ⟨s, u, rfl⟩
  rw [hu] at u1 u3 u4
  have hs : s = 0 := by
    simpa using u3
  rw [hs] at hu u1 u4
  obtain ⟨cols, a2, hparts, hlim2, hcl, hst, hk, ho⟩ := groupby_parts_spec sv op Ls a.limit hsv
    hsorted (by rw [htype]; exact hop) (by omega) h16 h63 u 0 a1 hlim1 u1
    (fun x hx => hcuts x ((u2 x).1 (by rw [hu]; exact hx))) (by rw [u4, hLslen])
  simp only [Int.toNat_zero, List.drop_zero] at hk ho
  have hune : u ≠ [] := by
    intro hnil
    rw [hnil] at u4
    simp only [List.getLast?_singleton, Option.some.injEq] at u4
    omega
  obtain ⟨c0, crest, hcols⟩ : ∃ c0 crest, cols = c0 :: crest := by
    cases hc : cols with
    | nil =>
      rw [hc] at hcl
      exact absurd (List.length_eq_zero.1 hcl.symm) hune
    | cons c0 crest => exact ⟨c0, crest, rfl⟩
  rw [hcols] at hparts hcl hk ho
  simp only [List.map_cons, List.flatten_cons] at hk ho
  obtain ⟨hv0, ha0⟩ := hst c0 (by rw [hcols]; exact List.mem_cons_self _ _)
  have hklen : c0.2.1.length + (crest.map fun c => c.2.1).flatten.length = (runs Ls).length := by
    rw [← List.length_append, hk, List.length_map]
  have holen : c0.2.2.length + (crest.map fun c => c.2.2).flatten.length = (runs Ls).length := by
    rw [← List.length_append, ho, List.length_map]
  have hgo : v.groupby a op true num_omp
      = if u.length > 1 then
          (data_frame.append { vecs := [("val", c0.1.1), ("agg", c0.1.2)] }
            (crest.map fun c => some { vecs := [("val", c.1.1), ("agg", c.1.2)] }) a2).map
              fun r => (some r.1, r.2)
        else some (some { vecs := [("val", c0.1.1), ("agg", c0.1.2)] }, a2) := by
    unfold mem_vector.groupby
    simp only [hverify, Bool.not_true, Bool.false_eq_true, if_false, hcopy, hpar, hparsorted,
      hu, List.tail_cons, hparts, List.map_cons, List.length_cons, Nat.add_sub_cancel]
  by_cases hmany : u.length > 1
  · obtain ⟨val', agg', a3, happ, hvs, has, -⟩ := frame_append_spec c0.1.1 c0.1.2 a2 c0.2.1
      c0.2.2 sv.data.type op.output_type crest hv0 ha0
      (fun c hc => hst c (by rw [hcols]; exact List.mem_cons_of_mem _ hc))
      (by omega) (by omega) (by omega) (by omega)
    rw [hk] at hvs
    rw [ho] at has
    refine ⟨val', agg', a3, Ls, ?_, hLs, hperm, by rw [← htype]; exact hvs, has⟩
    rw [hgo, if_pos hmany, happ]
    rfl
  · have hcrest : crest = [] := by
      apply List.length_eq_zero.1
      simp only [List.length_cons] at hcl
      omega
    rw [hcrest] at hk ho
    simp only [List.map_nil, List.flatten_nil, List.append_nil] at hk ho
    rw [hk] at hv0
    rw [ho] at ha0
    refine ⟨c0.1.1, c0.1.2, a2, Ls, ?_, hLs, hperm, by rw [← htype]; exact hv0, ha0⟩
    rw [hgo, if_neg hmany]

/-- C20, the divergence: `groupby` calls `deep_copy()` on every vector that is not
flagged as sorted, and `deep_copy` asserts that the vector starts at the
beginning of its store.  So for an unsorted vector that starts elsewhere in its
store, such as a sub-vector, `groupby` returns no frame at all, whatever the
operator and the number of workers.  For every other non-empty in-memory vector
whose `sorted` flag is right, with at least one worker, it returns a frame whose
`val` column lists each distinct key of the vector once in ascending order and
whose `agg` column has the output of the operator on the group of each key; for
an operator that emits the size of its group these are the group sizes, which
sum to the length of the vector.  The allocator has room for twice the store
and 16 elements. -/
theorem C20_groupby_distinct_keys {α : Type} [Inhabited α] [LinearOrder α] (v : mem_vector α)
    (a : allocator) (op : gr_apply_operate α) (num_omp : Nat) (L : List α) (hv : v.views L)
    (hne : 1 ≤ v.length) (hn : 1 ≤ num_omp) (hop : op.key_type = v.data.type)
    (hlim : 2 * v.data.raw.length ≤ a.limit) (h16 : 16 ≤ a.limit) (h63 : a.limit < 2 ^ 63) :
    (v.sorted = false → v.arr ≠ 0 → v.groupby a op true num_omp = none)
    ∧ ((v.sorted = true → L.Sorted (· ≤ ·)) → (v.sorted = false → v.arr = 0) →
      ∃ val agg a',
        v.groupby a op true num_omp
          = some (some { vecs := [("val", val), ("agg", agg)] }, a')
        ∧ val.elems = some (distinct_keys L)
        ∧ (distinct_keys L).Sorted (· < ·) ∧ (∀ x, x ∈ distinct_keys L ↔ x ∈ L)
        ∧ agg.elems
            = some ((distinct_keys L).map fun k => op.run k (List.replicate (L.count k) k))
        ∧ (∀ emit : Nat → α, (∀ k g, op.run k g = emit g.length) →
            agg.elems = some ((distinct_keys L).map fun k => emit (L.count k)))
        ∧ ((distinct_keys L).map fun k => L.count k).sum = v.length) := by
  refine ⟨fun hs harr => ?_, fun hflag hown => ?_⟩
  · have hverify : v.verify_groupby op = true := by
      simp [mem_vector.verify_groupby, mem_vector.get_type, hop]
    have hbase : get_matrix_raw_data v.data = some 0 := by
      unfold get_matrix_raw_data
      rcases hv.layout with h | h
      · rw [if_pos h]
      · rw [h]
        simp
    have hdeep : v.deep_copy a = none := by
      unfold mem_vector.deep_copy
      rw [hbase, if_pos]
      intro h
      exact harr (Option.some.inj h).symm
    have hcopy : v.sorted_copy a = none := by
      unfold mem_vector.sorted_copy
      rw [hs]
      simp only [Bool.not_false, if_true, hdeep]
    unfold mem_vector.groupby
    simp only [hverify, Bool.not_true, Bool.false_eq_true, if_false, hcopy]
  · obtain ⟨val, agg, a', Ls, hgo, hLs, hperm, hval, hagg⟩ := groupby_runs v a op num_omp L hv hne
      hn hflag hown hop hlim h16 h63
    obtain ⟨ks, km, kr⟩ := runs_sorted Ls hLs
    have hkm : ∀ x, x ∈ ((runs Ls).map fun g => g.headD default) ↔ x ∈ L :=
      fun x => (km x).trans hperm.mem_iff
    have hkeys := distinct_keys_unique L _ ks hkm
    have hrun : ∀ g ∈ runs Ls,
        g = List.replicate (L.count (g.headD default)) (g.headD default) := by
      intro g hg
      have := kr g hg
      rw [hperm.count_eq] at this
      exact this
    have haggs : ((runs Ls).map fun g => op.run (g.headD default) g)
        = (distinct_keys L).map fun k => op.run k (List.replicate (L.count k) k) := by
      rw [← hkeys, List.map_map]
      exact List.map_congr_left fun g hg => congrArg (op.run (g.headD default)) (hrun g hg)
    have hsum : ((distinct_keys L).map fun k => L.count k).sum = v.length := by
      rw [← hkeys, List.map_map]
      have hmap : (runs Ls).map ((fun k => L.count k) ∘ fun g => g.headD default)
          = (runs Ls).map List.length := by
        apply List.map_congr_left
        intro g hg
        have := congrArg List.length (hrun g hg)
        rw [List.length_replicate] at this
        exact this.symm
      rw [hmap, ← List.length_flatten, runs_join, hperm.length_eq]
      exact views_length v L hv
    have hae := stores_elems _ _ _ hagg
    rw [haggs] at hae
    refine ⟨val, agg, a', hgo, ?_, ?_, ?_, hae, ?_, hsum⟩
    · rw [← hkeys]
      exact stores_elems _ _ _ hval
    · rw [← hkeys]
      exact ks
    · rw [← hkeys]
      exact hkm
    · intro emit hemit
      rw [hae]
      congr 1
      apply List.map_congr_left
      intro k _
      rw [hemit, List.length_replicate]

/-- The view `[1, 2]` of the store `[3, 1, 2]` is in a consistent state. -/
theorem view_12_views : view_12.views [1, 2] :=
  ⟨rfl, Or.inr rfl, rfl, by decide, by decide, by decide, rfl⟩

/-- C20, at the failing input and at the scenario: the sub-vector `[1, 2]` that
`get_sub_vec(1, 2)` returns for the unsorted vector `[3, 1, 2]` is a non-empty
in-memory vector, and `groupby` with an operator that emits the size of its
group and one worker returns no frame for it; on the vector
`[1, 1, 2, 2, 2, 3]` with `SUM` and four workers the result is
`val = [1, 2, 3]`, `agg = [2, 6, 3]`. -/
theorem C20_groupby_distinct_keys_witness :
    (keys_312.get_sub_vec alloc_1000 1 2 = some (some view_12, alloc_1000)
      ∧ view_12.views [1, 2] ∧ 1 ≤ view_12.length ∧ view_12.elems = some [1, 2]
      ∧ (∀ k g, count_op.run k g = (g.length : Int))
      ∧ view_12.groupby alloc_1000 count_op true 1 = none)
    ∧ keys_112223.views [1, 1, 2, 2, 2, 3] ∧ 1 ≤ keys_112223.length
    ∧ ∃ val agg a',
      keys_112223.groupby alloc_1000 sum_op true 4
        = some (some { vecs := [("val", val), ("agg", agg)] }, a')
      ∧ val.elems = some [1, 2, 3] ∧ agg.elems = some [2, 6, 3]
      ∧ ([1, 2, 3].map fun k => List.count k [1, 1, 2, 2, 2, 3]).sum = keys_112223.length := by
  have hviews : keys_112223.views [1, 1, 2, 2, 2, 3] :=
    ⟨rfl, Or.inr rfl, rfl, by decide, by decide, by decide, rfl⟩
  have hfail := (C20_groupby_distinct_keys view_12 alloc_1000 count_op 1 [1, 2] view_12_views
    (by decide) (by decide) rfl (by decide) (by decide) (by decide)).1 rfl (by decide)
  obtain ⟨val, agg, a', h1, h2, -, -, h3, -, h4⟩ := (C20_groupby_distinct_keys keys_112223
    alloc_1000 sum_op 4 [1, 1, 2, 2, 2, 3] hviews (by decide) (by decide) rfl (by decide)
    (by decide) (by decide)).2 (fun _ => by decide) (fun h => by cases h)
  exact ⟨⟨rfl, view_12_views, by decide, rfl, fun _ _ => rfl, hfail⟩, hviews, by decide, val,
    agg, a', h1, h2, h3, h4⟩

/-! ### Sequences -/

theorem double_to_long_of_nonneg (x : ℚ) (h : 0 ≤ x) : double_to_long x = ⌊x⌋ := by
  unfold double_to_long
  rw [if_pos h]

theorem double_to_long_small_neg (x : ℚ) (h0 : x < 0) (h1 : -1 < x) : double_to_long x = 0 := by
  unfold double_to_long
  rw [if_neg (not_le.2 h0), Int.ceil_eq_iff]
  constructor
  · simpa using h1
  · simpa using le_of_lt h0

theorem double_to_long_neg (x : ℚ) (h : x ≤ -1) : double_to_long x < 0 := by
  unfold double_to_long
  rw [if_neg (not_le.2 (by linarith))]
  have : ⌈x⌉ ≤ -1 := by
    rw [Int.ceil_le]
    simpa using h
  omega

theorem seq_set_length (start stride : ℚ) (row_idx : Int) (n : Nat) :
    (seq_set_operate_set start stride row_idx n).length = n := by
  induction n generalizing start with
  | zero => rfl
  | succ n ih => simp [seq_set_operate_set, ih]

theorem seq_set_getElem (stride : ℚ) (n : Nat) : ∀ (start : ℚ) (i : Nat), i < n →
    (seq_set_operate_set start stride 0 n)[i]? = some (start + (i : ℚ) * stride) := by
  induction n with
  | zero => intro _ i hi; omega
  | succ n ih =>
    intro start i hi
    cases i with
    | zero => simp [seq_set_operate_set]
    | succ i =>
      simp only [seq_set_operate_set, List.getElem?_cons_succ]
      rw [ih (start + stride) i (by omega)]
      congr 1
      push_cast
      ring

/-- What both constructors do once the count `n` is known not to be negative: a
vector of `n + 1` elements `start + i * stride` over a new store. -/
theorem create_seq_run (a : allocator) (start stride : ℚ) (n : Int) (h0 : 0 ≤ n)
    (hlim : n.toNat + 1 ≤ a.limit) (h63 : n < 2 ^ 63 - 1) :
    ∃ (v : mem_vector ℚ) (a' : allocator),
      mem_vector.create a (to_size_t (n + 1)) .T_DOUBLE = some (v, a')
      ∧ ∃ d, v.data.set_data_seq start stride = some d
        ∧ v.length = n.toNat + 1 ∧ d.num_rows = n.toNat + 1 ∧ d.num_cols = 1
        ∧ d.raw.length = n.toNat + 1
        ∧ (∀ i, i < n.toNat + 1 → d.raw[i]? = some (start + (i : ℚ) * stride))
        ∧ ({ v with data := d } : mem_vector ℚ).elems = some d.raw := by
  have hsz : to_size_t (n + 1) = n.toNat + 1 := by
    rw [to_size_t_of_nonneg _ (by omega) (by omega)]
    omega
  obtain ⟨v, a', hc, -, -, harr, hlen, hsl, hraw, -⟩ :=
    create_spec (α := ℚ) a (n.toNat + 1) .T_DOUBLE hlim
  have hrows : v.data.num_rows = n.toNat + 1 ∧ v.data.num_cols = 1 := by
    unfold mem_vector.create mem_col_dense_matrix.create at hc
    rw [if_pos (by omega)] at hc
    simp only [Option.some.injEq, Prod.mk.injEq] at hc
    rw [← hc.1]
    exact ⟨rfl, rfl⟩
  have htot : v.data.num_rows * v.data.num_cols = n.toNat + 1 := by
    rw [hrows.1, hrows.2, Nat.mul_one]
  obtain ⟨d, hd⟩ : ∃ d : mem_dense_matrix ℚ,
      d = { v.data with raw := seq_set_operate_set start stride 0 (n.toNat + 1) } := ⟨_, rfl⟩
  have hset : v.data.set_data_seq start stride = some d := by
    unfold mem_dense_matrix.set_data_seq mem_dense_matrix.write
    rw [htot, if_pos ⟨le_refl _, by rw [seq_set_length, hraw]; simp⟩, hd]
    simp only [Int.toNat_zero, List.take_zero, List.nil_append, Nat.zero_add, seq_set_length]
    rw [List.drop_of_length_le (by omega), List.append_nil]
  have hdraw : d.raw = seq_set_operate_set start stride 0 (n.toNat + 1) := by rw [hd]
  refine ⟨v, a', by rw [hsz]; exact hc, d, hset, hlen, by rw [hd]; exact hrows.1,
    by rw [hd]; exact hrows.2, by rw [hdraw, seq_set_length], fun i hi => ?_, ?_⟩
  · rw [hdraw]
    exact seq_set_getElem stride _ start i hi
  · show d.read v.arr v.length = some d.raw
    rw [harr, hlen, read_in_range _ _ _ (le_refl _) (by rw [hdraw, seq_set_length]; simp)]
    simp only [Int.toNat_zero, List.drop_zero]
    rw [List.take_of_length_le (by rw [hdraw, seq_set_length])]

theorem seq_returned_of_count (a : allocator) (start end_ stride : ℚ) (n : Int)
    (hn : double_to_long ((end_ - start) / stride + seq_epsilon) = n) (h0 : 0 ≤ n)
    (hlim : n.toNat + 1 ≤ a.limit) (h63 : n < 2 ^ 63 - 1) :
    seq_returned a start end_ stride (n.toNat + 1) := by
  obtain ⟨v, a', hc, d, hset, hlen, hrows, hcols, hraw, hget, helems⟩ :=
    create_seq_run a start stride n h0 hlim h63
  constructor
  · refine ⟨{ v with data := d }, a', d.raw, ?_, hlen, helems, hraw, hget⟩
    unfold create_vector_double
    simp only [hn, if_neg (not_lt.2 h0), hc, hset, Option.map_some']
  · refine ⟨d, a', ?_, hrows, hcols, hraw, hget⟩
    unfold R_FM_create_seq
    simp only [hn, if_neg (not_lt.2 h0), hc, hset, Option.map_some']

theorem seq_failed_of_count (a : allocator) (start end_ stride : ℚ)
    (hn : double_to_long ((end_ - start) / stride + seq_epsilon) < 0) :
    seq_failed a start end_ stride := by
  constructor
  · unfold create_vector_double
    simp only [hn, if_true]
  · unfold R_FM_create_seq
    simp only [hn, if_true]

/-- C21, the divergence: `long n = ...` discards the fractional part, which rounds
toward zero and is the floor only for a count that is not negative.  With
`x = (end - start) / stride + 1e-9`, both constructors fail when `x <= -1` and
return `floor(x) + 1` elements when `0 <= x`, as claimed; but for `-1 < x < 0`
the floor is negative and they return the one-element vector `[start]`.  So
for every `stride > 0` and `end < start` with `start - end < stride` they do not
fail. -/
theorem C21_create_seq_rounds_toward_zero (a : allocator) (start end_ stride : ℚ)
    (_hs : stride ≠ 0) (hlim : 1 ≤ a.limit) :
    ((end_ - start) / stride + seq_epsilon ≤ -1 → seq_failed a start end_ stride)
    ∧ (0 ≤ (end_ - start) / stride + seq_epsilon →
        ⌊(end_ - start) / stride + seq_epsilon⌋.toNat + 1 ≤ a.limit →
        ⌊(end_ - start) / stride + seq_epsilon⌋ < 2 ^ 63 - 1 →
        seq_returned a start end_ stride (⌊(end_ - start) / stride + seq_epsilon⌋.toNat + 1))
    ∧ (-1 < (end_ - start) / stride + seq_epsilon → (end_ - start) / stride + seq_epsilon < 0 →
        ⌊(end_ - start) / stride + seq_epsilon⌋ < 0 ∧ seq_returned a start end_ stride 1)
    ∧ (0 < stride → end_ < start → start - end_ < stride →
        seq_returned a start end_ stride 1 ∧ ¬ seq_failed a start end_ stride) := by
  have hsmall : -1 < (end_ - start) / stride + seq_epsilon →
      (end_ - start) / stride + seq_epsilon < 0 → seq_returned a start end_ stride 1 := by
    intro h1 h0
    exact seq_returned_of_count a start end_ stride 0 (double_to_long_small_neg _ h0 h1)
      (le_refl _) (by simpa using hlim) (by norm_num)
  have hzero : 0 ≤ (end_ - start) / stride + seq_epsilon →
      (end_ - start) / stride + seq_epsilon < 1 → seq_returned a start end_ stride 1 := by
    intro h0 h1
    have hfl : ⌊(end_ - start) / stride + seq_epsilon⌋ = 0 := by
      rw [Int.floor_eq_iff]
      exact ⟨by simpa using h0, by simpa using h1⟩
    exact seq_returned_of_count a start end_ stride 0
      (by rw [double_to_long_of_nonneg _ h0, hfl]) (le_refl _) (by simpa using hlim)
      (by norm_num)
  refine ⟨fun h => seq_failed_of_count a start end_ stride (double_to_long_neg _ h),
    fun h0 hl h63 => seq_returned_of_count a start end_ stride _
      (double_to_long_of_nonneg _ h0) (Int.floor_nonneg.2 h0) hl h63,
    fun h1 h0 => ⟨Int.floor_lt.2 (by simpa using h0), hsmall h1 h0⟩, fun hpos hlt hnear => ?_⟩
  have hq1 : -1 < (end_ - start) / stride := by
    rw [lt_div_iff₀ hpos]
    linarith
  have hq0 : (end_ - start) / stride < 0 := div_neg_of_neg_of_pos (by linarith) hpos
  have heps : (0 : ℚ) < seq_epsilon := by
    unfold seq_epsilon
    norm_num
  have heps1 : seq_epsilon < 1 := by
    unfold seq_epsilon
    norm_num
  have hret : seq_returned a start end_ stride 1 := by
    by_cases hx : (end_ - start) / stride + seq_epsilon < 0
    · exact hsmall (by linarith) hx
    · exact hzero (not_lt.1 hx) (by linarith)
  refine ⟨hret, fun hfail => ?_⟩
  obtain ⟨⟨v, a', l, hrun, -⟩, -⟩ := hret
  rw [hfail.1] at hrun
  simp at hrun

/-- C21, at `from = 1`, `to = 1/2`, `by = 1`: the count `floor(-1/2 + 1e-9)` is
negative, and yet both constructors return the vector `[1]`. -/
theorem C21_create_seq_rounds_toward_zero_witness :
    ((1 : ℚ) ≠ 0) ∧ 1 ≤ alloc_1000.limit
    ∧ ⌊((1 / 2 : ℚ) - 1) / 1 + seq_epsilon⌋ < 0
    ∧ seq_returned alloc_1000 1 (1 / 2) 1 1 ∧ ¬ seq_failed alloc_1000 1 (1 / 2) 1 := by
  have h := C21_create_seq_rounds_toward_zero alloc_1000 1 (1 / 2) 1 one_ne_zero (by decide)
  have hx1 : -1 < ((1 / 2 : ℚ) - 1) / 1 + seq_epsilon := by
    unfold seq_epsilon
    norm_num
  have hx0 : ((1 / 2 : ℚ) - 1) / 1 + seq_epsilon < 0 := by
    unfold seq_epsilon
    norm_num
  exact ⟨one_ne_zero, by decide, (h.2.2.1 hx1 hx0).1, (h.2.2.1 hx1 hx0).2,
    (h.2.2.2 (by norm_num) (by norm_num) (by norm_num)).2⟩

/-! ### The kernels of the R interface -/

/-- C22: for two dense matrices whose element sizes are each 4 or 8,
`get_inner_prod_left_ops` selects a table whose `multiply` has the output type
`int` exactly when both sizes are 4 and `double` otherwise;
`get_inner_prod_right_ops` then selects a table, and the pair of `multiply` and
`add` that `R_FM_multiply_dense` builds meets every operator-size condition of
`verify_inner_prod`, which therefore accepts exactly when the left operand has
as many columns as the right one has rows; the product of an ordinary left
operand is null exactly when they differ. -/
theorem C22_inner_prod_ops {α : Type} [Inhabited α] [Add α] [Mul α]
    (matrix right_mat : dense_matrix α)
    (hl : matrix.get_entry_size = 4 ∨ matrix.get_entry_size = 8)
    (hr : right_mat.get_entry_size = 4 ∨ right_mat.get_entry_size = 8) :
    ∃ left_ops right_ops : basic_ops α,
      get_inner_prod_left_ops matrix right_mat = some left_ops
      ∧ (left_ops.multiply.output_type = .T_INT
          ↔ matrix.get_entry_size = 4 ∧ right_mat.get_entry_size = 4)
      ∧ (left_ops.multiply.output_type = .T_DOUBLE
          ↔ ¬ (matrix.get_entry_size = 4 ∧ right_mat.get_entry_size = 4))
      ∧ get_inner_prod_right_ops left_ops.multiply = some right_ops
      ∧ R_FM_multiply_dense_ops matrix right_mat = some (left_ops.multiply, right_ops.add)
      ∧ matrix.get_entry_size = left_ops.multiply.left_entry_size
      ∧ right_mat.get_entry_size = left_ops.multiply.right_entry_size
      ∧ left_ops.multiply.output_entry_size = right_ops.add.left_entry_size
      ∧ right_ops.add.left_entry_size = right_ops.add.right_entry_size
      ∧ right_ops.add.left_entry_size = right_ops.add.output_entry_size
      ∧ (matrix.verify_inner_prod right_mat left_ops.multiply right_ops.add = true
          ↔ matrix.get_num_cols = right_mat.get_num_rows)
      ∧ ∀ s, matrix = .plain s →
          ∃ res, R_FM_multiply_dense matrix right_mat = some res
            ∧ (res = none ↔ matrix.get_num_cols ≠ right_mat.get_num_rows) := by
  rcases hl with hl | hl <;> rcases hr with hr | hr
  · refine ⟨R_basic_ops_II, R_basic_ops_II, ?_, ?_, ?_, ?_, ?_, ?_, ?_, ?_, ?_, ?_, ?_, ?_⟩
    all_goals first
      | (intro s hs
         subst hs
         by_cases hd : (dense_matrix.plain s).get_num_cols = right_mat.get_num_rows <;>
         simp [R_FM_multiply_dense, R_FM_multiply_dense_ops, get_inner_prod_left_ops,
           get_inner_prod_right_ops, dense_matrix.inner_prod, matrix_store.inner_prod,
           dense_matrix.verify_inner_prod, R_basic_ops_II, R_basic_ops_DD, R_basic_ops_DI,
           R_basic_ops_ID, basic_ops_impl, scalar_type.get_size, hl, hr, hd])
      | simp [R_FM_multiply_dense_ops, get_inner_prod_left_ops,
          get_inner_prod_right_ops, dense_matrix.verify_inner_prod, R_basic_ops_II,
          R_basic_ops_DD, R_basic_ops_DI, R_basic_ops_ID, basic_ops_impl, scalar_type.get_size,
          hl, hr]
  · refine ⟨R_basic_ops_ID, R_basic_ops_DD, ?_, ?_, ?_, ?_, ?_, ?_, ?_, ?_, ?_, ?_, ?_, ?_⟩
    all_goals first
      | (intro s hs
         subst hs
         by_cases hd : (dense_matrix.plain s).get_num_cols = right_mat.get_num_rows <;>
         simp [R_FM_multiply_dense, R_FM_multiply_dense_ops, get_inner_prod_left_ops,
           get_inner_prod_right_ops, dense_matrix.inner_prod, matrix_store.inner_prod,
           dense_matrix.verify_inner_prod, R_basic_ops_II, R_basic_ops_DD, R_basic_ops_DI,
           R_basic_ops_ID, basic_ops_impl, scalar_type.get_size, hl, hr, hd])
      | simp [R_FM_multiply_dense_ops, get_inner_prod_left_ops,
          get_inner_prod_right_ops, dense_matrix.verify_inner_prod, R_basic_ops_II,
          R_basic_ops_DD, R_basic_ops_DI, R_basic_ops_ID, basic_ops_impl, scalar_type.get_size,
          hl, hr]
  · refine ⟨R_basic_ops_DI, R_basic_ops_DD, ?_, ?_, ?_, ?_, ?_, ?_, ?_, ?_, ?_, ?_, ?_, ?_⟩
    all_goals first
      | (intro s hs
         subst hs
         by_cases hd : (dense_matrix.plain s).get_num_cols = right_mat.get_num_rows <;>
         simp [R_FM_multiply_dense, R_FM_multiply_dense_ops, get_inner_prod_left_ops,
           get_inner_prod_right_ops, dense_matrix.inner_prod, matrix_store.inner_prod,
           dense_matrix.verify_inner_prod, R_basic_ops_II, R_basic_ops_DD, R_basic_ops_DI,
           R_basic_ops_ID, basic_ops_impl, scalar_type.get_size, hl, hr, hd])
      | simp [R_FM_multiply_dense_ops, get_inner_prod_left_ops,
          get_inner_prod_right_ops, dense_matrix.verify_inner_prod, R_basic_ops_II,
          R_basic_ops_DD, R_basic_ops_DI, R_basic_ops_ID, basic_ops_impl, scalar_type.get_size,
          hl, hr]
  · refine ⟨R_basic_ops_DD, R_basic_ops_DD, ?_, ?_, ?_, ?_, ?_, ?_, ?_, ?_, ?_, ?_, ?_, ?_⟩
    all_goals first
      | (intro s hs
         subst hs
         by_cases hd : (dense_matrix.plain s).get_num_cols = right_mat.get_num_rows <;>
         simp [R_FM_multiply_dense, R_FM_multiply_dense_ops, get_inner_prod_left_ops,
           get_inner_prod_right_ops, dense_matrix.inner_prod, matrix_store.inner_prod,
           dense_matrix.verify_inner_prod, R_basic_ops_II, R_basic_ops_DD, R_basic_ops_DI,
           R_basic_ops_ID, basic_ops_impl, scalar_type.get_size, hl, hr, hd])
      | simp [R_FM_multiply_dense_ops, get_inner_prod_left_ops,
          get_inner_prod_right_ops, dense_matrix.verify_inner_prod, R_basic_ops_II,
          R_basic_ops_DD, R_basic_ops_DI, R_basic_ops_ID, basic_ops_impl, scalar_type.get_size,
          hl, hr]

/-- C22, at a 2x3 matrix of doubles and a 3x1 matrix of ints: the table is
`R_basic_ops_DI` with output type `double`, and the product is not refused. -/
theorem C22_inner_prod_ops_witness :
    (dense_matrix.plain dbl_2x3_store).get_entry_size = 8
    ∧ (dense_matrix.plain int_3x1_store).get_entry_size = 4
    ∧ ∃ left_ops right_ops : basic_ops Int,
      get_inner_prod_left_ops (.plain dbl_2x3_store) (.plain int_3x1_store) = some left_ops
      ∧ left_ops.multiply.output_type = .T_DOUBLE
      ∧ get_inner_prod_right_ops left_ops.multiply = some right_ops
      ∧ (dense_matrix.plain dbl_2x3_store).verify_inner_prod (.plain int_3x1_store)
          left_ops.multiply right_ops.add = true := by
  obtain ⟨lo, ro, h1, -, h3, h4, -, -, -, -, -, -, h11, -⟩ := C22_inner_prod_ops
    (dense_matrix.plain dbl_2x3_store) (dense_matrix.plain int_3x1_store) (Or.inr rfl)
    (Or.inl rfl)
  exact ⟨rfl, rfl, lo, ro, h1, h3.2 (by decide), h4, h11.2 rfl⟩

/-! ### Gathering elements by index -/

/-- The range test of `get(idxs)` catches the negative indices and no other. -/
theorem idx_out_of_range_iff {α : Type} (v : mem_vector α) (idx : Int)
    (hlen : v.length ≤ 2 ^ 63) (hlo : -2 ^ 63 ≤ idx) :
    v.idx_out_of_range idx = true ↔ idx < 0 := by
  unfold mem_vector.idx_out_of_range
  constructor
  · intro h
    simp only [Bool.and_eq_true, decide_eq_true_eq] at h
    exact h.1
  · intro h
    have hsz : to_size_t idx ≥ v.length := by
      unfold to_size_t
      have : idx % 2 ^ 64 = idx + 2 ^ 64 := by omega
      rw [this]
      omega
    simp [h, hsz]

/-- C23, the divergence: the range test of `get(idxs)` is the conjunction
`idx < 0 && idx >= length`, so it catches the negative indices and no other.
An index at or past the length is not skipped: the iteration reads the store
at `arr + idx`, which is outside the vector, and copies what it finds to the
result, or faults when that place is outside the store as well. -/
theorem C23_get_reads_past_the_end {α : Type} (v : mem_vector α) (idxs : mem_vector Int)
    (ret : mem_vector α) (i : Nat) (idx : Int) (hi : idxs.get i = some idx)
    (hge : (v.length : Int) ≤ idx) (hlen : v.length ≤ 2 ^ 63) :
    (∀ j : Int, -2 ^ 63 ≤ j → (v.idx_out_of_range j = true ↔ j < 0))
    ∧ v.idx_out_of_range idx = false
    ∧ v.get_idxs_step idxs ret i
        = ((v.data.read (v.arr + idx) 1).bind fun src =>
            (ret.data.write (ret.arr + (i : Int)) src).map fun d => { ret with data := d })
    ∧ (0 ≤ v.arr → v.data.raw.length ≤ v.arr.toNat + v.length →
        v.get_idxs_step idxs ret i = none)
    ∧ ¬ (v.arr ≤ v.arr + idx ∧ v.arr + idx < v.arr + (v.length : Int)) := by
  have hfalse : v.idx_out_of_range idx = false := by
    unfold mem_vector.idx_out_of_range
    have : ¬ idx < 0 := by omega
    simp [this]
  have hstep : v.get_idxs_step idxs ret i
      = (v.data.read (v.arr + idx) 1).bind fun src =>
          (ret.data.write (ret.arr + (i : Int)) src).map fun d => { ret with data := d } := by
    unfold mem_vector.get_idxs_step
    rw [hi]
    simp only [hfalse, Bool.false_eq_true, if_false]
    cases v.data.read (v.arr + idx) 1 <;> rfl
  refine ⟨fun j hj => idx_out_of_range_iff v j hlen hj, hfalse, hstep, fun h0 hend => ?_,
    by omega⟩
  rw [hstep]
  have : v.data.read (v.arr + idx) 1 = none := by
    unfold mem_dense_matrix.read
    rw [if_neg]
    intro h
    omega
  rw [this]
  rfl

/-- C23, at the vector `[10, 20]` that views the first half of the store
`[10, 20, 30, 40]`: with the indices `[1, 3, -1]` the call returns
`[20, 40, 0]`, where 40 is not an element of the vector and the last element
was never written; on the whole vector `[10, 20, 30, 40]` the index 4 makes
the call read outside the store. -/
theorem C23_get_reads_past_the_end_witness :
    idxs_1_3_m1.get 1 = some 3 ∧ (view_10_20.length : Int) ≤ 3
    ∧ view_10_20.idx_out_of_range 3 = false
    ∧ view_10_20.elems = some [10, 20]
    ∧ ((view_10_20.get_idxs alloc_1000 idxs_1_3_m1).bind fun r => r.1.bind fun ret => ret.elems)
        = some [20, 40, 0]
    ∧ vec_10_40.get_idxs alloc_1000 idxs_4 = none :=
  ⟨rfl, by decide,
    (C23_get_reads_past_the_end view_10_20 idxs_1_3_m1 view_10_20 1 3 rfl (by decide)
      (by decide)).2.1, rfl, rfl, rfl⟩
/-! ### Rebinding and resizing views -/

/-- What `expose_sub_vec(0, T)` does to a vector that is shorter than its store of
`T` elements: `resize(T)` does not find `T < T`, so it allocates a new store
and copies the elements of the vector to its beginning. -/
theorem expose_whole_store {α : Type} [Inhabited α] (v : mem_vector α) (a : allocator)
    (L : List α) (hv : v.views L) (hne : v.data.raw.length ≠ v.length)
    (hlim : v.data.raw.length ≤ a.limit) :
    v.expose_sub_vec a 0 v.data.raw.length = some (true,
      { length := v.data.raw.length, in_mem := v.in_mem, sorted := v.sorted,
        data := { id := a.next_id, num_rows := v.data.raw.length, num_cols := 1,
                  layout := .L_COL, type := v.data.type,
                  raw := L ++ List.replicate (v.data.raw.length - v.length) default },
        arr := 0 },
      { a with next_id := a.next_id + 1 }) := by
  have hres := resize_realloc v a v.data.raw.length hv.arr_nonneg hv.in_store hv.store_len hne
    (by rw [hv.store_len]) hlim
  rw [hv.content] at hres
  have hfit := hv.fits
  unfold mem_vector.expose_sub_vec
  have hz : to_size_t 0 = 0 := rfl
  rw [hz, Nat.zero_add, Nat.mod_eq_of_lt (by omega), ← hv.store_len, if_neg (by omega), hres]
  rfl

/-- What `expose_sub_vec(0, T)` does when the new store cannot be had: the failure
of `resize` is not looked at, and the vector keeps its length. -/
theorem expose_whole_store_no_memory {α : Type} [Inhabited α] (v : mem_vector α)
    (a : allocator) (L : List α) (hv : v.views L) (hne : v.data.raw.length ≠ v.length)
    (hlim : a.limit < v.data.raw.length) :
    v.expose_sub_vec a 0 v.data.raw.length = some (true, { v with arr := 0 }, a) := by
  have hfit := hv.fits
  have hbase : get_matrix_raw_data v.data = some 0 := by
    unfold get_matrix_raw_data
    rcases hv.layout with h | h
    · rw [if_pos h]
    · rw [h]
      simp
  have hres : v.resize a v.data.raw.length = some (false, v, a) := by
    unfold mem_vector.resize mem_col_dense_matrix.create
    rw [if_neg hne, ← hv.store_len, if_neg (by omega), Nat.mul_one, if_neg (by omega)]
  unfold mem_vector.expose_sub_vec
  have hz : to_size_t 0 = 0 := rfl
  rw [hz, Nat.zero_add, Nat.mod_eq_of_lt (by omega), ← hv.store_len, if_neg (by omega), hres]
  simp only [hbase, Int.add_zero]

/-- C24, the divergence: `expose_sub_vec(start, n)` rebinds the vector in place
when `n` is less than the element count `T` of the store or is the present
length, as claimed.  When `n = T` is not the present length (so `start = 0`),
`resize` allocates a new store instead: the vector no longer refers to its
store, its first elements are those it had before, from its old start on, and
the rest is uninitialised; when the store cannot be had the call returns true
just the same and the length is the old one. -/
theorem C24_expose_sub_vec_whole_store {α : Type} [Inhabited α] (v : mem_vector α)
    (a : allocator) (L : List α) (hv : v.views L) (start n : Nat)
    (hrange : start + n ≤ v.data.raw.length) :
    ((n < v.data.raw.length ∨ n = v.length) →
      ∃ v', v.expose_sub_vec a (start : Int) n = some (true, v', a)
        ∧ v'.length = n ∧ v'.data = v.data
        ∧ ∀ i, i < n → v'.get i = v.data.raw[start + i]? ∧ (v'.get i).isSome = true)
    ∧ (n = v.data.raw.length → n ≠ v.length → n ≤ a.limit →
      ∃ v' a', v.expose_sub_vec a (start : Int) n = some (true, v', a')
        ∧ v'.length = n ∧ v'.data.id = a.next_id ∧ a'.next_id = a.next_id + 1
        ∧ v'.elems = some (L ++ List.replicate (n - v.length) default)
        ∧ ∀ i, i < v.length → v'.get i = v.data.raw[v.arr.toNat + i]?)
    ∧ (n = v.data.raw.length → n ≠ v.length → a.limit < n →
      ∃ v', v.expose_sub_vec a (start : Int) n = some (true, v', a)
        ∧ v'.length = v.length ∧ v'.length ≠ n) := by
  have hLlen := views_length v L hv
  have hin := hv.in_store
  refine ⟨fun hn => ?_, fun hT hne hlim => ?_, fun hT hne hlim => ?_⟩
  · refine ⟨{ v with length := n, arr := (start : Int) }, expose_sub_vec_spec v a start n
      hv.layout hv.store_len hv.fits hrange hn, rfl, rfl, fun i hi => ?_⟩
    have := get_in_range ({ v with length := n, arr := (start : Int) } : mem_vector α) i
      (Int.natCast_nonneg _) (by show (start : Int).toNat + i < v.data.raw.length; omega)
    simpa using this
  · have hs : start = 0 := by omega
    subst hs
    subst hT
    have hrun := expose_whole_store v a L hv hne hlim
    refine ⟨_, _, hrun, rfl, rfl, rfl, ?_, fun i hi => ?_⟩
    · show mem_dense_matrix.read _ 0 v.data.raw.length = _
      rw [read_in_range _ _ _ (le_refl _) (by
        simp only [Int.toNat_zero, Nat.zero_add, List.length_append, List.length_replicate]
        omega)]
      simp only [Int.toNat_zero, List.drop_zero]
      rw [List.take_of_length_le (by
        simp only [List.length_append, List.length_replicate]
        omega)]
    · obtain ⟨w, hw⟩ : ∃ w : mem_vector α,
          w = { length := v.data.raw.length, in_mem := v.in_mem, sorted := v.sorted,
                data := { id := a.next_id, num_rows := v.data.raw.length, num_cols := 1,
                          layout := .L_COL, type := v.data.type,
                          raw := L ++ List.replicate (v.data.raw.length - v.length) default },
                arr := 0 } := ⟨_, rfl⟩
      rw [← hw]
      have hwraw : w.data.raw = L ++ List.replicate (v.data.raw.length - v.length) default := by
        rw [hw]
      have hwarr : w.arr = 0 := by rw [hw]
      have := (get_in_range w i (by rw [hwarr]) (by
        rw [hwarr, hwraw]
        simp only [Int.toNat_zero, Nat.zero_add, List.length_append, List.length_replicate]
        omega)).1
      rw [this, hwarr, hwraw]
      simp only [Int.toNat_zero, Nat.zero_add]
      rw [List.getElem?_append_left (by omega), ← hv.content, List.getElem?_take_of_lt hi,
        List.getElem?_drop]
  · have hs : start = 0 := by omega
    subst hs
    subst hT
    exact ⟨{ v with arr := 0 }, expose_whole_store_no_memory v a L hv hne hlim, rfl,
      fun h => hne h.symm⟩

/-- The view `[20, 30]` of the store `[10, 20, 30, 40]` is in a consistent state. -/
theorem view_20_30_views : view_20_30.views [20, 30] :=
  ⟨rfl, Or.inr rfl, rfl, by decide, by decide, by decide, rfl⟩

/-- C24, at the view `[20, 30]` of the store `[10, 20, 30, 40]`: after
`expose_sub_vec(0, 4)` the vector is over the new store 1, which holds
`[20, 30, 0, 0]`, so element 0 is 20 and not the element 10 of position 0 of
the old store. -/
theorem C24_expose_sub_vec_whole_store_witness :
    view_20_30.views [20, 30] ∧ 0 + 4 ≤ view_20_30.data.raw.length
    ∧ ∃ v' a', view_20_30.expose_sub_vec alloc_1000 0 4 = some (true, v', a')
      ∧ v'.length = 4 ∧ v'.data.id = 1 ∧ v'.data.id ≠ view_20_30.data.id
      ∧ v'.elems = some [20, 30, 0, 0] ∧ v'.get 0 = some 20
      ∧ view_20_30.data.raw[0]? = some 10 := by
  obtain ⟨v', a', h1, h2, h3, -, h5, h6⟩ :=
    (C24_expose_sub_vec_whole_store view_20_30 alloc_1000 [20, 30] view_20_30_views 0 4
      (by decide)).2.1 rfl (by decide) (by decide)
  exact ⟨view_20_30_views, by decide, v', a', h1, h2, h3, by rw [h3]; decide, h5,
    h6 0 (by decide), rfl⟩

/-- C30, the divergence: `resize(n)` with `n` other than the length and less than
the element count `T` of the store only sets the length, whatever the start
`s` of the vector in the store.  So for a view with `T < s + n` it returns
true, the store and the start are those of before, and the exposed range
`[s, s + n)` leaves the store: its elements cannot all be read.  In every other
case the range is inside the store after a resize that returned true. -/
theorem C30_resize_grows_view_in_place {α : Type} [Inhabited α] (v : mem_vector α)
    (a : allocator) (n : Nat) (hwf : v.well_formed) :
    (n ≠ v.length → n < v.data.raw.length → v.data.raw.length < v.arr.toNat + n →
      v.resize a n = some (true, { v with length := n }, a)
      ∧ v.data.raw.length < ({ v with length := n } : mem_vector α).arr.toNat + n
      ∧ ({ v with length := n } : mem_vector α).elems = none
      ∧ ({ v with length := n } : mem_vector α).get (v.data.raw.length - v.arr.toNat) = none)
    ∧ ∀ v' a', v.resize a n = some (true, v', a') →
        (0 ≤ v'.arr ∧ v'.length = n
          ∧ (v'.arr.toNat + v'.length ≤ v'.data.raw.length
            ↔ ¬ (n ≠ v.length ∧ n < v.data.raw.length
                  ∧ v.data.raw.length < v.arr.toNat + n))) := by
  have h0 := hwf.arr_nonneg
  have h1 := hwf.in_store
  have h2 := hwf.store_len
  constructor
  · intro hne hlt hpast
    refine ⟨?_, hpast, ?_, ?_⟩
    · unfold mem_vector.resize
      rw [if_neg hne, ← h2]
      simp only [hlt, if_true]
    · show v.data.read v.arr n = none
      unfold mem_dense_matrix.read
      rw [if_neg (by omega)]
    · show (v.data.read (v.arr + ((v.data.raw.length - v.arr.toNat : Nat) : Int)) 1).bind
        List.head? = none
      unfold mem_dense_matrix.read
      rw [if_neg (by omega)]
      rfl
  · intro v' a' hres
    by_cases hsame : n = v.length
    · unfold mem_vector.resize at hres
      rw [if_pos hsame] at hres
      simp only [Option.some.injEq, Prod.mk.injEq, true_and] at hres
      rw [← hres.1]
      refine ⟨h0, hsame.symm, ?_⟩
      constructor
      · intro _ hh
        exact hh.1 hsame
      · intro _
        exact h1
    by_cases hlt : n < v.data.raw.length
    · unfold mem_vector.resize at hres
      rw [if_neg hsame, ← h2] at hres
      simp only [hlt, if_true, Option.some.injEq, Prod.mk.injEq, true_and] at hres
      rw [← hres.1]
      refine ⟨h0, rfl, ?_⟩
      show v.arr.toNat + n ≤ v.data.raw.length ↔ _
      constructor
      · intro hle hh
        omega
      · intro hh
        by_contra hcon
        exact hh ⟨hsame, hlt, by omega⟩
    · by_cases hlim : n ≤ a.limit
      · have hrun := resize_realloc v a n h0 h1 h2 hsame (by omega) hlim
        rw [hrun] at hres
        simp only [Option.some.injEq, Prod.mk.injEq, true_and] at hres
        rw [← hres.1]
        refine ⟨le_refl _, rfl, ?_⟩
        constructor
        · intro _ hh
          exact hlt hh.2.1
        · intro _
          show (0 : Int).toNat + n ≤ ((v.data.raw.drop v.arr.toNat).take v.length
            ++ List.replicate (n - v.length) default).length
          simp only [Int.toNat_zero, Nat.zero_add, List.length_append, List.length_take,
            List.length_drop, List.length_replicate]
          omega
      · exfalso
        unfold mem_vector.resize mem_col_dense_matrix.create at hres
        rw [if_neg hsame, ← h2, if_neg hlt, Nat.mul_one, if_neg hlim] at hres
        simp at hres

/-- The view `[30, 40]` of the store `[10, 20, 30, 40]` is in a consistent state. -/
theorem view_30_40_well_formed : view_30_40.well_formed :=
  ⟨rfl, rfl, by decide, by decide, by decide⟩

/-- C30, at the view `[30, 40]` that starts at element 2 of the store
`[10, 20, 30, 40]`: `resize(3)` returns true and leaves the vector with the
range `[2, 5)` of its store of 4 elements. -/
theorem C30_resize_grows_view_in_place_witness :
    view_30_40.well_formed
    ∧ view_30_40.resize alloc_1000 3 = some (true, { view_30_40 with length := 3 }, alloc_1000)
    ∧ view_30_40.get_sub_start = some 2
    ∧ view_30_40.data.raw.length < 2 + 3
    ∧ ({ view_30_40 with length := 3 } : mem_vector Int).get 2 = none := by
  have h := (C30_resize_grows_view_in_place view_30_40 alloc_1000 3
    view_30_40_well_formed).1 (by decide) (by decide) (by decide)
  exact ⟨view_30_40_well_formed, h.1, rfl, by decide, h.2.2.2⟩

/-! ### The partitions of `groupby`, taken together -/

theorem sorted_getElem_le {α : Type} [LinearOrder α] (L : List α) (h : L.Sorted (· ≤ ·))
    (i j : Nat) (hij : i ≤ j) (hi : i < L.length) (hj : j < L.length) : L[i] ≤ L[j] := by
  rcases Nat.lt_or_eq_of_le hij with hlt | heq
  · exact (List.pairwise_iff_getElem.1 h) i j hi hj hlt
  · subst heq
    exact le_refl _

/-- Neighbours in a strictly increasing chain: the first is less than the second. -/
theorem chain_pairs_lt : ∀ (u : List Int) (s : Int), (s :: u).Sorted (· < ·) →
    ∀ q ∈ (s :: u).zip u, q.1 < q.2
  | [], _, _, q, hq => by simp at hq
  | t :: u, s, h, q, hq => by
    have hs := List.sorted_cons.1 h
    rw [List.zip_cons_cons] at hq
    rcases List.mem_cons.1 hq with rfl | hq'
    · exact hs.1 t (List.mem_cons_self _ _)
    · exact chain_pairs_lt u t hs.2 q hq'

/-- A strictly increasing chain from `s` to `e` cuts the range from `s` to `e` into
pieces: every position of the range lies in exactly one of them. -/
theorem chain_cover : ∀ (u : List Int) (s e k : Int), (s :: u).Sorted (· < ·) →
    (s :: u).getLast? = some e → s ≤ k → k < e →
    ∃ p ∈ (s :: u).zip u, p.1 ≤ k ∧ k < p.2
      ∧ ∀ q ∈ (s :: u).zip u, q.1 ≤ k → k < q.2 → q = p
  | [], s, e, k, _, hlast, hsk, hke => by
    simp only [List.getLast?_singleton, Option.some.injEq] at hlast
    omega
  | t :: u, s, e, k, h, hlast, hsk, hke => by
    have hs := List.sorted_cons.1 h
    rw [List.getLast?_cons_cons] at hlast
    rw [List.zip_cons_cons]
    by_cases hkt : k < t
    · refine ⟨(s, t), List.mem_cons_self _ _, hsk, hkt, fun q hq h1 h2 => ?_⟩
      rcases List.mem_cons.1 hq with rfl | hq'
      · rfl
      · exfalso
        obtain ⟨q1, q2⟩ := q
        have hmem := (List.of_mem_zip hq').1
        rcases List.mem_cons.1 hmem with rfl | hmem'
        · exact absurd h1 (not_le.2 hkt)
        · have := (List.sorted_cons.1 hs.2).1 q1 hmem'
          simp only at h1
          omega
    · obtain ⟨p, hp, hp1, hp2, hpu⟩ := chain_cover u t e k hs.2 hlast (not_lt.1 hkt) hke
      refine ⟨p, List.mem_cons_of_mem _ hp, hp1, hp2, fun q hq h1 h2 => ?_⟩
      rcases List.mem_cons.1 hq with rfl | hq'
      · exact absurd h2 hkt
      · exact hpu q hq' h1 h2

/-- C25: in `groupby` on a non-empty sorted vector with at least one worker, the
array `par_starts` is computed, is in non-decreasing order (the assertion
holds), begins with 0 and ends with the length, and each of its entries `p`
lies in the vector and, when it is interior, has `sorted[p-1] != sorted[p]`.
After `std::unique` every partition is non-empty, every position of the vector
lies in exactly one partition, and no element before the end of a partition
equals an element after it. -/
theorem C25_par_starts_cut_between_runs {α : Type} [LinearOrder α] (sv : mem_vector α)
    (L : List α) (hsv : sv.views L) (hsorted : L.Sorted (· ≤ ·)) (num_omp : Nat)
    (hn : 1 ≤ num_omp) (hlen : 1 ≤ sv.length) :
    ∃ par, sv.par_starts num_omp = some par ∧ is_sorted par = true
      ∧ par.head? = some 0 ∧ par.getLast? = some (sv.length : Int)
      ∧ (∀ p ∈ par, 0 ≤ p ∧ p ≤ (sv.length : Int)
          ∧ (0 < p → p < (sv.length : Int) → L[p.toNat - 1]? ≠ L[p.toNat]?))
      ∧ (∀ q ∈ (unique par).zip (unique par).tail, q.1 < q.2)
      ∧ (∀ k : Int, 0 ≤ k → k < (sv.length : Int) →
          ∃ q ∈ (unique par).zip (unique par).tail, q.1 ≤ k ∧ k < q.2
            ∧ ∀ q' ∈ (unique par).zip (unique par).tail, q'.1 ≤ k → k < q'.2 → q' = q)
      ∧ ∀ q ∈ (unique par).zip (unique par).tail, ∀ i j : Nat,
          (i : Int) < q.2 → q.2 ≤ (j : Int) → j < sv.length → L[i]? ≠ L[j]? := by
  have hLlen := views_length sv L hsv
  obtain ⟨par, hpar, hparsorted, hhead, hlast, hcuts⟩ := par_starts_spec sv L hsv num_omp hn hlen
  obtain ⟨u1, u2, u3, u4⟩ := unique_spec par ((is_sorted_iff par).1 hparsorted)
  rw [hhead] at u3
  rw [hlast] at u4
  obtain ⟨s, u, hu⟩ : ∃ s u, unique par = s :: u := by
    cases h : unique par with
    | nil =>
      rw [h] at u3
      cases u3
    | cons s u => exact ⟨s, u, rfl⟩
  rw [hu] at u1 u3 u4
  have hs : s = 0 := by
    simpa using u3
  rw [hs] at hu u1 u4
  have hentry : ∀ p ∈ par, 0 ≤ p ∧ p ≤ (sv.length : Int)
      ∧ (0 < p → p < (sv.length : Int) → L[p.toNat - 1]? ≠ L[p.toNat]?) := by
    intro p hp
    obtain ⟨h0, h1, h2⟩ := hcuts p hp
    exact ⟨h0, by omega, fun hpos hlt => h2 (by omega) (by omega)⟩
  refine ⟨par, hpar, hparsorted, hhead, hlast, hentry, ?_, ?_, ?_⟩
  · rw [hu, List.tail_cons]
    exact chain_pairs_lt u 0 u1
  · intro k hk0 hklen
    rw [hu, List.tail_cons]
    exact chain_cover u 0 _ k u1 u4 hk0 hklen
  · rw [hu, List.tail_cons]
    intro q hq i j hi hj hjlen
    obtain ⟨q1, q2⟩ := q
    simp only at hi hj
    have hq2 : q2 ∈ par := by
      rw [← u2 q2, hu]
      exact List.mem_cons_of_mem _ (List.of_mem_zip hq).2
    have hq1 : (0 : Int) ≤ q1 := by
      have : q1 ∈ par := by
        rw [← u2 q1, hu]
        exact (List.of_mem_zip hq).1
      exact (hentry q1 this).1
    have hlt := chain_pairs_lt u 0 u1 (q1, q2) hq
    simp only at hlt
    obtain ⟨-, -, hcut⟩ := hentry q2 hq2
    have hne := hcut (by omega) (by omega)
    have hp : q2.toNat < L.length := by omega
    have hp1 : q2.toNat - 1 < L.length := by omega
    have hiL : i < L.length := by omega
    have hjL : j < L.length := by omega
    rw [List.getElem?_eq_getElem hp1, List.getElem?_eq_getElem hp] at hne
    rw [List.getElem?_eq_getElem hiL, List.getElem?_eq_getElem hjL]
    have h1 := sorted_getElem_le L hsorted i (q2.toNat - 1) (by omega) hiL hp1
    have h2 := sorted_getElem_le L hsorted (q2.toNat - 1) q2.toNat (by omega) hp1 hp
    have h3 := sorted_getElem_le L hsorted q2.toNat j (by omega) hp hjL
    have hstrict : L[q2.toNat - 1] < L[q2.toNat] :=
      lt_of_le_of_ne h2 (fun h => hne (by rw [h]))
    intro heq
    simp only [Option.some.injEq] at heq
    have : L[i] < L[j] := lt_of_le_of_lt h1 (lt_of_lt_of_le hstrict h3)
    exact absurd heq (ne_of_lt this)

/-- The vector `[1, 1, 2, 2, 2, 3]` is in a consistent state. -/
theorem keys_112223_views : keys_112223.views [1, 1, 2, 2, 2, 3] :=
  ⟨rfl, Or.inr rfl, rfl, by decide, by decide, by decide, rfl⟩

/-- C25, at the vector `[1, 1, 2, 2, 2, 3]` with four workers: `par_starts` is
`[0, 2, 5, 5, 6]`, which `std::unique` turns into the partitions `[0, 2)`,
`[2, 5)` and `[5, 6)`. -/
theorem C25_par_starts_cut_between_runs_witness :
    keys_112223.views [1, 1, 2, 2, 2, 3] ∧ 1 ≤ keys_112223.length
    ∧ keys_112223.par_starts 4 = some [0, 2, 5, 5, 6]
    ∧ (unique [0, 2, 5, 5, 6]).zip (unique [0, 2, 5, 5, 6]).tail = [(0, 2), (2, 5), (5, 6)]
    ∧ ∃ par, keys_112223.par_starts 4 = some par ∧ is_sorted par = true
      ∧ par.head? = some 0 ∧ par.getLast? = some (keys_112223.length : Int)
      ∧ ∀ q ∈ (unique par).zip (unique par).tail, q.1 < q.2 := by
  obtain ⟨par, h1, h2, h3, h4, -, h6, -, -⟩ := C25_par_starts_cut_between_runs keys_112223
    [1, 1, 2, 2, 2, 3] keys_112223_views (by decide) 4 (by decide) (by decide)
  exact ⟨keys_112223_views, by decide, rfl, rfl, par, h1, h2, h3, h4, h6⟩

/-! ### Scan statistics -/

theorem mem_set_insert (x y : Nat) : ∀ s : List Nat, x ∈ set_insert y s ↔ x = y ∨ x ∈ s
  | [] => by simp [set_insert]
  | z :: zs => by
    unfold set_insert
    by_cases h1 : y < z
    · rw [if_pos h1]
      simp
    · rw [if_neg h1]
      by_cases h2 : y = z
      · rw [if_pos h2]
        subst h2
        simp
      · rw [if_neg h2, List.mem_cons, mem_set_insert x y zs, List.mem_cons]
        tauto

/-- The order of a set is kept by `insert`. -/
theorem set_insert_sorted (y : Nat) : ∀ s : List Nat, s.Sorted (· < ·) →
    (set_insert y s).Sorted (· < ·)
  | [], _ => by simp [set_insert]
  | z :: zs, h => by
    have hs := List.sorted_cons.1 h
    unfold set_insert
    by_cases h1 : y < z
    · rw [if_pos h1]
      refine List.sorted_cons.2 ⟨fun b hb => ?_, h⟩
      rcases List.mem_cons.1 hb with rfl | hb'
      · exact h1
      · exact lt_trans h1 (hs.1 b hb')
    · rw [if_neg h1]
      by_cases h2 : y = z
      · rw [if_pos h2]
        exact h
      · rw [if_neg h2]
        refine List.sorted_cons.2 ⟨fun b hb => ?_, set_insert_sorted y zs hs.2⟩
        rcases (mem_set_insert b y zs).1 hb with rfl | hb'
        · omega
        · exact hs.1 b hb'

theorem mem_foldl_set_insert (p : Nat → Prop) [DecidablePred p] (x : Nat) :
    ∀ (l s : List Nat),
      x ∈ l.foldl (fun s id => if p id then set_insert id s else s) s ↔ x ∈ s ∨ (x ∈ l ∧ p x)
  | [], s => by simp
  | y :: l, s => by
    rw [List.foldl_cons, mem_foldl_set_insert p x l]
    by_cases hy : p y
    · rw [if_pos hy, mem_set_insert, List.mem_cons]
      constructor
      · rintro ((rfl | h) | h)
        · exact Or.inr ⟨Or.inl rfl, hy⟩
        · exact Or.inl h
        · exact Or.inr ⟨Or.inr h.1, h.2⟩
      · rintro (h | ⟨rfl | h, hp⟩)
        · exact Or.inl (Or.inr h)
        · exact Or.inl (Or.inl rfl)
        · exact Or.inr ⟨h, hp⟩
    · rw [if_neg hy, List.mem_cons]
      constructor
      · rintro (h | h)
        · exact Or.inl h
        · exact Or.inr ⟨Or.inr h.1, h.2⟩
      · rintro (h | ⟨rfl | h, hp⟩)
        · exact Or.inl h
        · exact absurd hp hy
        · exact Or.inr ⟨h, hp⟩

theorem foldl_set_insert_sorted (p : Nat → Prop) [DecidablePred p] :
    ∀ (l s : List Nat), s.Sorted (· < ·) →
      (l.foldl (fun s id => if p id then set_insert id s else s) s).Sorted (· < ·)
  | [], _, h => h
  | y :: l, s, h => by
    rw [List.foldl_cons]
    apply foldl_set_insert_sorted p l
    by_cases hy : p y
    · rw [if_pos hy]
      exact set_insert_sorted y s h
    · rw [if_neg hy]
      exact h

theorem mem_build_neighbors1 (v : TS_page_vertex) (t : Int) (x : Nat) :
    x ∈ scan_vertex.build_neighbors1 v t ↔ x ∈ v.neigh t ∧ x ≠ v.id := by
  unfold scan_vertex.build_neighbors1
  rw [mem_foldl_set_insert (fun id => id ≠ v.id) x]
  simp

theorem mem_build_neighbors2 (v : TS_page_vertex) (t : Int) (n1 : List Nat)
    (hn1 : v.id ∉ n1) (x : Nat) :
    x ∈ scan_vertex.build_neighbors2 v t n1 ↔ x ∈ v.neigh t ∧ x ≠ v.id := by
  unfold scan_vertex.build_neighbors2
  rw [mem_foldl_set_insert (fun id => id ≠ v.id ∨ set_contains n1 id = true) x]
  simp only [List.not_mem_nil, false_or, set_contains, decide_eq_true_eq]
  constructor
  · rintro ⟨hx, hne | hmem⟩
    · exact ⟨hx, hne⟩
    · refine ⟨hx, fun h => ?_⟩
      rw [h] at hmem
      exact hn1 hmem
  · rintro ⟨hx, hne⟩
    exact ⟨hx, Or.inl hne⟩

/-- C26, the divergence: the test of the second loop of `run` is the disjunction
`id != own id || id is in neighbors1`, so it admits every id other than the
vertex's own.  After `run` on a vertex with edges at timestamp 1, `neighbors2`
holds exactly the neighbours of timestamp 2 other than the vertex itself: it
never holds the own id, as claimed, but it holds every such neighbour that is
not a neighbour at timestamp 1 and so is not in `neighbors1`. -/
theorem C26_neighbors2_not_filtered (self : scan_vertex) (v : TS_page_vertex) (t1 t2 : Int)
    (h1 : self.neighbors1 = none) (h2 : self.neighbors2 = none) (hj : self.num_joined = 0)
    (hne : v.neigh t1 ≠ []) :
    ∃ st n1 n2, self.run v t1 t2 = some st
      ∧ st.neighbors1 = some n1 ∧ st.neighbors2 = some n2
      ∧ n1.Sorted (· < ·) ∧ n2.Sorted (· < ·)
      ∧ (∀ x, x ∈ n1 ↔ x ∈ v.neigh t1 ∧ x ≠ v.id)
      ∧ (∀ x, x ∈ n2 ↔ x ∈ v.neigh t2 ∧ x ≠ v.id)
      ∧ v.id ∉ n2
      ∧ ∀ x, x ∈ v.neigh t2 → x ≠ v.id → x ∉ v.neigh t1 → x ∈ n2 ∧ x ∉ n1 := by
  have hn1 : v.id ∉ scan_vertex.build_neighbors1 v t1 := by
    rw [mem_build_neighbors1]
    exact fun h => h.2 rfl
  have hm2 := mem_build_neighbors2 v t2 _ hn1
  have hlen : ¬ v.get_num_edges t1 = 0 := by
    unfold TS_page_vertex.get_num_edges
    rw [List.length_eq_zero]
    exact hne
  obtain ⟨st, hst⟩ : ∃ st : scan_vertex,
      st = { self with
        neighbors1 := some (scan_vertex.build_neighbors1 v t1),
        neighbors2 :=
          some (scan_vertex.build_neighbors2 v t2 (scan_vertex.build_neighbors1 v t1)),
        fetch_it := 0,
        num_edges1 := self.num_edges1 + ((scan_vertex.build_neighbors1 v t1).length : Int),
        num_edges2 := self.num_edges2
          + ((scan_vertex.build_neighbors2 v t2
              (scan_vertex.build_neighbors1 v t1)).length : Int) } := ⟨_, rfl⟩
  refine ⟨st, scan_vertex.build_neighbors1 v t1,
    scan_vertex.build_neighbors2 v t2 (scan_vertex.build_neighbors1 v t1), ?_, by rw [hst],
    by rw [hst],
    foldl_set_insert_sorted _ _ _ List.sorted_nil, foldl_set_insert_sorted _ _ _ List.sorted_nil,
    mem_build_neighbors1 v t1, hm2, ?_, fun x hx hxid hx1 => ⟨(hm2 x).2 ⟨hx, hxid⟩, ?_⟩⟩
  · unfold scan_vertex.run
    rw [if_neg (by simp [h1, h2, hj]), if_neg hlen, hst]
  · rw [hm2]
    exact fun h => h.2 rfl
  · rw [mem_build_neighbors1]
    exact fun h => hx1 h.1

/-- C26, at the vertex 0 with the neighbour 1 at timestamp 1 and the neighbour 2
at timestamp 2: after `run`, `neighbors1` is the set of 1 and `neighbors2` the
set of 2, which is not in `neighbors1`. -/
theorem C26_neighbors2_not_filtered_witness :
    ts_vertex_0.neigh 1 ≠ []
    ∧ (∃ st, scan_vertex_0.run ts_vertex_0 1 2 = some st
        ∧ st.neighbors1 = some [1] ∧ st.neighbors2 = some [2])
    ∧ ∃ st n1 n2, scan_vertex_0.run ts_vertex_0 1 2 = some st
      ∧ st.neighbors1 = some n1 ∧ st.neighbors2 = some n2 ∧ 2 ∈ n2 ∧ 2 ∉ n1 := by
  obtain ⟨st, n1, n2, h1, h2, h3, -, -, -, -, -, h9⟩ := C26_neighbors2_not_filtered
    scan_vertex_0 ts_vertex_0 1 2 rfl rfl rfl (by decide)
  exact ⟨by decide, ⟨_, rfl, rfl, rfl⟩, st, n1, n2, h1, h2, h3,
    h9 2 (by decide) (by decide) (by decide)⟩

/-! ### The three strategies of `count_edges` -/

theorem foldl_count (p : Nat → Prop) [DecidablePred p] : ∀ (l : List Nat) (n : Nat),
    l.foldl (fun num x => if p x then num + 1 else num) n
      = n + (l.filter fun x => decide (p x)).length
  | [], n => by simp
  | x :: l, n => by
    rw [List.foldl_cons, foldl_count p l]
    by_cases hx : p x
    · rw [if_pos hx, List.filter_cons_of_pos (by simpa using hx), List.length_cons]
      omega
    · rw [if_neg hx, List.filter_cons_of_neg (by simpa using hx)]

/-- The binary search finds an id in a strictly ascending list exactly when the id
is in the list. -/
theorem lower_bound_found (x : Nat) : ∀ E : List Nat, E.Sorted (· < ·) →
    ((lower_bound E x ≠ E.length ∧ E[lower_bound E x]? = some x) ↔ x ∈ E)
  | [], _ => by simp [lower_bound]
  | y :: E, h => by
    have hs := List.sorted_cons.1 h
    have ih := lower_bound_found x E hs.2
    unfold lower_bound at ih ⊢
    by_cases hy : y < x
    · rw [List.takeWhile_cons_of_pos (by simpa using hy)]
      simp only [List.length_cons, ne_eq, Nat.add_right_cancel_iff, List.getElem?_cons_succ,
        List.mem_cons]
      rw [ih]
      constructor
      · exact fun h => Or.inr h
      · rintro (rfl | h)
        · omega
        · exact h
    · rw [List.takeWhile_cons_of_neg (by simpa using hy)]
      simp only [List.length_nil, List.length_cons, ne_eq, List.getElem?_cons_zero,
        Option.some.injEq, List.mem_cons]
      constructor
      · rintro ⟨-, rfl⟩
        exact Or.inl rfl
      · rintro (rfl | h)
        · exact ⟨by omega, rfl⟩
        · have := hs.1 x h
          omega

/-- Two collections without repetitions have as many elements of the first in the
second as of the second in the first. -/
theorem filter_mem_length_comm (p : Nat → Prop) [DecidablePred p] (A B : List Nat)
    (hA : A.Nodup) (hB : B.Nodup) :
    (A.filter fun x => decide (x ∈ B ∧ p x)).length
      = (B.filter fun x => decide (x ∈ A ∧ p x)).length := by
  apply List.Perm.length_eq
  rw [List.perm_ext_iff_of_nodup (hA.filter _) (hB.filter _)]
  intro x
  simp only [List.mem_filter, decide_eq_true_eq]
  tauto

theorem count_edges_merge_spec (v_id this_id : Nat) : ∀ (fuel : Nat) (A B : List Nat) (num : Nat),
    A.Sorted (· < ·) → B.Sorted (· < ·) → A.length + B.length ≤ fuel →
    count_edges_merge v_id this_id fuel A B num
      = some (num + (A.filter fun x => decide (x ∈ B ∧ x ≠ v_id ∧ x ≠ this_id)).length) := by
  intro fuel
  induction fuel with
  | zero =>
    intro A B num _ _ hfuel
    have hA : A = [] := List.length_eq_zero.1 (by omega)
    subst hA
    simp [count_edges_merge]
  | succ fuel ih =>
    intro A B num hA hB hfuel
    cases A with
    | nil => simp [count_edges_merge]
    | cons a A' =>
      cases B with
      | nil => simp [count_edges_merge]
      | cons b B' =>
        have hsA := List.sorted_cons.1 hA
        have hsB := List.sorted_cons.1 hB
        simp only [List.length_cons] at hfuel
        unfold count_edges_merge
        dsimp only
        by_cases hab : a = b
        · subst hab
          rw [if_pos rfl, ih A' B' _ hsA.2 hsB.2 (by omega)]
          have hrest : (A'.filter fun x => decide (x ∈ a :: B' ∧ x ≠ v_id ∧ x ≠ this_id))
              = A'.filter fun x => decide (x ∈ B' ∧ x ≠ v_id ∧ x ≠ this_id) := by
            apply List.filter_congr
            intro x hx
            have := hsA.1 x hx
            have hne : x ≠ a := by omega
            simp [hne]
          by_cases hp : a ≠ v_id ∧ a ≠ this_id
          · rw [if_pos hp, List.filter_cons_of_pos (by simpa using hp), hrest,
              List.length_cons]
            congr 1
            omega
          · rw [if_neg hp, List.filter_cons_of_neg (by simpa using hp), hrest]
        · rw [if_neg hab]
          by_cases hlt : a < b
          · rw [if_pos hlt, ih A' (b :: B') num hsA.2 hB (by simp only [List.length_cons]; omega)]
            have ha : a ∉ b :: B' := by
              intro hmem
              rcases List.mem_cons.1 hmem with h | h
              · exact hab h
              · have := hsB.1 a h
                omega
            rw [List.filter_cons_of_neg (by simp [ha])]
          · rw [if_neg hlt, ih (a :: A') B' num hA hsB.2 (by simp only [List.length_cons]; omega)]
            congr 3
            apply List.filter_congr
            intro x hx
            have hxb : x ≠ b := by
              rcases List.mem_cons.1 hx with rfl | h
              · exact hab
              · have := hsA.1 x h
                omega
            simp [hxb]

/-- C29: for a non-empty set and a neighbour whose edge list for the timestamp is
non-empty and strictly ascending, `count_edges` returns the number of ids that
are in the set and in the edge list and are neither the id of the neighbour
nor the id of the vertex; each of its three strategies computes this number;
and no division by zero is reached, whether or not the set and the list are
empty. -/
theorem C29_count_edges_strategies_agree (self : scan_vertex) (v : TS_page_vertex)
    (S : List Nat) (t : Int) (hS : S.Sorted (· < ·)) (hSne : S ≠ [])
    (hE : (v.neigh t).Sorted (· < ·)) (hEne : v.neigh t ≠ []) :
    self.count_edges v S t = some (common_edges v.id self.id (v.neigh t) S)
    ∧ count_edges_bin_search v.id self.id (v.neigh t) S
        = common_edges v.id self.id (v.neigh t) S
    ∧ count_edges_lookup v.id self.id (v.neigh t) S
        = common_edges v.id self.id (v.neigh t) S
    ∧ count_edges_merge v.id self.id (S.length + (v.neigh t).length) S (v.neigh t) 0
        = some (common_edges v.id self.id (v.neigh t) S)
    ∧ ∀ (S' : List Nat) (t' : Int), self.count_edges v S' t' ≠ none := by
  have hbin : count_edges_bin_search v.id self.id (v.neigh t) S
      = common_edges v.id self.id (v.neigh t) S := by
    unfold count_edges_bin_search common_edges
    have hfun : (fun (num_local_edges this_neighbor : Nat) =>
        if this_neighbor ≠ v.id ∧ this_neighbor ≠ self.id then
          let first := lower_bound (v.neigh t) this_neighbor
          if first ≠ (v.neigh t).length ∧ (v.neigh t)[first]? = some this_neighbor then
            num_local_edges + 1
          else num_local_edges
        else num_local_edges)
        = fun num x => if x ∈ v.neigh t ∧ x ≠ v.id ∧ x ≠ self.id then num + 1 else num := by
      funext num x
      have hfound := lower_bound_found x (v.neigh t) hE
      by_cases hp : x ≠ v.id ∧ x ≠ self.id
      · by_cases hm : x ∈ v.neigh t
        · rw [if_pos hp, if_pos (show x ∈ v.neigh t ∧ x ≠ v.id ∧ x ≠ self.id from ⟨hm, hp⟩)]
          exact if_pos (hfound.2 hm)
        · rw [if_pos hp,
            if_neg (show ¬ (x ∈ v.neigh t ∧ x ≠ v.id ∧ x ≠ self.id) from fun h => hm h.1)]
          exact if_neg (fun h => hm (hfound.1 h))
      · rw [if_neg hp,
          if_neg (show ¬ (x ∈ v.neigh t ∧ x ≠ v.id ∧ x ≠ self.id) from fun h => hp h.2)]
    rw [hfun, foldl_count (fun x => x ∈ v.neigh t ∧ x ≠ v.id ∧ x ≠ self.id) S 0, Nat.zero_add]
  have hlook : count_edges_lookup v.id self.id (v.neigh t) S
      = common_edges v.id self.id (v.neigh t) S := by
    unfold count_edges_lookup common_edges
    have hfun : (fun (num_local_edges neigh_neighbor : Nat) =>
        if neigh_neighbor ≠ v.id ∧ neigh_neighbor ≠ self.id then
          if set_contains S neigh_neighbor = true then num_local_edges + 1
          else num_local_edges
        else num_local_edges)
        = fun num x => if x ∈ S ∧ x ≠ v.id ∧ x ≠ self.id then num + 1 else num := by
      funext num x
      have hc : set_contains S x = true ↔ x ∈ S := by
        simp [set_contains]
      by_cases hp : x ≠ v.id ∧ x ≠ self.id
      · by_cases hm : x ∈ S
        · rw [if_pos hp, if_pos (show x ∈ S ∧ x ≠ v.id ∧ x ≠ self.id from ⟨hm, hp⟩)]
          exact if_pos (hc.2 hm)
        · rw [if_pos hp, if_neg (show ¬ (x ∈ S ∧ x ≠ v.id ∧ x ≠ self.id) from fun h => hm h.1)]
          exact if_neg (fun h => hm (hc.1 h))
      · rw [if_neg hp, if_neg (show ¬ (x ∈ S ∧ x ≠ v.id ∧ x ≠ self.id) from fun h => hp h.2)]
    rw [hfun, foldl_count (fun x => x ∈ S ∧ x ≠ v.id ∧ x ≠ self.id) (v.neigh t) 0, Nat.zero_add]
    exact filter_mem_length_comm (fun x => x ≠ v.id ∧ x ≠ self.id) (v.neigh t) S hE.nodup hS.nodup
  have hmerge : count_edges_merge v.id self.id (S.length + (v.neigh t).length) S (v.neigh t) 0
      = some (common_edges v.id self.id (v.neigh t) S) := by
    rw [count_edges_merge_spec v.id self.id _ S (v.neigh t) 0 hS hE (le_refl _), Nat.zero_add]
    rfl
  have hElen : v.get_num_edges t ≠ 0 := by
    unfold TS_page_vertex.get_num_edges
    rw [Ne, List.length_eq_zero]
    exact hEne
  have hSlen : S.length ≠ 0 := by
    rw [Ne, List.length_eq_zero]
    exact hSne
  have hSemp : ¬ S.isEmpty = true := by
    rw [List.isEmpty_iff]
    exact hSne
  refine ⟨?_, hbin, hlook, hmerge, fun S' t' => ?_⟩
  · unfold scan_vertex.count_edges checked_div
    rw [if_neg (by tauto), if_neg hSlen]
    simp only []
    by_cases h1 : v.get_num_edges t / S.length > BIN_SEARCH_RATIO
    · rw [if_pos h1, hbin]
    · rw [if_neg h1, if_neg hElen]
      simp only []
      by_cases h2 : S.length / v.get_num_edges t > BIN_SEARCH_RATIO
      · rw [if_pos h2, hlook]
      · rw [if_neg h2]
        exact hmerge
  · unfold scan_vertex.count_edges checked_div
    by_cases h0 : v.get_num_edges t' = 0 ∨ S'.isEmpty = true
    · rw [if_pos h0]
      simp
    · rw [if_neg h0]
      have hS' : S'.length ≠ 0 := by
        intro h
        exact h0 (Or.inr (by rw [List.length_eq_zero.1 h]; rfl))
      rw [if_neg hS']
      simp only []
      by_cases h1 : v.get_num_edges t' / S'.length > BIN_SEARCH_RATIO
      · rw [if_pos h1]
        simp
      · rw [if_neg h1, if_neg (fun h => h0 (Or.inl h))]
        simp only []
        by_cases h2 : S'.length / v.get_num_edges t' > BIN_SEARCH_RATIO
        · rw [if_pos h2]
          simp
        · rw [if_neg h2]
          have hfuel : ∀ (fuel : Nat) (A B : List Nat) (num : Nat), A.length + B.length ≤ fuel →
              count_edges_merge v.id self.id fuel A B num ≠ none := by
            intro fuel
            induction fuel with
            | zero =>
              intro A B num hf
              have hA : A = [] := List.length_eq_zero.1 (by omega)
              subst hA
              simp [count_edges_merge]
            | succ fuel ih =>
              intro A B num hf
              cases A with
              | nil => simp [count_edges_merge]
              | cons a A' =>
                cases B with
                | nil => simp [count_edges_merge]
                | cons b B' =>
                  simp only [List.length_cons] at hf
                  unfold count_edges_merge
                  dsimp only
                  by_cases hab : a = b
                  · rw [if_pos hab]
                    exact ih A' B' _ (by omega)
                  · rw [if_neg hab]
                    by_cases hlt : a < b
                    · rw [if_pos hlt]
                      exact ih A' (b :: B') num (by simp only [List.length_cons]; omega)
                    · rw [if_neg hlt]
                      exact ih (a :: A') B' num (by simp only [List.length_cons]; omega)
          exact hfuel _ _ _ _ (le_refl _)

/-- C29, at the set `[2, 5, 7, 8]` of the vertex 0 and the neighbour 5 with the
edge list `[0, 2, 3, 5, 8]`: the ids 2 and 8 are counted, the id 5 of the
neighbour is not, and all three strategies return 2. -/
theorem C29_count_edges_strategies_agree_witness :
    [2, 5, 7, 8].Sorted (· < ·) ∧ (ts_vertex_5.neigh 1).Sorted (· < ·)
    ∧ scan_vertex_0.count_edges ts_vertex_5 [2, 5, 7, 8] 1 = some 2
    ∧ count_edges_bin_search 5 0 [0, 2, 3, 5, 8] [2, 5, 7, 8] = 2
    ∧ count_edges_lookup 5 0 [0, 2, 3, 5, 8] [2, 5, 7, 8] = 2
    ∧ count_edges_merge 5 0 9 [2, 5, 7, 8] [0, 2, 3, 5, 8] 0 = some 2 := by
  have h := C29_count_edges_strategies_agree scan_vertex_0 ts_vertex_5 [2, 5, 7, 8] 1
    (by decide) (by decide) (by decide) (by decide)
  exact ⟨by decide, by decide, h.1, h.2.1, h.2.2.1, h.2.2.2.1⟩

/-! ### The indices of `inner_prod_tall` -/

/-- The vector `tmp_mats` is the one that the body of the loop over `m2_col`
sums. -/
theorem tall_res_block_of_tmp_mats {α : Type} [Inhabited α] [Add α] [Mul α]
    (self : block_matrix α) (mem_m2 : matrix_store α) (left_op : Option (bulk_operate α))
    (right_op : bulk_operate α) (out_layout : matrix_layout_t) (m2_col : Nat) :
    self.tall_res_block mem_m2 left_op right_op out_layout m2_col
      = (self.tall_tmp_mats mem_m2 left_op right_op out_layout m2_col).bind fun tmp_mats =>
          match tmp_mats.head? with
          | some (some t0) =>
            mapply_portion tmp_mats
              { op := right_op, out_num_rows := t0.num_rows, out_num_cols := t0.num_cols } .L_COL
          | _ => none := by
  unfold block_matrix.tall_res_block block_matrix.tall_tmp_mats
  cases for_range mem_m2.num_rows 0 mem_m2.num_rows self.block_size with
  | none => rfl
  | some m2_rows =>
    simp only []
    cases fill_loop (fun m2_row => m2_row / self.block_size)
        (self.tall_tmp_mat mem_m2 left_op right_op out_layout m2_col) m2_rows
        (List.replicate self.store.get_num_mats none) <;> rfl

/-- The vector `res_blocks` is the one that `inner_prod_tall` returns as a
matrix. -/
theorem inner_prod_tall_of_res_blocks {α : Type} [Inhabited α] [Add α] [Mul α]
    (self : block_matrix α) (m : dense_matrix α) (lop rop : bulk_operate α)
    (out_layout : matrix_layout_t) :
    self.inner_prod_tall m (some lop) (some rop) out_layout
      = (self.tall_res_blocks m.conv_store (some lop) rop out_layout).bind self.tall_result := by
  unfold block_matrix.inner_prod_tall block_matrix.tall_res_blocks
  simp only [Option.isNone_some, Bool.false_and, Bool.false_eq_true, if_false]
  cases for_range m.conv_store.num_cols 0 m.conv_store.num_cols self.block_size with
  | none => rfl
  | some m2_cols =>
    simp only []
    cases fill_loop (fun m2_col => m2_col / self.block_size)
        (self.tall_res_block m.conv_store (some lop) rop out_layout) m2_cols
        (List.replicate (div_ceil m.conv_store.num_cols self.block_size) none) <;> rfl

theorem div_ceil_block_lt (N b : Nat) (hb : 0 < b) (j : Nat) (hj : j < div_ceil N b) :
    j * b < N := by
  rcases Nat.eq_zero_or_pos N with h0 | hN
  · subst h0
    rw [div_ceil_zero b hb] at hj
    omega
  · obtain ⟨-, hlo, -⟩ := div_ceil_bounds N b hb hN
    have : j * b ≤ (div_ceil N b - 1) * b := Nat.mul_le_mul_right _ (by omega)
    omega

/-- C27: for a tall block matrix that satisfies the block invariant and a right
operand with as many rows as the matrix has columns, in `inner_prod_tall` the
index `i = m2_row / block_size` takes the values `0 .. num_mats - 1` in order,
each once, and `part_num_rows` is the column count of member `i`; for every
output column block every slot of `tmp_mats` is assigned and no slot is out of
range; and `res_blocks` has `ceil(m.ncol / block_size)` blocks, of which block
`j` is `min(block_size, m.ncol - j * block_size)` wide. -/
theorem C27_inner_prod_tall_indices {α : Type} [Inhabited α] [Add α] [Mul α]
    (self : block_matrix α) (m : dense_matrix α) (left_op right_op : Option (bulk_operate α))
    (lop rop : bulk_operate α) (out_layout : matrix_layout_t) (M K N : Nat)
    (hA : self.tall_invariant M K) (hrow : m.get_num_rows = K) (hcol : m.get_num_cols = N)
    (hops : tall_operands self m left_op right_op lop rop) :
    (∃ steps, self.tall_row_steps m.conv_store = some steps
      ∧ steps.map (fun s => s.1) = List.range self.store.get_num_mats
      ∧ ∀ s ∈ steps, ∃ left, self.store.get_mat s.1 = some left ∧ left.num_cols = s.2)
    ∧ (∀ j, j * self.block_size < N →
        ∃ tmp_mats, self.tall_tmp_mats m.conv_store left_op rop out_layout
            (j * self.block_size) = some tmp_mats
          ∧ tmp_mats.length = self.store.get_num_mats ∧ ∀ t ∈ tmp_mats, t ≠ none)
    ∧ ∃ res_blocks, self.tall_res_blocks m.conv_store left_op rop out_layout = some res_blocks
        ∧ res_blocks.length = div_ceil N self.block_size
        ∧ ∀ j, j < div_ceil N self.block_size →
            ∃ blk, res_blocks[j]? = some (some blk)
              ∧ blk.num_cols = min self.block_size (N - j * self.block_size)
              ∧ blk.num_rows = M := by
  have hb := hA.blocks.block_pos
  have hlen := hA.blocks.length_eq
  have hrows : m.conv_store.num_rows = K := by simp only [dense_matrix.conv_store, hrow]
  have hcols : m.conv_store.num_cols = N := by simp only [dense_matrix.conv_store, hcol]
  have hrange : for_range m.conv_store.num_rows 0 m.conv_store.num_rows self.block_size
      = some ((List.range self.store.mats.length).map fun t => t * self.block_size) := by
    rw [for_range_blocks _ _ hb, hrows, ← hlen]
  have hrange2 : for_range m.conv_store.num_cols 0 m.conv_store.num_cols self.block_size
      = some ((List.range (div_ceil N self.block_size)).map fun t => t * self.block_size) := by
    rw [for_range_blocks _ _ hb, hcols]
  refine ⟨?_, fun j hj => ?_, ?_⟩
  · refine ⟨(List.range self.store.mats.length).map fun t =>
      (t, min self.block_size (K - t * self.block_size)), ?_, ?_, ?_⟩
    · unfold block_matrix.tall_row_steps
      rw [hrange, hrows]
      simp only [Option.map_some', List.map_map, Option.some.injEq]
      apply List.map_congr_left
      intro t _
      simp only [Function.comp, Nat.mul_div_cancel _ hb]
    · rw [List.map_map]
      show List.map (fun t => t) (List.range self.store.mats.length) = _
      rw [List.map_id']
      rfl
    · intro s hs
      obtain ⟨t, ht, rfl⟩ := List.mem_map.1 hs
      rw [List.mem_range] at ht
      obtain ⟨left, hleft, -, hlc⟩ := hA.blocks.member t ht
      exact ⟨left, hleft, by rw [hlc, Nat.min_comm]⟩
  · obtain ⟨val, hfill, -⟩ := fill_loop_blocks_exists
      ({ num_rows := 0, num_cols := 0, layout := .L_COL, type := .T_INT,
         get := fun _ _ => default } : matrix_store α)
      self.block_size self.store.mats.length hb
      (self.tall_tmp_mat m.conv_store left_op rop out_layout (j * self.block_size))
      (fun i T => T.num_rows = M ∧ T.num_cols = min (N - j * self.block_size) self.block_size
        ∧ ∀ r c, T.get r c = self.tall_cell m lop rop i r (j * self.block_size + c))
      (fun i hi => tall_tmp_mat_spec self m left_op right_op lop rop out_layout M K N hA hrow
        hcol hops i j hi hj)
    refine ⟨(List.range self.store.mats.length).map fun t => some (val t), ?_, ?_, ?_⟩
    · unfold block_matrix.tall_tmp_mats
      simp only [hrange, combined_matrix_store.get_num_mats]
      exact hfill
    · simp only [List.length_map, List.length_range, combined_matrix_store.get_num_mats]
    · intro t ht
      obtain ⟨i, -, rfl⟩ := List.mem_map.1 ht
      exact fun h => by cases h
  · obtain ⟨val, hfill, hval⟩ := fill_loop_blocks_exists
      ({ num_rows := 0, num_cols := 0, layout := .L_COL, type := .T_INT,
         get := fun _ _ => default } : matrix_store α)
      self.block_size (div_ceil N self.block_size) hb
      (self.tall_res_block m.conv_store left_op rop out_layout)
      (fun j blk => blk.num_rows = M
        ∧ blk.num_cols = min (N - j * self.block_size) self.block_size
        ∧ ∀ r c, fold_later_on_left rop.run
              ((List.range self.store.mats.length).map fun i =>
                self.tall_cell m lop rop i r (j * self.block_size + c))
            = some (blk.get r c))
      (fun j hj => tall_res_block_spec self m left_op right_op lop rop out_layout M K N hA hrow
        hcol hops j (div_ceil_block_lt N self.block_size hb j hj))
    refine ⟨(List.range (div_ceil N self.block_size)).map fun t => some (val t), ?_, ?_,
      fun j hj => ⟨val j, ?_, ?_, (hval j hj).1⟩⟩
    · unfold block_matrix.tall_res_blocks
      simp only [hrange2]
      rw [hcols]
      exact hfill
    · simp only [List.length_map, List.length_range]
    · rw [List.getElem?_map, List.getElem?_range hj]
      rfl
    · rw [(hval j hj).2.1, Nat.min_comm]

/-- C27, at the 3-by-2 matrix in two blocks of one column, times a 2-by-2 matrix:
the indices are `0, 1` with one row of the right operand each, and there are
two result blocks of width 1. -/
theorem C27_inner_prod_tall_indices_witness :
    tall_3x2.tall_invariant 3 2
    ∧ tall_3x2.tall_row_steps mat_5678.conv_store = some [(0, 1), (1, 1)]
    ∧ (∃ steps, tall_3x2.tall_row_steps mat_5678.conv_store = some steps
        ∧ steps.map (fun s => s.1) = List.range tall_3x2.store.get_num_mats)
    ∧ ∃ res_blocks, tall_3x2.tall_res_blocks mat_5678.conv_store
          (some (basic_ops_get_multiply .T_INT)) (basic_ops_get_add .T_INT) .L_NONE
          = some res_blocks
        ∧ res_blocks.length = div_ceil 2 tall_3x2.block_size
        ∧ ∀ j, j < div_ceil 2 tall_3x2.block_size →
            ∃ blk, res_blocks[j]? = some (some blk)
              ∧ blk.num_cols = min tall_3x2.block_size (2 - j * tall_3x2.block_size)
              ∧ blk.num_rows = 3 := by
  obtain ⟨⟨steps, h1, h2, -⟩, -, h3⟩ := C27_inner_prod_tall_indices tall_3x2 mat_5678
    (some (basic_ops_get_multiply .T_INT)) (some (basic_ops_get_add .T_INT))
    (basic_ops_get_multiply .T_INT) (basic_ops_get_add .T_INT) .L_NONE 3 2 2
    tall_3x2_invariant rfl rfl
    (tall_operands_int tall_3x2 mat_5678 3 2 tall_3x2_invariant
      (by intro x hx
          simp only [tall_3x2, List.mem_cons, List.mem_singleton, List.not_mem_nil,
            or_false] at hx
          rcases hx with rfl | rfl <;> rfl)
      rfl)
  exact ⟨tall_3x2_invariant, by decide, ⟨steps, h1, h2⟩, h3⟩

/-! ### The distance matrix -/

theorem init_rows_shape : ∀ n : Nat,
    (dist_matrix.init_rows n).map List.length = (List.range n).map fun r => n - r
  | 0 => rfl
  | n + 1 => by
    rw [dist_matrix.init_rows, List.map_cons, init_rows_shape n, List.range_succ_eq_map,
      List.map_cons, List.map_map, List.length_replicate]
    congr 1
    apply List.map_congr_left
    intro r _
    simp only [Function.comp, Nat.succ_eq_add_one]
    omega

theorem init_rows_cell : ∀ (n r c : Nat), r + c < n →
    ((dist_matrix.init_rows n)[r]?).bind (fun entries => entries[c]?) = some DBL_MAX
  | 0, _, _, h => by omega
  | n + 1, 0, c, h => by
    simp only [dist_matrix.init_rows, List.getElem?_cons_zero, Option.some_bind,
      List.getElem?_replicate]
    rw [if_pos (by omega)]
  | n + 1, r + 1, c, h => by
    simp only [dist_matrix.init_rows, List.getElem?_cons_succ]
    exact init_rows_cell n r c (by omega)

/-- The rows of the triangle have `k (k - 1) / 2` entries in total. -/
theorem triangle_sum : ∀ n : Nat, 2 * ((List.range n).map fun r => n - r).sum = n * (n + 1)
  | 0 => rfl
  | n + 1 => by
    rw [List.range_succ_eq_map, List.map_cons, List.map_map, List.sum_cons]
    have h : (List.map ((fun r => n + 1 - r) ∘ Nat.succ) (List.range n))
        = (List.range n).map fun r => n - r := by
      apply List.map_congr_left
      intro r _
      simp only [Function.comp, Nat.succ_eq_add_one]
      omega
    rw [h, Nat.mul_add, triangle_sum n, Nat.sub_zero]
    ring

theorem shaped_row {dm : dist_matrix} {k : Nat} (h : dm.shaped k) (r : Nat) (hr : r < k - 1) :
    ∃ entries, dm.mat[r]? = some entries ∧ entries.length = k - 1 - r := by
  have := congrArg (fun l : List Nat => l[r]?) h.shape
  simp only [List.getElem?_map, List.getElem?_range hr, Option.map_some'] at this
  cases hm : dm.mat[r]? with
  | none =>
    rw [hm] at this
    cases this
  | some entries =>
    rw [hm] at this
    simp only [Option.map_some', Option.some.injEq] at this
    exact ⟨entries, rfl, this⟩

/-- Both verifications of `translate` pass for two different ids below `k`, in
either order, and the result is the place of the pair in the triangle. -/
theorem translate_spec {dm : dist_matrix} {k : Nat} (h : dm.shaped k) (hk : k < 2 ^ 32)
    (p q : Nat) (hpq : p < q) (hq : q < k) :
    dm.translate p q = some (p, q - p - 1) ∧ dm.translate q p = some (p, q - p - 1)
    ∧ p < k - 1 ∧ q - p - 1 < k - 1 - p := by
  have hrows := h.rows
  have h1 : (q + 2 ^ 32 - p - 1) % 2 ^ 32 = q - p - 1 := by omega
  have h2 : (dm.rows + 2 ^ 32 - p) % 2 ^ 32 = k - 1 - p := by omega
  have e1 : (if p > q then q else p) = p := if_neg (by omega)
  have e2 : (if p > q then p else q) = q := if_neg (by omega)
  have e3 : (if q > p then p else q) = p := if_pos hpq
  have e4 : (if q > p then q else p) = q := if_pos hpq
  refine ⟨?_, ?_, by omega, by omega⟩
  · unfold dist_matrix.translate
    simp only [e1, e2]
    rw [if_neg (by omega), h1, h2, if_neg (by omega)]
  · unfold dist_matrix.translate
    simp only [e3, e4]
    rw [if_neg (by omega), h1, h2, if_neg (by omega)]

theorem get_of_holds {dm : dist_matrix} {k : Nat} {f : Nat → Nat → ℚ} (h : dm.holds k f)
    (hk : k < 2 ^ 32) (p q : Nat) (hpq : p < q) (hq : q < k) :
    dm.get p q = some (f p q) ∧ dm.get q p = some (f p q) := by
  obtain ⟨t1, t2, -, -⟩ := translate_spec h.shaped hk p q hpq hq
  constructor
  · unfold dist_matrix.get
    rw [if_neg (by omega), t1]
    exact h.cell p q hpq hq
  · unfold dist_matrix.get
    rw [if_neg (by omega), t2]
    exact h.cell p q hpq hq

/-- One call of `set` on two different ids `i < j` below `k`, in either order:
both orders give the same matrix, which holds `v` for the pair and what it held
for every other pair. -/
theorem set_of_holds {dm : dist_matrix} {k : Nat} {f : Nat → Nat → ℚ} (h : dm.holds k f)
    (hk : k < 2 ^ 32) (i j : Nat) (hij : i < j) (hj : j < k) (v : ℚ) :
    ∃ dm', dm.set i j v = some dm' ∧ dm.set j i v = some dm'
      ∧ dm'.holds k (fun p q => if p = i ∧ q = j then v else f p q) := by
  obtain ⟨t1, t2, hr, hc⟩ := translate_spec h.shaped hk i j hij hj
  obtain ⟨entries, hline, hlen⟩ := shaped_row h.shaped i hr
  have hilen : i < dm.mat.length := by
    by_contra hcon
    rw [List.getElem?_eq_none (by omega)] at hline
    cases hline
  refine ⟨{ dm with mat := dm.mat.set i (entries.set (j - i - 1) v) }, ?_, ?_, ⟨⟨h.shaped.rows, ?_⟩,
    fun p q hpq hq => ?_⟩⟩
  · unfold dist_matrix.set
    rw [if_neg (by omega), t1]
    simp only [hline]
    rw [if_pos (by omega)]
  · unfold dist_matrix.set
    rw [if_neg (by omega), t2]
    simp only [hline]
    rw [if_pos (by omega)]
  · show (dm.mat.set i (entries.set (j - i - 1) v)).map List.length = _
    rw [List.map_set, List.length_set, ← h.shaped.shape]
    apply List.ext_getElem?
    intro n
    rw [List.getElem?_set]
    by_cases hn : i = n
    · subst hn
      rw [if_pos rfl, if_pos (by rw [List.length_map]; exact hilen), List.getElem?_map, hline]
      rfl
    · rw [if_neg hn]
  · show ((dm.mat.set i (entries.set (j - i - 1) v))[p]?).bind (fun l => l[q - p - 1]?) = _
    have hold := h.cell p q hpq hq
    by_cases hp : p = i
    · subst hp
      rw [List.getElem?_set_self hilen, Option.some_bind, List.getElem?_set]
      rw [hline, Option.some_bind] at hold
      by_cases hqj : q = j
      · subst hqj
        rw [if_pos rfl, if_pos (by omega), if_pos ⟨rfl, rfl⟩]
      · rw [if_neg (by omega), if_neg (fun hh => hqj hh.2)]
        exact hold
    · rw [List.getElem?_set_ne (fun hh => hp hh.symm), if_neg (fun hh => hp hh.1)]
      exact hold

theorem pair_value_cons (p q : Nat) (cur : ℚ) (op : Nat × Nat × ℚ)
    (ops : List (Nat × Nat × ℚ)) :
    pair_value p q cur (op :: ops)
      = pair_value p q
          (if (op.1 = p ∧ op.2.1 = q) ∨ (op.1 = q ∧ op.2.1 = p) then op.2.2 else cur) ops :=
  rfl

/-- A sequence of calls of `set` on pairs of different ids below `k`: every call
passes, and the matrix holds for every pair the value of the last call for it,
or what it held before when there is none. -/
theorem set_all_of_holds (k : Nat) (hk : k < 2 ^ 32) : ∀ (ops : List (Nat × Nat × ℚ))
    (dm : dist_matrix) (f : Nat → Nat → ℚ), dm.holds k f →
    (∀ op ∈ ops, op.1 ≠ op.2.1 ∧ op.1 < k ∧ op.2.1 < k) →
    ∃ dm', dm.set_all ops = some dm' ∧ dm'.holds k (fun p q => pair_value p q (f p q) ops)
  | [], dm, f, h, _ => ⟨dm, rfl, h⟩
  | op :: ops, dm, f, h, hops => by
    obtain ⟨hne, h1, h2⟩ := hops op (List.mem_cons_self _ _)
    have hrest : ∀ o ∈ ops, o.1 ≠ o.2.1 ∧ o.1 < k ∧ o.2.1 < k :=
      fun o ho => hops o (List.mem_cons_of_mem _ ho)
    rcases Nat.lt_or_gt_of_ne hne with hlt | hgt
    · obtain ⟨dm1, hs1, -, hh1⟩ := set_of_holds h hk op.1 op.2.1 hlt h2 op.2.2
      obtain ⟨dm', hall, hh'⟩ := set_all_of_holds k hk ops dm1 _ hh1 hrest
      refine ⟨dm', ?_, ⟨hh'.shaped, fun p q hpq hq => ?_⟩⟩
      · rw [dist_matrix.set_all, hs1]
        exact hall
      · rw [hh'.cell p q hpq hq, pair_value_cons]
        congr 2
        by_cases hc : op.1 = p ∧ op.2.1 = q
        · rw [if_pos ⟨hc.1.symm, hc.2.symm⟩, if_pos (Or.inl hc)]
        · rw [if_neg (fun hh => hc ⟨hh.1.symm, hh.2.symm⟩), if_neg]
          rintro (hh | hh)
          · exact hc hh
          · omega
    · obtain ⟨dm1, -, hs1, hh1⟩ := set_of_holds h hk op.2.1 op.1 hgt h1 op.2.2
      obtain ⟨dm', hall, hh'⟩ := set_all_of_holds k hk ops dm1 _ hh1 hrest
      refine ⟨dm', ?_, ⟨hh'.shaped, fun p q hpq hq => ?_⟩⟩
      · rw [dist_matrix.set_all, hs1]
        exact hall
      · rw [hh'.cell p q hpq hq, pair_value_cons]
        congr 2
        by_cases hc : op.2.1 = p ∧ op.1 = q
        · rw [if_pos ⟨hc.1.symm, hc.2.symm⟩, if_pos (Or.inr ⟨hc.2, hc.1⟩)]
        · rw [if_neg (fun hh => hc ⟨hh.1.symm, hh.2.symm⟩), if_neg]
          rintro (hh | hh)
          · omega
          · exact hc ⟨hh.2, hh.1⟩

theorem create_holds (k : Nat) (hk : 2 ≤ k) :
    ∃ dm0, dist_matrix.create k = some dm0 ∧ dm0.holds k (fun _ _ => DBL_MAX) := by
  refine ⟨{ rows := k - 1, mat := dist_matrix.init_rows (k - 1) }, ?_, ⟨⟨rfl, ?_⟩,
    fun p q hpq hq => ?_⟩⟩
  · unfold dist_matrix.create
    rw [if_pos (by omega)]
  · exact init_rows_shape (k - 1)
  · exact init_rows_cell (k - 1) p (q - p - 1) (by omega)

/-- C28: for `2 <= k < 2 ^ 32`, the matrix created with `k` rows has `k - 1` rows
of storage, of which row `r` has `k - 1 - r` entries, `k (k - 1) / 2` in all.
After any sequence of calls `set(i, j, v)` with `i != j` below `k`, all of which
pass, `get(p, q)` and `get(q, p)` pass for all `p < q < k` and both return the
value of the last call for the pair in either order, or the maximum `double`
when the pair was never set; `get(p, p)` returns the maximum `double`; and one
more call `set(i, j, v)` makes `get(i, j)` and `get(j, i)` return `v` and
leaves every other pair as it was. -/
theorem C28_dist_matrix_symmetric_map (k : Nat) (hk2 : 2 ≤ k) (hk : k < 2 ^ 32)
    (ops : List (Nat × Nat × ℚ)) (hops : ∀ op ∈ ops, op.1 ≠ op.2.1 ∧ op.1 < k ∧ op.2.1 < k) :
    ∃ dm0 dm, dist_matrix.create k = some dm0 ∧ dm0.set_all ops = some dm
      ∧ dm.mat.map List.length = (List.range (k - 1)).map (fun r => k - 1 - r)
      ∧ (dm.mat.map List.length).sum = k * (k - 1) / 2
      ∧ (∀ p q, p < q → q < k →
          dm.get p q = some (pair_value p q DBL_MAX ops)
          ∧ dm.get q p = some (pair_value p q DBL_MAX ops))
      ∧ (∀ p, dm.get p p = some DBL_MAX)
      ∧ ∀ i j v, i ≠ j → i < k → j < k →
          ∃ dm', dm.set i j v = some dm'
            ∧ dm'.get i j = some v ∧ dm'.get j i = some v
            ∧ ∀ p q, p ≠ q → p < k → q < k → ¬ ((p = i ∧ q = j) ∨ (p = j ∧ q = i)) →
                dm'.get p q = dm.get p q := by
  obtain ⟨dm0, hcreate, hh0⟩ := create_holds k hk2
  obtain ⟨dm, hall, hh⟩ := set_all_of_holds k hk ops dm0 _ hh0 hops
  have hsum : (dm.mat.map List.length).sum = k * (k - 1) / 2 := by
    rw [hh.shaped.shape]
    have := triangle_sum (k - 1)
    have hk1 : k - 1 + 1 = k := by omega
    rw [hk1] at this
    have hcomm : (k - 1) * k = k * (k - 1) := Nat.mul_comm _ _
    omega
  refine ⟨dm0, dm, hcreate, hall, hh.shaped.shape, hsum, fun p q hpq hq =>
    get_of_holds hh hk p q hpq hq, fun p => ?_, fun i j v hne hi hj => ?_⟩
  · unfold dist_matrix.get
    rw [if_pos rfl]
  · -- one more call, on the pair in ascending order
    have key : ∀ a b, a < b → b < k → ∀ dm' : dist_matrix, dm'.holds k
        (fun p q => if p = a ∧ q = b then v else pair_value p q DBL_MAX ops) →
        dm'.get a b = some v ∧ dm'.get b a = some v
        ∧ ∀ p q, p ≠ q → p < k → q < k → ¬ ((p = a ∧ q = b) ∨ (p = b ∧ q = a)) →
            dm'.get p q = dm.get p q := by
      intro a b hab hb dm' hh'
      have hget := get_of_holds hh' hk a b hab hb
      simp only [and_self, if_true] at hget
      refine ⟨hget.1, hget.2, fun p q hpq hp hq hnot => ?_⟩
      rcases Nat.lt_or_gt_of_ne hpq with hlt | hgt
      · have g1 := (get_of_holds hh' hk p q hlt hq).1
        have g2 := (get_of_holds hh hk p q hlt hq).1
        rw [g1, g2, if_neg (fun hc => hnot (Or.inl hc))]
      · have g1 := (get_of_holds hh' hk q p hgt hp).2
        have g2 := (get_of_holds hh hk q p hgt hp).2
        rw [g1, g2, if_neg (fun hc => hnot (Or.inr ⟨hc.2, hc.1⟩))]
    rcases Nat.lt_or_gt_of_ne hne with hlt | hgt
    · obtain ⟨dm', hs1, -, hh'⟩ := set_of_holds hh hk i j hlt hj v
      obtain ⟨k1, k2, k3⟩ := key i j hlt hj dm' hh'
      exact ⟨dm', hs1, k1, k2, k3⟩
    · obtain ⟨dm', -, hs2, hh'⟩ := set_of_holds hh hk j i hgt hi v
      obtain ⟨k1, k2, k3⟩ := key j i hgt hi dm' hh'
      exact ⟨dm', hs2, k2, k1, fun p q hpq hp hq hnot =>
        k3 p q hpq hp hq (fun hc => hnot (hc.elim Or.inr Or.inl))⟩

/-- C28, at `k = 5` after `set(0, 1, 3)`, `set(4, 2, 7)` and `set(1, 0, 9)`: the
storage has 10 entries, the pair of 0 and 1 holds 9 and the pair of 2 and 4
holds 7 in both orders, and the pair of 1 and 3, never set, holds the maximum
`double`. -/
theorem C28_dist_matrix_symmetric_map_witness :
    ∃ dm0 dm, dist_matrix.create 5 = some dm0 ∧ dm0.set_all dist_ops_5 = some dm
      ∧ dm.mat.map List.length = [4, 3, 2, 1]
      ∧ (dm.mat.map List.length).sum = 10
      ∧ dm.get 0 1 = some 9 ∧ dm.get 1 0 = some 9
      ∧ dm.get 2 4 = some 7 ∧ dm.get 4 2 = some 7
      ∧ dm.get 1 3 = some DBL_MAX ∧ dm.get 3 1 = some DBL_MAX
      ∧ dm.get 2 2 = some DBL_MAX := by
  obtain ⟨dm0, dm, h1, h2, h3, h4, h5, h6, -⟩ := C28_dist_matrix_symmetric_map 5 (by decide)
    (by decide) dist_ops_5 (by
      intro op hop
      simp only [dist_ops_5, List.mem_cons, List.mem_singleton, List.not_mem_nil,
        or_false] at hop
      rcases hop with rfl | rfl | rfl <;> decide)
  have e01 : pair_value 0 1 DBL_MAX dist_ops_5 = 9 := by
    simp [pair_value, dist_ops_5]
  have e24 : pair_value 2 4 DBL_MAX dist_ops_5 = 7 := by
    simp [pair_value, dist_ops_5]
  have e13 : pair_value 1 3 DBL_MAX dist_ops_5 = DBL_MAX := by
    simp [pair_value, dist_ops_5]
  have g01 := h5 0 1 (by decide) (by decide)
  have g24 := h5 2 4 (by decide) (by decide)
  have g13 := h5 1 3 (by decide) (by decide)
  rw [e01] at g01
  rw [e24] at g24
  rw [e13] at g13
  exact ⟨dm0, dm, h1, h2, h3, h4, g01.1, g01.2, g24.1, g24.2, g13.1, g13.2, h6 2⟩

end fm
